import Mathlib

/-! # dwavetask: the bounded LRU hash table and the schema-specialised JSON decoders

A shallow embedding of `part1/include/hash_table.h` (class `HashTable<Size>`) and of
`part2/src/json_parser.cpp`, `part2/src/json_parser_simd.cpp`, followed by the
theorems that settle the specification's claims against that embedding.

Conventions of the embedding.

* A C++ pointer to a list node is a `Ptr` (one of the two sentinels or a slot index);
  a nullable pointer is an `Option Ptr`, `none` being `nullptr`.
* Every operation returns an `Option`: `none` stands for undefined behaviour (a write
  or read through a null pointer) or for a loop that has used up its iteration budget.
  Claims that an operation returns a value are proved as `= some _`.
* `std::hash<std::string>` is a parameter `hash : KeyType → Nat`.
* `uint32_t` values are natural numbers; where the source can wrap, the reduction
  modulo `2 ^ 32` is written out.
-/

/-! ## Part 1: `HashTable<Size>` -/

/-- `using KeyType = std::string`. -/
abbrev KeyType := String

/-- `using ValueType = uint32_t`; the table only stores and returns values. -/
abbrev ValueType := Nat

/-- `using KeyValuePair = std::tuple<KeyType, ValueType>`. -/
abbrev KeyValuePair := KeyType × ValueType

/-- The target of a non-null `HashElement *`: `&firstElement`, `&lastElement` or
`&(*data)[i]`. -/
inductive Ptr where
  | first : Ptr
  | last : Ptr
  | slot (i : Nat) : Ptr
  deriving DecidableEq, Repr

/-- `struct HashElement` with its default member initialisers. -/
structure HashElement where
  rightElement : Option Ptr := none
  leftElement : Option Ptr := none
  value : ValueType := 0
  key : KeyType := ""
  erased : Bool := false
  deriving DecidableEq, Repr

/-- The data members of `HashTable<Size>`: the two sentinels and the slot array. The
array is a function on indices; only indices below `Size` are ever accessed. -/
structure HashTable (Size : Nat) where
  firstElement : HashElement
  lastElement : HashElement
  data : Nat → HashElement

namespace HashTable

variable {Size : Nat}

/-- `static constexpr uint32_t ProbingFactor = 1`. -/
def ProbingFactor : Nat := 1

/-- The constructor `HashTable()`: value-initialised slots, sentinels linked to each
other. -/
def new (Size : Nat) : HashTable Size where
  firstElement := { rightElement := some Ptr.last, leftElement := none }
  lastElement := { rightElement := none, leftElement := some Ptr.first }
  data := fun _ => {}

/-- Read the node a pointer refers to. -/
def elem (t : HashTable Size) : Ptr → HashElement
  | Ptr.first => t.firstElement
  | Ptr.last => t.lastElement
  | Ptr.slot i => t.data i

/-- Assign through a pointer: the node at `p` becomes `f` of its old contents. -/
def modify (t : HashTable Size) (p : Ptr) (f : HashElement → HashElement) : HashTable Size :=
  match p with
  | Ptr.first => { t with firstElement := f t.firstElement }
  | Ptr.last => { t with lastElement := f t.lastElement }
  | Ptr.slot i => { t with data := Function.update t.data i (f (t.data i)) }

/-- `getHash`: `hasher(key) % Size`. -/
def getHash (hash : KeyType → Nat) (Size : Nat) (key : KeyType) : Nat :=
  hash key % Size

/-- `isOccupied`: both links are non-null. -/
def isOccupied (t : HashTable Size) (index : Nat) : Bool :=
  (t.data index).rightElement != none && (t.data index).leftElement != none

/-- `keysMatch`. -/
def keysMatch (key1 key2 : KeyType) : Bool :=
  key1 == key2

/-- `linkElement`: put slot `index` between `firstElement` and the old
`firstElement.rightElement`. The write `temp->leftElement = ...` is undefined when
`temp` is null. -/
def linkElement (t : HashTable Size) (index : Nat) : Option (HashTable Size) :=
  let temp := t.firstElement.rightElement
  let t1 := t.modify Ptr.first (fun e => { e with rightElement := some (Ptr.slot index) })
  let t2 := t1.modify (Ptr.slot index) (fun e => { e with rightElement := temp })
  match temp with
  | none => none
  | some p =>
    let t3 := t2.modify p (fun e => { e with leftElement := some (Ptr.slot index) })
    some (t3.modify (Ptr.slot index) (fun e => { e with leftElement := some Ptr.first }))

/-- `unlinkElement`: nothing when the slot is not occupied; otherwise the neighbours are
joined and both links of the slot are nulled. The statements are executed in the
source's order, each reading the state the previous one left. -/
def unlinkElement (t : HashTable Size) (index : Nat) : Option (HashTable Size) :=
  if !t.isOccupied index then some t
  else
    match (t.data index).leftElement with
    | none => none
    | some l =>
      let t1 := t.modify l (fun e => { e with rightElement := (t.data index).rightElement })
      match (t1.data index).rightElement with
      | none => none
      | some r =>
        let t2 := t1.modify r (fun e => { e with leftElement := (t1.data index).leftElement })
        let t3 := t2.modify (Ptr.slot index) (fun e => { e with leftElement := none })
        some (t3.modify (Ptr.slot index) (fun e => { e with rightElement := none }))

/-- The `while` loop of `insert`. The result is `some (some index)` when the loop is left
at `index`, `some none` when the probe is back at `startIndex` (`return false`), and
`none` when the iteration budget is used up. -/
def insertLoop (t : HashTable Size) (key : KeyType) (startIndex : Nat) :
    Nat → Nat → Option (Option Nat)
  | 0, _ => none
  | fuel + 1, index =>
    if t.isOccupied index && !keysMatch (t.data index).key key then
      let index1 := (index + ProbingFactor) % Size
      if index1 == startIndex then some none
      else insertLoop t key startIndex fuel index1
    else some (some index)

/-- `insert`. The loop is given `Size` iterations, which it never exceeds
(`insertLoop_cases`). `index + ProbingFactor` does not wrap: `index` is below `Size`,
itself a `uint32_t`. -/
def insert (hash : KeyType → Nat) (t : HashTable Size) (key : KeyType) (value : ValueType) :
    Option (Bool × HashTable Size) :=
  let index := getHash hash Size key
  let startIndex := index
  match insertLoop t key startIndex Size index with
  | none => none
  | some none => some (false, t)
  | some (some index) =>
    let t1 := t.modify (Ptr.slot index) (fun e => { e with value := value })
    let t2 := t1.modify (Ptr.slot index) (fun e => { e with key := key })
    let t3 := if (t2.data index).erased then
        t2.modify (Ptr.slot index) (fun e => { e with erased := false })
      else t2
    match unlinkElement t3 index with
    | none => none
    | some t4 =>
      match linkElement t4 index with
      | none => none
      | some t5 => some (true, t5)

/-- The `while` loop of `getIndexFromProbing`; `Size` is the not-found result. -/
def probeLoop (t : HashTable Size) (key : KeyType) (startIndex : Nat) :
    Nat → Nat → Option Nat
  | 0, _ => none
  | fuel + 1, index =>
    if !keysMatch (t.data index).key key then
      let index1 := (index + ProbingFactor) % Size
      if index1 == startIndex || (!t.isOccupied index1 && !(t.data index1).erased) then
        some Size
      else probeLoop t key startIndex fuel index1
    else some index

/-- `getIndexFromProbing`. The loop is given `Size` iterations, which it never exceeds
(`getIndexFromProbing_sound`). -/
def getIndexFromProbing (hash : KeyType → Nat) (t : HashTable Size) (key : KeyType) :
    Option Nat :=
  let index := getHash hash Size key
  let startIndex := index
  if !t.isOccupied index && !(t.data index).erased then some Size
  else probeLoop t key startIndex Size index

/-- `remove`. -/
def remove (hash : KeyType → Nat) (t : HashTable Size) (key : KeyType) :
    Option (Bool × HashTable Size) :=
  match getIndexFromProbing hash t key with
  | none => none
  | some index =>
    if index == Size then some (false, t)
    else
      match unlinkElement t index with
      | none => none
      | some t1 =>
        let t2 := t1.modify (Ptr.slot index) (fun e => { e with erased := true })
        let t3 := t2.modify (Ptr.slot index) (fun e => { e with key := "" })
        some (true, t3.modify (Ptr.slot index) (fun e => { e with value := 0 }))

/-- `get`: the result tuple and the table after the touch. -/
def get (hash : KeyType → Nat) (t : HashTable Size) (key : KeyType) :
    Option ((Bool × ValueType) × HashTable Size) :=
  match getIndexFromProbing hash t key with
  | none => none
  | some index =>
    if index == Size then some ((false, 0), t)
    else
      match unlinkElement t index with
      | none => none
      | some t1 =>
        match linkElement t1 index with
        | none => none
        | some t2 => some ((true, (t2.data index).value), t2)

/-- `get_last`: the entry at `firstElement.rightElement`. -/
def get_last (t : HashTable Size) : Option (Bool × KeyValuePair) :=
  if t.firstElement.rightElement == some Ptr.last then some (false, ("", 0))
  else
    match t.firstElement.rightElement with
    | none => none
    | some p => some (true, ((t.elem p).key, (t.elem p).value))

/-- `get_first`: the entry at `lastElement.leftElement`. -/
def get_first (t : HashTable Size) : Option (Bool × KeyValuePair) :=
  if t.lastElement.leftElement == some Ptr.first then some (false, ("", 0))
  else
    match t.lastElement.leftElement with
    | none => none
    | some p => some (true, ((t.elem p).key, (t.elem p).value))

/-- The tables that a program can hold: a newly constructed one, and whatever a returning
`insert`, `remove` or `get` leaves behind. `get_first` and `get_last` are `const`. -/
inductive Reachable (hash : KeyType → Nat) : HashTable Size → Prop
  | init : Reachable hash (new Size)
  | insert {t t1 : HashTable Size} {b : Bool} (key : KeyType) (value : ValueType) :
      Reachable hash t → t.insert hash key value = some (b, t1) → Reachable hash t1
  | remove {t t1 : HashTable Size} {b : Bool} (key : KeyType) :
      Reachable hash t → t.remove hash key = some (b, t1) → Reachable hash t1
  | get {t t1 : HashTable Size} {r : Bool × ValueType} (key : KeyType) :
      Reachable hash t → t.get hash key = some (r, t1) → Reachable hash t1

end HashTable


/-! ### Vocabulary for stating properties of the table -/

namespace HashTable

variable {Size : Nat}

/-- The condition under which the loop of `insert` leaves at a slot. -/
def insertStops (t : HashTable Size) (key : KeyType) (i : Nat) : Prop :=
  ¬ (t.isOccupied i = true ∧ (t.data i).key ≠ key)

/-- A slot that does not end a probe of `getIndexFromProbing`: it is occupied or carries
the `erased` flag. -/
def nonFree (t : HashTable Size) (i : Nat) : Bool :=
  t.isOccupied i || (t.data i).erased

/-- Two tables agree on what their slots store: key, value and `erased` flag. -/
def SameContent (t t1 : HashTable Size) : Prop :=
  ∀ i, (t1.data i).key = (t.data i).key ∧ (t1.data i).value = (t.data i).value ∧
    (t1.data i).erased = (t.data i).erased

/-- The sentinels' inner links are not null: `linkElement`, `get_first` and `get_last`
dereference them. -/
def Inv (t : HashTable Size) : Prop :=
  t.firstElement.rightElement ≠ none ∧ t.lastElement.leftElement ≠ none

/-- The effect of a successful `insert key value` that settled on slot `j`. -/
structure InsertPost (t t1 : HashTable Size) (j : Nat) (key : KeyType) (value : ValueType) :
    Prop where
  inv : Inv t1
  key_eq : (t1.data j).key = key
  value_eq : (t1.data j).value = value
  erased_eq : (t1.data j).erased = false
  occupied : t1.isOccupied j = true
  others : ∀ i, i ≠ j → (t1.data i).key = (t.data i).key ∧
    (t1.data i).value = (t.data i).value ∧ (t1.data i).erased = (t.data i).erased
  occupied_mono : ∀ i, i ≠ j → t.isOccupied i = true → t1.isOccupied i = true
  head : t1.firstElement.rightElement = some (Ptr.slot j)
  occupied_exact : t.isOccupied j = false → ∀ i, i ≠ j → t1.isOccupied i = true →
    t.isOccupied i = true ∨ t.firstElement.rightElement = some (Ptr.slot i)

/-- The effect of a `remove` that found its key in slot `j`. -/
structure RemovePost (t t1 : HashTable Size) (j : Nat) : Prop where
  inv : Inv t1
  key_eq : (t1.data j).key = ""
  value_eq : (t1.data j).value = 0
  erased_eq : (t1.data j).erased = true
  unoccupied : t1.isOccupied j = false
  others : ∀ i, i ≠ j → (t1.data i).key = (t.data i).key ∧
    (t1.data i).value = (t.data i).value ∧ (t1.data i).erased = (t.data i).erased
  occupied_mono : ∀ i, i ≠ j → t.isOccupied i = true → t1.isOccupied i = true

/-- The effect of a `get` that found its key in slot `j`. -/
structure GetPost (t t1 : HashTable Size) (j : Nat) : Prop where
  inv : Inv t1
  content : SameContent t t1
  occupied : t1.isOccupied j = true
  occupied_mono : ∀ i, i ≠ j → t.isOccupied i = true → t1.isOccupied i = true
  head : t1.firstElement.rightElement = some (Ptr.slot j)

end HashTable

/-- Run `insert` for each pair of a list in turn, as the capacity tests do; the result is
the list of returned flags and the final table. -/
def insertMany (hash : KeyType → Nat) {Size : Nat} :
    HashTable Size → List (KeyType × ValueType) → Option (List Bool × HashTable Size)
  | t, [] => some ([], t)
  | t, (key, value) :: rest =>
    match t.insert hash key value with
    | none => none
    | some (b, t1) =>
      match insertMany hash t1 rest with
      | none => none
      | some (bs, t2) => some (b :: bs, t2)

/-- The state of a table that has only seen successful inserts of the pairwise distinct
keys `ks`: the occupied slots are the slots `js`, one per key. -/
structure Filled {Size : Nat} (t : HashTable Size) (ks : List KeyType) (js : List Nat) :
    Prop where
  inv : HashTable.Inv t
  head : t.firstElement.rightElement = some Ptr.last ∨
    ∃ i, t.firstElement.rightElement = some (Ptr.slot i) ∧ t.isOccupied i = true
  nodup : js.Nodup
  bound : ∀ j, j ∈ js → j < Size
  length_eq : js.length = ks.length
  occupied_iff : ∀ i, i < Size → (t.isOccupied i = true ↔ i ∈ js)
  keys_mem : ∀ j, j ∈ js → (t.data j).key ∈ ks
  keys_cover : ∀ k, k ∈ ks → ∃ j, j ∈ js ∧ (t.data j).key = k
  no_tombstone : ∀ i, (t.data i).erased = false

/-! ### Concrete tables and scenarios -/

/-- The table after `insert("k", 7)` on a new `HashTable<1>`. -/
def witnessTable1 : HashTable 1 :=
  match (HashTable.new 1).insert (fun _ => 0) "k" 7 with
  | some (_, t) => t
  | none => HashTable.new 1


/-- The table after `insert("k", 7)` and `get("k")` on a new `HashTable<1>`. -/
def witnessTable2 : HashTable 1 :=
  match witnessTable1.get (fun _ => 0) "k" with
  | some (_, t) => t
  | none => HashTable.new 1

/-- Scenario E1 as a program: on a new `HashTable<5>`, `insert("aa",1)`, `insert("bb",2)`,
`insert("cc",3)`, `get("aa")`. The result is what `get` returned and the table it left. -/
def scenarioE1 (hash : KeyType → Nat) : Option ((Bool × ValueType) × HashTable 5) :=
  match (HashTable.new 5).insert hash "aa" 1 with
  | none => none
  | some (_, t1) =>
    match t1.insert hash "bb" 2 with
    | none => none
    | some (_, t2) =>
      match t2.insert hash "cc" 3 with
      | none => none
      | some (_, t3) => t3.get hash "aa"

/-- The answers of scenario E1, as a decidable statement: `get("aa")` is `(true, 1)`,
`get_first()` is `("bb", 2)` and `get_last()` is `("aa", 1)`. -/
def scenarioE1Answers (hash : KeyType → Nat) : Prop :=
  (scenarioE1 hash).map Prod.fst = some (true, 1) ∧
  (scenarioE1 hash).bind (fun x => x.2.get_first) = some (true, ("bb", 2)) ∧
  (scenarioE1 hash).bind (fun x => x.2.get_last) = some (true, ("aa", 1))

instance (hash : KeyType → Nat) : Decidable (scenarioE1Answers hash) := by
  unfold scenarioE1Answers
  infer_instance

/-- A hash function with prescribed values on the keys of scenario E1. -/
def hashE1 (a b c : Nat) : KeyType → Nat :=
  fun k => if k = "aa" then a else if k = "bb" then b else c

/-- The failing scenario of the empty key, on a `HashTable<1>`: `insert("x",1)` and
`remove("x")` leave the only slot erased with a cleared key. -/
def tombstoneTable (hash : KeyType → Nat) : Option (HashTable 1) :=
  match (HashTable.new 1).insert hash "x" 1 with
  | none => none
  | some (_, t1) =>
    match t1.remove hash "x" with
    | none => none
    | some (_, t2) => some t2

/-- On a `HashTable<1>`: `insert("",5)`, then what `remove("")` and the `get("")` after it
return. -/
def removeEmptyKeyThenGet (hash : KeyType → Nat) : Option (Bool × (Bool × ValueType)) :=
  match (HashTable.new 1).insert hash "" 5 with
  | none => none
  | some (_, t1) =>
    match t1.remove hash "" with
    | none => none
    | some (b, t2) => (t2.get hash "").map (fun r => (b, r.1))

/-- On a `HashTable<2>`: `insert(x,1)`, `insert(y,2)`, `remove(x)`, `insert(y,3)`, then
what `remove(y)` and the `get(y)` after it return. -/
def removeDuplicateThenGet (hash : KeyType → Nat) (x y : KeyType) :
    Option (Bool × (Bool × ValueType)) :=
  match (HashTable.new 2).insert hash x 1 with
  | none => none
  | some (_, t1) =>
    match t1.insert hash y 2 with
    | none => none
    | some (_, t2) =>
      match t2.remove hash x with
      | none => none
      | some (_, t3) =>
        match t3.insert hash y 3 with
        | none => none
        | some (_, t4) =>
          match t4.remove hash y with
          | none => none
          | some (b, t5) => (t5.get hash y).map (fun r => (b, r.1))

/-- What the code answers on the table of `tombstoneTable`, whose only slot is not live:
`remove("")` returns `true` and `get("")` returns `(true, 0)`. -/
def tombstoneAnswers (hash : KeyType → Nat) : Prop :=
  (tombstoneTable hash).map (fun t => t.isOccupied 0) = some false ∧
  (tombstoneTable hash).bind (fun t => (t.remove hash "").map Prod.fst) = some true ∧
  (tombstoneTable hash).bind (fun t => (t.get hash "").map Prod.fst) = some (true, 0)

instance (hash : KeyType → Nat) : Decidable (tombstoneAnswers hash) := by
  unfold tombstoneAnswers
  infer_instance


/-! ### The recency list -/

/-- The node that follows `p` in a sequence of nodes. -/
def nextOf : List Ptr → Ptr → Option Ptr
  | a :: b :: rest, p => if p = a then some b else nextOf (b :: rest) p
  | _, _ => none

/-- The node that precedes `p` in a sequence of nodes. -/
def prevOf : List Ptr → Ptr → Option Ptr
  | a :: b :: rest, p => if p = b then some a else prevOf (b :: rest) p
  | _, _ => none

/-- The nodes of the list whose slots are `L`, from `firstElement` to `lastElement`. -/
def nodes (L : List Nat) : List Ptr :=
  Ptr.first :: (L.map Ptr.slot ++ [Ptr.last])

/-- The links of the table spell the doubly linked list `firstElement`, the slots `L` in
this order, `lastElement`; every other slot has both links null. `L` runs from the most
recently to the least recently touched slot. -/
structure Lst {Size : Nat} (t : HashTable Size) (L : List Nat) : Prop where
  nodup : L.Nodup
  bound : ∀ i, i ∈ L → i < Size
  right : ∀ p, (t.elem p).rightElement = nextOf (nodes L) p
  left : ∀ p, (t.elem p).leftElement = prevOf (nodes L) p

/-- The forward walk over the list: follow `rightElement` from the given pointer and
collect the slots met until `lastElement` is reached; `none` when the walk meets a null
pointer or `firstElement`, or has not arrived after `fuel` slots. -/
def walk {Size : Nat} (t : HashTable Size) : Nat → Option Ptr → Option (List Nat)
  | _, some Ptr.last => some []
  | fuel + 1, some (Ptr.slot i) => (walk t fuel (t.data i).rightElement).map (fun L => i :: L)
  | _, _ => none

/-- The slots from most to least recently touched: the forward walk from
`firstElement.rightElement`. A well-formed list has at most `Size` slots. -/
def recency {Size : Nat} (t : HashTable Size) : Option (List Nat) :=
  walk t Size t.firstElement.rightElement

/-- Two tables agree on the key, value and `erased` flag of every node, sentinels
included. -/
def SameStore {Size : Nat} (t t1 : HashTable Size) : Prop :=
  ∀ p, (t1.elem p).key = (t.elem p).key ∧ (t1.elem p).value = (t.elem p).value ∧
    (t1.elem p).erased = (t.elem p).erased

/-- The pointer a well-formed list stores in `lastElement.leftElement`: the last slot of
`L`, or `firstElement` when there is none. -/
def lastPtr (L : List Nat) : Ptr :=
  match L.getLast? with
  | none => Ptr.first
  | some i => Ptr.slot i

/-- The pointer a well-formed list stores in `firstElement.rightElement`. -/
def headPtr (L : List Nat) : Ptr :=
  match L.head? with
  | none => Ptr.last
  | some i => Ptr.slot i

/-! ### Live entries and further scenarios -/

/-- The live slots of a table in index order, each with its key and value. -/
def liveEntries {Size : Nat} (t : HashTable Size) : List KeyValuePair :=
  ((List.range Size).filter (fun i => t.isOccupied i)).map
    (fun i => ((t.data i).key, (t.data i).value))

/-- On a `HashTable<2>`: `insert(x,1)`, `insert(y,2)`, `remove(x)`, then `insert(y,3)`.
The result is the live entries before that last insert, what it returned, and the live
entries after it. -/
def insertLiveKeyAgain (hash : KeyType → Nat) (x y : KeyType) :
    Option (List KeyValuePair × Bool × List KeyValuePair) :=
  match (HashTable.new 2).insert hash x 1 with
  | none => none
  | some (_, t1) =>
    match t1.insert hash y 2 with
    | none => none
    | some (_, t2) =>
      match t2.remove hash x with
      | none => none
      | some (_, t3) =>
        match t3.insert hash y 3 with
        | none => none
        | some (b, t4) => some (liveEntries t3, b, liveEntries t4)

/-- The answers of `insertLiveKeyAgain` when `x` and `y` share their home slot: `y` is
live with value 2, the insert returns `true`, and afterwards two live slots hold `y`, one
with the new value 3 and one still with the value 2. -/
def insertLiveKeyAgainAnswers (hash : KeyType → Nat) (x y : KeyType) : Prop :=
  insertLiveKeyAgain hash x y = some ([(y, 2)], true, [(y, 3), (y, 2)]) ∨
  insertLiveKeyAgain hash x y = some ([(y, 2)], true, [(y, 2), (y, 3)])

instance (hash : KeyType → Nat) (x y : KeyType) : Decidable (insertLiveKeyAgainAnswers hash x y) := by
  unfold insertLiveKeyAgainAnswers
  infer_instance

/-- On the table of `tombstoneTable`: the list before `remove("")`, what `remove("")`
returns, and the list after it. -/
def removeEmptyKeyOnTombstone (hash : KeyType → Nat) :
    Option (Option (List Nat) × Bool × Option (List Nat)) :=
  match tombstoneTable hash with
  | none => none
  | some t =>
    match t.remove hash "" with
    | none => none
    | some (b, t1) => some (recency t, b, recency t1)

/-! ### The three kinds of slot and the probe chain -/

namespace HashTable

variable {Size : Nat}

/-- A free slot: both links null, `erased` false, empty key. -/
def isFreeSlot (t : HashTable Size) (i : Nat) : Prop :=
  (t.data i).leftElement = none ∧ (t.data i).rightElement = none ∧
    (t.data i).erased = false ∧ (t.data i).key = ""

/-- A tombstone: both links null, `erased` true. -/
def isTombstoneSlot (t : HashTable Size) (i : Nat) : Prop :=
  (t.data i).leftElement = none ∧ (t.data i).rightElement = none ∧ (t.data i).erased = true

/-- What a link of the live slot `i` may point to: a sentinel, or another slot of the
table that has both links set. -/
def validNeighbour (t : HashTable Size) (i : Nat) (p : Ptr) : Prop :=
  match p with
  | Ptr.slot j => j ≠ i ∧ j < Size ∧ t.isOccupied j = true
  | _ => True

/-- A live slot: both links set, each to a valid neighbour. -/
def isLiveSlot (t : HashTable Size) (i : Nat) : Prop :=
  ∃ l r, (t.data i).leftElement = some l ∧ (t.data i).rightElement = some r ∧
    validNeighbour t i l ∧ validNeighbour t i r

/-- Probe-chain continuity: for every slot `j` with both links set, no slot on the probe
path from the home slot of its key up to, not including, `j` is free. -/
def ProbeChain (hash : KeyType → Nat) (t : HashTable Size) : Prop :=
  ∀ j, t.isOccupied j = true → ∀ d, d < Size →
    (getHash hash Size (t.data j).key + d) % Size = j →
    ∀ w, w < d → nonFree t ((getHash hash Size (t.data j).key + w) % Size) = true

end HashTable

/-! ## Part 2: the JSON decoders

`std::string` is the list of its bytes, each byte a `Char`. A `uint32_t` is a natural
number below `2 ^ 32`, and every `uint32_t` addition or subtraction of the source is
reduced modulo `2 ^ 32`. `int64_t` is an integer; an `int64_t` operation whose result
does not fit is undefined and makes the function return `none`, as do a read outside a
vector or string and an exception that nothing catches. A loop over a `uint32_t` state
receives as many iterations as that state has values: a run that has not left the loop
by then never leaves it.
-/

/-- `std::string`. -/
abbrev Str := List Char

/-- `struct Record`. -/
structure Record where
  a : Int
  p : Str
  q : Str
  f : Int
  l : Int
  T : Int
  m : Bool
  deriving DecidableEq, Repr

/-- `Record{}`: value initialisation. -/
def Record.zero : Record :=
  { a := 0, p := [], q := [], f := 0, l := 0, T := 0, m := false }

/-- The number of values of a `uint32_t`. -/
def UInt32Size : Nat := 2 ^ 32

/-- The largest `int64_t`. -/
def Int64Max : Int := 2 ^ 63 - 1

/-- The byte `"`. -/
def quoteChar : Char := Char.ofNat 34

/-- `s[index]` for `index <= s.size()`; the byte at `s.size()` is the terminating zero. -/
def charAt (s : Str) (index : Nat) : Char :=
  s.getD index (Char.ofNat 0)

/-- `s[index]`, `std::string::operator[]`, where the reference parser reads a byte: the
byte at `index`, the terminating zero at `index == s.size()`, and no result for an index
above the size, where the read is undefined. -/
def byteAt (s : Str) (index : Nat) : Option Char :=
  if index ≤ s.length then some (charAt s index) else none

/-- `std::isspace` in the "C" locale: space, and the bytes 9 to 13. -/
def isspace (c : Char) : Bool :=
  c.toNat == 32 || (9 ≤ c.toNat && c.toNat ≤ 13)

/-- `std::isdigit`; also the test `c >= '0' && c <= '9'`. -/
def isdigit (c : Char) : Bool :=
  48 ≤ c.toNat && c.toNat ≤ 57

/-- One step `value = value * 10 + (c - '0')` of the two integer parsers, for a digit
`c`; `none` when the mathematical result exceeds the largest `int64_t`. -/
def pushDigit (value : Int) (c : Char) : Option Int :=
  let next := value * 10 + ((c.toNat : Int) - 48)
  if next ≤ Int64Max then some next else none

/-- `std::string::substr(pos, len)`: throws `std::out_of_range` when `pos > size()`. -/
def substr (s : Str) (pos len : Nat) : Option Str :=
  if pos > s.length then none else some ((s.drop pos).take len)

namespace JsonParser

/-- The loop of `skipWhitespace`: `index < s.size() && std::isspace(s[index]) != 0` reads
the byte only when the index is below the size. -/
def skipWhitespaceLoop (s : Str) : Nat → Nat → Option Nat
  | 0, _ => none
  | fuel + 1, index =>
    if index < s.length then
      match byteAt s index with
      | none => none
      | some c =>
        if isspace c then skipWhitespaceLoop s fuel ((index + 1) % UInt32Size)
        else some index
    else some index

/-- `skipWhitespace`: the new value of `index`. -/
def skipWhitespace (s : Str) (index : Nat) : Option Nat :=
  skipWhitespaceLoop s UInt32Size index

/-- `expectChar`: the returned flag and the new value of `index`. -/
def expectChar (s : Str) (index : Nat) (c : Char) : Option (Bool × Nat) :=
  match skipWhitespace s index with
  | none => none
  | some index1 =>
    if index1 ≥ s.length then some (false, index1)
    else
      match byteAt s index1 with
      | none => none
      | some b =>
        if b != c then some (false, index1)
        else some (true, (index1 + 1) % UInt32Size)

/-- The loop of `parseString`: `result` and `index` when the loop is left. The guard and
`push_back` read the same byte `s[index]`. -/
def parseStringLoop (s : Str) : Nat → Nat → Str → Option (Str × Nat)
  | 0, _, _ => none
  | fuel + 1, index, result =>
    if index < s.length then
      match byteAt s index with
      | none => none
      | some c =>
        if c != quoteChar then
          parseStringLoop s fuel ((index + 1) % UInt32Size) (result ++ [c])
        else some (result, index)
    else some (result, index)

/-- `parseString`: the returned string and the new value of `index`. -/
def parseString (s : Str) (index : Nat) : Option (Str × Nat) :=
  match skipWhitespace s index with
  | none => none
  | some index1 =>
    if index1 ≥ s.length then some ([], index1)
    else
      match byteAt s index1 with
      | none => none
      | some c1 =>
        if c1 != quoteChar then some ([], index1)
        else
          match parseStringLoop s UInt32Size ((index1 + 1) % UInt32Size) [] with
          | none => none
          | some (result, index2) =>
            if index2 ≥ s.length then some (result, index2)
            else
              match byteAt s index2 with
              | none => none
              | some c2 =>
                if c2 != quoteChar then some (result, index2)
                else some (result, (index2 + 1) % UInt32Size)

/-- The loop of `parseInt64`: `value` and `index` when the loop is left. The guard and the
body read the same byte `s[index]`. -/
def parseInt64Loop (s : Str) : Nat → Nat → Int → Option (Int × Nat)
  | 0, _, _ => none
  | fuel + 1, index, value =>
    if index < s.length then
      match byteAt s index with
      | none => none
      | some c =>
        if isdigit c then
          match pushDigit value c with
          | none => none
          | some next => parseInt64Loop s fuel ((index + 1) % UInt32Size) next
        else some (value, index)
    else some (value, index)

/-- `parseInt64`: the returned integer and the new value of `index`. -/
def parseInt64 (s : Str) (index : Nat) : Option (Int × Nat) :=
  match skipWhitespace s index with
  | none => none
  | some index1 =>
    if index1 ≥ s.length then some (0, index1)
    else
      match byteAt s index1 with
      | none => none
      | some c1 =>
        let negative := c1 == Char.ofNat 45
        let index2 := if negative then (index1 + 1) % UInt32Size else index1
        if index2 ≥ s.length then some (0, index2)
        else
          match byteAt s index2 with
          | none => none
          | some c2 =>
            if !isdigit c2 then some (0, index2)
            else
              match parseInt64Loop s UInt32Size index2 0 with
              | none => none
              | some (value, index3) => some (if negative then -value else value, index3)

/-- `s.compare(index, 1, text) == 0` for a one-byte `text`; `compare` throws
`std::out_of_range` when `index > s.size()`. -/
def compareOne (s : Str) (index : Nat) (c : Char) : Option Bool :=
  if index > s.length then none else some (index < s.length && charAt s index == c)

/-- `parseBool`: the returned flag and the new value of `index`. -/
def parseBool (s : Str) (index : Nat) : Option (Bool × Nat) :=
  match skipWhitespace s index with
  | none => none
  | some index1 =>
    match compareOne s index1 (Char.ofNat 116) with
    | none => none
    | some true => some (true, (index1 + 4) % UInt32Size)
    | some false =>
      match compareOne s index1 (Char.ofNat 102) with
      | none => none
      | some true => some (false, (index1 + 5) % UInt32Size)
      | some false => some (false, index1)

/-- The end of `parserFieldInOrder`: "check for comma or end of the field". -/
def fieldEnd (json : Str) (index : Nat) (record : Record) : Option (Bool × Nat × Record) :=
  match skipWhitespace json index with
  | none => none
  | some index1 =>
    if index1 < json.length then
      match byteAt json index1 with
      | none => none
      | some c =>
        if c == Char.ofNat 44 then some (true, (index1 + 1) % UInt32Size, record)
        else some (false, index1, record)
    else some (false, index1, record)

/-- `parserFieldInOrder`: the returned flag, the new value of `index` and the record. -/
def parserFieldInOrder (json : Str) (index : Nat) (record : Record) (fieldNameExpected : Str) :
    Option (Bool × Nat × Record) :=
  match skipWhitespace json index with
  | none => none
  | some index1 =>
    match parseString json index1 with
    | none => none
    | some (fieldName, index2) =>
      match expectChar json index2 (Char.ofNat 58) with
      | none => none
      | some (false, index3) => some (false, index3, record)
      | some (true, index3) =>
        if fieldName == ['a'] && fieldNameExpected == ['a'] then
          match parseInt64 json index3 with
          | none => none
          | some (v, index4) => fieldEnd json index4 { record with a := v }
        else if fieldName == ['p'] && fieldNameExpected == ['p'] then
          match parseString json index3 with
          | none => none
          | some (v, index4) => fieldEnd json index4 { record with p := v }
        else if fieldName == ['q'] && fieldNameExpected == ['q'] then
          match parseString json index3 with
          | none => none
          | some (v, index4) => fieldEnd json index4 { record with q := v }
        else if fieldName == ['f'] && fieldNameExpected == ['f'] then
          match parseInt64 json index3 with
          | none => none
          | some (v, index4) => fieldEnd json index4 { record with f := v }
        else if fieldName == ['l'] && fieldNameExpected == ['l'] then
          match parseInt64 json index3 with
          | none => none
          | some (v, index4) => fieldEnd json index4 { record with l := v }
        else if fieldName == ['T'] && fieldNameExpected == ['T'] then
          match parseInt64 json index3 with
          | none => none
          | some (v, index4) => fieldEnd json index4 { record with T := v }
        else if fieldName == ['m'] && fieldNameExpected == ['m'] then
          match parseBool json index3 with
          | none => none
          | some (v, index4) => fieldEnd json index4 { record with m := v }
        else some (false, index3, record)

/-- The calls `parserFieldInOrder(json, index, record, name)` of `parseRecord`, one after
the other; the returned flags are not looked at. -/
def parseFields (json : Str) : List Str → Nat → Record → Option (Nat × Record)
  | [], index, record => some (index, record)
  | name :: names, index, record =>
    match parserFieldInOrder json index record name with
    | none => none
    | some (_, index1, record1) => parseFields json names index1 record1

/-- `parseRecord`: the returned record and the new value of `index`. -/
def parseRecord (json : Str) (index : Nat) : Option (Record × Nat) :=
  match skipWhitespace json index with
  | none => none
  | some index1 =>
    match expectChar json index1 (Char.ofNat 123) with
    | none => none
    | some (false, index2) => some (Record.zero, index2)
    | some (true, index2) =>
      match parseFields json [['a'], ['p'], ['q'], ['f'], ['l'], ['T'], ['m']] index2
          Record.zero with
      | none => none
      | some (index3, record) =>
        if index3 < json.length then
          match byteAt json index3 with
          | none => none
          | some c =>
            if c == Char.ofNat 125 then some (record, (index3 + 1) % UInt32Size)
            else some (record, index3)
        else some (record, index3)

/-- The `while (true)` loop of `parseRecords`. When the byte is no `,` the loop is left,
whether the test for `]`, which reads the same byte under the same guard, holds or not. -/
def parseRecordsLoop (json : Str) : Nat → Nat → List Record → Option (List Record)
  | 0, _, _ => none
  | fuel + 1, index, records =>
    match parseRecord json index with
    | none => none
    | some (record, index1) =>
      let records1 := records ++ [record]
      match skipWhitespace json index1 with
      | none => none
      | some index2 =>
        if index2 < json.length then
          match byteAt json index2 with
          | none => none
          | some c =>
            if c == Char.ofNat 44 then
              parseRecordsLoop json fuel ((index2 + 1) % UInt32Size) records1
            else some records1
        else some records1

/-- `JsonParser::parseRecords`. -/
def parseRecords (json : Str) : Option (List Record) :=
  match skipWhitespace json 0 with
  | none => none
  | some index1 =>
    match expectChar json index1 (Char.ofNat 91) with
    | none => none
    | some (false, _) => some []
    | some (true, index2) =>
      match skipWhitespace json index2 with
      | none => none
      | some index3 =>
        if index3 < json.length then
          match byteAt json index3 with
          | none => none
          | some c =>
            if c == Char.ofNat 93 then some []
            else parseRecordsLoop json UInt32Size index3 []
        else parseRecordsLoop json UInt32Size index3 []

end JsonParser

/-- The data member of `class JsonParserSIMD`, a `std::vector<uint32_t>`: its elements, the
cells of its buffer right after the last element that still hold a value written by an
earlier call, and its capacity, which no read looks at. The cells after `stale` were never
written. -/
structure JsonParserSIMD where
  indexesOfQuotesOnJsonString : List Nat
  stale : List Nat
  capacity : Nat
  deriving DecidableEq, Repr

namespace JsonParserSIMD

/-- `static constexpr uint32_t jsonQuotes = 18`. -/
def jsonQuotes : Nat := 18

/-- `indexesOfQuotesOnJsonString.reserve(n)`: the capacity becomes at least `n`, the
elements stay; a larger buffer is a new one, in which no cell after the elements has been
written. -/
def reserve (self : JsonParserSIMD) (n : Nat) : JsonParserSIMD :=
  if n ≤ self.capacity then self else { self with stale := [], capacity := n }

/-- `indexesOfQuotesOnJsonString.clear()`: the size becomes 0 and the capacity stays; the
buffer is not touched, so the former elements are still in its cells. -/
def clear (self : JsonParserSIMD) : JsonParserSIMD :=
  { self with indexesOfQuotesOnJsonString := [],
              stale := self.indexesOfQuotesOnJsonString ++ self.stale }

/-- The constructor: an empty index vector, then
`reserve(expectedRecordCount * jsonQuotes)`, a product of two `uint32_t`. -/
def new (expectedRecordCount : Nat) : JsonParserSIMD :=
  reserve { indexesOfQuotesOnJsonString := [], stale := [], capacity := 0 }
    ((expectedRecordCount * jsonQuotes) % UInt32Size)

/-- `_mm256_set1_epi8(c)`: 32 lanes holding `c`. -/
def mm256_set1_epi8 (c : Char) : List Char :=
  List.replicate 32 c

/-- `_mm256_loadu_si256(s.data() + i)`: the 32 bytes from offset `i`; reading past the
string is undefined. -/
def mm256_loadu_si256 (s : Str) (i : Nat) : Option (List Char) :=
  if i + 32 ≤ s.length then some ((s.drop i).take 32) else none

/-- `_mm256_cmpeq_epi8`: lane by lane, `0xFF` where the bytes are equal and `0` where they
are not. -/
def mm256_cmpeq_epi8 (x y : List Char) : List Nat :=
  List.zipWith (fun c d => if c = d then 255 else 0) x y

/-- `_mm256_movemask_epi8`: bit `b` of the result is the top bit of lane `b`. -/
def mm256_movemask_epi8 (v : List Nat) : Nat :=
  v.foldr (fun lane mask => lane / 128 + 2 * mask) 0

/-- Count the trailing zero bits of a non-zero value, looking at `fuel` bits. -/
def ctzAux : Nat → Nat → Nat
  | 0, _ => 0
  | fuel + 1, x => if x % 2 = 1 then 0 else 1 + ctzAux fuel (x / 2)

/-- `__builtin_ctz` on a non-zero 32-bit value. -/
def builtin_ctz (x : Nat) : Nat :=
  ctzAux 32 x

/-- The inner `while (quotesMaskVectorized32 != 0)` loop of `find_quotes_avx2`: the index
vector after it. A 32-bit mask has at most 32 bits to clear. -/
def maskLoop (i : Nat) : Nat → Nat → List Nat → Option (List Nat)
  | 0, mask, indexes => if mask = 0 then some indexes else none
  | fuel + 1, mask, indexes =>
    if mask ≠ 0 then
      let bit_index := builtin_ctz mask
      maskLoop i fuel (mask &&& (mask - 1)) (indexes ++ [(i + bit_index) % UInt32Size])
    else some indexes

/-- The first `for` loop of `find_quotes_avx2`, 32 bytes at a time: `i` and the index
vector when it is left. -/
def blockLoop (s : Str) (n : Nat) : Nat → Nat → List Nat → Option (Nat × List Nat)
  | 0, _, _ => none
  | fuel + 1, i, indexes =>
    if (i + 32) % UInt32Size ≤ n then
      match mm256_loadu_si256 s i with
      | none => none
      | some chunk =>
        let quotesMaskVectorized256 := mm256_cmpeq_epi8 chunk (mm256_set1_epi8 quoteChar)
        let quotesMaskVectorized32 := mm256_movemask_epi8 quotesMaskVectorized256
        match maskLoop i 32 quotesMaskVectorized32 indexes with
        | none => none
        | some indexes1 => blockLoop s n fuel ((i + 32) % UInt32Size) indexes1
    else some (i, indexes)

/-- The second `for` loop of `find_quotes_avx2`, byte by byte. -/
def tailLoop (s : Str) (n : Nat) : Nat → Nat → List Nat → Option (List Nat)
  | 0, _, _ => none
  | fuel + 1, i, indexes =>
    if i < n then
      if i < s.length then
        tailLoop s n fuel ((i + 1) % UInt32Size)
          (if charAt s i = quoteChar then indexes ++ [i] else indexes)
      else none
    else some indexes

/-- `find_quotes_avx2`: the index vector after the call, given the one before it. -/
def find_quotes_avx2 (indexes : List Nat) (s : Str) : Option (List Nat) :=
  let n := s.length % UInt32Size
  match blockLoop s n UInt32Size 0 indexes with
  | none => none
  | some (i, indexes1) => tailLoop s n UInt32Size i indexes1

/-- The digit loop of `parseInt64FromString`, entered with the `uint32_t` `index`: `value`
when the loop is left. -/
def parseDigitsLoop (s : Str) : Nat → Nat → Int → Option Int
  | 0, _, _ => none
  | fuel + 1, index, value =>
    if index < s.length && isdigit (charAt s index) then
      match pushDigit value (charAt s index) with
      | none => none
      | some next => parseDigitsLoop s fuel ((index + 1) % UInt32Size) next
    else some value

/-- `parseInt64FromString`. -/
def parseInt64FromString (s : Str) : Option Int :=
  if s.isEmpty then some 0
  else
    let negative := charAt s 0 == Char.ofNat 45
    let index := if negative then 1 else 0
    match parseDigitsLoop s UInt32Size index 0 with
    | none => none
    | some value => some (if negative then -value else value)

/-- `parseBoolFromString`. -/
def parseBoolFromString (s : Str) : Bool :=
  match s with
  | [] => false
  | c :: _ => if c = Char.ofNat 116 then true else if c = Char.ofNat 102 then false else false

/-- The value slice of a key with a numeric or string value:
`json.substr(indexOnJsonStringStart, indexOnJsonStringEnd - indexOnJsonStringStart)` with
`indexOnJsonStringStart = indexOnJsonString + 4` and
`indexOnJsonStringEnd = indexesOfQuotesOnJsonString[i + correctOffsetForJsonKeys] - 1`.
The two reads are unchecked: `indexes` stands for the cells of the buffer that hold a
value, the elements first; reading a cell that was never written is undefined. -/
def valueSlice (json : Str) (indexes : List Nat) (i correctOffsetForJsonKeys : Nat) :
    Option Str :=
  match indexes[i]?, indexes[(i + correctOffsetForJsonKeys) % UInt32Size]? with
  | some indexOnJsonString, some next =>
    let indexOnJsonStringStart := (indexOnJsonString + 4) % UInt32Size
    let indexOnJsonStringEnd := (next + UInt32Size - 1) % UInt32Size
    substr json indexOnJsonStringStart
      ((indexOnJsonStringEnd + UInt32Size - indexOnJsonStringStart) % UInt32Size)
  | _, _ => none

/-- The state of the walk loop of `parseRecords` between two iterations. -/
structure WalkState where
  i : Nat
  expectedKeyIndex : Nat
  record : Record
  recordStarted : Bool
  records : List Record
  deriving DecidableEq, Repr

/-- One iteration of the `for` loop of `parseRecords`, entered with `i` below the size of
the index vector; `indexes` stands for the cells of the buffer that hold a value, the
elements first. -/
def walkStep (json : Str) (indexes : List Nat) (w : WalkState) : Option WalkState :=
  let jsonQuoteCount := w.i % jsonQuotes
  let expectedKeyIndex := w.expectedKeyIndex % 7
  let correctOffsetForJsonKeys := if jsonQuoteCount ≥ 2 && jsonQuoteCount ≤ 6 then 4 else 2
  let next (record : Record) (recordStarted : Bool) (records : List Record) : WalkState :=
    { i := (w.i + correctOffsetForJsonKeys) % UInt32Size,
      expectedKeyIndex := expectedKeyIndex + 1,
      record := record, recordStarted := recordStarted, records := records }
  match indexes[w.i]? with
  | none => none
  | some indexOnJsonString =>
    if expectedKeyIndex = 0 then
      let records1 := if w.recordStarted then w.records ++ [w.record] else w.records
      match valueSlice json indexes w.i correctOffsetForJsonKeys with
      | none => none
      | some a_value =>
        match parseInt64FromString a_value with
        | none => none
        | some v => some (next { Record.zero with a := v } true records1)
    else if expectedKeyIndex = 1 then
      match valueSlice json indexes w.i correctOffsetForJsonKeys with
      | none => none
      | some p_value => some (next { w.record with p := p_value } w.recordStarted w.records)
    else if expectedKeyIndex = 2 then
      match valueSlice json indexes w.i correctOffsetForJsonKeys with
      | none => none
      | some q_value => some (next { w.record with q := q_value } w.recordStarted w.records)
    else if expectedKeyIndex = 3 then
      match valueSlice json indexes w.i correctOffsetForJsonKeys with
      | none => none
      | some f_value =>
        match parseInt64FromString f_value with
        | none => none
        | some v => some (next { w.record with f := v } w.recordStarted w.records)
    else if expectedKeyIndex = 4 then
      match valueSlice json indexes w.i correctOffsetForJsonKeys with
      | none => none
      | some l_value =>
        match parseInt64FromString l_value with
        | none => none
        | some v => some (next { w.record with l := v } w.recordStarted w.records)
    else if expectedKeyIndex = 5 then
      match valueSlice json indexes w.i correctOffsetForJsonKeys with
      | none => none
      | some T_value =>
        match parseInt64FromString T_value with
        | none => none
        | some v => some (next { w.record with T := v } w.recordStarted w.records)
    else if expectedKeyIndex = 6 then
      match substr json ((indexOnJsonString + 4) % UInt32Size) 1 with
      | none => none
      | some m_value =>
        some (next { w.record with m := parseBoolFromString m_value } w.recordStarted w.records)
    else some (next w.record w.recordStarted w.records)

/-- The `for` loop of `parseRecords`: the state when `i` is no longer below the size of
the index vector. The guard looks at the size, that is at `indexes`; the reads
`indexesOfQuotesOnJsonString[...]` of an iteration are unchecked and see the buffer, that
is the elements followed by the cells `stale` that an earlier call has left. -/
def walkLoop (json : Str) (indexes stale : List Nat) : Nat → WalkState → Option WalkState
  | 0, _ => none
  | fuel + 1, w =>
    if w.i < indexes.length then
      match walkStep json (indexes ++ stale) w with
      | none => none
      | some w1 => walkLoop json indexes stale fuel w1
    else some w

/-- `JsonParserSIMD::parseRecords`: the returned records and the parser after the call.
The vector is cleared, then filled by `find_quotes_avx2`: each `push_back` writes the cell
after the last element, so as many of the cells that `clear` has left are overwritten as
quotes are found, and the others keep their values. `push_back` leaves the vector with a
capacity of at least its size, and never with a smaller one than before. -/
def parseRecords (self : JsonParserSIMD) (json : Str) :
    Option (List Record × JsonParserSIMD) :=
  let cleared := self.clear
  match find_quotes_avx2 cleared.indexesOfQuotesOnJsonString json with
  | none => none
  | some indexes =>
    let stale := cleared.stale.drop indexes.length
    match walkLoop json indexes stale (7 * UInt32Size)
        { i := 0, expectedKeyIndex := 0, record := Record.zero, recordStarted := false,
          records := [] } with
    | none => none
    | some w =>
      some (if w.recordStarted then w.records ++ [w.record] else w.records,
        { indexesOfQuotesOnJsonString := indexes, stale := stale,
          capacity := max cleared.capacity indexes.length })

end JsonParserSIMD

/-! ### Vocabulary for stating properties of the decoders -/

/-- The offsets `j` with `a <= j < b` at which `s` holds the byte `"`, in ascending
order. -/
def quotesIn (s : Str) (a b : Nat) : List Nat :=
  (List.range' a (b - a)).filter (fun j => charAt s j = quoteChar)

/-- The full ordered sequence of `"` offsets of `s`. -/
def quoteOffsets (s : Str) : List Nat :=
  (List.range s.length).filter (fun j => charAt s j = quoteChar)

/-- The comparison mask of a run of lanes: bit `b` is set when lane `b` matched. -/
def maskOf : List Bool → Nat
  | [] => 0
  | b :: bs => (if b then 1 else 0) + 2 * maskOf bs

/-- The positions, counted from `base`, of the lanes that matched. -/
def matchPositions : Nat → List Bool → List Nat
  | _, [] => []
  | base, b :: bs => (if b then [base] else []) ++ matchPositions (base + 1) bs

/-- The decoder input of scenario E6, one record:
`[{"a":1,"p":"0.5","q":"2","f":10,"l":11,"T":1700000000000,"m":true}]`. -/
def inputE6 : Str :=
  "[\x7b\"a\":1,\"p\":\"0.5\",\"q\":\"2\",\"f\":10,\"l\":11,\"T\":1700000000000,\"m\":true\x7d]".toList

/-- The record that scenario E6 expects, with `p = 0.5` and `q = 2`. -/
def recordE6 : Record :=
  { a := 1, p := "0.5".toList, q := "2".toList, f := 10, l := 11, T := 1700000000000, m := true }

/-- The record that `JsonParserSIMD::parseRecords` returns for the input of E6: `p` and
`q` hold the value with its two quotes. -/
def recordE6Quoted : Record :=
  { recordE6 with p := quoteChar :: ("0.5".toList ++ [quoteChar]),
                  q := quoteChar :: ("2".toList ++ [quoteChar]) }

/-! ### Well-formed decoder input

The input of the decoders is described by what is written in it: an integer is an optional
`-` and a run of digits, an object is the seven values of the fixed schema, and an array is
rendered from its objects with a gap of bytes in front of every token.
-/

/-- The value of a run of decimal digits. -/
def digitsValue (ds : Str) : Nat :=
  ds.foldl (fun value c => value * 10 + (c.toNat - 48)) 0

/-- An integer as it is written in the input. -/
structure IntText where
  negative : Bool
  digits : Str
  deriving DecidableEq, Repr

/-- The bytes of a written integer. -/
def IntText.text (x : IntText) : Str :=
  if x.negative then Char.ofNat 45 :: x.digits else x.digits

/-- The integer that is written. -/
def IntText.value (x : IntText) : Int :=
  if x.negative then -(digitsValue x.digits : Int) else (digitsValue x.digits : Int)

/-- A written integer is well formed when it has a digit, only digits, and a magnitude of
at most `2 ^ 63 - 1`. -/
def IntText.WellFormed (x : IntText) : Prop :=
  x.digits ≠ [] ∧ (∀ c ∈ x.digits, isdigit c = true) ∧ (digitsValue x.digits : Int) ≤ Int64Max

/-- The shortest way of writing an integer. -/
def IntText.ofInt (n : Int) : IntText :=
  { negative := decide (n < 0), digits := Nat.toDigits 10 n.natAbs }

/-- The literal `true` or `false`. -/
def boolText (m : Bool) : Str :=
  if m then "true".toList else "false".toList

/-- A string value between its two quotes. -/
def stringText (s : Str) : Str :=
  quoteChar :: (s ++ [quoteChar])

/-- One object of the fixed schema as it is written in the input. -/
structure ObjectText where
  a : IntText
  p : Str
  q : Str
  f : IntText
  l : IntText
  T : IntText
  m : Bool
  deriving DecidableEq, Repr

/-- A written object is well formed when its integers are and neither string holds the
byte `"`. -/
def ObjectText.WellFormed (o : ObjectText) : Prop :=
  o.a.WellFormed ∧ quoteChar ∉ o.p ∧ quoteChar ∉ o.q ∧ o.f.WellFormed ∧ o.l.WellFormed ∧
    o.T.WellFormed

/-- The record that a written object stands for. -/
def ObjectText.record (o : ObjectText) : Record :=
  { a := o.a.value, p := o.p, q := o.q, f := o.f.value, l := o.l.value, T := o.T.value,
    m := o.m }

/-- The record that a written object stands for, with the two quotes of each string value
kept in `p` and `q`. -/
def ObjectText.quotedRecord (o : ObjectText) : Record :=
  { o.record with p := stringText o.p, q := stringText o.q }

/-- The shortest way of writing a record. -/
def ObjectText.ofRecord (r : Record) : ObjectText :=
  { a := IntText.ofInt r.a, p := r.p, q := r.q, f := IntText.ofInt r.f,
    l := IntText.ofInt r.l, T := IntText.ofInt r.T, m := r.m }

/-- A key, `:`, its value and the separator `sep` that follows, each token after its gap,
in front of `rest`. -/
def renderField (w0 w1 w2 w3 : Str) (k : Char) (value : Str) (sep : Char) (rest : Str) : Str :=
  w0 ++ quoteChar :: k :: quoteChar :: (w1 ++ Char.ofNat 58 :: (w2 ++ (value ++
    (w3 ++ sep :: rest))))

/-- An object in front of `rest`: the 29 tokens from the opening to the closing brace,
token `k` after the gap `g k`. -/
def renderObject (g : Nat → Str) (o : ObjectText) (rest : Str) : Str :=
  g 0 ++ Char.ofNat 123 ::
    renderField (g 1) (g 2) (g 3) (g 4) 'a' o.a.text (Char.ofNat 44)
    (renderField (g 5) (g 6) (g 7) (g 8) 'p' (stringText o.p) (Char.ofNat 44)
    (renderField (g 9) (g 10) (g 11) (g 12) 'q' (stringText o.q) (Char.ofNat 44)
    (renderField (g 13) (g 14) (g 15) (g 16) 'f' o.f.text (Char.ofNat 44)
    (renderField (g 17) (g 18) (g 19) (g 20) 'l' o.l.text (Char.ofNat 44)
    (renderField (g 21) (g 22) (g 23) (g 24) 'T' o.T.text (Char.ofNat 44)
    (renderField (g 25) (g 26) (g 27) (g 28) 'm' (boolText o.m) (Char.ofNat 125) rest))))))

/-- What follows an object of the array, from the separator on: `]`, or `,` and the next
object, whose tokens take the gaps `g 0` to `g 28`; `g 29` is the gap in front of the
separator after it. -/
def renderMore (g : Nat → Str) : List ObjectText → Str → Str
  | [], rest => Char.ofNat 93 :: rest
  | o :: os, rest =>
    Char.ofNat 44 :: renderObject g o (g 29 ++ renderMore (fun k => g (k + 30)) os rest)

/-- An array of objects in front of `rest`, token `k` of the array after the gap `g k`. -/
def renderArray (g : Nat → Str) (os : List ObjectText) (rest : Str) : Str :=
  g 0 ++ Char.ofNat 91 ::
    match os with
    | [] => g 1 ++ Char.ofNat 93 :: rest
    | o :: os =>
      renderObject (fun k => g (k + 1)) o (g 30 ++ renderMore (fun k => g (k + 31)) os rest)

/-- No byte in front of any token. -/
def noGap : Nat → Str :=
  fun _ => []

/-- The whitespace-free input that holds the objects `os`. -/
def compactText (os : List ObjectText) : Str :=
  renderArray noGap os []

/-- The compact serialisation of a list of records. -/
def serialize (rs : List Record) : Str :=
  compactText (rs.map ObjectText.ofRecord)

/-- A run of whitespace bytes. -/
def AllSpace (ws : Str) : Prop :=
  ∀ c ∈ ws, isspace c = true

/-- The walk over the quote index is at quote number `i` and the text at offset `P`: the
quotes from number `i` on are the quotes of the text from offset `P` on. -/
def Cursor (json : Str) (indexes : List Nat) (i P : Nat) : Prop :=
  i ≤ indexes.length ∧ indexes.drop i = (quoteOffsets (json.drop P)).map (· + P)

/-- The cursor together with the text that follows offset `P`. -/
def At (json : Str) (indexes : List Nat) (i P : Nat) (rest : Str) : Prop :=
  Cursor json indexes i P ∧ json.drop P = rest

/-- The records that the walk of `JsonParserSIMD::parseRecords` returns when it ends in
state `w`. -/
def emitted (w : JsonParserSIMD.WalkState) : List Record :=
  if w.recordStarted then w.records ++ [w.record] else w.records

/-! ### Input that stops being an array -/

/-- What follows an object of the array when the array is cut short: the objects `os`,
each after a `,`, and then `tail`. -/
def renderMoreTo (g : Nat → Str) : List ObjectText → Str → Str
  | [], tail => tail
  | o :: os, tail =>
    Char.ofNat 44 :: renderObject g o (g 29 ++ renderMoreTo (fun k => g (k + 30)) os tail)

/-- The opening bracket, the objects `os` joined by `,`, token `k` after the gap `g k`, and
then `tail` in place of the rest of the array. -/
def renderPrefix (g : Nat → Str) (os : List ObjectText) (tail : Str) : Str :=
  g 0 ++ Char.ofNat 91 ::
    match os with
    | [] => g 1 ++ tail
    | o :: os =>
      renderObject (fun k => g (k + 1)) o (g 30 ++ renderMoreTo (fun k => g (k + 31)) os tail)

/-! ### The states of the schema walk -/

/-- The value of `i mod 18` at which the schema walk handles key number `k` of
`a, p, q, f, l, T, m`. -/
def keyQuoteOffset (k : Nat) : Nat :=
  [0, 2, 6, 10, 12, 14, 16].getD k 0

/-- The states in which the `for` loop of `JsonParserSIMD::parseRecords` tests its guard:
the state before the first iteration, and the state after every iteration that was entered
with `i` below the size of the index vector. -/
inductive JsonParserSIMD.WalkReach (json : Str) (indexes : List Nat) :
    JsonParserSIMD.WalkState → Prop
  | init : WalkReach json indexes
      { i := 0, expectedKeyIndex := 0, record := Record.zero, recordStarted := false,
        records := [] }
  | step {w w1 : JsonParserSIMD.WalkState} : WalkReach json indexes w →
      w.i < indexes.length → JsonParserSIMD.walkStep json indexes w = some w1 →
      WalkReach json indexes w1

/-! ### Further decoder inputs -/

/-- An input with two `"` bytes: `[{"a":1}]`. -/
def inputTwoQuotes : Str :=
  "[\x7b\"a\":1\x7d]".toList

/-- The input of scenario E6 cut right after the key `"m"`: it holds 18 `"` bytes, the
last one being its last byte. -/
def inputCutAfterKey : Str :=
  "[\x7b\"a\":1,\"p\":\"0.5\",\"q\":\"2\",\"f\":10,\"l\":11,\"T\":1700000000000,\"m\"".toList

/-- An input with two `"` bytes and a value of two digits: `[{"a":12}]`. -/
def inputTwelve : Str :=
  "[\x7b\"a\":12\x7d]".toList

/-- An input in which the bytes after `[` do not start an object: `[x`. -/
def inputNoObject : Str :=
  "[x".toList

/-- An input that ends inside its object, after the second field: `[{"a":7,"p":"x"`. -/
def inputCutObject : Str :=
  "[\x7b\"a\":7,\"p\":\"x\"".toList

/-- An input with two objects of one field each: `[{"a":7},{"a":8}]`. -/
def inputShortObjects : Str :=
  "[\x7b\"a\":7\x7d,\x7b\"a\":8\x7d]".toList

/-! ### Inputs on which the integer parser stays in range -/

/-- No run of digit bytes in the input denotes a number above the largest `int64_t`: the
loop of `JsonParser::parseInt64` can then not overflow, wherever it starts. This is more
than `IntRunsFit` asks for, and easier to check. -/
def DigitRunsFit (json : Str) : Prop :=
  ∀ start len, (∀ c ∈ (json.drop start).take len, isdigit c = true) →
    (digitsValue ((json.drop start).take len) : Int) ≤ Int64Max

namespace JsonParser

/-- The values of `index` with which the array loop of `parseRecords(json)` calls
`parseRecord`: the one after `[` and the whitespace behind it, unless a `]` stands there,
and the one after each `,` at which the loop continues. -/
inductive RecordCall (json : Str) : Nat → Prop
  | first {index1 index2 index3 : Nat} :
      skipWhitespace json 0 = some index1 →
      expectChar json index1 (Char.ofNat 91) = some (true, index2) →
      skipWhitespace json index2 = some index3 →
      ¬ (index3 < json.length ∧ charAt json index3 = Char.ofNat 93) →
      RecordCall json index3
  | next {index index1 index2 : Nat} {record : Record} :
      RecordCall json index →
      parseRecord json index = some (record, index1) →
      skipWhitespace json index1 = some index2 →
      index2 < json.length → charAt json index2 = Char.ofNat 44 →
      RecordCall json ((index2 + 1) % UInt32Size)

/-- The calls `parserFieldInOrder(json, index, record, name)` made by `parseRecords(json)`:
the index, the record, and the names expected from this call on, `name` first. -/
inductive FieldCall (json : Str) : Nat → Record → List Str → Prop
  | first {index index1 index2 : Nat} :
      RecordCall json index →
      skipWhitespace json index = some index1 →
      expectChar json index1 (Char.ofNat 123) = some (true, index2) →
      FieldCall json index2 Record.zero [['a'], ['p'], ['q'], ['f'], ['l'], ['T'], ['m']]
  | next {index index1 : Nat} {record record1 : Record} {name : Str} {names : List Str}
      {b : Bool} :
      FieldCall json index record (name :: names) →
      parserFieldInOrder json index record name = some (b, index1, record1) →
      FieldCall json index1 record1 names

/-- The indices at which a call of `parseInt64` made by `parseRecords(json)` looks for its
first digit: the call is made for a key `a`, `f`, `l` or `T` that is the expected one, after
the `:`, and the digits start after the whitespace and a `-`. -/
inductive IntStart (json : Str) : Nat → Prop
  | mk {index index1 index2 index3 index4 : Nat} {record : Record} {name : Str}
      {names : List Str} :
      FieldCall json index record (name :: names) →
      skipWhitespace json index = some index1 →
      parseString json index1 = some (name, index2) →
      expectChar json index2 (Char.ofNat 58) = some (true, index3) →
      name ∈ [['a'], ['f'], ['l'], ['T']] →
      skipWhitespace json index3 = some index4 →
      index4 < json.length →
      IntStart json
        (if charAt json index4 == Char.ofNat 45 then (index4 + 1) % UInt32Size else index4)

end JsonParser

/-- No run of digit bytes that a call of `parseInt64` made by `parseRecords(json)` reads
denotes a number above the largest `int64_t`: none of these calls overflows. -/
def IntRunsFit (json : Str) : Prop :=
  ∀ start len, JsonParser.IntStart json start →
    (∀ c ∈ (json.drop start).take len, isdigit c = true) →
    (digitsValue ((json.drop start).take len) : Int) ≤ Int64Max

/-- The number of `,` bytes of the input. -/
def commaCount (json : Str) : Nat :=
  json.count (Char.ofNat 44)

/-! ### Inputs that leave the range of the index or of the value -/

/-- The bytes `[,,`, then an object written up to the `:` of its seventh key `"m"`:
46 bytes. -/
def inputWrapHead : Str :=
  "[,,\x7b\"a\":0,\"p\":\"\",\"q\":\"\",\"f\":0,\"l\":0,\"T\":0,\"m\":".toList

/-- The 46 bytes of `inputWrapHead`, then `k` spaces and the byte `f`: `k + 47` bytes. -/
def inputWrapAt (k : Nat) : Str :=
  inputWrapHead ++ (List.replicate k (Char.ofNat 32) ++ [Char.ofNat 102])

/-- An input of `2 ^ 32 - 3` bytes whose last byte is the `f` of the value of `"m"`. -/
def inputWrap : Str :=
  inputWrapAt (2 ^ 32 - 50)

/-- An input whose first value is the digit run of `2 ^ 63`. -/
def inputOverflow : Str :=
  "[\x7b\"a\":9223372036854775808".toList

/-- An input with a run of twenty digits `9` inside the string value of `p`. -/
def inputQuotedDigits : Str :=
  "[\x7b\"a\":1,\"p\":\"99999999999999999999\"\x7d]".toList

/-! ### One parser object used for several inputs -/

namespace JsonParserSIMD

/-- The parser object after the calls `parseRecords(x)` for the inputs `x` of `earlier`, one
after the other on the same object, as in the benchmark loop of `main`; the records
returned by these calls are dropped. -/
def parseRecordsAll (self : JsonParserSIMD) : List Str → Option JsonParserSIMD
  | [] => some self
  | x :: earlier =>
    match self.parseRecords x with
    | none => none
    | some (_, self1) => parseRecordsAll self1 earlier

end JsonParserSIMD

/-! ### Cyclic probing arithmetic -/

namespace HashTable

variable {Size : Nat}

theorem probe_step (start u : Nat) :
    ((start + u) % Size + ProbingFactor) % Size = (start + (u + 1)) % Size := by
  simp [ProbingFactor, Nat.mod_add_mod, Nat.add_assoc]

theorem probe_ne_start {start u : Nat} (hs : start < Size) (h0 : 0 < u) (hu : u < Size) :
    (start + u) % Size ≠ start := by
  by_cases h : start + u < Size
  · rw [Nat.mod_eq_of_lt h]; omega
  · rw [Nat.mod_eq_sub_mod (by omega), Nat.mod_eq_of_lt (by omega)]; omega

theorem probe_wrap {start : Nat} (hs : start < Size) : (start + Size) % Size = start := by
  rw [Nat.add_mod_right, Nat.mod_eq_of_lt hs]

theorem probe_lt (hN : 0 < Size) (start u : Nat) : (start + u) % Size < Size :=
  Nat.mod_lt _ hN

/-- Every slot index is met by the probe sequence within `Size` steps. -/
theorem probe_cover {start i : Nat} (hs : start < Size) (hi : i < Size) :
    ∃ d, d < Size ∧ (start + d) % Size = i := by
  by_cases h : start ≤ i
  · exact ⟨i - start, by omega, by rw [Nat.add_sub_cancel' h, Nat.mod_eq_of_lt hi]⟩
  · refine ⟨i + Size - start, by omega, ?_⟩
    have : start + (i + Size - start) = i + Size := by omega
    rw [this, Nat.add_mod_right, Nat.mod_eq_of_lt hi]

theorem getHash_lt (hash : KeyType → Nat) (hN : 0 < Size) (key : KeyType) :
    getHash hash Size key < Size :=
  Nat.mod_lt _ hN

/-! ### The probe loop of `insert` -/

theorem insertLoop_stop (t : HashTable Size) (key : KeyType) (start fuel index : Nat)
    (h : insertStops t key index) : insertLoop t key start (fuel + 1) index = some (some index) := by
  have : (t.isOccupied index && !keysMatch (t.data index).key key) = false := by
    unfold insertStops at h
    cases ho : t.isOccupied index <;> simp_all [keysMatch]
  simp [insertLoop, this]

theorem insertLoop_continue (t : HashTable Size) (key : KeyType) (start fuel index : Nat)
    (h : ¬ insertStops t key index) :
    insertLoop t key start (fuel + 1) index =
      if (index + ProbingFactor) % Size = start then some none
      else insertLoop t key start fuel ((index + ProbingFactor) % Size) := by
  have : (t.isOccupied index && !keysMatch (t.data index).key key) = true := by
    unfold insertStops at h
    simp only [not_not] at h
    simp [h.1, keysMatch, h.2]
  simp [insertLoop, this]

/-- The loop leaves at the first slot of the probe sequence that is not a live slot with
another key. -/
theorem insertLoop_found (t : HashTable Size) (key : KeyType) {start : Nat} (hs : start < Size) :
    ∀ (n u fuel : Nat), u + n < Size → n < fuel →
      (∀ w, u ≤ w → w < u + n → ¬ insertStops t key ((start + w) % Size)) →
      insertStops t key ((start + (u + n)) % Size) →
      insertLoop t key start fuel ((start + u) % Size) = some (some ((start + (u + n)) % Size)) := by
  intro n
  induction n with
  | zero =>
    intro u fuel _ hf _ hstop
    obtain ⟨f, rfl⟩ : ∃ f, fuel = f + 1 := ⟨fuel - 1, by omega⟩
    simpa using insertLoop_stop t key start f _ (by simpa using hstop)
  | succ n ih =>
    intro u fuel hu hf hgo hstop
    obtain ⟨f, rfl⟩ : ∃ f, fuel = f + 1 := ⟨fuel - 1, by omega⟩
    rw [insertLoop_continue t key start f _ (hgo u (le_refl _) (by omega)), probe_step,
      if_neg (probe_ne_start hs (by omega) (by omega))]
    have := ih (u + 1) f (by omega) (by omega)
      (fun w h1 h2 => hgo w (by omega) (by omega))
      (by rw [show u + 1 + n = u + (n + 1) by omega]; exact hstop)
    rw [this, show u + 1 + n = u + (n + 1) by omega]

/-- When every slot is live with another key the loop reports a full table. -/
theorem insertLoop_full (t : HashTable Size) (key : KeyType) {start : Nat} (hs : start < Size)
    (hall : ∀ i, i < Size → ¬ insertStops t key i) :
    ∀ (n u : Nat), u + n + 1 = Size →
      insertLoop t key start (n + 1) ((start + u) % Size) = some none := by
  intro n
  induction n with
  | zero =>
    intro u hu
    rw [insertLoop_continue t key start 0 _ (hall _ (Nat.mod_lt _ (by omega))), probe_step,
      show u + 1 = Size by omega, probe_wrap hs]
    simp
  | succ n ih =>
    intro u hu
    rw [insertLoop_continue t key start (n + 1) _ (hall _ (Nat.mod_lt _ (by omega))), probe_step,
      if_neg (probe_ne_start hs (by omega) (by omega))]
    exact ih (u + 1) (by omega)

end HashTable
namespace HashTable

variable {Size : Nat}

/-! ### The probe loop of `getIndexFromProbing` -/

theorem probeLoop_match (t : HashTable Size) (key : KeyType) (start fuel index : Nat)
    (h : (t.data index).key = key) : probeLoop t key start (fuel + 1) index = some index := by
  simp [probeLoop, keysMatch, h]

theorem probeLoop_continue (t : HashTable Size) (key : KeyType) (start fuel index : Nat)
    (h : (t.data index).key ≠ key) :
    probeLoop t key start (fuel + 1) index =
      if (index + ProbingFactor) % Size = start ∨ nonFree t ((index + ProbingFactor) % Size) = false
      then some Size
      else probeLoop t key start fuel ((index + ProbingFactor) % Size) := by
  have hk : keysMatch (t.data index).key key = false := by simp [keysMatch, h]
  simp [probeLoop, hk, nonFree]

/-- The probe returns the first slot of the probe sequence that holds the key, provided no
free slot comes before it or at it. -/
theorem probeLoop_found (t : HashTable Size) (key : KeyType) {start : Nat} (hs : start < Size) :
    ∀ (n u fuel : Nat), u + n < Size → n < fuel →
      (∀ w, u ≤ w → w < u + n → (t.data ((start + w) % Size)).key ≠ key) →
      (∀ w, u < w → w ≤ u + n → nonFree t ((start + w) % Size) = true) →
      (t.data ((start + (u + n)) % Size)).key = key →
      probeLoop t key start fuel ((start + u) % Size) = some ((start + (u + n)) % Size) := by
  intro n
  induction n with
  | zero =>
    intro u fuel _ hf _ _ hkey
    obtain ⟨f, rfl⟩ : ∃ f, fuel = f + 1 := ⟨fuel - 1, by omega⟩
    simpa using probeLoop_match t key start f _ (by simpa using hkey)
  | succ n ih =>
    intro u fuel hu hf hne hnf hkey
    obtain ⟨f, rfl⟩ : ∃ f, fuel = f + 1 := ⟨fuel - 1, by omega⟩
    rw [probeLoop_continue t key start f _ (hne u (le_refl _) (by omega)), probe_step,
      if_neg (by
        rintro (h | h)
        · exact probe_ne_start hs (by omega) (by omega) h
        · rw [hnf (u + 1) (by omega) (by omega)] at h; exact Bool.noConfusion h)]
    have := ih (u + 1) f (by omega) (by omega)
      (fun w h1 h2 => hne w (by omega) (by omega))
      (fun w h1 h2 => hnf w (by omega) (by omega))
      (by rw [show u + 1 + n = u + (n + 1) by omega]; exact hkey)
    rw [this, show u + 1 + n = u + (n + 1) by omega]

/-- When no slot that is occupied or erased holds the key, the probe reports not-found. -/
theorem probeLoop_absent (t : HashTable Size) (key : KeyType) {start : Nat} (hs : start < Size)
    (hall : ∀ i, i < Size → nonFree t i = true → (t.data i).key ≠ key) :
    ∀ (n u : Nat), u + n + 1 = Size → nonFree t ((start + u) % Size) = true →
      probeLoop t key start (n + 1) ((start + u) % Size) = some Size := by
  intro n
  induction n with
  | zero =>
    intro u hu hnf
    rw [probeLoop_continue t key start 0 _ (hall _ (Nat.mod_lt _ (by omega)) hnf), probe_step,
      show u + 1 = Size by omega, probe_wrap hs]
    simp
  | succ n ih =>
    intro u hu hnf
    rw [probeLoop_continue t key start (n + 1) _ (hall _ (Nat.mod_lt _ (by omega)) hnf),
      probe_step]
    split_ifs with h
    · rfl
    · exact ih (u + 1) (by omega) (by
        cases hb : nonFree t ((start + (u + 1)) % Size)
        · exact absurd (Or.inr hb) h
        · rfl)

/-- The probe loop always returns within `Size` iterations, and what it returns is either
`Size` or a slot below `Size` that holds the key. -/
theorem probeLoop_sound (t : HashTable Size) (key : KeyType) {start : Nat} (hs : start < Size) :
    ∀ (n u : Nat), u + n + 1 = Size →
      ∃ r, probeLoop t key start (n + 1) ((start + u) % Size) = some r ∧
        (r = Size ∨ (r < Size ∧ (t.data r).key = key)) := by
  intro n
  induction n with
  | zero =>
    intro u hu
    by_cases hk : (t.data ((start + u) % Size)).key = key
    · exact ⟨_, probeLoop_match t key start 0 _ hk, Or.inr ⟨Nat.mod_lt _ (by omega), hk⟩⟩
    · refine ⟨Size, ?_, Or.inl rfl⟩
      rw [probeLoop_continue t key start 0 _ hk, probe_step, show u + 1 = Size by omega,
        probe_wrap hs]
      simp
  | succ n ih =>
    intro u hu
    by_cases hk : (t.data ((start + u) % Size)).key = key
    · exact ⟨_, probeLoop_match t key start _ _ hk, Or.inr ⟨Nat.mod_lt _ (by omega), hk⟩⟩
    · rw [probeLoop_continue t key start (n + 1) _ hk, probe_step]
      split_ifs with h
      · exact ⟨Size, rfl, Or.inl rfl⟩
      · exact ih (u + 1) (by omega)

theorem getIndexFromProbing_sound (hash : KeyType → Nat) (hN : 0 < Size) (t : HashTable Size)
    (key : KeyType) :
    ∃ r, getIndexFromProbing hash t key = some r ∧
      (r = Size ∨ (r < Size ∧ (t.data r).key = key)) := by
  unfold getIndexFromProbing
  simp only []
  split_ifs with h
  · exact ⟨Size, rfl, Or.inl rfl⟩
  · obtain ⟨n, rfl⟩ : ∃ n, Size = n + 1 := ⟨Size - 1, by omega⟩
    have := probeLoop_sound t key (getHash_lt hash hN key) n 0 (by omega)
    simpa [Nat.mod_eq_of_lt (getHash_lt hash hN key)] using this

theorem getIndexFromProbing_found (hash : KeyType → Nat) (t : HashTable Size)
    (key : KeyType) (d : Nat) (hd : d < Size)
    (hne : ∀ w, w < d → (t.data ((getHash hash Size key + w) % Size)).key ≠ key)
    (hnf : ∀ w, w ≤ d → nonFree t ((getHash hash Size key + w) % Size) = true)
    (hkey : (t.data ((getHash hash Size key + d) % Size)).key = key) :
    getIndexFromProbing hash t key = some ((getHash hash Size key + d) % Size) := by
  have hs := getHash_lt hash (by omega : 0 < Size) key
  have h0 := hnf 0 (by omega)
  simp only [Nat.add_zero, Nat.mod_eq_of_lt hs] at h0
  unfold getIndexFromProbing
  simp only []
  rw [if_neg (by
    unfold nonFree at h0
    cases ho : t.isOccupied (getHash hash Size key) <;>
      cases he : (t.data (getHash hash Size key)).erased <;> simp_all)]
  have := probeLoop_found t key hs d 0 Size (by omega) hd
    (fun w _ h2 => hne w (by omega)) (fun w _ h2 => hnf w (by omega)) (by simpa using hkey)
  simpa [Nat.mod_eq_of_lt hs] using this

theorem getIndexFromProbing_absent (hash : KeyType → Nat) (hN : 0 < Size) (t : HashTable Size)
    (key : KeyType) (hall : ∀ i, i < Size → nonFree t i = true → (t.data i).key ≠ key) :
    getIndexFromProbing hash t key = some Size := by
  have hs := getHash_lt hash hN key
  unfold getIndexFromProbing
  simp only []
  split_ifs with h
  · rfl
  · obtain ⟨n, rfl⟩ : ∃ n, Size = n + 1 := ⟨Size - 1, by omega⟩
    have hnf : nonFree t (getHash hash (n + 1) key) = true := by
      unfold nonFree
      cases ho : t.isOccupied (getHash hash (n + 1) key) <;>
        cases he : (t.data (getHash hash (n + 1) key)).erased <;> simp_all
    have := probeLoop_absent t key hs hall n 0 (by omega)
      (by simpa [Nat.mod_eq_of_lt hs] using hnf)
    simpa [Nat.mod_eq_of_lt hs] using this

end HashTable
namespace HashTable

variable {Size : Nat}

/-! ### Assignments through pointers -/

@[simp] theorem modify_data (t : HashTable Size) (p : Ptr) (f : HashElement → HashElement)
    (i : Nat) :
    (t.modify p f).data i = if p = Ptr.slot i then f (t.data i) else t.data i := by
  cases p with
  | first => simp [modify]
  | last => simp [modify]
  | slot j =>
    by_cases h : j = i
    · subst h; simp [modify]
    · simp [modify, Function.update, h, Ne.symm h]

@[simp] theorem modify_firstElement (t : HashTable Size) (p : Ptr)
    (f : HashElement → HashElement) :
    (t.modify p f).firstElement = if p = Ptr.first then f t.firstElement else t.firstElement := by
  cases p <;> simp [modify]

@[simp] theorem modify_lastElement (t : HashTable Size) (p : Ptr)
    (f : HashElement → HashElement) :
    (t.modify p f).lastElement = if p = Ptr.last then f t.lastElement else t.lastElement := by
  cases p <;> simp [modify]

theorem isOccupied_iff (t : HashTable Size) (i : Nat) :
    t.isOccupied i = true ↔
      (t.data i).rightElement ≠ none ∧ (t.data i).leftElement ≠ none := by
  simp [isOccupied]

/-- What `unlinkElement` does: it always returns, it changes links only, the slot is
unoccupied afterwards, every other occupied slot stays occupied, and the sentinels keep
non-null inner links. -/
theorem unlinkElement_spec (t : HashTable Size) (index : Nat) :
    ∃ t1, unlinkElement t index = some t1 ∧ SameContent t t1 ∧
      t1.isOccupied index = false ∧
      (∀ i, i ≠ index → t.isOccupied i = true → t1.isOccupied i = true) ∧
      (t.firstElement.rightElement ≠ none → t1.firstElement.rightElement ≠ none) ∧
      (t.lastElement.leftElement ≠ none → t1.lastElement.leftElement ≠ none) ∧
      (t.isOccupied index = false → t1 = t) := by
  unfold unlinkElement
  by_cases hocc : t.isOccupied index = true
  · have hocc1 := (isOccupied_iff t index).1 hocc
    obtain ⟨r, hr⟩ := Option.ne_none_iff_exists'.1 hocc1.1
    obtain ⟨l, hl⟩ := Option.ne_none_iff_exists'.1 hocc1.2
    simp only [hocc, Bool.not_true, Bool.false_eq_true, if_false, hl]
    have hr1 : ((t.modify l fun e => { e with rightElement := (t.data index).rightElement }).data
        index).rightElement = some r := by
      simp only [modify_data]; split_ifs <;> simp [hr]
    simp only [hr1]
    refine ⟨_, rfl, ?_, ?_, ?_, ?_, ?_, ?_⟩
    · intro i
      simp only [modify_data]
      split_ifs <;> simp
    · simp [isOccupied]
    · intro i hi ho
      have ho1 := (isOccupied_iff t i).1 ho
      have hne : Ptr.slot index ≠ Ptr.slot i := by
        intro h; injection h with h; exact hi h.symm
      rw [isOccupied_iff]
      simp only [modify_data, if_neg hne]
      split_ifs <;> simp_all
    · intro h
      simp only [modify_firstElement]
      split_ifs <;> simp_all
    · intro h
      simp only [modify_lastElement, modify_data]
      split_ifs <;> simp_all
    · intro h; exact absurd h (by decide)
  · simp only [Bool.not_eq_true] at hocc
    simp only [hocc, Bool.not_false, if_true]
    exact ⟨t, rfl, fun i => ⟨rfl, rfl, rfl⟩, hocc, fun _ _ h => h, id, id, fun _ => rfl⟩

/-- What `linkElement` does when `firstElement.rightElement` is not null. -/
theorem linkElement_spec (t : HashTable Size) (index : Nat)
    (h : t.firstElement.rightElement ≠ none) :
    ∃ t1, linkElement t index = some t1 ∧ SameContent t t1 ∧
      t1.isOccupied index = true ∧
      (∀ i, i ≠ index → t.isOccupied i = true → t1.isOccupied i = true) ∧
      t1.firstElement.rightElement = some (Ptr.slot index) ∧
      (t.lastElement.leftElement ≠ none → t1.lastElement.leftElement ≠ none) ∧
      (∀ i, i ≠ index → t1.isOccupied i = true →
        t.isOccupied i = true ∨ t.firstElement.rightElement = some (Ptr.slot i)) := by
  obtain ⟨p, hp⟩ := Option.ne_none_iff_exists'.1 h
  unfold linkElement
  simp only [hp]
  refine ⟨_, rfl, ?_, ?_, ?_, ?_, ?_, ?_⟩
  · intro i
    by_cases h1 : p = Ptr.slot i <;> by_cases h2 : index = i <;> simp [h1, h2]
  · rw [isOccupied_iff]
    by_cases h1 : p = Ptr.slot index <;> simp [h1]
  · intro i hi ho
    have ho1 := (isOccupied_iff t i).1 ho
    rw [isOccupied_iff]
    by_cases h1 : p = Ptr.slot i <;> simp [h1, hi, Ne.symm hi, ho1]
  · by_cases h1 : p = Ptr.first <;> simp [h1]
  · intro h
    by_cases h1 : p = Ptr.last <;> simp [h1, h]
  · intro i hi ho
    by_cases h1 : p = Ptr.slot i
    · right; rw [h1]
    · left
      rw [isOccupied_iff] at ho ⊢
      simpa [h1, hi, Ne.symm hi] using ho

end HashTable
namespace HashTable

variable {Size : Nat}

/-! ### `insert` -/

/-- The loop of `insert` returns within `Size` iterations: either every slot is a live
slot with another key and the table is reported full, or the loop leaves at the first
slot of the probe sequence where that is not so. -/
theorem insertLoop_cases (hN : 0 < Size) (t : HashTable Size) (key : KeyType) {start : Nat}
    (hs : start < Size) :
    ((∀ i, i < Size → ¬ insertStops t key i) ∧
        insertLoop t key start Size start = some none) ∨
    ∃ d, d < Size ∧ (∀ w, w < d → ¬ insertStops t key ((start + w) % Size)) ∧
      insertStops t key ((start + d) % Size) ∧
      insertLoop t key start Size start = some (some ((start + d) % Size)) := by
  classical
  by_cases hex : ∃ d, d < Size ∧ insertStops t key ((start + d) % Size)
  · right
    refine ⟨Nat.find hex, (Nat.find_spec hex).1, ?_, (Nat.find_spec hex).2, ?_⟩
    · intro w hw hstop
      exact Nat.find_min hex hw ⟨lt_trans hw (Nat.find_spec hex).1, hstop⟩
    · have := insertLoop_found t key hs (Nat.find hex) 0 Size
        (by simpa using (Nat.find_spec hex).1) (Nat.find_spec hex).1
        (fun w _ hw hstop => Nat.find_min hex (by simpa using hw)
          ⟨lt_trans (by simpa using hw) (Nat.find_spec hex).1, hstop⟩)
        (by simpa using (Nat.find_spec hex).2)
      simpa [Nat.mod_eq_of_lt hs] using this
  · left
    have hall : ∀ i, i < Size → ¬ insertStops t key i := by
      intro i hi hstop
      obtain ⟨d, hd, rfl⟩ := probe_cover hs hi
      exact hex ⟨d, hd, hstop⟩
    refine ⟨hall, ?_⟩
    obtain ⟨n, rfl⟩ : ∃ n, Size = n + 1 := ⟨Size - 1, by omega⟩
    have := insertLoop_full t key hs hall n 0 (by omega)
    simpa [Nat.mod_eq_of_lt hs] using this

theorem modify_modify (t : HashTable Size) (p : Ptr) (f g : HashElement → HashElement) :
    (t.modify p f).modify p g = t.modify p (g ∘ f) := by
  cases p <;> simp [modify]

/-- The three stores of `insert` into slot `j`, taken together. -/
theorem insert_store (t : HashTable Size) (j : Nat) (key : KeyType) (value : ValueType) :
    (if (((t.modify (Ptr.slot j) fun e => { e with value := value }).modify
        (Ptr.slot j) fun e => { e with key := key }).data j).erased = true then
        ((t.modify (Ptr.slot j) fun e => { e with value := value }).modify
          (Ptr.slot j) fun e => { e with key := key }).modify (Ptr.slot j)
            fun e => { e with erased := false }
      else (t.modify (Ptr.slot j) fun e => { e with value := value }).modify
        (Ptr.slot j) fun e => { e with key := key }) =
    t.modify (Ptr.slot j) (fun e => { e with value := value, key := key, erased := false }) := by
  cases he : (t.data j).erased
  · simp only [modify_modify, modify, Function.comp, Function.update_same, Function.update_idem, he,
      Bool.false_eq_true, if_false]
  · simp only [modify_modify, modify, Function.comp, Function.update_same, Function.update_idem, he, if_true]

/-- The state `insert` builds once the loop has left at slot `j`. -/
theorem insert_at (hash : KeyType → Nat) (t : HashTable Size) (hinv : Inv t) (key : KeyType)
    (value : ValueType) (j : Nat)
    (hloop : insertLoop t key (getHash hash Size key) Size (getHash hash Size key) =
      some (some j)) :
    ∃ t1, t.insert hash key value = some (true, t1) ∧ InsertPost t t1 j key value := by
  unfold insert
  simp only [hloop, insert_store]
  generalize ht3 : t.modify (Ptr.slot j)
    (fun e => { e with value := value, key := key, erased := false }) = t3
  have h3j : (t3.data j).key = key ∧ (t3.data j).value = value ∧ (t3.data j).erased = false := by
    subst ht3; simp
  have h3o : ∀ i, i ≠ j → t3.data i = t.data i := by
    intro i hi
    subst ht3; simp [Ne.symm hi]
  have h3occ : ∀ i, t3.isOccupied i = t.isOccupied i := by
    intro i
    subst ht3
    by_cases hi : j = i
    · subst hi; simp [isOccupied]
    · simp [isOccupied, hi]
  have h3inv : Inv t3 := by
    subst ht3; simpa [Inv] using hinv
  have h3f : t3.firstElement = t.firstElement := by
    subst ht3; simp
  obtain ⟨t4, h4, hc4, ho4, hm4, hf4, hl4, hid4⟩ := unlinkElement_spec t3 j
  obtain ⟨t5, h5, hc5, ho5, hm5, hf5, hl5, hx5⟩ := linkElement_spec t4 j (hf4 h3inv.1)
  refine ⟨t5, by simp [h4, h5], ?_⟩
  refine ⟨⟨by rw [hf5]; simp, hl5 (hl4 h3inv.2)⟩, ?_, ?_, ?_, ho5, ?_, ?_, hf5, ?_⟩
  · rw [(hc5 j).1, (hc4 j).1, h3j.1]
  · rw [(hc5 j).2.1, (hc4 j).2.1, h3j.2.1]
  · rw [(hc5 j).2.2, (hc4 j).2.2, h3j.2.2]
  · intro i hi
    rw [(hc5 i).1, (hc4 i).1, (hc5 i).2.1, (hc4 i).2.1, (hc5 i).2.2, (hc4 i).2.2, h3o i hi]
    exact ⟨rfl, rfl, rfl⟩
  · intro i hi ho
    exact hm5 i hi (hm4 i hi (by rw [h3occ]; exact ho))
  · intro hfree i hi ho
    have h43 : t4 = t3 := hid4 (by rw [h3occ]; exact hfree)
    subst h43
    rcases hx5 i hi ho with h | h
    · left; rw [← h3occ]; exact h
    · right; rw [← h3f]; exact h

/-- `insert` always returns on a table whose sentinels are linked. It returns `false`,
leaving the table as it was, exactly when every slot is a live slot with another key;
otherwise it returns `true` having settled on the first slot of the probe sequence that
is not. -/
theorem insert_spec (hash : KeyType → Nat) (hN : 0 < Size) (t : HashTable Size) (hinv : Inv t)
    (key : KeyType) (value : ValueType) :
    ((∀ i, i < Size → ¬ insertStops t key i) ∧ t.insert hash key value = some (false, t)) ∨
    ∃ d t1, d < Size ∧
      (∀ w, w < d → ¬ insertStops t key ((getHash hash Size key + w) % Size)) ∧
      insertStops t key ((getHash hash Size key + d) % Size) ∧
      t.insert hash key value = some (true, t1) ∧
      InsertPost t t1 ((getHash hash Size key + d) % Size) key value := by
  rcases insertLoop_cases hN t key (getHash_lt hash hN key) with ⟨hall, hloop⟩ | ⟨d, hd, hgo, hstop, hloop⟩
  · left
    exact ⟨hall, by simp [insert, hloop]⟩
  · right
    obtain ⟨t1, h1, hpost⟩ := insert_at hash t hinv key value _ hloop
    exact ⟨d, t1, hd, hgo, hstop, h1, hpost⟩

end HashTable
namespace HashTable

variable {Size : Nat}

/-! ### `remove` and `get` -/

/-- `remove` once the probe has answered. -/
theorem remove_at (hash : KeyType → Nat) (t : HashTable Size) (hinv : Inv t) (key : KeyType)
    (j : Nat) (hj : j ≠ Size) (hprobe : getIndexFromProbing hash t key = some j) :
    ∃ t1, t.remove hash key = some (true, t1) ∧ RemovePost t t1 j := by
  obtain ⟨t4, h4, hc4, ho4, hm4, hf4, hl4, -⟩ := unlinkElement_spec t j
  unfold remove
  simp only [hprobe, h4, beq_iff_eq, hj, if_false, modify_modify]
  refine ⟨_, rfl, ⟨?_, ?_⟩, ?_, ?_, ?_, ?_, ?_, ?_⟩
  · simpa using hf4 hinv.1
  · simpa using hl4 hinv.2
  · simp
  · simp
  · simp
  · simpa [isOccupied] using ho4
  · intro i hi
    simp only [modify_data, if_neg (fun h : Ptr.slot j = Ptr.slot i => hi (by injection h with h; exact h.symm))]
    exact hc4 i
  · intro i hi ho
    have := hm4 i hi ho
    simpa [isOccupied, Ne.symm hi] using this

theorem remove_absent (hash : KeyType → Nat) (t : HashTable Size) (key : KeyType)
    (hprobe : getIndexFromProbing hash t key = some Size) :
    t.remove hash key = some (false, t) := by
  simp [remove, hprobe]

/-- `get` once the probe has answered. -/
theorem get_at (hash : KeyType → Nat) (t : HashTable Size) (hinv : Inv t) (key : KeyType)
    (j : Nat) (hj : j ≠ Size) (hprobe : getIndexFromProbing hash t key = some j) :
    ∃ t1, t.get hash key = some ((true, (t.data j).value), t1) ∧ GetPost t t1 j := by
  obtain ⟨t4, h4, hc4, ho4, hm4, hf4, hl4, -⟩ := unlinkElement_spec t j
  obtain ⟨t5, h5, hc5, ho5, hm5, hf5, hl5, -⟩ := linkElement_spec t4 j (hf4 hinv.1)
  unfold get
  simp only [hprobe, h4, h5, beq_iff_eq, hj, if_false]
  refine ⟨t5, by rw [(hc5 j).2.1, (hc4 j).2.1], ⟨by rw [hf5]; simp, hl5 (hl4 hinv.2)⟩, ?_, ho5,
    fun i hi ho => hm5 i hi (hm4 i hi ho), hf5⟩
  intro i
  rw [(hc5 i).1, (hc4 i).1, (hc5 i).2.1, (hc4 i).2.1, (hc5 i).2.2, (hc4 i).2.2]
  exact ⟨rfl, rfl, rfl⟩

theorem get_absent (hash : KeyType → Nat) (t : HashTable Size) (key : KeyType)
    (hprobe : getIndexFromProbing hash t key = some Size) :
    t.get hash key = some ((false, 0), t) := by
  simp [get, hprobe]

/-! ### Reachable tables -/

theorem inv_new (Size : Nat) : Inv (new Size) := by
  simp [Inv, new]

theorem inv_insert (hash : KeyType → Nat) (hN : 0 < Size) {t t1 : HashTable Size} (hinv : Inv t)
    {key : KeyType} {value : ValueType} {b : Bool}
    (h : t.insert hash key value = some (b, t1)) : Inv t1 := by
  rcases insert_spec hash hN t hinv key value with ⟨-, h1⟩ | ⟨d, t2, -, -, -, h1, hpost⟩
  · rw [h1] at h; injection h with h; injection h with _ h; rw [← h]; exact hinv
  · rw [h1] at h; injection h with h; injection h with _ h; rw [← h]; exact hpost.inv

theorem inv_remove (hash : KeyType → Nat) (hN : 0 < Size) {t t1 : HashTable Size} (hinv : Inv t)
    {key : KeyType} {b : Bool} (h : t.remove hash key = some (b, t1)) : Inv t1 := by
  obtain ⟨r, hr, hcase⟩ := getIndexFromProbing_sound hash hN t key
  rcases hcase with rfl | ⟨hlt, -⟩
  · rw [remove_absent hash t key hr] at h
    injection h with h; injection h with _ h; rw [← h]; exact hinv
  · obtain ⟨t2, h2, hpost⟩ := remove_at hash t hinv key r (by omega) hr
    rw [h2] at h; injection h with h; injection h with _ h; rw [← h]; exact hpost.inv

theorem inv_get (hash : KeyType → Nat) (hN : 0 < Size) {t t1 : HashTable Size} (hinv : Inv t)
    {key : KeyType} {r : Bool × ValueType} (h : t.get hash key = some (r, t1)) : Inv t1 := by
  obtain ⟨j, hj, hcase⟩ := getIndexFromProbing_sound hash hN t key
  rcases hcase with rfl | ⟨hlt, -⟩
  · rw [get_absent hash t key hj] at h
    injection h with h; injection h with _ h; rw [← h]; exact hinv
  · obtain ⟨t2, h2, hpost⟩ := get_at hash t hinv key j (by omega) hj
    rw [h2] at h; injection h with h; injection h with _ h; rw [← h]; exact hpost.inv

/-- On a table whose sentinels are linked no operation meets a null pointer or runs out
of iterations: each of them returns. -/
theorem operations_return (hash : KeyType → Nat) (hN : 0 < Size) (t : HashTable Size)
    (hinv : Inv t) (key : KeyType) (value : ValueType) :
    (∃ b t1, t.insert hash key value = some (b, t1)) ∧
    (∃ b t1, t.remove hash key = some (b, t1)) ∧
    (∃ r t1, t.get hash key = some (r, t1)) ∧
    (∃ r, t.get_last = some r) ∧ (∃ r, t.get_first = some r) := by
  refine ⟨?_, ?_, ?_, ?_, ?_⟩
  · rcases insert_spec hash hN t hinv key value with ⟨-, h⟩ | ⟨d, t1, -, -, -, h, -⟩
    · exact ⟨false, t, h⟩
    · exact ⟨true, t1, h⟩
  · obtain ⟨r, hr, hcase⟩ := getIndexFromProbing_sound hash hN t key
    rcases hcase with rfl | ⟨hlt, -⟩
    · exact ⟨false, t, remove_absent hash t key hr⟩
    · obtain ⟨t1, h1, -⟩ := remove_at hash t hinv key r (by omega) hr
      exact ⟨true, t1, h1⟩
  · obtain ⟨r, hr, hcase⟩ := getIndexFromProbing_sound hash hN t key
    rcases hcase with rfl | ⟨hlt, -⟩
    · exact ⟨_, t, get_absent hash t key hr⟩
    · obtain ⟨t1, h1, -⟩ := get_at hash t hinv key r (by omega) hr
      exact ⟨_, t1, h1⟩
  · obtain ⟨p, hp⟩ := Option.ne_none_iff_exists'.1 hinv.1
    unfold get_last
    rw [hp]
    split_ifs
    · exact ⟨_, rfl⟩
    · exact ⟨_, rfl⟩
  · obtain ⟨p, hp⟩ := Option.ne_none_iff_exists'.1 hinv.2
    unfold get_first
    rw [hp]
    split_ifs
    · exact ⟨_, rfl⟩
    · exact ⟨_, rfl⟩

/-- In every reachable table the sentinels' inner links are set. -/
theorem Reachable.inv (hash : KeyType → Nat) (hN : 0 < Size) {t : HashTable Size}
    (h : Reachable hash t) : Inv t := by
  induction h with
  | init => exact inv_new Size
  | insert key value _ hstep ih => exact inv_insert hash hN ih hstep
  | remove key _ hstep ih => exact inv_remove hash hN ih hstep
  | get key _ hstep ih => exact inv_get hash hN ih hstep

end HashTable

namespace HashTable

variable {Size : Nat}

theorem probe_inj (start : Nat) {w d : Nat} (hw : w < d) (hd : d < Size) :
    (start + w) % Size ≠ (start + d) % Size := by
  intro h
  have h1 : w ≡ d [MOD Size] := Nat.ModEq.add_left_cancel' start h
  have h2 : w % Size = d % Size := h1
  rw [Nat.mod_eq_of_lt (by omega), Nat.mod_eq_of_lt hd] at h2
  omega

/-- C1. In every reachable table, for every key (the empty key included) and value: when
`insert key value` returns `true`, a `get key` issued next returns `(true, value)`. -/
theorem C1_insert_then_get (hash : KeyType → Nat) (hN : 0 < Size) {t t1 : HashTable Size}
    (hreach : Reachable hash t) (key : KeyType) (value : ValueType)
    (hins : t.insert hash key value = some (true, t1)) :
    ∃ t2, t1.get hash key = some ((true, value), t2) := by
  have hinv := hreach.inv hash hN
  rcases insert_spec hash hN t hinv key value with ⟨-, h1⟩ | ⟨d, t2, hd, hgo, -, h1, hpost⟩
  · rw [h1] at hins; simp at hins
  · rw [h1] at hins
    obtain rfl : t2 = t1 := by simpa using hins
    have hprobe := getIndexFromProbing_found hash t2 key d hd
      (fun w hw => by
        have hne := probe_inj (getHash hash Size key) hw hd
        rw [(hpost.others _ hne).1]
        have := hgo w hw
        unfold insertStops at this
        simp only [not_not] at this
        exact this.2)
      (fun w hw => by
        rcases Nat.lt_or_eq_of_le hw with hlt | rfl
        · have hne := probe_inj (getHash hash Size key) hlt hd
          have := hgo w hlt
          unfold insertStops at this
          simp only [not_not] at this
          simp [nonFree, hpost.occupied_mono _ hne this.1]
        · simp [nonFree, hpost.occupied])
      hpost.key_eq
    obtain ⟨t3, h3, -⟩ := get_at hash t2 hpost.inv key _
      (Nat.ne_of_lt (Nat.mod_lt _ hN)) hprobe
    exact ⟨t3, by rw [h3, hpost.value_eq]⟩

end HashTable

/-- C1 at a concrete table: a new `HashTable<1>` and the pair `("k", 7)`. -/
theorem C1_insert_then_get_witness :
    ∃ t2, witnessTable1.get (fun _ => 0) "k" = some ((true, 7), t2) :=
  HashTable.C1_insert_then_get (fun _ => 0) (by decide) HashTable.Reachable.init "k" 7 rfl

namespace HashTable

variable {Size : Nat}

theorem get_last_of_head (t : HashTable Size) (j : Nat)
    (h : t.firstElement.rightElement = some (Ptr.slot j)) :
    t.get_last = some (true, ((t.data j).key, (t.data j).value)) := by
  simp [get_last, h, elem]

/-- C6. In every reachable table: (a) when `insert key value` returns `true`, `get_last`
called next returns `(true, (key, value))`; (b) when `get key` returns `(true, w)`,
`get_last` called next returns `(true, (key, w))`. The touched slot is the one at
`firstElement.rightElement`. -/
theorem C6_touched_is_last (hash : KeyType → Nat) (hN : 0 < Size) {t : HashTable Size}
    (hreach : Reachable hash t) (key : KeyType) (value w : ValueType) (t1 : HashTable Size) :
    (t.insert hash key value = some (true, t1) →
      t1.get_last = some (true, (key, value))) ∧
    (t.get hash key = some ((true, w), t1) → t1.get_last = some (true, (key, w))) := by
  have hinv := hreach.inv hash hN
  constructor
  · intro hins
    rcases insert_spec hash hN t hinv key value with ⟨-, h1⟩ | ⟨d, t2, -, -, -, h1, hpost⟩
    · rw [h1] at hins; simp at hins
    · rw [h1] at hins
      obtain rfl : t2 = t1 := by simpa using hins
      rw [get_last_of_head t2 _ hpost.head, hpost.key_eq, hpost.value_eq]
  · intro hget
    obtain ⟨j, hj, hcase⟩ := getIndexFromProbing_sound hash hN t key
    rcases hcase with rfl | ⟨hlt, hkey⟩
    · rw [get_absent hash t key hj] at hget; simp at hget
    · obtain ⟨t2, h2, hpost⟩ := get_at hash t hinv key j (by omega) hj
      rw [h2] at hget
      simp only [Option.some.injEq, Prod.mk.injEq, true_and] at hget
      obtain ⟨hw, rfl⟩ := hget
      rw [get_last_of_head t2 _ hpost.head, (hpost.content j).1, (hpost.content j).2.1, hkey, hw]

end HashTable

/-- C6 at a concrete table: `insert("k", 7)` on a new `HashTable<1>`, then `get("k")`. -/
theorem C6_touched_is_last_witness :
    witnessTable1.get_last = some (true, ("k", 7)) ∧
    witnessTable2.get_last = some (true, ("k", 7)) :=
  ⟨(HashTable.C6_touched_is_last (fun _ => 0) (by decide) HashTable.Reachable.init
      "k" 7 0 witnessTable1).1 rfl,
   (HashTable.C6_touched_is_last (fun _ => 0) (by decide)
      (HashTable.Reachable.insert "k" 7 HashTable.Reachable.init
        (rfl : (HashTable.new 1).insert (fun _ => 0) "k" 7 = some (true, witnessTable1)))
      "k" 0 7 witnessTable2).2 rfl⟩
namespace HashTable

variable {Size : Nat}

/-! ### The operations use the hash function only at their key -/

theorem insert_congr (hash1 hash2 : KeyType → Nat) (t : HashTable Size) (key : KeyType)
    (value : ValueType) (h : getHash hash1 Size key = getHash hash2 Size key) :
    t.insert hash1 key value = t.insert hash2 key value := by
  unfold insert; rw [h]

theorem getIndexFromProbing_congr (hash1 hash2 : KeyType → Nat) (t : HashTable Size)
    (key : KeyType) (h : getHash hash1 Size key = getHash hash2 Size key) :
    getIndexFromProbing hash1 t key = getIndexFromProbing hash2 t key := by
  unfold getIndexFromProbing; rw [h]

theorem get_congr (hash1 hash2 : KeyType → Nat) (t : HashTable Size) (key : KeyType)
    (h : getHash hash1 Size key = getHash hash2 Size key) :
    t.get hash1 key = t.get hash2 key := by
  unfold get; rw [getIndexFromProbing_congr hash1 hash2 t key h]

theorem remove_congr (hash1 hash2 : KeyType → Nat) (t : HashTable Size) (key : KeyType)
    (h : getHash hash1 Size key = getHash hash2 Size key) :
    t.remove hash1 key = t.remove hash2 key := by
  unfold remove; rw [getIndexFromProbing_congr hash1 hash2 t key h]

end HashTable

theorem scenarioE1_congr (hash : KeyType → Nat) :
    scenarioE1 hash = scenarioE1 (hashE1 (hash "aa" % 5) (hash "bb" % 5) (hash "cc" % 5)) := by
  have ha : HashTable.getHash hash 5 "aa" =
      HashTable.getHash (hashE1 (hash "aa" % 5) (hash "bb" % 5) (hash "cc" % 5)) 5 "aa" := by
    simp [HashTable.getHash, hashE1]
  have hb : HashTable.getHash hash 5 "bb" =
      HashTable.getHash (hashE1 (hash "aa" % 5) (hash "bb" % 5) (hash "cc" % 5)) 5 "bb" := by
    simp [HashTable.getHash, hashE1]
  have hc : HashTable.getHash hash 5 "cc" =
      HashTable.getHash (hashE1 (hash "aa" % 5) (hash "bb" % 5) (hash "cc" % 5)) 5 "cc" := by
    simp [HashTable.getHash, hashE1]
  unfold scenarioE1
  simp only [HashTable.insert_congr hash _ _ "aa" _ ha, HashTable.insert_congr hash _ _ "bb" _ hb,
    HashTable.insert_congr hash _ _ "cc" _ hc, HashTable.get_congr hash _ _ "aa" ha]

theorem scenarioE1_residues :
    ∀ a, a < 5 → ∀ b, b < 5 → ∀ c, c < 5 → scenarioE1Answers (hashE1 a b c) := by
  decide

/-- C7 (as amended). Scenario E1, for every hash function: on a new table of capacity 5,
after `insert("aa",1)`, `insert("bb",2)`, `insert("cc",3)` and `get("aa")`, which returns
`(true,1)`, `get_first()` returns `("bb",2)`, the least recently touched entry, and
`get_last()` returns `("aa",1)`. -/
theorem C7_scenarioE1 (hash : KeyType → Nat) :
    (scenarioE1 hash).map Prod.fst = some (true, 1) ∧
    (scenarioE1 hash).bind (fun x => x.2.get_first) = some (true, ("bb", 2)) ∧
    (scenarioE1 hash).bind (fun x => x.2.get_last) = some (true, ("aa", 1)) := by
  rw [scenarioE1_congr hash]
  exact scenarioE1_residues _ (Nat.mod_lt _ (by decide)) _ (Nat.mod_lt _ (by decide)) _
    (Nat.mod_lt _ (by decide))

/-- C7 (as stated) fails: with the hash function that is constantly `0`, `get_first()`
after scenario E1 returns `("bb",2)`, not `("cc",3)`. -/
theorem C7_scenarioE1_counterexample :
    (scenarioE1 (fun _ => 0)).bind (fun x => x.2.get_first) = some (true, ("bb", 2)) ∧
    (scenarioE1 (fun _ => 0)).bind (fun x => x.2.get_first) ≠ some (true, ("cc", 3)) := by
  decide
/-! ### Filling a new table with distinct keys -/

theorem filled_new (Size : Nat) : Filled (HashTable.new Size) [] [] where
  inv := HashTable.inv_new Size
  head := Or.inl rfl
  nodup := List.nodup_nil
  bound := fun _ h => absurd h (List.not_mem_nil _)
  length_eq := rfl
  occupied_iff := fun i _ => by simp [HashTable.new, HashTable.isOccupied]
  keys_mem := fun _ h => absurd h (List.not_mem_nil _)
  keys_cover := fun _ h => absurd h (List.not_mem_nil _)
  no_tombstone := fun _ => rfl

/-- A duplicate-free list of slot indices below `n` of length `n` lists every index. -/
theorem mem_of_nodup_of_length {n : Nat} {js : List Nat} (hnd : js.Nodup)
    (hb : ∀ j, j ∈ js → j < n) (hlen : n ≤ js.length) : ∀ i, i < n → i ∈ js := by
  intro i hi
  have hsub : js.toFinset ⊆ Finset.range n := by
    intro j hj
    exact Finset.mem_range.2 (hb j (List.mem_toFinset.1 hj))
  have hcard : (Finset.range n).card ≤ js.toFinset.card := by
    rw [List.toFinset_card_of_nodup hnd, Finset.card_range]; exact hlen
  have := Finset.eq_of_subset_of_card_le hsub hcard
  exact List.mem_toFinset.1 (this ▸ Finset.mem_range.2 hi)

/-- A duplicate-free list of fewer than `n` slot indices misses some index below `n`. -/
theorem exists_not_mem_of_length_lt {n : Nat} {js : List Nat} (hnd : js.Nodup)
    (hlen : js.length < n) : ∃ i, i < n ∧ i ∉ js := by
  by_contra hcon
  push_neg at hcon
  have hsub : Finset.range n ⊆ js.toFinset := by
    intro i hi
    exact List.mem_toFinset.2 (hcon i (Finset.mem_range.1 hi))
  have := Finset.card_le_card hsub
  rw [List.toFinset_card_of_nodup hnd, Finset.card_range] at this
  omega

/-- In a table holding fewer than `Size` distinct keys, `insert` of a further key returns
`true` and takes a slot that was not occupied. -/
theorem filled_insert (hash : KeyType → Nat) {Size : Nat} (hN : 0 < Size) {t : HashTable Size}
    {ks : List KeyType} {js : List Nat} (hf : Filled t ks js) (hlen : ks.length < Size)
    (key : KeyType) (hkey : key ∉ ks) (value : ValueType) :
    ∃ t1 j, t.insert hash key value = some (true, t1) ∧ Filled t1 (key :: ks) (j :: js) := by
  obtain ⟨i0, hi0, hi0js⟩ := exists_not_mem_of_length_lt hf.nodup (hf.length_eq ▸ hlen)
  have hstop0 : HashTable.insertStops t key i0 := by
    intro h
    exact hi0js ((hf.occupied_iff i0 hi0).1 h.1)
  rcases HashTable.insert_spec hash hN t hf.inv key value with
    ⟨hall, -⟩ | ⟨d, t1, hd, -, hstop, h1, hpost⟩
  · exact absurd hstop0 (hall i0 hi0)
  · have hjlt : (HashTable.getHash hash Size key + d) % Size < Size := Nat.mod_lt _ hN
    generalize (HashTable.getHash hash Size key + d) % Size = j at hstop hpost hjlt
    have hjfree : t.isOccupied j = false := by
      cases ho : t.isOccupied j
      · rfl
      · exfalso
        have hmem := (hf.occupied_iff j hjlt).1 ho
        apply hstop
        refine ⟨ho, fun hk => hkey (hk ▸ hf.keys_mem j hmem)⟩
    have hjnot : j ∉ js := fun hmem => by
      have := (hf.occupied_iff j hjlt).2 hmem
      rw [hjfree] at this; exact Bool.noConfusion this
    refine ⟨t1, j, h1, ?_⟩
    refine ⟨hpost.inv, Or.inr ⟨j, hpost.head, hpost.occupied⟩, List.nodup_cons.2 ⟨hjnot, hf.nodup⟩,
      ?_, by simp [hf.length_eq], ?_, ?_, ?_, ?_⟩
    · intro i hi
      rcases List.mem_cons.1 hi with rfl | hi
      · exact hjlt
      · exact hf.bound i hi
    · intro i hi
      by_cases hij : i = j
      · subst hij; simp [hpost.occupied]
      · constructor
        · intro ho
          refine List.mem_cons_of_mem _ ((hf.occupied_iff i hi).1 ?_)
          rcases hpost.occupied_exact hjfree i hij ho with h | h
          · exact h
          · rcases hf.head with h2 | ⟨i2, h2, ho2⟩
            · rw [h2] at h; simp at h
            · rw [h2] at h
              obtain rfl : i2 = i := by simpa using h
              exact ho2
        · intro hmem
          rcases List.mem_cons.1 hmem with h | h
          · exact absurd h hij
          · exact hpost.occupied_mono i hij ((hf.occupied_iff i hi).2 h)
    · intro i hi
      rcases List.mem_cons.1 hi with rfl | hi
      · rw [hpost.key_eq]; exact List.mem_cons_self _ _
      · have hij : i ≠ j := fun h => hjnot (h ▸ hi)
        rw [(hpost.others i hij).1]
        exact List.mem_cons_of_mem _ (hf.keys_mem i hi)
    · intro k hk
      rcases List.mem_cons.1 hk with rfl | hk
      · exact ⟨j, List.mem_cons_self _ _, hpost.key_eq⟩
      · obtain ⟨i, hi, hik⟩ := hf.keys_cover k hk
        have hij : i ≠ j := fun h => hjnot (h ▸ hi)
        exact ⟨i, List.mem_cons_of_mem _ hi, by rw [(hpost.others i hij).1, hik]⟩
    · intro i
      by_cases hij : i = j
      · subst hij; exact hpost.erased_eq
      · rw [(hpost.others i hij).2.2]; exact hf.no_tombstone i

/-- Inserting pairwise distinct new keys, as long as they fit, succeeds every time. -/
theorem insertMany_filled (hash : KeyType → Nat) {Size : Nat} (hN : 0 < Size) :
    ∀ (kvs : List (KeyType × ValueType)) (t : HashTable Size) (ks : List KeyType)
      (js : List Nat), Filled t ks js → (kvs.map Prod.fst).Nodup →
      (∀ k, k ∈ kvs.map Prod.fst → k ∉ ks) → ks.length + kvs.length ≤ Size →
      ∃ t1 js1, insertMany hash t kvs = some (List.replicate kvs.length true, t1) ∧
        Filled t1 ((kvs.map Prod.fst).reverse ++ ks) js1 := by
  intro kvs
  induction kvs with
  | nil =>
    intro t ks js hf _ _ _
    exact ⟨t, js, rfl, by simpa using hf⟩
  | cons kv rest ih =>
    intro t ks js hf hnd hnew hlen
    obtain ⟨key, value⟩ := kv
    simp only [List.map_cons, List.nodup_cons] at hnd
    simp only [List.length_cons] at hlen
    obtain ⟨t1, j, h1, hf1⟩ := filled_insert hash hN hf (by omega) key
      (hnew key (by simp)) value
    obtain ⟨t2, js2, h2, hf2⟩ := ih t1 (key :: ks) (j :: js) hf1 hnd.2
      (fun k hk hmem => by
        rcases List.mem_cons.1 hmem with rfl | hmem
        · exact hnd.1 hk
        · exact hnew k (by simp only [List.map_cons]; exact List.mem_cons_of_mem _ hk) hmem)
      (by simp only [List.length_cons]; omega)
    refine ⟨t2, js2, ?_, ?_⟩
    · simp [insertMany, h1, h2, List.replicate_succ]
    · simpa [List.reverse_cons, List.append_assoc] using hf2

/-- A new table filled with `Size` pairwise distinct keys: every insert returned `true`,
every slot is occupied, no slot is erased, and the keys in the slots are the given keys. -/
theorem insertMany_new (hash : KeyType → Nat) {Size : Nat} (hN : 0 < Size)
    (kvs : List (KeyType × ValueType)) (hlen : kvs.length = Size)
    (hnd : (kvs.map Prod.fst).Nodup) :
    ∃ t, insertMany hash (HashTable.new Size) kvs = some (List.replicate Size true, t) ∧
      HashTable.Inv t ∧
      (∀ i, i < Size → t.isOccupied i = true ∧ (t.data i).key ∈ kvs.map Prod.fst) ∧
      (∀ k, k ∈ kvs.map Prod.fst → ∃ i, i < Size ∧ (t.data i).key = k) := by
  obtain ⟨t, js, h1, hf⟩ := insertMany_filled hash hN kvs (HashTable.new Size) [] []
    (filled_new Size) hnd (fun _ _ h => absurd h (List.not_mem_nil _)) (by simp [hlen])
  simp only [List.append_nil] at hf
  have hall := mem_of_nodup_of_length hf.nodup hf.bound
    (by rw [hf.length_eq]; simp [hlen])
  refine ⟨t, by rw [h1, hlen], hf.inv, ?_, ?_⟩
  · intro i hi
    exact ⟨(hf.occupied_iff i hi).2 (hall i hi), by simpa using hf.keys_mem i (hall i hi)⟩
  · intro k hk
    obtain ⟨j, hj, hjk⟩ := hf.keys_cover k (by simpa using hk)
    exact ⟨j, hf.bound j hj, hjk⟩

/-- C8. Capacity refusal: for every `Size >= 1` and every hash function, the `Size`
inserts of pairwise distinct keys into a new table all return `true`, and after them
`insert` of any key distinct from all of them returns `false`. -/
theorem C8_capacity_refusal (hash : KeyType → Nat) {Size : Nat} (hN : 1 ≤ Size)
    (kvs : List (KeyType × ValueType)) (hlen : kvs.length = Size)
    (hnd : (kvs.map Prod.fst).Nodup) (key : KeyType) (hkey : key ∉ kvs.map Prod.fst)
    (value : ValueType) :
    ∃ t, insertMany hash (HashTable.new Size) kvs = some (List.replicate Size true, t) ∧
      t.insert hash key value = some (false, t) := by
  obtain ⟨t, h1, hinv, hocc, -⟩ := insertMany_new hash hN kvs hlen hnd
  refine ⟨t, h1, ?_⟩
  rcases HashTable.insert_spec hash hN t hinv key value with ⟨-, h⟩ | ⟨d, t1, hd, -, hstop, -, -⟩
  · exact h
  · exfalso
    have := hocc _ (Nat.mod_lt (HashTable.getHash hash Size key + d) hN)
    exact hstop ⟨this.1, fun h => hkey (h ▸ this.2)⟩

/-- C8 at the table of scenario E4: three keys fill a `HashTable<3>`, `"four"` is
refused. -/
theorem C8_capacity_refusal_witness :
    ∃ t, insertMany (fun k => k.length) (HashTable.new 3) [("one", 1), ("two", 2), ("three", 3)] =
        some (List.replicate 3 true, t) ∧
      t.insert (fun k => k.length) "four" 4 = some (false, t) :=
  C8_capacity_refusal (fun k => k.length) (by decide) [("one", 1), ("two", 2), ("three", 3)]
    rfl (by decide) "four" (by decide) 4

/-- C9. Capacity recovery: for every `Size >= 1`, on a new table filled by `Size` inserts
of pairwise distinct keys, `remove` of any one of those keys returns `true` and leaves
its slot `j` erased, and an `insert` of a key distinct from all the original keys issued
next returns `true`, storing the pair in that same slot `j`. -/
theorem C9_capacity_recovery (hash : KeyType → Nat) {Size : Nat} (hN : 1 ≤ Size)
    (kvs : List (KeyType × ValueType)) (hlen : kvs.length = Size)
    (hnd : (kvs.map Prod.fst).Nodup) (old : KeyType) (hold : old ∈ kvs.map Prod.fst)
    (key : KeyType) (hkey : key ∉ kvs.map Prod.fst) (value : ValueType) :
    ∃ t t1 t2 j, insertMany hash (HashTable.new Size) kvs = some (List.replicate Size true, t) ∧
      t.remove hash old = some (true, t1) ∧
      t1.insert hash key value = some (true, t2) ∧
      j < Size ∧ (t.data j).key = old ∧
      t1.isOccupied j = false ∧ (t1.data j).erased = true ∧
      t2.isOccupied j = true ∧ (t2.data j).key = key ∧ (t2.data j).value = value := by
  classical
  obtain ⟨t, h1, hinv, hocc, hcover⟩ := insertMany_new hash hN kvs hlen hnd
  have hs := HashTable.getHash_lt hash hN old
  -- the probe for `old` meets a slot holding it
  have hex : ∃ d, d < Size ∧ (t.data ((HashTable.getHash hash Size old + d) % Size)).key = old := by
    obtain ⟨i, hi, hik⟩ := hcover old hold
    obtain ⟨d, hd, rfl⟩ := HashTable.probe_cover hs hi
    exact ⟨d, hd, hik⟩
  have hprobe := HashTable.getIndexFromProbing_found hash t old (Nat.find hex)
    (Nat.find_spec hex).1
    (fun w hw hk => Nat.find_min hex hw ⟨lt_trans hw (Nat.find_spec hex).1, hk⟩)
    (fun w _ => by simp [HashTable.nonFree, (hocc _ (Nat.mod_lt _ hN)).1])
    (Nat.find_spec hex).2
  have hjlt : (HashTable.getHash hash Size old + Nat.find hex) % Size < Size := Nat.mod_lt _ hN
  have hjkey := (Nat.find_spec hex).2
  generalize (HashTable.getHash hash Size old + Nat.find hex) % Size = j at hprobe hjlt hjkey
  obtain ⟨t1, h2, hrem⟩ := HashTable.remove_at hash t hinv old j (Nat.ne_of_lt hjlt) hprobe
  -- every other slot of `t1` is still a live slot with one of the original keys
  have hothers : ∀ i, i < Size → i ≠ j → ¬ HashTable.insertStops t1 key i := by
    intro i hi hij hstop
    apply hstop
    refine ⟨hrem.occupied_mono i hij (hocc i hi).1, ?_⟩
    rw [(hrem.others i hij).1]
    exact fun h => hkey (h ▸ (hocc i hi).2)
  rcases HashTable.insert_spec hash hN t1 hrem.inv key value with
    ⟨hall, -⟩ | ⟨d, t2, hd, -, hstop, h3, hpost⟩
  · exfalso
    apply hall j hjlt
    intro h
    rw [hrem.unoccupied] at h
    exact Bool.noConfusion h.1
  · have hdj : (HashTable.getHash hash Size key + d) % Size = j := by
      by_contra hne
      exact hothers _ (Nat.mod_lt _ hN) hne hstop
    rw [hdj] at hpost
    exact ⟨t, t1, t2, j, h1, h2, h3, hjlt, hjkey, hrem.unoccupied, hrem.erased_eq,
      hpost.occupied, hpost.key_eq, hpost.value_eq⟩

/-- C9 at the table of scenario E4: after `remove("three")` the key `"four"` is
accepted. -/
theorem C9_capacity_recovery_witness :
    ∃ t t1 t2 j,
      insertMany (fun k => k.length) (HashTable.new 3) [("one", 1), ("two", 2), ("three", 3)] =
        some (List.replicate 3 true, t) ∧
      t.remove (fun k => k.length) "three" = some (true, t1) ∧
      t1.insert (fun k => k.length) "four" 4 = some (true, t2) ∧
      j < 3 ∧ (t.data j).key = "three" ∧
      t1.isOccupied j = false ∧ (t1.data j).erased = true ∧
      t2.isOccupied j = true ∧ (t2.data j).key = "four" ∧ (t2.data j).value = 4 :=
  C9_capacity_recovery (fun k => k.length) (by decide) [("one", 1), ("two", 2), ("three", 3)]
    rfl (by decide) "three" (by decide) "four" (by decide) 4
/-! ### Lookups that find what is not there -/

theorem getHash_one (hash : KeyType → Nat) (key : KeyType) :
    HashTable.getHash hash 1 key = HashTable.getHash (fun _ => 0) 1 key := by
  simp [HashTable.getHash, Nat.mod_one]

theorem removeEmptyKeyThenGet_congr (hash : KeyType → Nat) :
    removeEmptyKeyThenGet hash = removeEmptyKeyThenGet (fun _ => 0) := by
  unfold removeEmptyKeyThenGet
  simp only [HashTable.insert_congr hash (fun _ => 0) _ _ _ (getHash_one hash _),
    HashTable.remove_congr hash (fun _ => 0) _ _ (getHash_one hash _),
    HashTable.get_congr hash (fun _ => 0) _ _ (getHash_one hash _)]

theorem removeDuplicateThenGet_congr (hash : KeyType → Nat) (x y : KeyType) (r : Nat)
    (hx : hash x % 2 = r % 2) (hy : hash y % 2 = r % 2) :
    removeDuplicateThenGet hash x y = removeDuplicateThenGet (fun _ => r) x y := by
  have hx1 : HashTable.getHash hash 2 x = HashTable.getHash (fun _ => r) 2 x := hx
  have hy1 : HashTable.getHash hash 2 y = HashTable.getHash (fun _ => r) 2 y := hy
  unfold removeDuplicateThenGet
  simp only [HashTable.insert_congr hash (fun _ => r) _ x _ hx1,
    HashTable.insert_congr hash (fun _ => r) _ y _ hy1,
    HashTable.remove_congr hash (fun _ => r) _ x hx1,
    HashTable.remove_congr hash (fun _ => r) _ y hy1,
    HashTable.get_congr hash (fun _ => r) _ y hy1]

theorem removeDuplicateThenGet_collision :
    ∀ r, r < 2 → ∀ x, x ∈ ["a", "b", "c"] → ∀ y, y ∈ ["a", "b", "c"] → x ≠ y →
      removeDuplicateThenGet (fun _ => r) x y = some (true, (true, 2)) := by
  decide

/-- C2 fails on the code. (1) The empty key, for every hash function: on a
`HashTable<1>`, after `insert("",5)` the call `remove("")` returns `true` and the
`get("")` issued next returns `(true, 0)`, not `(false, 0)`. (2) A key stored twice, for
every hash function: on a `HashTable<2>` two of the keys `"a"`, `"b"`, `"c"` share a home
slot; for such `x`, `y`, after `insert(x,1)`, `insert(y,2)`, `remove(x)`, `insert(y,3)`
the call `remove(y)` returns `true` and the `get(y)` issued next returns `(true, 2)`. -/
theorem C2_remove_then_get_still_found (hash : KeyType → Nat) :
    removeEmptyKeyThenGet hash = some (true, (true, 0)) ∧
    ∃ x y, x ∈ ["a", "b", "c"] ∧ y ∈ ["a", "b", "c"] ∧ x ≠ y ∧ hash x % 2 = hash y % 2 ∧
      removeDuplicateThenGet hash x y = some (true, (true, 2)) := by
  constructor
  · rw [removeEmptyKeyThenGet_congr]; decide
  · have key : ∀ x y, x ∈ ["a", "b", "c"] → y ∈ ["a", "b", "c"] → x ≠ y →
        hash x % 2 = hash y % 2 →
        removeDuplicateThenGet hash x y = some (true, (true, 2)) := by
      intro x y hx hy hxy hcol
      rw [removeDuplicateThenGet_congr hash x y (hash y % 2) (by omega) (by omega)]
      exact removeDuplicateThenGet_collision _ (Nat.mod_lt _ (by decide)) x hx y hy hxy
    have ha : hash "a" % 2 < 2 := Nat.mod_lt _ (by decide)
    have hb : hash "b" % 2 < 2 := Nat.mod_lt _ (by decide)
    have hc : hash "c" % 2 < 2 := Nat.mod_lt _ (by decide)
    by_cases hab : hash "a" % 2 = hash "b" % 2
    · exact ⟨"a", "b", by decide, by decide, by decide, hab,
        key _ _ (by decide) (by decide) (by decide) hab⟩
    · by_cases hac : hash "a" % 2 = hash "c" % 2
      · exact ⟨"a", "c", by decide, by decide, by decide, hac,
          key _ _ (by decide) (by decide) (by decide) hac⟩
      · have hbc : hash "b" % 2 = hash "c" % 2 := by omega
        exact ⟨"b", "c", by decide, by decide, by decide, hbc,
          key _ _ (by decide) (by decide) (by decide) hbc⟩
theorem tombstoneTable_reachable (hash : KeyType → Nat) {t : HashTable 1}
    (h : tombstoneTable hash = some t) : HashTable.Reachable hash t := by
  unfold tombstoneTable at h
  split at h
  · exact absurd h (by simp)
  · rename_i b1 t1 h1
    split at h
    · exact absurd h (by simp)
    · rename_i b2 t2 h2
      obtain rfl : t2 = t := by simpa using h
      exact HashTable.Reachable.remove "x"
        (HashTable.Reachable.insert "x" 1 HashTable.Reachable.init h1) h2

theorem tombstoneAnswers_congr (hash : KeyType → Nat) :
    tombstoneAnswers hash ↔ tombstoneAnswers (fun _ => 0) := by
  have h : tombstoneTable hash = tombstoneTable (fun _ => 0) := by
    unfold tombstoneTable
    simp only [HashTable.insert_congr hash (fun _ => 0) _ _ _ (getHash_one hash _),
      HashTable.remove_congr hash (fun _ => 0) _ _ (getHash_one hash _)]
  unfold tombstoneAnswers
  simp only [h, HashTable.remove_congr hash (fun _ => 0) _ _ (getHash_one hash _),
    HashTable.get_congr hash (fun _ => 0) _ _ (getHash_one hash _)]

/-- C10 fails on the code for the empty key, with every hash function: on a
`HashTable<1>`, `insert("x",1)` and `remove("x")` lead to a reachable table `t` whose only
slot is not live, on which `remove("")` returns `true` and `get("")` returns `(true, 0)`. -/
theorem C10_absent_empty_key_found (hash : KeyType → Nat) :
    ∃ t, tombstoneTable hash = some t ∧ HashTable.Reachable hash t ∧
      t.isOccupied 0 = false ∧
      (t.remove hash "").map Prod.fst = some true ∧
      (t.get hash "").map Prod.fst = some (true, 0) := by
  have h : tombstoneAnswers hash := (tombstoneAnswers_congr hash).2 (by decide)
  unfold tombstoneAnswers at h
  cases ht : tombstoneTable hash with
  | none => rw [ht] at h; simp at h
  | some t =>
    rw [ht] at h
    exact ⟨t, rfl, tombstoneTable_reachable hash ht, by simpa using h.1, by simpa using h.2.1,
      by simpa using h.2.2⟩

namespace HashTable

variable {Size : Nat}

/-- In a reachable table a slot that is not occupied has an empty key. -/
theorem Reachable.key_of_unoccupied (hash : KeyType → Nat) (hN : 0 < Size) {t : HashTable Size}
    (h : Reachable hash t) : ∀ i, t.isOccupied i = false → (t.data i).key = "" := by
  induction h with
  | init => intro i _; rfl
  | @insert t t1 b key value hreach hstep ih =>
    have hinv := hreach.inv hash hN
    rcases insert_spec hash hN t hinv key value with ⟨-, h1⟩ | ⟨d, t2, -, -, -, h1, hpost⟩
    · rw [h1] at hstep
      obtain rfl : t = t1 := by
        simp only [Option.some.injEq, Prod.mk.injEq] at hstep; exact hstep.2
      exact ih
    · rw [h1] at hstep
      obtain rfl : t2 = t1 := by
        simp only [Option.some.injEq, Prod.mk.injEq] at hstep; exact hstep.2
      intro i hi
      by_cases hij : i = (getHash hash Size key + d) % Size
      · rw [hij, hpost.occupied] at hi; exact Bool.noConfusion hi
      · rw [(hpost.others i hij).1]
        apply ih
        cases ho : t.isOccupied i
        · rfl
        · rw [hpost.occupied_mono i hij ho] at hi; exact Bool.noConfusion hi
  | @remove t t1 b key hreach hstep ih =>
    have hinv := hreach.inv hash hN
    obtain ⟨r, hr, hcase⟩ := getIndexFromProbing_sound hash hN t key
    rcases hcase with rfl | ⟨hlt, -⟩
    · rw [remove_absent hash t key hr] at hstep
      obtain rfl : t = t1 := by
        simp only [Option.some.injEq, Prod.mk.injEq] at hstep; exact hstep.2
      exact ih
    · obtain ⟨t2, h2, hpost⟩ := remove_at hash t hinv key r (by omega) hr
      rw [h2] at hstep
      obtain rfl : t2 = t1 := by
        simp only [Option.some.injEq, Prod.mk.injEq] at hstep; exact hstep.2
      intro i hi
      by_cases hij : i = r
      · rw [hij]; exact hpost.key_eq
      · rw [(hpost.others i hij).1]
        apply ih
        cases ho : t.isOccupied i
        · rfl
        · rw [hpost.occupied_mono i hij ho] at hi; exact Bool.noConfusion hi
  | @get t t1 r key hreach hstep ih =>
    have hinv := hreach.inv hash hN
    obtain ⟨j, hj, hcase⟩ := getIndexFromProbing_sound hash hN t key
    rcases hcase with rfl | ⟨hlt, -⟩
    · rw [get_absent hash t key hj] at hstep
      obtain rfl : t = t1 := by
        simp only [Option.some.injEq, Prod.mk.injEq] at hstep; exact hstep.2
      exact ih
    · obtain ⟨t2, h2, hpost⟩ := get_at hash t hinv key j (by omega) hj
      rw [h2] at hstep
      obtain rfl : t2 = t1 := by
        simp only [Option.some.injEq, Prod.mk.injEq] at hstep; exact hstep.2
      intro i hi
      by_cases hij : i = j
      · rw [hij, hpost.occupied] at hi; exact Bool.noConfusion hi
      · rw [(hpost.content i).1]
        apply ih
        cases ho : t.isOccupied i
        · rfl
        · rw [hpost.occupied_mono i hij ho] at hi; exact Bool.noConfusion hi

/-- Key absence for a non-empty key: in every reachable table, a non-empty key that no
live slot holds is reported absent by `remove` and by `get`, and the table is left as it
was. -/
theorem absent_nonempty_key (hash : KeyType → Nat) (hN : 0 < Size) {t : HashTable Size}
    (hreach : Reachable hash t) (key : KeyType) (hne : key ≠ "")
    (habs : ∀ i, i < Size → t.isOccupied i = true → (t.data i).key ≠ key) :
    t.remove hash key = some (false, t) ∧ t.get hash key = some ((false, 0), t) := by
  have hprobe := getIndexFromProbing_absent hash hN t key (fun i hi _ => by
    cases ho : t.isOccupied i
    · rw [hreach.key_of_unoccupied hash hN i ho]; exact Ne.symm hne
    · exact habs i hi ho)
  exact ⟨remove_absent hash t key hprobe, get_absent hash t key hprobe⟩

end HashTable

/-! ### Sequences of nodes -/

theorem nextOf_cons_cons (a b : Ptr) (rest : List Ptr) (p : Ptr) :
    nextOf (a :: b :: rest) p = if p = a then some b else nextOf (b :: rest) p := rfl

theorem prevOf_cons_cons (a b : Ptr) (rest : List Ptr) (p : Ptr) :
    prevOf (a :: b :: rest) p = if p = b then some a else prevOf (b :: rest) p := rfl

theorem nextOf_singleton (a p : Ptr) : nextOf [a] p = none := rfl

theorem prevOf_singleton (a p : Ptr) : prevOf [a] p = none := rfl

theorem nextOf_mem : ∀ {l : List Ptr} {p x : Ptr}, nextOf l p = some x → p ∈ l ∧ x ∈ l.tail
  | [], _, _, h => by simp [nextOf] at h
  | [a], _, _, h => by simp [nextOf] at h
  | a :: b :: rest, p, x, h => by
    rw [nextOf_cons_cons] at h
    split_ifs at h with hp
    · simp only [Option.some.injEq] at h
      subst h; subst hp; simp
    · have := nextOf_mem h
      exact ⟨List.mem_cons_of_mem _ this.1, by
        simp only [List.tail_cons]; exact List.mem_of_mem_tail this.2⟩

theorem prevOf_mem : ∀ {l : List Ptr} {p x : Ptr}, prevOf l p = some x → p ∈ l.tail ∧ x ∈ l
  | [], _, _, h => by simp [prevOf] at h
  | [a], _, _, h => by simp [prevOf] at h
  | a :: b :: rest, p, x, h => by
    rw [prevOf_cons_cons] at h
    split_ifs at h with hp
    · simp only [Option.some.injEq] at h
      subst h; subst hp; simp
    · have := prevOf_mem h
      exact ⟨by simp only [List.tail_cons]; exact List.mem_of_mem_tail this.1,
        List.mem_cons_of_mem _ this.2⟩

theorem nextOf_eq_none_of_not_mem {l : List Ptr} {p : Ptr} (h : p ∉ l) : nextOf l p = none := by
  cases hn : nextOf l p with
  | none => rfl
  | some x => exact absurd (nextOf_mem hn).1 h

theorem prevOf_eq_none_of_not_mem {l : List Ptr} {p : Ptr} (h : p ∉ l) : prevOf l p = none := by
  cases hn : prevOf l p with
  | none => rfl
  | some x => exact absurd (List.mem_of_mem_tail (prevOf_mem hn).1) h

/-- In a duplicate-free sequence, `x` follows `p` exactly when `p` precedes `x`. -/
theorem nextOf_eq_some_iff : ∀ {l : List Ptr}, l.Nodup → ∀ (p x : Ptr),
    (nextOf l p = some x ↔ prevOf l x = some p)
  | [], _, _, _ => by simp [nextOf, prevOf]
  | [a], _, _, _ => by simp [nextOf, prevOf]
  | a :: b :: rest, hnd, p, x => by
    have hnd1 : (b :: rest).Nodup := (List.nodup_cons.1 hnd).2
    have ha : a ∉ b :: rest := (List.nodup_cons.1 hnd).1
    have hb : b ∉ rest := (List.nodup_cons.1 hnd1).1
    have ih := nextOf_eq_some_iff hnd1 p x
    rw [nextOf_cons_cons, prevOf_cons_cons]
    by_cases hp : p = a
    · subst hp
      by_cases hx : x = b
      · subst hx; simp
      · simp only [if_true, Option.some.injEq, if_neg hx]
        constructor
        · intro h; exact absurd h.symm hx
        · intro h; exact absurd (prevOf_mem h).2 ha
    · by_cases hx : x = b
      · subst hx
        simp only [if_neg hp, if_true, Option.some.injEq]
        constructor
        · intro h
          have := (nextOf_mem h).2
          simp only [List.tail_cons] at this
          exact absurd this hb
        · intro h; exact absurd h.symm hp
      · simp only [if_neg hp, if_neg hx]; exact ih

/-- The successor function of a duplicate-free sequence after one node is taken out. -/
theorem nextOf_erase : ∀ {l : List Ptr}, l.Nodup → ∀ (x p : Ptr),
    nextOf (l.erase x) p =
      if p = x then none else if nextOf l p = some x then nextOf l x else nextOf l p
  | [], _, x, p => by simp [nextOf]
  | [a], _, x, p => by
    by_cases h : a = x <;> simp [List.erase_cons, h, nextOf]
  | a :: b :: rest, hnd, x, p => by
    have hnd1 : (b :: rest).Nodup := (List.nodup_cons.1 hnd).2
    have ha : a ∉ b :: rest := (List.nodup_cons.1 hnd).1
    have hb : b ∉ rest := (List.nodup_cons.1 hnd1).1
    have hab : a ≠ b := fun h => ha (h ▸ List.mem_cons_self _ _)
    have ih := nextOf_erase hnd1 x p
    by_cases hxa : a = x
    · subst hxa
      rw [List.erase_cons_head]
      by_cases hp : p = a
      · subst hp; simp [nextOf_eq_none_of_not_mem ha]
      · rw [if_neg hp, nextOf_cons_cons, if_neg hp]
        have : nextOf (b :: rest) p ≠ some a := fun h => ha (List.mem_of_mem_tail (nextOf_mem h).2)
        rw [if_neg this]
    · rw [List.erase_cons_tail (by simpa using hxa)]
      by_cases hxb : b = x
      · subst hxb
        rw [List.erase_cons_head]
        by_cases hp : p = b
        · subst hp
          rw [if_pos rfl]
          cases rest with
          | nil => rfl
          | cons c r =>
            rw [nextOf_cons_cons, if_neg (Ne.symm hab)]
            exact nextOf_eq_none_of_not_mem hb
        · rw [if_neg hp]
          by_cases hpa : p = a
          · subst hpa
            simp only [nextOf_cons_cons, if_true, if_neg (Ne.symm hab)]
            cases rest with
            | nil => rfl
            | cons c r => simp [nextOf_cons_cons]
          · have e1 : nextOf (a :: b :: rest) p = nextOf (b :: rest) p := by
              rw [nextOf_cons_cons, if_neg hpa]
            have e2 : nextOf (b :: rest) p ≠ some b := by
              intro h
              have := (nextOf_mem h).2
              simp only [List.tail_cons] at this
              exact hb this
            rw [e1, if_neg e2]
            cases rest with
            | nil => rfl
            | cons c r => rw [nextOf_cons_cons, if_neg hpa, nextOf_cons_cons, if_neg hp]
      · rw [List.erase_cons_tail (by simpa using hxb)]
        have ih' := ih
        rw [List.erase_cons_tail (by simpa using hxb)] at ih'
        rw [nextOf_cons_cons]
        by_cases hpa : p = a
        · subst hpa
          have hpx : p ≠ x := hxa
          simp only [if_true, if_neg hpx, nextOf_cons_cons, Option.some.injEq, if_neg hxb]
        · rw [if_neg hpa, ih']
          have e1 : nextOf (a :: b :: rest) p = nextOf (b :: rest) p := by
            rw [nextOf_cons_cons, if_neg hpa]
          have e2 : nextOf (a :: b :: rest) x = nextOf (b :: rest) x := by
            rw [nextOf_cons_cons, if_neg (Ne.symm hxa)]
          rw [e1, e2]

theorem nextOf_ne_self : ∀ {l : List Ptr}, l.Nodup → ∀ {p x : Ptr}, nextOf l p = some x → p ≠ x
  | [], _, _, _, h => by simp [nextOf] at h
  | [a], _, _, _, h => by simp [nextOf] at h
  | a :: b :: rest, hnd, p, x, h => by
    rw [nextOf_cons_cons] at h
    split_ifs at h with hp
    · simp only [Option.some.injEq] at h
      subst h; subst hp
      intro hab
      exact (List.nodup_cons.1 hnd).1 (hab ▸ List.mem_cons_self _ _)
    · exact nextOf_ne_self (List.nodup_cons.1 hnd).2 h

/-- The predecessor function of a duplicate-free sequence after one node is taken out. -/
theorem prevOf_erase {l : List Ptr} (hnd : l.Nodup) (x p : Ptr) :
    prevOf (l.erase x) p =
      if p = x then none else if prevOf l p = some x then prevOf l x else prevOf l p := by
  have hnd1 : (l.erase x).Nodup := hnd.erase x
  apply Option.ext
  intro y
  simp only [Option.mem_def]
  rw [← nextOf_eq_some_iff hnd1, nextOf_erase hnd]
  by_cases hpx : p = x
  · subst hpx
    simp only [if_true]
    by_cases hy : y = p
    · simp [hy]
    · rw [if_neg hy]
      by_cases h1 : nextOf l y = some p
      · rw [if_pos h1]
        constructor
        · intro h; exact absurd rfl (nextOf_ne_self hnd h)
        · intro h; exact absurd h (by simp)
      · rw [if_neg h1]
        constructor
        · intro h; exact absurd h h1
        · intro h; exact absurd h (by simp)
  · rw [if_neg hpx]
    by_cases hy : y = x
    · subst hy
      simp only [if_true]
      by_cases h2 : prevOf l p = some y
      · rw [if_pos h2]
        constructor
        · intro h; exact absurd h (by simp)
        · intro h
          exact absurd rfl (nextOf_ne_self hnd ((nextOf_eq_some_iff hnd y y).2 h))
      · rw [if_neg h2]
        constructor
        · intro h; exact absurd h (by simp)
        · intro h; exact absurd h h2
    · rw [if_neg hy]
      by_cases h2 : prevOf l p = some x
      · rw [if_pos h2]
        have h2' := (nextOf_eq_some_iff hnd x p).2 h2
        by_cases h1 : nextOf l y = some x
        · rw [if_pos h1]
          constructor
          · intro _; exact (nextOf_eq_some_iff hnd y x).1 h1
          · intro _; exact h2'
        · rw [if_neg h1]
          constructor
          · intro h
            have := (nextOf_eq_some_iff hnd y p).1 h
            rw [h2] at this
            exact absurd (Option.some.inj this).symm hy
          · intro h; exact absurd ((nextOf_eq_some_iff hnd y x).2 h) h1
      · rw [if_neg h2]
        by_cases h1 : nextOf l y = some x
        · rw [if_pos h1]
          constructor
          · intro h; exact absurd ((nextOf_eq_some_iff hnd x p).1 h) h2
          · intro h
            have := (nextOf_eq_some_iff hnd y p).2 h
            rw [h1] at this
            exact absurd (Option.some.inj this).symm hpx
        · rw [if_neg h1]
          exact nextOf_eq_some_iff hnd y p

theorem nextOf_append_singleton_mem : ∀ {l : List Ptr} {x p y : Ptr},
    nextOf (l ++ [x]) p = some y → p ∈ l
  | [], _, _, _, h => by simp [nextOf] at h
  | [a], x, p, y, h => by
    simp only [List.singleton_append, nextOf_cons_cons, nextOf_singleton] at h
    split_ifs at h with hp
    · simp [hp]
  | a :: b :: rest, x, p, y, h => by
    rw [List.cons_append, List.cons_append, nextOf_cons_cons] at h
    split_ifs at h with hp
    · simp [hp]
    · exact List.mem_cons_of_mem _ (nextOf_append_singleton_mem (l := b :: rest) h)

theorem nextOf_isSome_of_mem : ∀ {l : List Ptr} {x p : Ptr}, p ∈ l →
    ∃ y, nextOf (l ++ [x]) p = some y
  | [a], x, p, h => by
    simp only [List.mem_singleton] at h
    exact ⟨x, by simp [nextOf_cons_cons, h]⟩
  | a :: b :: rest, x, p, h => by
    rw [List.cons_append, List.cons_append, nextOf_cons_cons]
    by_cases hp : p = a
    · exact ⟨b, by rw [if_pos hp]⟩
    · rw [if_neg hp]
      exact nextOf_isSome_of_mem (l := b :: rest) (by
        rcases List.mem_cons.1 h with h | h
        · exact absurd h hp
        · exact h)

theorem prevOf_isSome_of_mem : ∀ {l : List Ptr} {a p : Ptr}, p ∈ l →
    ∃ y, prevOf (a :: l) p = some y
  | b :: rest, a, p, h => by
    rw [prevOf_cons_cons]
    by_cases hp : p = b
    · exact ⟨a, by rw [if_pos hp]⟩
    · rw [if_neg hp]
      exact prevOf_isSome_of_mem (by
        rcases List.mem_cons.1 h with h | h
        · exact absurd h hp
        · exact h)

theorem slot_mem_nodes (L : List Nat) (i : Nat) : Ptr.slot i ∈ nodes L ↔ i ∈ L := by
  simp [nodes]

theorem nodes_nodup {L : List Nat} (h : L.Nodup) : (nodes L).Nodup := by
  unfold nodes
  refine List.nodup_cons.2 ⟨by simp, ?_⟩
  refine List.Nodup.append ?_ (List.nodup_singleton _) ?_
  · exact (List.nodup_map_iff (fun a b hab => by injection hab)).2 h
  · intro p hp hq
    simp only [List.mem_map] at hp
    obtain ⟨i, -, rfl⟩ := hp
    simp at hq

theorem nodes_erase (L : List Nat) (j : Nat) :
    (nodes L).erase (Ptr.slot j) = nodes (L.erase j) := by
  unfold nodes
  rw [List.erase_cons_tail (by simp)]
  congr 1
  by_cases hj : j ∈ L
  · rw [List.erase_append_left _ (List.mem_map_of_mem _ hj),
      List.map_erase (fun a b hab => by injection hab)]
  · rw [List.erase_of_not_mem hj, List.erase_of_not_mem]
    simp [hj]

theorem nextOf_nodes_first (L : List Nat) :
    ∃ b, nextOf (nodes L) Ptr.first = some b ∧ b ≠ Ptr.first ∧
      (∀ j, j ∉ L → b ≠ Ptr.slot j) ∧
      (L = [] → b = Ptr.last) ∧ (∀ j rest, L = j :: rest → b = Ptr.slot j) := by
  cases L with
  | nil => exact ⟨Ptr.last, rfl, by simp, by simp, fun _ => rfl, by simp⟩
  | cons i rest =>
    refine ⟨Ptr.slot i, by simp [nodes, nextOf_cons_cons], by simp, ?_, by simp, ?_⟩
    · intro j hj h
      injection h with h
      exact hj (h ▸ List.mem_cons_self _ _)
    · intro j rest' h
      injection h with h1 h2
      rw [h1]

theorem nextOf_nodes_cons (L : List Nat) (j : Nat) (p : Ptr) :
    nextOf (nodes (j :: L)) p =
      if p = Ptr.first then some (Ptr.slot j)
      else if p = Ptr.slot j then nextOf (nodes L) Ptr.first
      else nextOf (nodes L) p := by
  cases L with
  | nil =>
    simp only [nodes, List.map_cons, List.map_nil, List.nil_append, List.cons_append,
      nextOf_cons_cons, nextOf_singleton]
    by_cases h1 : p = Ptr.first <;> by_cases h2 : p = Ptr.slot j <;> simp [h1, h2]
  | cons i rest =>
    simp only [nodes, List.map_cons, List.cons_append, nextOf_cons_cons]
    by_cases h1 : p = Ptr.first <;> by_cases h2 : p = Ptr.slot j <;> simp [h1, h2]

theorem prevOf_nodes_cons (L : List Nat) (j : Nat) (p : Ptr) :
    prevOf (nodes (j :: L)) p =
      if p = Ptr.slot j then some Ptr.first
      else if nextOf (nodes L) Ptr.first = some p then some (Ptr.slot j)
      else prevOf (nodes L) p := by
  cases L with
  | nil =>
    simp only [nodes, List.map_cons, List.map_nil, List.nil_append, List.cons_append,
      prevOf_cons_cons, prevOf_singleton, nextOf_cons_cons]
    by_cases h1 : p = Ptr.last <;> by_cases h2 : p = Ptr.slot j <;> simp [h1, h2, eq_comm]
  | cons i rest =>
    simp only [nodes, List.map_cons, List.cons_append, prevOf_cons_cons, nextOf_cons_cons]
    by_cases h1 : p = Ptr.slot i <;> by_cases h2 : p = Ptr.slot j <;> simp [h1, h2, eq_comm]

theorem prevOf_nodes_first (L : List Nat) : prevOf (nodes L) Ptr.first = none := by
  cases h : prevOf (nodes L) Ptr.first with
  | none => rfl
  | some y =>
    have := (prevOf_mem h).1
    simp [nodes] at this

theorem nextOf_nodes_last (L : List Nat) : nextOf (nodes L) Ptr.last = none := by
  cases h : nextOf (nodes L) Ptr.last with
  | none => rfl
  | some y =>
    have : nodes L = (Ptr.first :: L.map Ptr.slot) ++ [Ptr.last] := rfl
    rw [this] at h
    have := nextOf_append_singleton_mem h
    simp at this

namespace HashTable

variable {Size : Nat}

theorem elem_modify (t : HashTable Size) (q : Ptr) (f : HashElement → HashElement) (p : Ptr) :
    (t.modify q f).elem p = if q = p then f (t.elem p) else t.elem p := by
  cases p with
  | first => simp [elem]
  | last => simp [elem]
  | slot i => simp [elem]

theorem isOccupied_iff_mem {t : HashTable Size} {L : List Nat} (h : Lst t L) (i : Nat) :
    t.isOccupied i = true ↔ i ∈ L := by
  have hr := h.right (Ptr.slot i)
  have hl := h.left (Ptr.slot i)
  simp only [elem] at hr hl
  rw [isOccupied_iff, hr, hl]
  constructor
  · intro hocc
    by_contra hi
    exact hocc.1 (nextOf_eq_none_of_not_mem (by rw [slot_mem_nodes]; exact hi))
  · intro hi
    have hm : Ptr.slot i ∈ L.map Ptr.slot := List.mem_map_of_mem _ hi
    constructor
    · have : nodes L = (Ptr.first :: L.map Ptr.slot) ++ [Ptr.last] := rfl
      rw [this]
      obtain ⟨y, hy⟩ := nextOf_isSome_of_mem (x := Ptr.last) (List.mem_cons_of_mem Ptr.first hm)
      rw [hy]; simp
    · obtain ⟨y, hy⟩ := prevOf_isSome_of_mem (a := Ptr.first)
        (List.mem_append_left [Ptr.last] hm)
      unfold nodes
      rw [hy]; simp

/-- `linkElement` on a well-formed list puts the slot in front. -/
theorem linkElement_lst {t : HashTable Size} {L : List Nat} (h : Lst t L) (j : Nat)
    (hj : j ∉ L) (hlt : j < Size) :
    ∃ t1, linkElement t j = some t1 ∧ Lst t1 (j :: L) ∧ SameStore t t1 := by
  obtain ⟨b, hb, hb1, hb2, -, -⟩ := nextOf_nodes_first L
  have hfr : t.firstElement.rightElement = some b := by
    have := h.right Ptr.first
    simp only [elem] at this
    rw [this, hb]
  have hbj : b ≠ Ptr.slot j := hb2 j hj
  unfold linkElement
  simp only [hfr]
  refine ⟨_, rfl, ⟨List.nodup_cons.2 ⟨hj, h.nodup⟩, ?_, ?_, ?_⟩, ?_⟩
  · intro i hi
    rcases List.mem_cons.1 hi with rfl | hi
    · exact hlt
    · exact h.bound i hi
  · intro p
    rw [nextOf_nodes_cons, hb, ← h.right p]
    simp only [elem_modify]
    by_cases h1 : p = Ptr.first
    · subst h1; simp [Ne.symm hb1, hb1]
    · by_cases h2 : p = Ptr.slot j
      · subst h2; simp [hbj, elem, hfr]
      · simp [h1, h2, Ne.symm h1, Ne.symm h2] <;> (split_ifs <;> rfl)
  · intro p
    rw [prevOf_nodes_cons, hb, ← h.left p]
    simp only [elem_modify]
    by_cases h2 : p = Ptr.slot j
    · subst h2; simp
    · by_cases h3 : b = p
      · subst h3; simp [h2, Ne.symm h2, hb1]
      · simp [h2, Ne.symm h2, h3] <;> (split_ifs <;> rfl)
  · intro p
    simp only [elem_modify]
    split_ifs <;> simp

/-- `unlinkElement` on a well-formed list takes the slot out. -/
theorem unlinkElement_lst {t : HashTable Size} {L : List Nat} (h : Lst t L) (j : Nat) :
    ∃ t1, unlinkElement t j = some t1 ∧ Lst t1 (L.erase j) ∧ SameStore t t1 := by
  by_cases hj : j ∈ L
  · have hocc := (isOccupied_iff_mem h j).2 hj
    have hnd := nodes_nodup h.nodup
    have hocc1 := (isOccupied_iff t j).1 hocc
    obtain ⟨r, hr⟩ := Option.ne_none_iff_exists'.1 hocc1.1
    obtain ⟨l, hl⟩ := Option.ne_none_iff_exists'.1 hocc1.2
    have hr' : nextOf (nodes L) (Ptr.slot j) = some r := by
      rw [← h.right (Ptr.slot j)]; exact hr
    have hl' : prevOf (nodes L) (Ptr.slot j) = some l := by
      rw [← h.left (Ptr.slot j)]; exact hl
    have hrj : r ≠ Ptr.slot j := Ne.symm (nextOf_ne_self hnd hr')
    have hlj : l ≠ Ptr.slot j :=
      nextOf_ne_self hnd ((nextOf_eq_some_iff hnd l (Ptr.slot j)).2 hl')
    unfold unlinkElement
    simp only [hocc, Bool.not_true, Bool.false_eq_true, if_false, hl, hr]
    have hr1 : ((t.modify l fun e => { e with rightElement := some r }).data
        j).rightElement = some r := by
      simp only [modify_data, if_neg hlj, hr]
    have hl1 : ((t.modify l fun e => { e with rightElement := some r }).data
        j).leftElement = some l := by
      simp only [modify_data, if_neg hlj, hl]
    simp only [hr1, hl1]
    refine ⟨_, rfl, ⟨h.nodup.erase j, fun i hi => h.bound i (List.mem_of_mem_erase hi), ?_, ?_⟩,
      ?_⟩
    · intro p
      rw [← nodes_erase, nextOf_erase hnd, hr', ← h.right p]
      simp only [elem_modify]
      by_cases h1 : p = Ptr.slot j
      · subst h1; simp
      · have hiff : (t.elem p).rightElement = some (Ptr.slot j) ↔ l = p := by
          rw [h.right p, nextOf_eq_some_iff hnd, hl']
          simp
        by_cases h2 : l = p
        · subst h2
          simp [h1, Ne.symm h1, hiff.2 rfl] <;> (split_ifs <;> rfl)
        · have h3 : ¬ (t.elem p).rightElement = some (Ptr.slot j) := fun hh => h2 (hiff.1 hh)
          simp [h1, Ne.symm h1, h2, h3] <;> (split_ifs <;> rfl)
    · intro p
      rw [← nodes_erase, prevOf_erase hnd, hl', ← h.left p]
      simp only [elem_modify]
      by_cases h1 : p = Ptr.slot j
      · subst h1; simp
      · have hiff : (t.elem p).leftElement = some (Ptr.slot j) ↔ r = p := by
          rw [h.left p, ← nextOf_eq_some_iff hnd, hr']
          simp
        by_cases h2 : r = p
        · subst h2
          simp [h1, Ne.symm h1, hiff.2 rfl]
        · have h3 : ¬ (t.elem p).leftElement = some (Ptr.slot j) := fun hh => h2 (hiff.1 hh)
          simp [h1, Ne.symm h1, h2, h3] <;> (split_ifs <;> rfl)
    · intro p
      simp only [elem_modify]
      split_ifs <;> simp
  · have hocc : t.isOccupied j = false := by
      cases ho : t.isOccupied j
      · rfl
      · exact absurd ((isOccupied_iff_mem h j).1 ho) hj
    refine ⟨t, by simp [unlinkElement, hocc], ?_, fun p => ⟨rfl, rfl, rfl⟩⟩
    rw [List.erase_of_not_mem hj]
    exact h

end HashTable

theorem nextOf_middle : ∀ (pre : List Ptr) (a b : Ptr) (post : List Ptr),
    (pre ++ a :: b :: post).Nodup → nextOf (pre ++ a :: b :: post) a = some b
  | [], a, b, post, _ => by simp [nextOf_cons_cons]
  | [c], a, b, post, h => by
    have hca : a ≠ c := by
      intro hac
      have := (List.nodup_cons.1 h).1
      exact this (by simp [hac])
    simp only [List.singleton_append, nextOf_cons_cons, if_neg hca, if_true]
  | c :: d :: pre, a, b, post, h => by
    have hca : a ≠ c := by
      intro hac
      have := (List.nodup_cons.1 h).1
      exact this (by simp [hac])
    rw [List.cons_append, List.cons_append, nextOf_cons_cons, if_neg hca]
    exact nextOf_middle (d :: pre) a b post (List.nodup_cons.1 h).2

namespace HashTable

variable {Size : Nat}

theorem lst_new (Size : Nat) : Lst (new Size) [] where
  nodup := List.nodup_nil
  bound := fun _ h => absurd h (List.not_mem_nil _)
  right := fun p => by cases p <;> simp [new, elem, nodes, nextOf]
  left := fun p => by cases p <;> simp [new, elem, nodes, prevOf]

/-- The list of a table is determined by its links. -/
theorem walk_lst {t : HashTable Size} {L : List Nat} (h : Lst t L) :
    ∀ (B A : List Nat), L = A ++ B → ∀ fuel, B.length ≤ fuel →
      walk t fuel (some ((B.map Ptr.slot ++ [Ptr.last]).head (by simp))) = some B := by
  intro B
  induction B with
  | nil => intro A _ fuel _; cases fuel <;> simp [walk]
  | cons i B ih =>
    intro A hA fuel hf
    obtain ⟨f, rfl⟩ : ∃ f, fuel = f + 1 := ⟨fuel - 1, by simp only [List.length_cons] at hf; omega⟩
    have hnd := nodes_nodup h.nodup
    have hsplit : nodes L = (Ptr.first :: A.map Ptr.slot) ++
        Ptr.slot i :: (B.map Ptr.slot ++ [Ptr.last]).head (by simp) ::
          (B.map Ptr.slot ++ [Ptr.last]).tail := by
      rw [List.head_cons_tail]
      simp [nodes, hA]
    have hnext : (t.data i).rightElement =
        some ((B.map Ptr.slot ++ [Ptr.last]).head (by simp)) := by
      have := h.right (Ptr.slot i)
      simp only [elem] at this
      rw [this, hsplit]
      exact nextOf_middle _ _ _ _ (hsplit ▸ hnd)
    simp only [List.map_cons, List.cons_append, List.head_cons, walk, hnext]
    rw [ih (A ++ [i]) (by simp [hA]) f (by simp only [List.length_cons] at hf; omega)]
    rfl

theorem recency_lst {t : HashTable Size} {L : List Nat} (h : Lst t L) : recency t = some L := by
  have hlen : L.length ≤ Size := by
    have hsub : L.toFinset ⊆ Finset.range Size := by
      intro j hj
      exact Finset.mem_range.2 (h.bound j (List.mem_toFinset.1 hj))
    have := Finset.card_le_card hsub
    rwa [List.toFinset_card_of_nodup h.nodup, Finset.card_range] at this
  have hw := walk_lst h L [] rfl Size hlen
  obtain ⟨b, hb, -, -, hnil, hcons⟩ := nextOf_nodes_first L
  have hfr : t.firstElement.rightElement = some b := by
    have := h.right Ptr.first
    simp only [elem] at this
    rw [this, hb]
  unfold recency
  rw [hfr]
  cases L with
  | nil => rw [hnil rfl]; exact hw
  | cons i rest => rw [hcons i rest rfl]; exact hw

/-- A content store into a slot keeps the list. -/
theorem lst_modify_store {t : HashTable Size} {L : List Nat} (h : Lst t L) (j : Nat)
    (f : HashElement → HashElement)
    (hf : ∀ e, (f e).rightElement = e.rightElement ∧ (f e).leftElement = e.leftElement) :
    Lst (t.modify (Ptr.slot j) f) L where
  nodup := h.nodup
  bound := h.bound
  right := fun p => by
    rw [elem_modify, ← h.right p]
    split_ifs
    · exact (hf _).1
    · rfl
  left := fun p => by
    rw [elem_modify, ← h.left p]
    split_ifs
    · exact (hf _).2
    · rfl

theorem insert_at_lst (hash : KeyType → Nat) {t : HashTable Size} {L : List Nat} (h : Lst t L)
    (key : KeyType) (value : ValueType) (j : Nat) (hj : j < Size)
    (hloop : insertLoop t key (getHash hash Size key) Size (getHash hash Size key) =
      some (some j)) :
    ∃ t1, t.insert hash key value = some (true, t1) ∧ Lst t1 (j :: L.erase j) := by
  have h3 := lst_modify_store h j
    (fun e => { e with value := value, key := key, erased := false }) (fun _ => ⟨rfl, rfl⟩)
  obtain ⟨t4, e4, h4, -⟩ := unlinkElement_lst h3 j
  obtain ⟨t5, e5, h5, -⟩ := linkElement_lst h4 j (List.Nodup.not_mem_erase h.nodup) hj
  refine ⟨t5, ?_, h5⟩
  unfold insert
  simp only [hloop, insert_store, e4, e5]

theorem remove_at_lst (hash : KeyType → Nat) {t : HashTable Size} {L : List Nat} (h : Lst t L)
    (key : KeyType) (j : Nat) (hj : j ≠ Size)
    (hprobe : getIndexFromProbing hash t key = some j) :
    ∃ t1, t.remove hash key = some (true, t1) ∧ Lst t1 (L.erase j) := by
  obtain ⟨t4, e4, h4, -⟩ := unlinkElement_lst h j
  unfold remove
  simp only [hprobe, e4, beq_iff_eq, hj, if_false, modify_modify]
  exact ⟨_, rfl, lst_modify_store h4 j _ (fun _ => ⟨rfl, rfl⟩)⟩

theorem get_at_lst (hash : KeyType → Nat) {t : HashTable Size} {L : List Nat} (h : Lst t L)
    (key : KeyType) (j : Nat) (hj : j < Size)
    (hprobe : getIndexFromProbing hash t key = some j) :
    ∃ t1, t.get hash key = some ((true, (t1.data j).value), t1) ∧ Lst t1 (j :: L.erase j) ∧
      SameStore t t1 := by
  obtain ⟨t4, e4, h4, s4⟩ := unlinkElement_lst h j
  obtain ⟨t5, e5, h5, s5⟩ := linkElement_lst h4 j (List.Nodup.not_mem_erase h.nodup) hj
  refine ⟨t5, ?_, h5, ?_⟩
  · unfold get
    simp only [hprobe, e4, e5, beq_iff_eq, Nat.ne_of_lt hj, if_false]
  · intro p
    rw [(s5 p).1, (s4 p).1, (s5 p).2.1, (s4 p).2.1, (s5 p).2.2, (s4 p).2.2]
    exact ⟨rfl, rfl, rfl⟩

end HashTable

theorem prevOf_nodes_last {L : List Nat} (h : L.Nodup) :
    prevOf (nodes L) Ptr.last = some (lastPtr L) := by
  have hnd := nodes_nodup h
  rw [← nextOf_eq_some_iff hnd]
  rcases List.eq_nil_or_concat L with rfl | ⟨A, x, rfl⟩
  · rfl
  · simp only [List.concat_eq_append] at h hnd ⊢
    have hsplit : nodes (A ++ [x]) = (Ptr.first :: A.map Ptr.slot) ++
        Ptr.slot x :: Ptr.last :: [] := by
      simp [nodes]
    have hl : lastPtr (A ++ [x]) = Ptr.slot x := by simp [lastPtr]
    rw [hl, hsplit]
    exact nextOf_middle _ _ _ _ (hsplit ▸ hnd)

theorem nextOf_nodes_first_eq (L : List Nat) :
    nextOf (nodes L) Ptr.first = some (headPtr L) := by
  cases L with
  | nil => rfl
  | cons i rest => simp [nodes, nextOf_cons_cons, headPtr]

namespace HashTable

variable {Size : Nat}

theorem lst_inv {t : HashTable Size} {L : List Nat} (h : Lst t L) : Inv t := by
  constructor
  · have := h.right Ptr.first
    simp only [elem] at this
    rw [this, nextOf_nodes_first_eq]; simp
  · have := h.left Ptr.last
    simp only [elem] at this
    rw [this, prevOf_nodes_last h.nodup]; simp

theorem get_last_lst {t : HashTable Size} {L : List Nat} (h : Lst t L) :
    t.get_last = match L.head? with
      | none => some (false, ("", 0))
      | some i => some (true, ((t.data i).key, (t.data i).value)) := by
  have hr := h.right Ptr.first
  simp only [elem] at hr
  rw [nextOf_nodes_first_eq] at hr
  unfold get_last
  rw [hr]
  cases L with
  | nil => simp [headPtr]
  | cons i rest => simp [headPtr, elem]

theorem get_first_lst {t : HashTable Size} {L : List Nat} (h : Lst t L) :
    t.get_first = match L.getLast? with
      | none => some (false, ("", 0))
      | some i => some (true, ((t.data i).key, (t.data i).value)) := by
  have hl := h.left Ptr.last
  simp only [elem] at hl
  rw [prevOf_nodes_last h.nodup] at hl
  unfold get_first
  rw [hl]
  cases hL : L.getLast? with
  | none => simp [lastPtr, hL]
  | some i => simp [lastPtr, hL, elem]

/-- A successful `insert` moves the slot it settled on to the front of the list. -/
theorem insert_true_lst (hash : KeyType → Nat) (hN : 0 < Size) {t t1 : HashTable Size}
    {L : List Nat} (h : Lst t L) (key : KeyType) (value : ValueType)
    (hins : t.insert hash key value = some (true, t1)) :
    ∃ j, j < Size ∧ Lst t1 (j :: L.erase j) ∧ InsertPost t t1 j key value ∧
      insertStops t key j := by
  rcases insertLoop_cases hN t key (getHash_lt hash hN key) with
    ⟨-, hloop⟩ | ⟨d, hd, -, hstop, hloop⟩
  · have : t.insert hash key value = some (false, t) := by simp [insert, hloop]
    rw [this] at hins; simp at hins
  · obtain ⟨t3, h3, hl3⟩ := insert_at_lst hash h key value _ (Nat.mod_lt _ hN) hloop
    obtain ⟨t4, h4, hp4⟩ := insert_at hash t (lst_inv h) key value _ hloop
    rw [hins] at h3 h4
    obtain rfl : t1 = t3 := by simpa using h3
    obtain rfl : t1 = t4 := by simpa using h4
    exact ⟨_, Nat.mod_lt _ hN, hl3, hp4, hstop⟩

/-- An `insert` that returns `false` leaves the table as it was. -/
theorem insert_false_eq (hash : KeyType → Nat) (hN : 0 < Size) {t t1 : HashTable Size}
    (hinv : Inv t) (key : KeyType) (value : ValueType)
    (hins : t.insert hash key value = some (false, t1)) : t1 = t := by
  rcases insert_spec hash hN t hinv key value with ⟨-, h1⟩ | ⟨d, t2, -, -, -, h1, -⟩
  · rw [h1] at hins; simpa using hins.symm
  · rw [h1] at hins; simp at hins

/-- The answer of `getIndexFromProbing`, with what `get` and `remove` make of it. -/
theorem probe_cases (hash : KeyType → Nat) (hN : 0 < Size) (t : HashTable Size) (key : KeyType) :
    (getIndexFromProbing hash t key = some Size ∧ t.get hash key = some ((false, 0), t) ∧
      t.remove hash key = some (false, t)) ∨
    ∃ j, j < Size ∧ (t.data j).key = key ∧ getIndexFromProbing hash t key = some j := by
  obtain ⟨r, hr, hcase⟩ := getIndexFromProbing_sound hash hN t key
  rcases hcase with rfl | ⟨hlt, hk⟩
  · exact Or.inl ⟨hr, get_absent hash t key hr, remove_absent hash t key hr⟩
  · exact Or.inr ⟨r, hlt, hk, hr⟩

/-- A `get` that finds its key moves the slot to the front of the list and changes
nothing else. -/
theorem get_found_lst (hash : KeyType → Nat) (hN : 0 < Size) {t t1 : HashTable Size}
    {L : List Nat} (h : Lst t L) (key : KeyType) (w : ValueType)
    (hget : t.get hash key = some ((true, w), t1)) :
    ∃ j, j < Size ∧ getIndexFromProbing hash t key = some j ∧ (t.data j).key = key ∧
      (t.data j).value = w ∧ Lst t1 (j :: L.erase j) ∧ SameStore t t1 := by
  rcases probe_cases hash hN t key with ⟨-, h1, -⟩ | ⟨j, hj, hk, hp⟩
  · rw [h1] at hget; simp at hget
  · obtain ⟨t2, h2, hl2, hs2⟩ := get_at_lst hash h key j hj hp
    rw [h2] at hget
    simp only [Option.some.injEq, Prod.mk.injEq, true_and] at hget
    obtain ⟨hw, rfl⟩ := hget
    refine ⟨j, hj, hp, hk, ?_, hl2, hs2⟩
    rw [← hw]
    exact ((hs2 (Ptr.slot j)).2.1).symm

/-- A `get` that does not find its key leaves the table as it was. -/
theorem get_false_eq (hash : KeyType → Nat) (hN : 0 < Size) {t t1 : HashTable Size}
    {L : List Nat} (h : Lst t L) (key : KeyType) (w : ValueType)
    (hget : t.get hash key = some ((false, w), t1)) : t1 = t ∧ w = 0 := by
  rcases probe_cases hash hN t key with ⟨-, h1, -⟩ | ⟨j, hj, hk, hp⟩
  · rw [h1] at hget
    simp only [Option.some.injEq, Prod.mk.injEq, true_and] at hget
    exact ⟨hget.2.symm, hget.1.symm⟩
  · obtain ⟨t2, h2, -, -⟩ := get_at_lst hash h key j hj hp
    rw [h2] at hget; simp at hget

/-- A `remove` that returns `true` takes the slot it found out of the list. -/
theorem remove_true_lst (hash : KeyType → Nat) (hN : 0 < Size) {t t1 : HashTable Size}
    {L : List Nat} (h : Lst t L) (key : KeyType)
    (hrem : t.remove hash key = some (true, t1)) :
    ∃ j, j < Size ∧ getIndexFromProbing hash t key = some j ∧ (t.data j).key = key ∧
      Lst t1 (L.erase j) ∧ RemovePost t t1 j := by
  rcases probe_cases hash hN t key with ⟨-, -, h1⟩ | ⟨j, hj, hk, hp⟩
  · rw [h1] at hrem; simp at hrem
  · obtain ⟨t2, h2, hl2⟩ := remove_at_lst hash h key j (Nat.ne_of_lt hj) hp
    obtain ⟨t3, h3, hp3⟩ := remove_at hash t (lst_inv h) key j (Nat.ne_of_lt hj) hp
    rw [h2] at hrem h3
    obtain rfl : t2 = t1 := by simpa using hrem
    obtain rfl : t2 = t3 := by simpa using h3
    exact ⟨j, hj, hp, hk, hl2, hp3⟩

theorem remove_false_eq (hash : KeyType → Nat) (hN : 0 < Size) {t t1 : HashTable Size}
    {L : List Nat} (h : Lst t L) (key : KeyType)
    (hrem : t.remove hash key = some (false, t1)) : t1 = t := by
  rcases probe_cases hash hN t key with ⟨-, -, h1⟩ | ⟨j, hj, hk, hp⟩
  · rw [h1] at hrem; simpa using hrem.symm
  · obtain ⟨t2, h2, -⟩ := remove_at_lst hash h key j (Nat.ne_of_lt hj) hp
    rw [h2] at hrem; simp at hrem

/-- Every reachable table holds a well-formed list. -/
theorem Reachable.lst (hash : KeyType → Nat) (hN : 0 < Size) {t : HashTable Size}
    (h : Reachable hash t) : ∃ L, Lst t L := by
  induction h with
  | init => exact ⟨[], lst_new Size⟩
  | @insert t t1 b key value _ hstep ih =>
    obtain ⟨L, hL⟩ := ih
    cases b with
    | true =>
      obtain ⟨j, -, h1, -, -⟩ := insert_true_lst hash hN hL key value hstep
      exact ⟨_, h1⟩
    | false => rw [insert_false_eq hash hN (lst_inv hL) key value hstep]; exact ⟨L, hL⟩
  | @remove t t1 b key _ hstep ih =>
    obtain ⟨L, hL⟩ := ih
    cases b with
    | true =>
      obtain ⟨j, -, -, -, h1, -⟩ := remove_true_lst hash hN hL key hstep
      exact ⟨_, h1⟩
    | false => rw [remove_false_eq hash hN hL key hstep]; exact ⟨L, hL⟩
  | @get t t1 r key _ hstep ih =>
    obtain ⟨L, hL⟩ := ih
    obtain ⟨b, w⟩ := r
    cases b with
    | true =>
      obtain ⟨j, -, -, -, -, h1, -⟩ := get_found_lst hash hN hL key w hstep
      exact ⟨_, h1⟩
    | false => rw [(get_false_eq hash hN hL key w hstep).1]; exact ⟨L, hL⟩

end HashTable


namespace HashTable

variable {Size : Nat}

/-- C13. List well-formedness is an invariant of every operation: in every reachable
table, each slot has both links set or both null; for every slot `s` with both links set,
`s.leftElement->rightElement == s` and `s.rightElement->leftElement == s`; and the forward
walk from `firstElement.rightElement` arrives at `lastElement` having met every such slot
exactly once. -/
theorem C13_list_well_formed (hash : KeyType → Nat) (hN : 0 < Size) {t : HashTable Size}
    (hreach : Reachable hash t) :
    (∀ i, i < Size → ((t.data i).leftElement = none ↔ (t.data i).rightElement = none)) ∧
    (∀ i, i < Size → t.isOccupied i = true →
      ∃ l r, (t.data i).leftElement = some l ∧ (t.data i).rightElement = some r ∧
        (t.elem l).rightElement = some (Ptr.slot i) ∧
        (t.elem r).leftElement = some (Ptr.slot i)) ∧
    ∃ L, recency t = some L ∧ L.Nodup ∧ ∀ i, i < Size → (i ∈ L ↔ t.isOccupied i = true) := by
  obtain ⟨L, hL⟩ := hreach.lst hash hN
  have hnd := nodes_nodup hL.nodup
  refine ⟨?_, ?_, L, recency_lst hL, hL.nodup, fun i _ => (isOccupied_iff_mem hL i).symm⟩
  · intro i _
    by_cases hi : i ∈ L
    · have := (isOccupied_iff t i).1 ((isOccupied_iff_mem hL i).2 hi)
      exact ⟨fun h => absurd h this.2, fun h => absurd h this.1⟩
    · have hm : Ptr.slot i ∉ nodes L := by rw [slot_mem_nodes]; exact hi
      have h1 := hL.left (Ptr.slot i)
      have h2 := hL.right (Ptr.slot i)
      simp only [elem] at h1 h2
      rw [h1, h2, prevOf_eq_none_of_not_mem hm, nextOf_eq_none_of_not_mem hm]
  · intro i _ hocc
    have hocc1 := (isOccupied_iff t i).1 hocc
    obtain ⟨r, hr⟩ := Option.ne_none_iff_exists'.1 hocc1.1
    obtain ⟨l, hl⟩ := Option.ne_none_iff_exists'.1 hocc1.2
    refine ⟨l, r, hl, hr, ?_, ?_⟩
    · rw [hL.right l, nextOf_eq_some_iff hnd, ← hL.left (Ptr.slot i)]
      exact hl
    · rw [hL.left r, ← nextOf_eq_some_iff hnd, ← hL.right (Ptr.slot i)]
      exact hr

end HashTable

/-- C13 at a concrete table: `insert("k", 7)` on a new `HashTable<1>`. -/
theorem C13_list_well_formed_witness :
    (∀ i, i < 1 → ((witnessTable1.data i).leftElement = none ↔
      (witnessTable1.data i).rightElement = none)) ∧
    (∀ i, i < 1 → witnessTable1.isOccupied i = true →
      ∃ l r, (witnessTable1.data i).leftElement = some l ∧
        (witnessTable1.data i).rightElement = some r ∧
        (witnessTable1.elem l).rightElement = some (Ptr.slot i) ∧
        (witnessTable1.elem r).leftElement = some (Ptr.slot i)) ∧
    ∃ L, recency witnessTable1 = some L ∧ L.Nodup ∧
      ∀ i, i < 1 → (i ∈ L ↔ witnessTable1.isOccupied i = true) :=
  HashTable.C13_list_well_formed (fun _ => 0) (by decide)
    (HashTable.Reachable.insert "k" 7 HashTable.Reachable.init
      (rfl : (HashTable.new 1).insert (fun _ => 0) "k" 7 = some (true, witnessTable1)))


namespace HashTable

variable {Size : Nat}

/-! ### Operations that settle on the home slot of their key -/

theorem insert_home (hash : KeyType → Nat) (hN : 0 < Size) {t : HashTable Size} {L : List Nat}
    (h : Lst t L) (key : KeyType) (value : ValueType)
    (hfree : t.isOccupied (getHash hash Size key) = false) :
    ∃ t1, t.insert hash key value = some (true, t1) ∧
      Lst t1 (getHash hash Size key :: L.erase (getHash hash Size key)) ∧
      InsertPost t t1 (getHash hash Size key) key value := by
  obtain ⟨n, rfl⟩ : ∃ n, Size = n + 1 := ⟨Size - 1, by omega⟩
  have hloop := insertLoop_stop t key (getHash hash (n + 1) key) n (getHash hash (n + 1) key)
    (by intro hh; rw [hfree] at hh; exact Bool.noConfusion hh.1)
  obtain ⟨t3, h3, hl3⟩ := insert_at_lst hash h key value _ (getHash_lt hash hN key) hloop
  obtain ⟨t4, h4, hp4⟩ := insert_at hash t (lst_inv h) key value _ hloop
  rw [h3] at h4
  obtain rfl : t3 = t4 := by simpa using h4
  exact ⟨t3, h3, hl3, hp4⟩

theorem probe_home (hash : KeyType → Nat) (hN : 0 < Size) (t : HashTable Size) (key : KeyType)
    (hocc : t.isOccupied (getHash hash Size key) = true)
    (hkey : (t.data (getHash hash Size key)).key = key) :
    getIndexFromProbing hash t key = some (getHash hash Size key) := by
  have hs := getHash_lt hash hN key
  have := getIndexFromProbing_found hash t key 0 hN (fun w hw => absurd hw (Nat.not_lt_zero w))
    (fun w hw => by
      obtain rfl : w = 0 := by omega
      simp [nonFree, Nat.mod_eq_of_lt hs, hocc])
    (by simpa [Nat.mod_eq_of_lt hs] using hkey)
  simpa [Nat.mod_eq_of_lt hs] using this

theorem remove_home (hash : KeyType → Nat) (hN : 0 < Size) {t : HashTable Size} {L : List Nat}
    (h : Lst t L) (key : KeyType)
    (hocc : t.isOccupied (getHash hash Size key) = true)
    (hkey : (t.data (getHash hash Size key)).key = key) :
    ∃ t1, t.remove hash key = some (true, t1) ∧ Lst t1 (L.erase (getHash hash Size key)) ∧
      RemovePost t t1 (getHash hash Size key) := by
  have hp := probe_home hash hN t key hocc hkey
  have hs := getHash_lt hash hN key
  obtain ⟨t2, h2, hl2⟩ := remove_at_lst hash h key _ (Nat.ne_of_lt hs) hp
  obtain ⟨t3, h3, hp3⟩ := remove_at hash t (lst_inv h) key _ (Nat.ne_of_lt hs) hp
  rw [h2] at h3
  obtain rfl : t2 = t3 := by simpa using h3
  exact ⟨t2, h2, hl2, hp3⟩

theorem get_home (hash : KeyType → Nat) (hN : 0 < Size) {t : HashTable Size} {L : List Nat}
    (h : Lst t L) (key : KeyType)
    (hocc : t.isOccupied (getHash hash Size key) = true)
    (hkey : (t.data (getHash hash Size key)).key = key) :
    ∃ t1, t.get hash key = some ((true, (t.data (getHash hash Size key)).value), t1) ∧
      Lst t1 (getHash hash Size key :: L.erase (getHash hash Size key)) ∧ SameStore t t1 := by
  have hp := probe_home hash hN t key hocc hkey
  obtain ⟨t2, h2, hl2, hs2⟩ := get_at_lst hash h key _ (getHash_lt hash hN key) hp
  refine ⟨t2, ?_, hl2, hs2⟩
  have := (hs2 (Ptr.slot (getHash hash Size key))).2.1
  simp only [elem] at this
  rw [h2, this]

/-- A table whose list is the single slot `j` answers `get_first` and `get_last` with the
entry of that slot. -/
theorem get_first_last_single {t : HashTable Size} {j : Nat} (h : Lst t [j]) :
    t.get_first = some (true, ((t.data j).key, (t.data j).value)) ∧
    t.get_last = some (true, ((t.data j).key, (t.data j).value)) := by
  constructor
  · rw [get_first_lst h]; rfl
  · rw [get_last_lst h]; rfl

theorem get_first_last_nil {t : HashTable Size} (h : Lst t []) :
    t.get_first = some (false, ("", 0)) ∧ t.get_last = some (false, ("", 0)) := by
  constructor
  · rw [get_first_lst h]; rfl
  · rw [get_last_lst h]; rfl

/-- C16. In every reachable table `get_first()` reports not-found if and only if
`get_last()` reports not-found, if and only if no slot is live. In particular both report
not-found on a new table, both return `(key, value)` after a single `insert(key, value)`,
and both report not-found again after `remove(key)`. -/
theorem C16_not_found_iff_empty (hash : KeyType → Nat) (hN : 0 < Size) {t : HashTable Size}
    (hreach : Reachable hash t) :
    (t.get_first.map Prod.fst = some false ↔ t.get_last.map Prod.fst = some false) ∧
    (t.get_last.map Prod.fst = some false ↔ ∀ i, i < Size → t.isOccupied i = false) ∧
    (new Size).get_first = some (false, ("", 0)) ∧
    (new Size).get_last = some (false, ("", 0)) ∧
    ∀ (key : KeyType) (value : ValueType), ∃ t1 t2,
      (new Size).insert hash key value = some (true, t1) ∧
      t1.get_first = some (true, (key, value)) ∧ t1.get_last = some (true, (key, value)) ∧
      t1.remove hash key = some (true, t2) ∧
      t2.get_first = some (false, ("", 0)) ∧ t2.get_last = some (false, ("", 0)) := by
  obtain ⟨L, hL⟩ := hreach.lst hash hN
  refine ⟨?_, ?_, (get_first_last_nil (lst_new Size)).1, (get_first_last_nil (lst_new Size)).2,
    ?_⟩
  · rw [get_first_lst hL, get_last_lst hL]
    cases L with
    | nil => simp
    | cons j rest =>
      cases hg : (j :: rest).getLast? with
      | none => exact absurd (List.getLast?_eq_none_iff.1 hg) (by simp)
      | some x => simp
  · rw [get_last_lst hL]
    cases L with
    | nil =>
      simp only [List.head?_nil, Option.map_some', true_iff]
      intro i _
      cases ho : t.isOccupied i
      · rfl
      · exact absurd ((isOccupied_iff_mem hL i).1 ho) (List.not_mem_nil i)
    | cons j rest =>
      simp only [List.head?_cons, Option.map_some', Option.some.injEq, Bool.true_eq_false,
        false_iff]
      intro hall
      have := (isOccupied_iff_mem hL j).2 (List.mem_cons_self _ _)
      rw [hall j (hL.bound j (List.mem_cons_self _ _))] at this
      exact Bool.noConfusion this
  · intro key value
    obtain ⟨t1, h1, hl1, hp1⟩ := insert_home hash hN (lst_new Size) key value
      (by simp [new, isOccupied])
    simp only [List.erase_nil] at hl1
    obtain ⟨t2, h2, hl2, -⟩ := remove_home hash hN hl1 key hp1.occupied hp1.key_eq
    simp only [List.erase_cons_head] at hl2
    have hfl := get_first_last_single hl1
    rw [hp1.key_eq, hp1.value_eq] at hfl
    exact ⟨t1, t2, h1, hfl.1, hfl.2, h2, (get_first_last_nil hl2).1, (get_first_last_nil hl2).2⟩

end HashTable

/-- C16 at a concrete table: `insert("k", 7)` on a new `HashTable<1>`. -/
theorem C16_not_found_iff_empty_witness :
    (witnessTable1.get_first.map Prod.fst = some false ↔
      witnessTable1.get_last.map Prod.fst = some false) ∧
    (witnessTable1.get_last.map Prod.fst = some false ↔
      ∀ i, i < 1 → witnessTable1.isOccupied i = false) ∧
    (HashTable.new 1).get_first = some (false, ("", 0)) ∧
    (HashTable.new 1).get_last = some (false, ("", 0)) ∧
    ∀ (key : KeyType) (value : ValueType), ∃ t1 t2,
      (HashTable.new 1).insert (fun _ => 0) key value = some (true, t1) ∧
      t1.get_first = some (true, (key, value)) ∧ t1.get_last = some (true, (key, value)) ∧
      t1.remove (fun _ => 0) key = some (true, t2) ∧
      t2.get_first = some (false, ("", 0)) ∧ t2.get_last = some (false, ("", 0)) :=
  HashTable.C16_not_found_iff_empty (fun _ => 0) (by decide)
    (HashTable.Reachable.insert "k" 7 HashTable.Reachable.init
      (rfl : (HashTable.new 1).insert (fun _ => 0) "k" 7 = some (true, witnessTable1)))


namespace HashTable

variable {Size : Nat}

/-- C12. Tombstone transparency: on a new table of capacity `Size >= 1`, for every key and
values `v`, `v1`, the calls `insert(key, v)`, `remove(key)`, `insert(key, v1)` all return
`true`, a `get(key)` issued next returns `(true, v1)`, and before and after that `get` the
table holds exactly one live slot, with `get_first()` and `get_last()` both returning
`(key, v1)`. -/
theorem C12_tombstone_transparency (hash : KeyType → Nat) (hN : 1 ≤ Size) (key : KeyType)
    (v v1 : ValueType) :
    ∃ t1 t2 t3 t4 : HashTable Size,
      (new Size).insert hash key v = some (true, t1) ∧
      t1.remove hash key = some (true, t2) ∧
      t2.insert hash key v1 = some (true, t3) ∧
      t3.get hash key = some ((true, v1), t4) ∧
      (∀ i, i < Size → (t3.isOccupied i = true ↔ i = getHash hash Size key)) ∧
      t3.get_first = some (true, (key, v1)) ∧ t3.get_last = some (true, (key, v1)) ∧
      (∀ i, i < Size → (t4.isOccupied i = true ↔ i = getHash hash Size key)) ∧
      t4.get_first = some (true, (key, v1)) ∧ t4.get_last = some (true, (key, v1)) := by
  obtain ⟨t1, h1, hl1, hp1⟩ := insert_home hash hN (lst_new Size) key v
    (by simp [new, isOccupied])
  simp only [List.erase_nil] at hl1
  obtain ⟨t2, h2, hl2, hp2⟩ := remove_home hash hN hl1 key hp1.occupied hp1.key_eq
  simp only [List.erase_cons_head] at hl2
  obtain ⟨t3, h3, hl3, hp3⟩ := insert_home hash hN hl2 key v1 hp2.unoccupied
  simp only [List.erase_nil] at hl3
  obtain ⟨t4, h4, hl4, hs4⟩ := get_home hash hN hl3 key hp3.occupied hp3.key_eq
  simp only [List.erase_cons_head] at hl4
  rw [hp3.value_eq] at h4
  have hfl3 := get_first_last_single hl3
  rw [hp3.key_eq, hp3.value_eq] at hfl3
  have hfl4 := get_first_last_single hl4
  have hk4 := (hs4 (Ptr.slot (getHash hash Size key))).1
  have hv4 := (hs4 (Ptr.slot (getHash hash Size key))).2.1
  simp only [elem] at hk4 hv4
  rw [hk4, hv4, hp3.key_eq, hp3.value_eq] at hfl4
  refine ⟨t1, t2, t3, t4, h1, h2, h3, h4, ?_, hfl3.1, hfl3.2, ?_, hfl4.1, hfl4.2⟩
  · intro i _
    rw [isOccupied_iff_mem hl3 i, List.mem_singleton]
  · intro i _
    rw [isOccupied_iff_mem hl4 i, List.mem_singleton]

end HashTable

/-- C12 on a `HashTable<3>` with the key `"k"` and the values 1 and 2. -/
theorem C12_tombstone_transparency_witness :
    ∃ t1 t2 t3 t4 : HashTable 3,
      (HashTable.new 3).insert (fun k => k.length) "k" 1 = some (true, t1) ∧
      t1.remove (fun k => k.length) "k" = some (true, t2) ∧
      t2.insert (fun k => k.length) "k" 2 = some (true, t3) ∧
      t3.get (fun k => k.length) "k" = some ((true, 2), t4) ∧
      (∀ i, i < 3 → (t3.isOccupied i = true ↔ i = HashTable.getHash (fun k => k.length) 3 "k")) ∧
      t3.get_first = some (true, ("k", 2)) ∧ t3.get_last = some (true, ("k", 2)) ∧
      (∀ i, i < 3 → (t4.isOccupied i = true ↔ i = HashTable.getHash (fun k => k.length) 3 "k")) ∧
      t4.get_first = some (true, ("k", 2)) ∧ t4.get_last = some (true, ("k", 2)) :=
  HashTable.C12_tombstone_transparency (fun k => k.length) (by decide) "k" 1 2


theorem getLast?_erase_of_ne {L : List Nat} {x j : Nat} (h : L.getLast? = some x) (hx : x ≠ j) :
    (L.erase j).getLast? = some x := by
  rcases List.eq_nil_or_concat L with rfl | ⟨A, y, rfl⟩
  · simp at h
  · have hy : y = x := by simpa using h
    subst hy
    simp only [List.concat_eq_append]
    by_cases hj : j ∈ A
    · rw [List.erase_append_left _ hj]; simp
    · rw [List.erase_append_right _ hj, List.erase_cons_tail (by simpa using hx)]
      simp

theorem getLast?_cons_of_some {M : List Nat} {x : Nat} (j : Nat) (h : M.getLast? = some x) :
    (j :: M).getLast? = some x := by
  cases M with
  | nil => simp at h
  | cons a rest => rw [List.getLast?_cons_cons]; exact h

namespace HashTable

variable {Size : Nat}

theorem head_of_lst_cons {t : HashTable Size} {j : Nat} {M : List Nat} (h : Lst t (j :: M)) :
    t.firstElement.rightElement = some (Ptr.slot j) := by
  have := h.right Ptr.first
  simp only [elem] at this
  rw [this, nextOf_nodes_first_eq]
  rfl

/-- Touching slot `j` of a table with list `L`: when the entries of all other slots stay
as they are and the list becomes `j :: L.erase j`, `get_first()` can only change if `L`
was empty or ended in `j`. -/
theorem get_first_of_touch {t t1 : HashTable Size} {L : List Nat} {j : Nat} (h : Lst t L)
    (h1 : Lst t1 (j :: L.erase j))
    (hsame : ∀ i, i ≠ j → (t1.data i).key = (t.data i).key ∧ (t1.data i).value = (t.data i).value)
    (hchange : t1.get_first ≠ t.get_first) : L = [] ∨ L.getLast? = some j := by
  by_contra hcon
  push_neg at hcon
  obtain ⟨hne, hlast⟩ := hcon
  cases hg : L.getLast? with
  | none => exact hne (List.getLast?_eq_none_iff.1 hg)
  | some x =>
    have hxj : x ≠ j := fun hx => hlast (hx ▸ hg)
    apply hchange
    rw [get_first_lst h, get_first_lst h1, hg,
      getLast?_cons_of_some j (getLast?_erase_of_ne hg hxj)]
    simp only [(hsame x hxj).1, (hsame x hxj).2]

/-- C14 (as amended). Move-to-front: let `L` be the slots of the list from most to least
recent. In every reachable table, a successful `insert(key, value)` or a found `get(key)`
touches a slot `j` and yields the list `j :: L.erase j`: `j` in front, the other slots in
their old order, their keys and values unchanged; so `get_first()` changes only when the
touched slot was the least recent one or the table had no live slot. -/
theorem C14_move_to_front (hash : KeyType → Nat) (hN : 0 < Size) {t : HashTable Size}
    (hreach : Reachable hash t) (key : KeyType) (value w : ValueType) (t1 : HashTable Size)
    (htouch : t.insert hash key value = some (true, t1) ∨
      t.get hash key = some ((true, w), t1)) :
    ∃ L j, recency t = some L ∧ j < Size ∧
      t1.firstElement.rightElement = some (Ptr.slot j) ∧ (t1.data j).key = key ∧
      recency t1 = some (j :: L.erase j) ∧ (L.erase j).Sublist L ∧
      (∀ i, i ≠ j → (t1.data i).key = (t.data i).key ∧ (t1.data i).value = (t.data i).value) ∧
      (t1.get_first ≠ t.get_first → L = [] ∨ L.getLast? = some j) := by
  obtain ⟨L, hL⟩ := hreach.lst hash hN
  rcases htouch with hins | hget
  · obtain ⟨j, hj, hl1, hpost, -⟩ := insert_true_lst hash hN hL key value hins
    have hsame : ∀ i, i ≠ j →
        (t1.data i).key = (t.data i).key ∧ (t1.data i).value = (t.data i).value :=
      fun i hi => ⟨(hpost.others i hi).1, (hpost.others i hi).2.1⟩
    exact ⟨L, j, recency_lst hL, hj, hpost.head, hpost.key_eq, recency_lst hl1,
      List.erase_sublist j L, hsame, get_first_of_touch hL hl1 hsame⟩
  · obtain ⟨j, hj, -, hk, -, hl1, hs1⟩ := get_found_lst hash hN hL key w hget
    have hsame : ∀ i, i ≠ j →
        (t1.data i).key = (t.data i).key ∧ (t1.data i).value = (t.data i).value :=
      fun i _ => ⟨(hs1 (Ptr.slot i)).1, (hs1 (Ptr.slot i)).2.1⟩
    have hk1 : (t1.data j).key = key := by
      have := (hs1 (Ptr.slot j)).1
      simp only [elem] at this
      rw [this, hk]
    exact ⟨L, j, recency_lst hL, hj, head_of_lst_cons hl1, hk1, recency_lst hl1,
      List.erase_sublist j L, hsame, get_first_of_touch hL hl1 hsame⟩

end HashTable

/-- C14 at a concrete table: `get("k")` after `insert("k", 7)` on a new `HashTable<1>`. -/
theorem C14_move_to_front_witness :
    ∃ L j, recency witnessTable1 = some L ∧ j < 1 ∧
      witnessTable2.firstElement.rightElement = some (Ptr.slot j) ∧
      (witnessTable2.data j).key = "k" ∧
      recency witnessTable2 = some (j :: L.erase j) ∧ (L.erase j).Sublist L ∧
      (∀ i, i ≠ j → (witnessTable2.data i).key = (witnessTable1.data i).key ∧
        (witnessTable2.data i).value = (witnessTable1.data i).value) ∧
      (witnessTable2.get_first ≠ witnessTable1.get_first → L = [] ∨ L.getLast? = some j) :=
  HashTable.C14_move_to_front (fun _ => 0) (by decide)
    (HashTable.Reachable.insert "k" 7 HashTable.Reachable.init
      (rfl : (HashTable.new 1).insert (fun _ => 0) "k" 7 = some (true, witnessTable1)))
    "k" 0 7 witnessTable2 (Or.inr rfl)

/-- C14 (as stated) fails on an empty table: `insert("k", 7)` on a new `HashTable<1>`
touches slot 0 and changes `get_first()` from not-found to `("k", 7)`, although the list
was empty and slot 0 was not its least recent slot. -/
theorem C14_move_to_front_counterexample :
    (HashTable.new 1).insert (fun _ => 0) "k" 7 = some (true, witnessTable1) ∧
    recency (HashTable.new 1) = some [] ∧
    witnessTable1.firstElement.rightElement = some (Ptr.slot 0) ∧
    ([] : List Nat).getLast? ≠ some 0 ∧
    (HashTable.new 1).get_first = some (false, ("", 0)) ∧
    witnessTable1.get_first = some (true, ("k", 7)) :=
  ⟨rfl, by decide, by decide, by decide, by decide, by decide⟩


namespace HashTable

variable {Size : Nat}

/-- The probe of `getIndexFromProbing` looks at keys and at whether a slot is occupied or
erased, at nothing else. -/
theorem probeLoop_congr_state (t t1 : HashTable Size) (key : KeyType) (start : Nat)
    (hkey : ∀ i, (t1.data i).key = (t.data i).key) (hnf : ∀ i, nonFree t1 i = nonFree t i) :
    ∀ fuel index, probeLoop t1 key start fuel index = probeLoop t key start fuel index := by
  intro fuel
  induction fuel with
  | zero => intro index; rfl
  | succ f ih =>
    intro index
    by_cases hk : (t.data index).key = key
    · rw [probeLoop_match t key start f index hk,
        probeLoop_match t1 key start f index (by rw [hkey]; exact hk)]
    · rw [probeLoop_continue t key start f index hk,
        probeLoop_continue t1 key start f index (by rw [hkey]; exact hk), hnf, ih]

theorem getIndexFromProbing_congr_state (hash : KeyType → Nat) (t t1 : HashTable Size)
    (key : KeyType) (hkey : ∀ i, (t1.data i).key = (t.data i).key)
    (hnf : ∀ i, nonFree t1 i = nonFree t i) :
    getIndexFromProbing hash t1 key = getIndexFromProbing hash t key := by
  have h0 := hnf (getHash hash Size key)
  unfold getIndexFromProbing
  simp only []
  rw [probeLoop_congr_state t t1 key _ hkey hnf]
  have e : (!t1.isOccupied (getHash hash Size key) && !(t1.data (getHash hash Size key)).erased)
      = (!t.isOccupied (getHash hash Size key) && !(t.data (getHash hash Size key)).erased) := by
    simp only [nonFree] at h0
    rw [← Bool.not_or, ← Bool.not_or, h0]
  rw [e]

/-- A slot returned by the probe is occupied or erased. -/
theorem probeLoop_nonFree (t : HashTable Size) (key : KeyType) (start : Nat) :
    ∀ fuel index r, nonFree t index = true → probeLoop t key start fuel index = some r →
      r = Size ∨ nonFree t r = true := by
  intro fuel
  induction fuel with
  | zero => intro index r _ h; simp [probeLoop] at h
  | succ f ih =>
    intro index r hnf h
    by_cases hk : (t.data index).key = key
    · rw [probeLoop_match t key start f index hk] at h
      obtain rfl : index = r := by simpa using h
      exact Or.inr hnf
    · rw [probeLoop_continue t key start f index hk] at h
      split_ifs at h with hc
      · left; simpa using h.symm
      · push_neg at hc
        exact ih _ r (by simpa using hc.2) h

theorem getIndexFromProbing_nonFree (hash : KeyType → Nat) (t : HashTable Size) (key : KeyType)
    (r : Nat) (h : getIndexFromProbing hash t key = some r) (hr : r ≠ Size) :
    nonFree t r = true := by
  unfold getIndexFromProbing at h
  simp only [] at h
  split_ifs at h with hc
  · exact absurd (by simpa using h.symm) hr
  · have hnf : nonFree t (getHash hash Size key) = true := by
      simp only [nonFree]
      cases ho : t.isOccupied (getHash hash Size key) <;>
        cases he : (t.data (getHash hash Size key)).erased <;> simp_all
    rcases probeLoop_nonFree t key _ _ _ r hnf h with h1 | h1
    · exact absurd h1 hr
    · exact h1

/-- A table is determined by its list and by what its nodes store. -/
theorem eq_of_lst_of_sameStore {t t1 : HashTable Size} {L : List Nat} (h : Lst t L)
    (h1 : Lst t1 L) (hs : SameStore t t1) : t1 = t := by
  have key : ∀ p, t1.elem p = t.elem p := by
    intro p
    have hr := (h1.right p).trans (h.right p).symm
    have hl := (h1.left p).trans (h.left p).symm
    obtain ⟨hk, hv, he⟩ := hs p
    generalize t1.elem p = e1 at hr hl hk hv he
    generalize t.elem p = e at hr hl hk hv he
    cases e1; cases e
    simp only at hr hl hk hv he
    simp [hr, hl, hk, hv, he]
  obtain ⟨f1, l1, d1⟩ := t1
  obtain ⟨f, l, d⟩ := t
  have hf := key Ptr.first
  have hl := key Ptr.last
  have hd : d1 = d := funext (fun i => key (Ptr.slot i))
  simp only [elem] at hf hl
  rw [hf, hl, hd]

/-- C17. Idempotent touch: in every reachable table, for every key, a second `get(key)`
issued right after a first one returns what the first returned and leaves the table in
exactly the state the first one left. -/
theorem C17_idempotent_touch (hash : KeyType → Nat) (hN : 0 < Size) {t t1 : HashTable Size}
    (hreach : Reachable hash t) (key : KeyType) (r : Bool × ValueType)
    (hget : t.get hash key = some (r, t1)) : t1.get hash key = some (r, t1) := by
  obtain ⟨L, hL⟩ := hreach.lst hash hN
  obtain ⟨b, w⟩ := r
  cases b with
  | false =>
    obtain ⟨rfl, rfl⟩ := get_false_eq hash hN hL key w hget
    exact hget
  | true =>
    obtain ⟨j, hj, hp, hk, hw, hl1, hs1⟩ := get_found_lst hash hN hL key w hget
    have hkeys : ∀ i, (t1.data i).key = (t.data i).key := fun i => (hs1 (Ptr.slot i)).1
    have hnf : ∀ i, nonFree t1 i = nonFree t i := by
      intro i
      have he : (t1.data i).erased = (t.data i).erased := (hs1 (Ptr.slot i)).2.2
      by_cases hij : i = j
      · subst hij
        have h1 : t1.isOccupied i = true :=
          (isOccupied_iff_mem hl1 i).2 (List.mem_cons_self _ _)
        rw [getIndexFromProbing_nonFree hash t key i hp (Nat.ne_of_lt hj)]
        simp [nonFree, h1]
      · have : t1.isOccupied i = t.isOccupied i := by
          have e1 := isOccupied_iff_mem hl1 i
          have e := isOccupied_iff_mem hL i
          rw [List.mem_cons, hL.nodup.mem_erase_iff] at e1
          cases ho1 : t1.isOccupied i <;> cases ho : t.isOccupied i <;> simp_all
        simp only [nonFree, this, he]
    have hp1 : getIndexFromProbing hash t1 key = some j := by
      rw [getIndexFromProbing_congr_state hash t t1 key hkeys hnf]; exact hp
    obtain ⟨t2, h2, hl2, hs2⟩ := get_at_lst hash hl1 key j hj hp1
    rw [List.erase_cons_head] at hl2
    obtain rfl : t2 = t1 := eq_of_lst_of_sameStore hl1 hl2 hs2
    rw [h2]
    have hv : (t2.data j).value = (t.data j).value := (hs1 (Ptr.slot j)).2.1
    rw [hv, hw]

end HashTable

/-- C17 at a concrete table: `get("k")` after `insert("k", 7)` on a new `HashTable<1>`. -/
theorem C17_idempotent_touch_witness :
    witnessTable2.get (fun _ => 0) "k" = some ((true, 7), witnessTable2) :=
  HashTable.C17_idempotent_touch (fun _ => 0) (by decide)
    (HashTable.Reachable.insert "k" 7 HashTable.Reachable.init
      (rfl : (HashTable.new 1).insert (fun _ => 0) "k" 7 = some (true, witnessTable1)))
    "k" (true, 7) (rfl : witnessTable1.get (fun _ => 0) "k" = some ((true, 7), witnessTable2))


theorem insertLiveKeyAgain_congr (hash : KeyType → Nat) (x y : KeyType) (r : Nat)
    (hx : hash x % 2 = r % 2) (hy : hash y % 2 = r % 2) :
    insertLiveKeyAgain hash x y = insertLiveKeyAgain (fun _ => r) x y := by
  have hx1 : HashTable.getHash hash 2 x = HashTable.getHash (fun _ => r) 2 x := hx
  have hy1 : HashTable.getHash hash 2 y = HashTable.getHash (fun _ => r) 2 y := hy
  unfold insertLiveKeyAgain
  simp only [HashTable.insert_congr hash (fun _ => r) _ x _ hx1,
    HashTable.insert_congr hash (fun _ => r) _ y _ hy1,
    HashTable.remove_congr hash (fun _ => r) _ x hx1]

theorem insertLiveKeyAgain_collision :
    ∀ r, r < 2 → ∀ x, x ∈ ["a", "b", "c"] → ∀ y, y ∈ ["a", "b", "c"] → x ≠ y →
      insertLiveKeyAgainAnswers (fun _ => r) x y := by
  decide

/-- C11 fails on the code, for every hash function: on a `HashTable<2>` two of the keys
`"a"`, `"b"`, `"c"` share a home slot; for such `x`, `y`, after `insert(x,1)`,
`insert(y,2)`, `remove(x)` the key `y` is live with value 2, yet `insert(y,3)` takes the
erased slot of `x` instead of overwriting: it returns `true`, the number of live slots
goes from one to two, and two live slots hold `y`, with values 3 and 2. -/
theorem C11_insert_duplicates_live_key (hash : KeyType → Nat) :
    ∃ x y, x ∈ ["a", "b", "c"] ∧ y ∈ ["a", "b", "c"] ∧ x ≠ y ∧ hash x % 2 = hash y % 2 ∧
      (insertLiveKeyAgain hash x y = some ([(y, 2)], true, [(y, 3), (y, 2)]) ∨
       insertLiveKeyAgain hash x y = some ([(y, 2)], true, [(y, 2), (y, 3)])) := by
  have key : ∀ x y, x ∈ ["a", "b", "c"] → y ∈ ["a", "b", "c"] → x ≠ y →
      hash x % 2 = hash y % 2 → insertLiveKeyAgainAnswers hash x y := by
    intro x y hx hy hxy hcol
    unfold insertLiveKeyAgainAnswers
    rw [insertLiveKeyAgain_congr hash x y (hash y % 2) (by omega) (by omega)]
    exact insertLiveKeyAgain_collision _ (Nat.mod_lt _ (by decide)) x hx y hy hxy
  have ha : hash "a" % 2 < 2 := Nat.mod_lt _ (by decide)
  have hb : hash "b" % 2 < 2 := Nat.mod_lt _ (by decide)
  have hc : hash "c" % 2 < 2 := Nat.mod_lt _ (by decide)
  by_cases hab : hash "a" % 2 = hash "b" % 2
  · exact ⟨"a", "b", by decide, by decide, by decide, hab,
      key _ _ (by decide) (by decide) (by decide) hab⟩
  · by_cases hac : hash "a" % 2 = hash "c" % 2
    · exact ⟨"a", "c", by decide, by decide, by decide, hac,
        key _ _ (by decide) (by decide) (by decide) hac⟩
    · have hbc : hash "b" % 2 = hash "c" % 2 := by omega
      exact ⟨"b", "c", by decide, by decide, by decide, hbc,
        key _ _ (by decide) (by decide) (by decide) hbc⟩

theorem removeEmptyKeyOnTombstone_congr (hash : KeyType → Nat) :
    removeEmptyKeyOnTombstone hash = removeEmptyKeyOnTombstone (fun _ => 0) := by
  have h : tombstoneTable hash = tombstoneTable (fun _ => 0) := by
    unfold tombstoneTable
    simp only [HashTable.insert_congr hash (fun _ => 0) _ _ _ (getHash_one hash _),
      HashTable.remove_congr hash (fun _ => 0) _ _ (getHash_one hash _)]
  unfold removeEmptyKeyOnTombstone
  simp only [h, HashTable.remove_congr hash (fun _ => 0) _ _ (getHash_one hash _)]

/-- C15 fails on the code for the empty key, with every hash function: on a
`HashTable<1>`, after `insert("x",1)` and `remove("x")` the list is empty; `remove("")`
then returns `true`, and the list after it is empty as before: no slot was deleted from
it. -/
theorem C15_remove_true_deletes_nothing (hash : KeyType → Nat) :
    removeEmptyKeyOnTombstone hash = some (some [], true, some []) := by
  rw [removeEmptyKeyOnTombstone_congr]
  decide

namespace HashTable

variable {Size : Nat}

/-- A `remove` that returns `true` for a non-empty key, in a reachable table with list `L`:
the slot `j` it found is in `L`, the list becomes `L.erase j`, one slot shorter, the slot
is left erased with an empty key and the value zero, and key, value and `erased` flag of
every other slot are unchanged. When `j` was the least recent slot, `get_first()` now
returns the entry of the slot that was next to it. -/
theorem remove_live (hash : KeyType → Nat) (hN : 0 < Size) {t t1 : HashTable Size}
    (hreach : Reachable hash t) (key : KeyType) (hne : key ≠ "")
    (hrem : t.remove hash key = some (true, t1)) :
    ∃ L j, recency t = some L ∧ j ∈ L ∧ (t.data j).key = key ∧
      recency t1 = some (L.erase j) ∧ (L.erase j).length + 1 = L.length ∧
      RemovePost t t1 j ∧
      (∀ A y, L = A ++ [y, j] →
        t1.get_first = some (true, ((t.data y).key, (t.data y).value))) := by
  obtain ⟨L, hL⟩ := hreach.lst hash hN
  obtain ⟨j, hj, -, hk, hl1, hpost⟩ := remove_true_lst hash hN hL key hrem
  have hmem : j ∈ L := by
    rw [← isOccupied_iff_mem hL j]
    cases ho : t.isOccupied j
    · exact absurd ((hreach.key_of_unoccupied hash hN j ho).symm.trans hk).symm hne
    · rfl
  refine ⟨L, j, recency_lst hL, hmem, hk, recency_lst hl1, ?_, hpost, ?_⟩
  · rw [List.length_erase_of_mem hmem]
    have := List.length_pos_of_mem hmem
    omega
  · intro A y hA
    have hnd := hL.nodup
    rw [hA] at hnd
    have hyj : y ≠ j := by
      intro h
      rw [h] at hnd
      have := (List.nodup_append.1 hnd).2.1
      simp at this
    have hjA : j ∉ A := by
      intro h
      exact (List.nodup_append.1 hnd).2.2 h (by simp : j ∈ [y, j])
    have he : L.erase j = A ++ [y] := by
      rw [hA, List.erase_append_right _ hjA, List.erase_cons_tail (by simpa using hyj),
        List.erase_cons_head]
    rw [get_first_lst hl1, he]
    simp only [List.getLast?_append, List.getLast?_singleton, Option.or_some]
    rw [(hpost.others y hyj).1, (hpost.others y hyj).2.1]

end HashTable


namespace HashTable

variable {Size : Nat}

/-- C22: in every table reachable from a newly constructed `HashTable<N>`, each slot is
exactly one of free (both links null, `erased` false, key empty), live (both links set,
each to a sentinel or to another slot with both links set) or tombstone (both links null,
`erased` true); no slot has exactly one link set, and a slot with both links null and
`erased` false holds the empty key. -/
theorem C22_slot_discipline (hash : KeyType → Nat) {t : HashTable Size}
    (hreach : Reachable hash t) (i : Nat) (hi : i < Size) :
    ((isFreeSlot t i ∧ ¬ isLiveSlot t i ∧ ¬ isTombstoneSlot t i) ∨
      (¬ isFreeSlot t i ∧ isLiveSlot t i ∧ ¬ isTombstoneSlot t i) ∨
      (¬ isFreeSlot t i ∧ ¬ isLiveSlot t i ∧ isTombstoneSlot t i)) ∧
    ((t.data i).leftElement = none ↔ (t.data i).rightElement = none) ∧
    ((t.data i).leftElement = none → (t.data i).rightElement = none →
      (t.data i).erased = false → (t.data i).key = "") := by
  have hN : 0 < Size := by omega
  obtain ⟨L, hL⟩ := hreach.lst hash hN
  have hnd := nodes_nodup hL.nodup
  have h1 := hL.left (Ptr.slot i)
  have h2 := hL.right (Ptr.slot i)
  simp only [elem] at h1 h2
  have hvalid : ∀ p, p ∈ nodes L → p ≠ Ptr.slot i → validNeighbour t i p := by
    intro p hp hne
    cases p with
    | first => trivial
    | last => trivial
    | slot j =>
      have hj : j ∈ L := (slot_mem_nodes L j).1 hp
      exact ⟨fun h => hne (by rw [h]), hL.bound j hj, (isOccupied_iff_mem hL j).2 hj⟩
  by_cases hm : i ∈ L
  · have hocc := (isOccupied_iff t i).1 ((isOccupied_iff_mem hL i).2 hm)
    obtain ⟨r, hr⟩ := Option.ne_none_iff_exists'.1 hocc.1
    obtain ⟨l, hl⟩ := Option.ne_none_iff_exists'.1 hocc.2
    have hr1 : nextOf (nodes L) (Ptr.slot i) = some r := by rw [← h2]; exact hr
    have hl1 : prevOf (nodes L) (Ptr.slot i) = some l := by rw [← h1]; exact hl
    have hl2 : nextOf (nodes L) l = some (Ptr.slot i) := (nextOf_eq_some_iff hnd _ _).2 hl1
    have hlive : isLiveSlot t i :=
      ⟨l, r, hl, hr, hvalid l (prevOf_mem hl1).2 (nextOf_ne_self hnd hl2),
        hvalid r (List.mem_of_mem_tail (nextOf_mem hr1).2) (Ne.symm (nextOf_ne_self hnd hr1))⟩
    refine ⟨Or.inr (Or.inl ⟨?_, hlive, ?_⟩), ?_, ?_⟩
    · intro hf; rw [hf.1] at hl; cases hl
    · intro hf; rw [hf.1] at hl; cases hl
    · rw [hl, hr]; simp
    · intro hn; rw [hn] at hl; cases hl
  · have hnm : Ptr.slot i ∉ nodes L := by rw [slot_mem_nodes]; exact hm
    have hl : (t.data i).leftElement = none := by rw [h1, prevOf_eq_none_of_not_mem hnm]
    have hr : (t.data i).rightElement = none := by rw [h2, nextOf_eq_none_of_not_mem hnm]
    have hocc : t.isOccupied i = false := by
      cases ho : t.isOccupied i with
      | false => rfl
      | true => exact absurd ((isOccupied_iff_mem hL i).1 ho) hm
    have hkey := hreach.key_of_unoccupied hash hN i hocc
    have hnotlive : ¬ isLiveSlot t i := by
      rintro ⟨l, r, h, -⟩
      rw [hl] at h; cases h
    refine ⟨?_, by rw [hl, hr], fun _ _ _ => hkey⟩
    cases he : (t.data i).erased with
    | false =>
      exact Or.inl ⟨⟨hl, hr, he, hkey⟩, hnotlive, fun h => by
        have := h.2.2
        rw [he] at this; cases this⟩
    | true =>
      have hnf : ¬ isFreeSlot t i := fun h => by
        have := h.2.2.1
        rw [he] at this; cases this
      exact Or.inr (Or.inr ⟨hnf, hnotlive, ⟨hl, hr, he⟩⟩)

end HashTable

/-- C22 at slot 0 of the table after `insert("k", 7)` on a new `HashTable<1>`. -/
theorem C22_slot_discipline_witness :
    ((HashTable.isFreeSlot witnessTable1 0 ∧ ¬ HashTable.isLiveSlot witnessTable1 0 ∧
        ¬ HashTable.isTombstoneSlot witnessTable1 0) ∨
      (¬ HashTable.isFreeSlot witnessTable1 0 ∧ HashTable.isLiveSlot witnessTable1 0 ∧
        ¬ HashTable.isTombstoneSlot witnessTable1 0) ∨
      (¬ HashTable.isFreeSlot witnessTable1 0 ∧ ¬ HashTable.isLiveSlot witnessTable1 0 ∧
        HashTable.isTombstoneSlot witnessTable1 0)) ∧
    ((witnessTable1.data 0).leftElement = none ↔ (witnessTable1.data 0).rightElement = none) ∧
    ((witnessTable1.data 0).leftElement = none → (witnessTable1.data 0).rightElement = none →
      (witnessTable1.data 0).erased = false → (witnessTable1.data 0).key = "") :=
  HashTable.C22_slot_discipline (fun _ => 0)
    (HashTable.Reachable.insert "k" 7 HashTable.Reachable.init
      (rfl : (HashTable.new 1).insert (fun _ => 0) "k" 7 = some (true, witnessTable1)))
    0 (by decide)


namespace HashTable

variable {Size : Nat}

/-- C25: for every reachable table, key and value, `insert` returns; it returns `false`
exactly when all `Size` slots have both links set and none of them holds the key; and
when it returns `false` the table is the one it was given. -/
theorem C25_insert_false_iff_full (hash : KeyType → Nat) (hN : 0 < Size) {t : HashTable Size}
    (hreach : Reachable hash t) (key : KeyType) (value : ValueType) :
    ∃ b t1, t.insert hash key value = some (b, t1) ∧
      (b = false ↔ ∀ i, i < Size → t.isOccupied i = true ∧ (t.data i).key ≠ key) ∧
      (b = false → t1 = t) := by
  have hinv := hreach.inv hash hN
  rcases insert_spec hash hN t hinv key value with ⟨hall, h1⟩ | ⟨d, t1, hd, -, hstop, h1, -⟩
  · refine ⟨false, t, h1, ⟨fun _ i hi => ?_, fun _ => rfl⟩, fun _ => rfl⟩
    have := hall i hi
    unfold insertStops at this
    exact not_not.1 this
  · refine ⟨true, t1, h1, ⟨fun h => (by cases h), fun h => ?_⟩, fun h => (by cases h)⟩
    exact absurd (h _ (Nat.mod_lt _ hN)) hstop

end HashTable

/-- C25 at the full `HashTable<1>` that holds `"k"`: `insert("x", 1)` returns `false` and
leaves the table as it was. -/
theorem C25_insert_false_iff_full_witness :
    ∃ b t1, witnessTable1.insert (fun _ => 0) "x" 1 = some (b, t1) ∧
      (b = false ↔ ∀ i, i < 1 → witnessTable1.isOccupied i = true ∧
        (witnessTable1.data i).key ≠ "x") ∧
      (b = false → t1 = witnessTable1) :=
  HashTable.C25_insert_false_iff_full (fun _ => 0) (by decide)
    (HashTable.Reachable.insert "k" 7 HashTable.Reachable.init
      (rfl : (HashTable.new 1).insert (fun _ => 0) "k" 7 = some (true, witnessTable1)))
    "x" 1


namespace HashTable

variable {Size : Nat}

/-- The path that the loop of `getIndexFromProbing` has walked when it returns a slot:
every slot it stepped onto is occupied or carries the `erased` flag. -/
theorem probeLoop_path (t : HashTable Size) (key : KeyType) {start : Nat} (hs : start < Size) :
    ∀ (fuel u r : Nat), u < Size → probeLoop t key start fuel ((start + u) % Size) = some r →
      r ≠ Size →
      ∃ n, u + n < Size ∧ r = (start + (u + n)) % Size ∧
        ∀ w, u < w → w ≤ u + n → nonFree t ((start + w) % Size) = true := by
  intro fuel
  induction fuel with
  | zero => intro u r _ h; simp [probeLoop] at h
  | succ f ih =>
    intro u r hu h hr
    by_cases hk : (t.data ((start + u) % Size)).key = key
    · rw [probeLoop_match t key start f _ hk] at h
      refine ⟨0, by omega, by simpa using h.symm, fun w h1 h2 => by omega⟩
    · rw [probeLoop_continue t key start f _ hk, probe_step] at h
      split_ifs at h with hc
      · exact absurd (by simpa using h.symm) hr
      · have hc1 : (start + (u + 1)) % Size ≠ start := fun e => hc (Or.inl e)
        have hc2 : nonFree t ((start + (u + 1)) % Size) = true := by
          cases hnf : nonFree t ((start + (u + 1)) % Size) with
          | true => rfl
          | false => exact absurd (Or.inr hnf) hc
        have hu1 : u + 1 < Size := by
          by_contra hge
          have : u + 1 = Size := by omega
          rw [this, probe_wrap hs] at hc1
          exact hc1 rfl
        obtain ⟨n, hn, hrn, hpath⟩ := ih (u + 1) r hu1 h hr
        refine ⟨n + 1, by omega, by rw [hrn]; congr 2; omega, fun w h1 h2 => ?_⟩
        by_cases hw : w = u + 1
        · rw [hw]; exact hc2
        · exact hpath w (by omega) (by omega)

theorem getIndexFromProbing_path (hash : KeyType → Nat) (hN : 0 < Size) (t : HashTable Size)
    (key : KeyType) (r : Nat) (h : getIndexFromProbing hash t key = some r) (hr : r ≠ Size) :
    ∃ d, d < Size ∧ r = (getHash hash Size key + d) % Size ∧
      ∀ w, w ≤ d → nonFree t ((getHash hash Size key + w) % Size) = true := by
  have hs := getHash_lt hash hN key
  unfold getIndexFromProbing at h
  simp only [] at h
  split_ifs at h with hc
  · exact absurd (by simpa using h.symm) hr
  · have hnf : nonFree t (getHash hash Size key) = true := by
      simp only [nonFree]
      cases ho : t.isOccupied (getHash hash Size key) <;>
        cases he : (t.data (getHash hash Size key)).erased <;> simp_all
    have h0 : (getHash hash Size key + 0) % Size = getHash hash Size key := by
      rw [Nat.add_zero, Nat.mod_eq_of_lt hs]
    have h' : probeLoop t key (getHash hash Size key) Size
        ((getHash hash Size key + 0) % Size) = some r := by rw [h0]; exact h
    obtain ⟨n, hn, hrn, hpath⟩ := probeLoop_path t key hs Size 0 r hN h' hr
    refine ⟨n, by omega, by simpa using hrn, fun w hw => ?_⟩
    by_cases hw0 : w = 0
    · rw [hw0, h0]; exact hnf
    · exact hpath w (by omega) (by omega)

theorem probe_unique {start d1 d2 : Nat} (h1 : d1 < Size) (h2 : d2 < Size)
    (h : (start + d1) % Size = (start + d2) % Size) : d1 = d2 := by
  rcases Nat.lt_trichotomy d1 d2 with hlt | heq | hgt
  · exact absurd h (probe_inj start hlt h2)
  · exact heq
  · exact absurd h.symm (probe_inj start hgt h1)

end HashTable

namespace HashTable

variable {Size : Nat}

theorem nonFree_of_occupied {t : HashTable Size} {i : Nat} (h : t.isOccupied i = true) :
    nonFree t i = true := by
  simp [nonFree, h]

theorem probeChain_new (hash : KeyType → Nat) (Size : Nat) : ProbeChain hash (new Size) := by
  intro j hj
  simp [isOccupied, new] at hj

theorem probeChain_insert (hash : KeyType → Nat) (hN : 0 < Size) {t t1 : HashTable Size}
    {L : List Nat} (hL : Lst t L) (hc : ProbeChain hash t) (key : KeyType) (value : ValueType)
    (hins : t.insert hash key value = some (true, t1)) : ProbeChain hash t1 := by
  rcases insertLoop_cases hN t key (getHash_lt hash hN key) with
    ⟨-, hloop⟩ | ⟨d, hd, hgo, -, hloop⟩
  · have : t.insert hash key value = some (false, t) := by simp [insert, hloop]
    rw [this] at hins; simp at hins
  · obtain ⟨t3, h3, hl3⟩ := insert_at_lst hash hL key value _ (Nat.mod_lt _ hN) hloop
    obtain ⟨t4, h4, hp⟩ := insert_at hash t (lst_inv hL) key value _ hloop
    rw [hins] at h3 h4
    obtain rfl : t1 = t3 := by simpa using h3
    obtain rfl : t1 = t4 := by simpa using h4
    have hmono : ∀ x, nonFree t x = true → nonFree t1 x = true := by
      intro x hx
      by_cases hxj : x = (getHash hash Size key + d) % Size
      · rw [hxj]; exact nonFree_of_occupied hp.occupied
      · simp only [nonFree, Bool.or_eq_true] at hx ⊢
        rcases hx with hx | hx
        · exact Or.inl (hp.occupied_mono x hxj hx)
        · exact Or.inr (by rw [(hp.others x hxj).2.2]; exact hx)
    intro j hj d1 hd1 hpos w hw
    by_cases hjj : j = (getHash hash Size key + d) % Size
    · have hkey : (t1.data j).key = key := by rw [hjj]; exact hp.key_eq
      rw [hkey] at hpos ⊢
      have hdd : d1 = d := probe_unique hd1 hd (by rw [hpos, hjj])
      have hns := hgo w (by omega)
      unfold insertStops at hns
      exact hmono _ (nonFree_of_occupied (not_not.1 hns).1)
    · have hmem : j ∈ L := by
        have := (isOccupied_iff_mem hl3 j).1 hj
        rcases List.mem_cons.1 this with h | h
        · exact absurd h hjj
        · exact List.mem_of_mem_erase h
      have hkey : (t1.data j).key = (t.data j).key := (hp.others j hjj).1
      rw [hkey] at hpos ⊢
      exact hmono _ (hc j ((isOccupied_iff_mem hL j).2 hmem) d1 hd1 hpos w hw)

theorem probeChain_remove (hash : KeyType → Nat) (hN : 0 < Size) {t t1 : HashTable Size}
    {L : List Nat} (hL : Lst t L) (hc : ProbeChain hash t) (key : KeyType)
    (hrem : t.remove hash key = some (true, t1)) : ProbeChain hash t1 := by
  obtain ⟨j0, -, -, -, hl1, hp⟩ := remove_true_lst hash hN hL key hrem
  have hmono : ∀ x, nonFree t x = true → nonFree t1 x = true := by
    intro x hx
    by_cases hxj : x = j0
    · rw [hxj]; simp [nonFree, hp.erased_eq]
    · simp only [nonFree, Bool.or_eq_true] at hx ⊢
      rcases hx with hx | hx
      · exact Or.inl (hp.occupied_mono x hxj hx)
      · exact Or.inr (by rw [(hp.others x hxj).2.2]; exact hx)
  intro j hj d1 hd1 hpos w hw
  have hmem := (isOccupied_iff_mem hl1 j).1 hj
  have hjj : j ≠ j0 := fun h => List.Nodup.not_mem_erase hL.nodup (h ▸ hmem)
  have hkey : (t1.data j).key = (t.data j).key := (hp.others j hjj).1
  rw [hkey] at hpos ⊢
  exact hmono _ (hc j ((isOccupied_iff_mem hL j).2 (List.mem_of_mem_erase hmem)) d1 hd1 hpos w hw)

theorem probeChain_get (hash : KeyType → Nat) (hN : 0 < Size) {t t1 : HashTable Size}
    {L : List Nat} (hL : Lst t L) (hc : ProbeChain hash t) (key : KeyType) (v : ValueType)
    (hget : t.get hash key = some ((true, v), t1)) : ProbeChain hash t1 := by
  obtain ⟨j0, hj0, hprobe, hk0, -, hl1, hs⟩ := get_found_lst hash hN hL key v hget
  obtain ⟨d0, hd0, hjd, hpath⟩ := getIndexFromProbing_path hash hN t key j0 hprobe
    (Nat.ne_of_lt hj0)
  have hstore : ∀ x, (t1.data x).key = (t.data x).key ∧ (t1.data x).erased = (t.data x).erased :=
    fun x => by
      have := hs (Ptr.slot x)
      simp only [elem] at this
      exact ⟨this.1, this.2.2⟩
  have hmono : ∀ x, nonFree t x = true → nonFree t1 x = true := by
    intro x hx
    simp only [nonFree, Bool.or_eq_true] at hx ⊢
    rcases hx with hx | hx
    · left
      rw [isOccupied_iff_mem hl1]
      have hxL := (isOccupied_iff_mem hL x).1 hx
      by_cases hxj : x = j0
      · rw [hxj]; exact List.mem_cons_self _ _
      · exact List.mem_cons_of_mem _ ((List.mem_erase_of_ne hxj).2 hxL)
    · exact Or.inr (by rw [(hstore x).2]; exact hx)
  intro j hj d1 hd1 hpos w hw
  rw [(hstore j).1] at hpos ⊢
  by_cases hjj : j = j0
  · rw [hjj, hk0] at hpos ⊢
    have hdd : d1 = d0 := probe_unique hd1 hd0 (by rw [hpos, hjd])
    exact hmono _ (hpath w (by omega))
  · have hmem : j ∈ L := by
      have := (isOccupied_iff_mem hl1 j).1 hj
      rcases List.mem_cons.1 this with h | h
      · exact absurd h hjj
      · exact List.mem_of_mem_erase h
    exact hmono _ (hc j ((isOccupied_iff_mem hL j).2 hmem) d1 hd1 hpos w hw)

/-- Every reachable table has a continuous probe chain. -/
theorem Reachable.probeChain (hash : KeyType → Nat) (hN : 0 < Size) {t : HashTable Size}
    (h : Reachable hash t) : ProbeChain hash t := by
  induction h with
  | init => exact probeChain_new hash Size
  | @insert t t1 b key value hreach hstep ih =>
    obtain ⟨L, hL⟩ := hreach.lst hash hN
    cases b with
    | true => exact probeChain_insert hash hN hL ih key value hstep
    | false => rw [insert_false_eq hash hN (lst_inv hL) key value hstep]; exact ih
  | @remove t t1 b key hreach hstep ih =>
    obtain ⟨L, hL⟩ := hreach.lst hash hN
    cases b with
    | true => exact probeChain_remove hash hN hL ih key hstep
    | false => rw [remove_false_eq hash hN hL key hstep]; exact ih
  | @get t t1 r key hreach hstep ih =>
    obtain ⟨L, hL⟩ := hreach.lst hash hN
    obtain ⟨b, v⟩ := r
    cases b with
    | true => exact probeChain_get hash hN hL ih key v hstep
    | false => rw [(get_false_eq hash hN hL key v hstep).1]; exact ih

end HashTable

namespace HashTable

variable {Size : Nat}

/-- C26: in every reachable table, for every slot `j` with both links set, every slot on
the probe path from the home slot of its key up to, not including, `j` has both links set
or carries the `erased` flag; hence `get` of that key returns found and `remove` of that
key returns `true`. -/
theorem C26_probe_chain (hash : KeyType → Nat) {t : HashTable Size} (hreach : Reachable hash t)
    (j : Nat) (hj : j < Size) (hocc : t.isOccupied j = true) :
    (∀ d, d < Size → (getHash hash Size (t.data j).key + d) % Size = j → ∀ w, w < d →
      (t.isOccupied ((getHash hash Size (t.data j).key + w) % Size) = true ∨
        (t.data ((getHash hash Size (t.data j).key + w) % Size)).erased = true)) ∧
    (∃ v t1, t.get hash (t.data j).key = some ((true, v), t1)) ∧
    (∃ t1, t.remove hash (t.data j).key = some (true, t1)) := by
  classical
  have hN : 0 < Size := by omega
  have hc := hreach.probeChain hash hN
  have hinv := hreach.inv hash hN
  have hchain : ∀ d, d < Size → (getHash hash Size (t.data j).key + d) % Size = j →
      ∀ w, w < d → nonFree t ((getHash hash Size (t.data j).key + w) % Size) = true :=
    fun d hd hpos w hw => hc j hocc d hd hpos w hw
  obtain ⟨d, hd, hpos⟩ := probe_cover (getHash_lt hash hN (t.data j).key) hj
  have hex : ∃ w, w ≤ d ∧
      (t.data ((getHash hash Size (t.data j).key + w) % Size)).key = (t.data j).key :=
    ⟨d, Nat.le_refl d, by rw [hpos]⟩
  obtain ⟨hle, hkey⟩ := Nat.find_spec hex
  have hprobe := getIndexFromProbing_found hash t (t.data j).key (Nat.find hex) (by omega)
    (fun w hw hk => Nat.find_min hex hw ⟨by omega, hk⟩)
    (fun w hw => by
      by_cases hwd : w < d
      · exact hchain d hd hpos w hwd
      · have : w = d := by omega
        rw [this, hpos]; exact nonFree_of_occupied hocc)
    hkey
  have hne : (getHash hash Size (t.data j).key + Nat.find hex) % Size ≠ Size :=
    Nat.ne_of_lt (Nat.mod_lt _ hN)
  obtain ⟨t1, h1, -⟩ := get_at hash t hinv (t.data j).key _ hne hprobe
  obtain ⟨t2, h2, -⟩ := remove_at hash t hinv (t.data j).key _ hne hprobe
  refine ⟨fun d1 hd1 hp1 w hw => ?_, ⟨_, t1, h1⟩, ⟨t2, h2⟩⟩
  have := hchain d1 hd1 hp1 w hw
  simpa [nonFree] using this

end HashTable

/-- C26 at slot 0 of the table after `insert("k", 7)` on a new `HashTable<1>`. -/
theorem C26_probe_chain_witness :
    (∀ d, d < 1 →
      (HashTable.getHash (fun _ => 0) 1 (witnessTable1.data 0).key + d) % 1 = 0 → ∀ w, w < d →
      (witnessTable1.isOccupied
          ((HashTable.getHash (fun _ => 0) 1 (witnessTable1.data 0).key + w) % 1) = true ∨
        (witnessTable1.data
          ((HashTable.getHash (fun _ => 0) 1 (witnessTable1.data 0).key + w) % 1)).erased =
          true)) ∧
    (∃ v t1, witnessTable1.get (fun _ => 0) (witnessTable1.data 0).key = some ((true, v), t1)) ∧
    (∃ t1, witnessTable1.remove (fun _ => 0) (witnessTable1.data 0).key = some (true, t1)) :=
  HashTable.C26_probe_chain (fun _ => 0)
    (HashTable.Reachable.insert "k" 7 HashTable.Reachable.init
      (rfl : (HashTable.new 1).insert (fun _ => 0) "k" 7 = some (true, witnessTable1)))
    0 (by decide) (by decide)

/-! ### The reads of the reference parser

Every `s[index]` of the reference parser stands behind a test of `index` against the size,
so the byte is there: each function is equal to the one that reads with `charAt` under the
same tests. A read above the size would give no result. -/

namespace JsonParser

theorem byteAt_of_lt {s : Str} {index : Nat} (h : index < s.length) :
    byteAt s index = some (charAt s index) := by
  simp [byteAt, Nat.le_of_lt h]

theorem byteAt_above {s : Str} {index : Nat} (h : s.length < index) : byteAt s index = none := by
  simp [byteAt, Nat.not_le.2 h]

theorem skipWhitespaceLoop_zero (s : Str) (index : Nat) : skipWhitespaceLoop s 0 index = none :=
  rfl

theorem skipWhitespaceLoop_succ (s : Str) (fuel index : Nat) :
    skipWhitespaceLoop s (fuel + 1) index =
      if index < s.length && isspace (charAt s index) then
        skipWhitespaceLoop s fuel ((index + 1) % UInt32Size)
      else some index := by
  rw [skipWhitespaceLoop]
  by_cases h : index < s.length
  · simp [h, byteAt_of_lt h]
  · simp [h]

theorem expectChar_eq (s : Str) (index : Nat) (c : Char) :
    expectChar s index c =
      match skipWhitespace s index with
      | none => none
      | some index1 =>
        if index1 ≥ s.length || charAt s index1 != c then some (false, index1)
        else some (true, (index1 + 1) % UInt32Size) := by
  rw [expectChar]
  cases skipWhitespace s index with
  | none => rfl
  | some index1 =>
    by_cases h : index1 < s.length
    · simp [Nat.not_le.2 h, byteAt_of_lt h]
    · simp [Nat.not_lt.1 h]

theorem parseStringLoop_zero (s : Str) (index : Nat) (result : Str) :
    parseStringLoop s 0 index result = none :=
  rfl

theorem parseStringLoop_succ (s : Str) (fuel index : Nat) (result : Str) :
    parseStringLoop s (fuel + 1) index result =
      if index < s.length && charAt s index != quoteChar then
        parseStringLoop s fuel ((index + 1) % UInt32Size) (result ++ [charAt s index])
      else some (result, index) := by
  rw [parseStringLoop]
  by_cases h : index < s.length
  · simp [h, byteAt_of_lt h]
  · simp [h]

theorem parseString_eq (s : Str) (index : Nat) :
    parseString s index =
      match skipWhitespace s index with
      | none => none
      | some index1 =>
        if index1 ≥ s.length || charAt s index1 != quoteChar then some ([], index1)
        else
          match parseStringLoop s UInt32Size ((index1 + 1) % UInt32Size) [] with
          | none => none
          | some (result, index2) =>
            if index2 ≥ s.length || charAt s index2 != quoteChar then some (result, index2)
            else some (result, (index2 + 1) % UInt32Size) := by
  rw [parseString]
  cases skipWhitespace s index with
  | none => rfl
  | some index1 =>
    by_cases h : index1 < s.length
    · simp only [Nat.not_le.2 h, byteAt_of_lt h, if_false, decide_False, Bool.false_or]
      by_cases h1 : (charAt s index1 != quoteChar) = true
      · simp only [h1, if_true]
      · simp only [h1, if_false]
        cases parseStringLoop s UInt32Size ((index1 + 1) % UInt32Size) [] with
        | none => rfl
        | some r =>
          obtain ⟨result, index2⟩ := r
          by_cases h2 : index2 < s.length
          · simp [Nat.not_le.2 h2, byteAt_of_lt h2]
          · simp [Nat.not_lt.1 h2]
    · simp [Nat.not_lt.1 h]

theorem parseInt64Loop_zero (s : Str) (index : Nat) (value : Int) :
    parseInt64Loop s 0 index value = none :=
  rfl

theorem parseInt64Loop_succ (s : Str) (fuel index : Nat) (value : Int) :
    parseInt64Loop s (fuel + 1) index value =
      if index < s.length && isdigit (charAt s index) then
        match pushDigit value (charAt s index) with
        | none => none
        | some next => parseInt64Loop s fuel ((index + 1) % UInt32Size) next
      else some (value, index) := by
  rw [parseInt64Loop]
  by_cases h : index < s.length
  · simp [h, byteAt_of_lt h]
  · simp [h]

theorem parseInt64_eq (s : Str) (index : Nat) :
    parseInt64 s index =
      match skipWhitespace s index with
      | none => none
      | some index1 =>
        if index1 ≥ s.length then some (0, index1)
        else
          let negative := charAt s index1 == Char.ofNat 45
          let index2 := if negative then (index1 + 1) % UInt32Size else index1
          if index2 ≥ s.length || !isdigit (charAt s index2) then some (0, index2)
          else
            match parseInt64Loop s UInt32Size index2 0 with
            | none => none
            | some (value, index3) => some (if negative then -value else value, index3) := by
  rw [parseInt64]
  cases skipWhitespace s index with
  | none => rfl
  | some index1 =>
    by_cases h : index1 < s.length
    · simp only [Nat.not_le.2 h, byteAt_of_lt h, if_false]
      generalize (if (charAt s index1 == Char.ofNat 45) = true then (index1 + 1) % UInt32Size
        else index1) = index2
      by_cases h2 : index2 < s.length
      · simp [Nat.not_le.2 h2, byteAt_of_lt h2]
      · simp [Nat.not_lt.1 h2]
    · simp [Nat.not_lt.1 h]

theorem fieldEnd_eq (json : Str) (index : Nat) (record : Record) :
    fieldEnd json index record =
      match skipWhitespace json index with
      | none => none
      | some index1 =>
        if index1 < json.length && charAt json index1 == Char.ofNat 44 then
          some (true, (index1 + 1) % UInt32Size, record)
        else some (false, index1, record) := by
  rw [fieldEnd]
  cases skipWhitespace json index with
  | none => rfl
  | some index1 =>
    by_cases h : index1 < json.length
    · simp [h, byteAt_of_lt h]
    · simp [h]

theorem parseRecord_eq (json : Str) (index : Nat) :
    parseRecord json index =
      match skipWhitespace json index with
      | none => none
      | some index1 =>
        match expectChar json index1 (Char.ofNat 123) with
        | none => none
        | some (false, index2) => some (Record.zero, index2)
        | some (true, index2) =>
          match parseFields json [['a'], ['p'], ['q'], ['f'], ['l'], ['T'], ['m']] index2
              Record.zero with
          | none => none
          | some (index3, record) =>
            if index3 < json.length && charAt json index3 == Char.ofNat 125 then
              some (record, (index3 + 1) % UInt32Size)
            else some (record, index3) := by
  rw [parseRecord]
  cases skipWhitespace json index with
  | none => rfl
  | some index1 =>
    dsimp only
    cases expectChar json index1 (Char.ofNat 123) with
    | none => rfl
    | some r =>
      obtain ⟨b, index2⟩ := r
      cases b with
      | false => rfl
      | true =>
        dsimp only
        cases parseFields json [['a'], ['p'], ['q'], ['f'], ['l'], ['T'], ['m']] index2
            Record.zero with
        | none => rfl
        | some r3 =>
          obtain ⟨index3, record⟩ := r3
          by_cases h : index3 < json.length
          · simp [h, byteAt_of_lt h]
          · simp [h]

theorem parseRecordsLoop_zero (json : Str) (index : Nat) (records : List Record) :
    parseRecordsLoop json 0 index records = none :=
  rfl

theorem parseRecordsLoop_succ (json : Str) (fuel index : Nat) (records : List Record) :
    parseRecordsLoop json (fuel + 1) index records =
      match parseRecord json index with
      | none => none
      | some (record, index1) =>
        let records1 := records ++ [record]
        match skipWhitespace json index1 with
        | none => none
        | some index2 =>
          if index2 < json.length && charAt json index2 == Char.ofNat 44 then
            parseRecordsLoop json fuel ((index2 + 1) % UInt32Size) records1
          else some records1 := by
  rw [parseRecordsLoop]
  cases parseRecord json index with
  | none => rfl
  | some r =>
    obtain ⟨record, index1⟩ := r
    dsimp only
    cases skipWhitespace json index1 with
    | none => rfl
    | some index2 =>
      by_cases h : index2 < json.length
      · simp [h, byteAt_of_lt h]
      · simp [h]

theorem parseRecords_eq (json : Str) :
    parseRecords json =
      match skipWhitespace json 0 with
      | none => none
      | some index1 =>
        match expectChar json index1 (Char.ofNat 91) with
        | none => none
        | some (false, _) => some []
        | some (true, index2) =>
          match skipWhitespace json index2 with
          | none => none
          | some index3 =>
            if index3 < json.length && charAt json index3 == Char.ofNat 93 then some []
            else parseRecordsLoop json UInt32Size index3 [] := by
  rw [parseRecords]
  cases skipWhitespace json 0 with
  | none => rfl
  | some index1 =>
    dsimp only
    cases expectChar json index1 (Char.ofNat 91) with
    | none => rfl
    | some r =>
      obtain ⟨b, index2⟩ := r
      cases b with
      | false => rfl
      | true =>
        dsimp only
        cases skipWhitespace json index2 with
        | none => rfl
        | some index3 =>
          by_cases h : index3 < json.length
          · simp [h, byteAt_of_lt h]
          · simp [h]

end JsonParser

/-! ### `find_quotes_avx2` -/

namespace JsonParserSIMD

theorem land_pred (z k : Nat) :
    (2 ^ z * (2 * k + 1)) &&& (2 ^ z * (2 * k + 1) - 1) = 2 ^ (z + 1) * k := by
  induction z with
  | zero =>
    have h := Nat.land_bit true k false k
    simp only [Nat.bit_val, Bool.toNat_true, Bool.toNat_false, Bool.and_false, Nat.and_self,
      Nat.add_zero] at h
    simpa using h
  | succ z ih =>
    have hpos : 0 < 2 ^ z * (2 * k + 1) := Nat.mul_pos (Nat.two_pow_pos z) (by omega)
    have h := Nat.land_bit false (2 ^ z * (2 * k + 1)) true (2 ^ z * (2 * k + 1) - 1)
    simp only [Nat.bit_val, Bool.toNat_true, Bool.toNat_false, Bool.false_and,
      Nat.add_zero] at h
    have e1 : 2 ^ (z + 1) * (2 * k + 1) = 2 * (2 ^ z * (2 * k + 1)) := by ring
    have e2 : 2 * (2 ^ z * (2 * k + 1)) - 1 = 2 * (2 ^ z * (2 * k + 1) - 1) + 1 := by omega
    rw [e1, e2, h, ih]
    ring

theorem ctzAux_spec : ∀ (z fuel k : Nat), z < fuel → ctzAux fuel (2 ^ z * (2 * k + 1)) = z := by
  intro z
  induction z with
  | zero =>
    intro fuel k hf
    obtain ⟨f, rfl⟩ : ∃ f, fuel = f + 1 := ⟨fuel - 1, by omega⟩
    have : (2 * k + 1) % 2 = 1 := by omega
    simp [ctzAux, this]
  | succ z ih =>
    intro fuel k hf
    obtain ⟨f, rfl⟩ : ∃ f, fuel = f + 1 := ⟨fuel - 1, by omega⟩
    have e1 : 2 ^ (z + 1) * (2 * k + 1) = 2 * (2 ^ z * (2 * k + 1)) := by ring
    have h1 : (2 ^ (z + 1) * (2 * k + 1)) % 2 ≠ 1 := by rw [e1]; omega
    have h2 : (2 ^ (z + 1) * (2 * k + 1)) / 2 = 2 ^ z * (2 * k + 1) := by rw [e1]; omega
    rw [ctzAux, if_neg h1, h2, ih f k (by omega)]
    omega

theorem maskLoop_zero (i fuel : Nat) (indexes : List Nat) :
    maskLoop i fuel 0 indexes = some indexes := by
  cases fuel <;> simp [maskLoop]

/-- The mask loop appends the positions of the set bits, lowest first. -/
theorem maskLoop_spec (i : Nat) :
    ∀ (bs : List Bool) (z fuel : Nat) (indexes : List Nat),
      z + bs.length ≤ 32 → i + 32 ≤ UInt32Size → bs.count true ≤ fuel →
      maskLoop i fuel (2 ^ z * maskOf bs) indexes =
        some (indexes ++ matchPositions (i + z) bs) := by
  intro bs
  induction bs with
  | nil =>
    intro z fuel indexes _ _ _
    simp [maskOf, matchPositions, maskLoop_zero]
  | cons b bs ih =>
    intro z fuel indexes hz hi hfuel
    simp only [List.length_cons] at hz
    cases b with
    | false =>
      have e : 2 ^ z * maskOf (false :: bs) = 2 ^ (z + 1) * maskOf bs := by
        simp only [maskOf, Bool.false_eq_true, if_false]; ring
      rw [e, ih (z + 1) fuel indexes (by omega) hi (by simpa using hfuel)]
      simp [matchPositions, Nat.add_assoc]
    | true =>
      obtain ⟨f, rfl⟩ : ∃ f, fuel = f + 1 := ⟨fuel - 1, by
        simp only [List.count_cons_self] at hfuel; omega⟩
      have e : 2 ^ z * maskOf (true :: bs) = 2 ^ z * (2 * maskOf bs + 1) := by
        simp only [maskOf, if_true]; ring
      have hne : 2 ^ z * (2 * maskOf bs + 1) ≠ 0 :=
        Nat.pos_iff_ne_zero.1 (Nat.mul_pos (Nat.two_pow_pos z) (by omega))
      rw [e, maskLoop, if_pos hne]
      simp only [builtin_ctz]
      rw [ctzAux_spec z 32 _ (by omega), land_pred,
        ih (z + 1) f _ (by omega) hi (by simpa using hfuel),
        Nat.mod_eq_of_lt (by omega)]
      simp [matchPositions, Nat.add_assoc]

theorem movemask_cmpeq (chunk : List Char) (c : Char) (h : chunk.length ≤ 32) :
    mm256_movemask_epi8 (mm256_cmpeq_epi8 chunk (mm256_set1_epi8 c)) =
      maskOf (chunk.map (fun x => decide (x = c))) := by
  unfold mm256_set1_epi8
  generalize 32 = n at h
  induction chunk generalizing n with
  | nil => simp [mm256_cmpeq_epi8, mm256_movemask_epi8, maskOf]
  | cons x xs ih =>
    obtain ⟨m, rfl⟩ : ∃ m, n = m + 1 := ⟨n - 1, by simp only [List.length_cons] at h; omega⟩
    have := ih m (by simpa using h)
    simp only [mm256_cmpeq_epi8, mm256_movemask_epi8] at this
    simp only [mm256_cmpeq_epi8, mm256_movemask_epi8, List.replicate_succ, List.zipWith_cons_cons,
      List.foldr_cons, List.map_cons, maskOf, this]
    by_cases hx : x = c <;> simp [hx]

end JsonParserSIMD
namespace JsonParserSIMD

theorem quotesIn_self (s : Str) (a : Nat) : quotesIn s a a = [] := by
  simp [quotesIn]

theorem quotesIn_succ (s : Str) (a b : Nat) (h : a < b) :
    quotesIn s a b = (if charAt s a = quoteChar then [a] else []) ++ quotesIn s (a + 1) b := by
  unfold quotesIn
  obtain ⟨d, rfl⟩ : ∃ d, b = a + 1 + d := ⟨b - (a + 1), by omega⟩
  rw [show a + 1 + d - a = d + 1 by omega, show a + 1 + d - (a + 1) = d by omega,
    List.range'_succ, List.filter_cons]
  by_cases hq : charAt s a = quoteChar <;> simp [hq]

theorem quotesIn_append (s : Str) (a b c : Nat) (hab : a ≤ b) (hbc : b ≤ c) :
    quotesIn s a b ++ quotesIn s b c = quotesIn s a c := by
  obtain ⟨d, rfl⟩ : ∃ d, b = a + d := ⟨b - a, by omega⟩
  induction d generalizing a with
  | zero => simp [quotesIn_self]
  | succ d ih =>
    rw [quotesIn_succ s a (a + (d + 1)) (by omega), quotesIn_succ s a c (by omega),
      List.append_assoc]
    have := ih (a + 1) (by omega) (by omega)
    rw [show a + 1 + d = a + (d + 1) by omega] at this
    rw [this]

theorem quoteOffsets_eq (s : Str) : quoteOffsets s = quotesIn s 0 s.length := by
  simp [quoteOffsets, quotesIn, List.range_eq_range']

theorem charAt_eq (s : Str) (i : Nat) (h : i < s.length) : charAt s i = s[i] := by
  simp [charAt, List.getD_eq_getElem?_getD, List.getElem?_eq_getElem h]

/-- The lanes of a 32-byte block that match are the quote offsets of the block. -/
theorem matchPositions_block (s : Str) :
    ∀ (len i : Nat), i + len ≤ s.length →
      matchPositions i (((s.drop i).take len).map (fun x => decide (x = quoteChar))) =
        quotesIn s i (i + len) := by
  intro len
  induction len with
  | zero => intro i _; simp [matchPositions, quotesIn_self]
  | succ len ih =>
    intro i hi
    have hlt : i < s.length := by omega
    rw [List.drop_eq_getElem_cons hlt, List.take_succ_cons, List.map_cons, matchPositions,
      quotesIn_succ s i (i + (len + 1)) (by omega), ih (i + 1) (by omega), charAt_eq s i hlt,
      show i + 1 + len = i + (len + 1) by omega]
    by_cases hq : s[i] = quoteChar <;> simp [hq]

/-- The block loop on a string shorter than `2 ^ 32 - 32`: it leaves at the last multiple
of 32 that fits and has appended every quote offset before it. -/
theorem blockLoop_spec (s : Str) (hn : s.length + 32 < UInt32Size) :
    ∀ (m fuel i : Nat) (indexes : List Nat), (s.length - i) / 32 = m → m < fuel →
      i ≤ s.length →
      blockLoop s s.length fuel i indexes =
        some (i + 32 * m, indexes ++ quotesIn s i (i + 32 * m)) := by
  intro m
  induction m with
  | zero =>
    intro fuel i indexes hm hf hi
    obtain ⟨f, rfl⟩ : ∃ f, fuel = f + 1 := ⟨fuel - 1, by omega⟩
    have hlt : s.length - i < 32 := by
      rcases Nat.lt_or_ge (s.length - i) 32 with h | h
      · exact h
      · have := Nat.div_pos h (by decide : 0 < 32); omega
    have hguard : ¬ (i + 32) % UInt32Size ≤ s.length := by
      rw [Nat.mod_eq_of_lt (by omega)]; omega
    simp [blockLoop, hguard, quotesIn_self]
  | succ m ih =>
    intro fuel i indexes hm hf hi
    obtain ⟨f, rfl⟩ : ∃ f, fuel = f + 1 := ⟨fuel - 1, by omega⟩
    have hge : 32 ≤ s.length - i := by
      by_contra h
      rw [Nat.div_eq_of_lt (by omega)] at hm; omega
    have hmod : (i + 32) % UInt32Size = i + 32 := Nat.mod_eq_of_lt (by omega)
    have hguard : (i + 32) % UInt32Size ≤ s.length := by rw [hmod]; omega
    have hload : mm256_loadu_si256 s i = some ((s.drop i).take 32) := by
      simp only [mm256_loadu_si256]; rw [if_pos (by omega)]
    have hlen : ((s.drop i).take 32).length ≤ 32 := by simp
    have hmask := maskLoop_spec i (((s.drop i).take 32).map (fun x => decide (x = quoteChar)))
      0 32 indexes (by simp) (by omega)
      (le_trans (List.count_le_length _ _) (by simp))
    simp only [pow_zero, one_mul, Nat.add_zero] at hmask
    rw [matchPositions_block s 32 i (by omega)] at hmask
    have hm1 : (s.length - (i + 32)) / 32 = m := by omega
    rw [blockLoop, if_pos hguard, hload]
    simp only [movemask_cmpeq _ _ hlen, hmask, hmod]
    rw [ih f (i + 32) _ hm1 (by omega) (by omega), List.append_assoc,
      quotesIn_append s i (i + 32) (i + 32 + 32 * m) (by omega) (by omega)]
    simp [Nat.mul_succ, Nat.add_assoc, Nat.add_comm 32 (32 * m)]

/-- The byte loop appends the quote offsets from `i` to the end of the string. -/
theorem tailLoop_spec (s : Str) (hn : s.length < UInt32Size) :
    ∀ (d fuel i : Nat) (indexes : List Nat), s.length - i = d → d < fuel → i ≤ s.length →
      tailLoop s s.length fuel i indexes = some (indexes ++ quotesIn s i s.length) := by
  intro d
  induction d with
  | zero =>
    intro fuel i indexes hd hf hi
    obtain ⟨f, rfl⟩ : ∃ f, fuel = f + 1 := ⟨fuel - 1, by omega⟩
    have : i = s.length := by omega
    subst this
    simp [tailLoop, quotesIn_self]
  | succ d ih =>
    intro fuel i indexes hd hf hi
    obtain ⟨f, rfl⟩ : ∃ f, fuel = f + 1 := ⟨fuel - 1, by omega⟩
    have hlt : i < s.length := by omega
    rw [tailLoop, if_pos hlt, if_pos hlt, Nat.mod_eq_of_lt (by omega),
      ih f (i + 1) _ (by omega) (by omega) (by omega), quotesIn_succ s i s.length hlt]
    by_cases hq : charAt s i = quoteChar <;> simp [hq]

/-- `find_quotes_avx2` on a string shorter than `2 ^ 32 - 32` appends the full ordered
sequence of quote offsets. -/
theorem find_quotes_avx2_spec (indexes : List Nat) (s : Str) (hn : s.length + 32 < UInt32Size) :
    find_quotes_avx2 indexes s = some (indexes ++ quoteOffsets s) := by
  have hn1 : s.length < UInt32Size := by omega
  have hblock := blockLoop_spec s hn ((s.length - 0) / 32) UInt32Size 0 indexes rfl
    (by have := Nat.div_le_self (s.length - 0) 32; omega) (Nat.zero_le _)
  simp only [Nat.zero_add] at hblock
  have hle : 32 * ((s.length - 0) / 32) ≤ s.length := by
    have := Nat.mul_div_le (s.length - 0) 32; omega
  have htail := tailLoop_spec s hn1 (s.length - 32 * ((s.length - 0) / 32)) UInt32Size
    (32 * ((s.length - 0) / 32)) (indexes ++ quotesIn s 0 (32 * ((s.length - 0) / 32))) rfl
    (by omega) hle
  unfold find_quotes_avx2
  simp only [Nat.mod_eq_of_lt hn1, hblock, htail, List.append_assoc]
  rw [quotesIn_append s 0 _ s.length (Nat.zero_le _) hle, quoteOffsets_eq]

/-- On a string of exactly `2 ^ 32 - 32` bytes the block loop never returns: when `i`
reaches the length, `i + 32` wraps to `0`, the guard holds again and the load reads past
the string. -/
theorem blockLoop_wrap (s : Str) (hn : s.length + 32 = UInt32Size) :
    ∀ (fuel i : Nat) (indexes : List Nat), i % 32 = 0 → i ≤ s.length →
      blockLoop s s.length fuel i indexes = none := by
  intro fuel
  induction fuel with
  | zero => intro i indexes _ _; rfl
  | succ f ih =>
    intro i indexes hdiv hi
    have h32 : UInt32Size = 4294967296 := by decide
    rcases Nat.lt_or_eq_of_le hi with hlt | heq
    · have hmod : (i + 32) % UInt32Size = i + 32 := Nat.mod_eq_of_lt (by omega)
      have hguard : (i + 32) % UInt32Size ≤ s.length := by rw [hmod]; omega
      rw [blockLoop, if_pos hguard]
      cases mm256_loadu_si256 s i with
      | none => rfl
      | some chunk =>
        simp only []
        cases maskLoop i 32 (mm256_movemask_epi8 (mm256_cmpeq_epi8 chunk
            (mm256_set1_epi8 quoteChar))) indexes with
        | none => rfl
        | some indexes1 =>
          simp only [hmod]
          exact ih (i + 32) indexes1 (by omega) (by omega)
    · have hguard : (i + 32) % UInt32Size ≤ s.length := by
        rw [heq, hn, Nat.mod_self]; exact Nat.zero_le _
      have hload : mm256_loadu_si256 s i = none := by
        simp only [mm256_loadu_si256]; rw [if_neg (by omega)]
      rw [blockLoop, if_pos hguard, hload]

theorem find_quotes_avx2_wrap (indexes : List Nat) (s : Str)
    (hn : s.length + 32 = UInt32Size) : find_quotes_avx2 indexes s = none := by
  have h32 : UInt32Size = 4294967296 := by decide
  unfold find_quotes_avx2
  simp only [Nat.mod_eq_of_lt (by omega : s.length < UInt32Size),
    blockLoop_wrap s hn UInt32Size 0 indexes (by decide) (Nat.zero_le _)]

end JsonParserSIMD
theorem quoteOffsets_sorted (s : Str) : (quoteOffsets s).Sorted (· < ·) :=
  List.Pairwise.filter _ (List.pairwise_lt_range s.length)

theorem mem_quoteOffsets (s : Str) (i : Nat) :
    i ∈ quoteOffsets s ↔ i < s.length ∧ charAt s i = quoteChar := by
  simp [quoteOffsets]

/-- C4 (as amended). QuoteScan completeness: for every byte buffer `s` of length
`n < 2 ^ 32 - 32`, `find_quotes_avx2` appends to the initially empty index vector exactly
the list of all `i < n` with `s[i] == '"'`, in strictly ascending order, each once. -/
theorem C4_find_quotes_complete (s : Str) (hn : s.length < 2 ^ 32 - 32) :
    ∃ indexes, JsonParserSIMD.find_quotes_avx2 [] s = some indexes ∧
      indexes = quoteOffsets s ∧ indexes.Sorted (· < ·) ∧
      ∀ i, i ∈ indexes ↔ i < s.length ∧ charAt s i = quoteChar := by
  refine ⟨quoteOffsets s, ?_, rfl, quoteOffsets_sorted s, mem_quoteOffsets s⟩
  have h := JsonParserSIMD.find_quotes_avx2_spec [] s (by
    have : UInt32Size = 2 ^ 32 := rfl
    omega)
  simpa using h

/-- C4 at the decoder input of scenario E6. -/
theorem C4_find_quotes_complete_witness :
    ∃ indexes, JsonParserSIMD.find_quotes_avx2 [] inputE6 = some indexes ∧
      indexes = quoteOffsets inputE6 ∧ indexes.Sorted (· < ·) ∧
      ∀ i, i ∈ indexes ↔ i < inputE6.length ∧ charAt inputE6 i = quoteChar :=
  C4_find_quotes_complete inputE6 (by decide)

/-- C4 (as stated) fails at its bound: on the buffer of `n = 2 ^ 32 - 32` bytes `x`,
which holds no quote, `find_quotes_avx2` does not return the empty list; it does not
return at all. -/
theorem C4_find_quotes_counterexample :
    (List.replicate (2 ^ 32 - 32) (Char.ofNat 120)).length ≤ 2 ^ 32 - 32 ∧
    JsonParserSIMD.find_quotes_avx2 [] (List.replicate (2 ^ 32 - 32) (Char.ofNat 120)) = none := by
  have hlen : (List.replicate (2 ^ 32 - 32) (Char.ofNat 120)).length = 2 ^ 32 - 32 :=
    List.length_replicate _ _
  refine ⟨by rw [hlen], JsonParserSIMD.find_quotes_avx2_wrap [] _ ?_⟩
  rw [hlen]; rfl

/-- C3 fails on the code at the input of scenario E6: `JsonParser::parseRecords` returns
the record with `p = 0.5` and `q = 2`, `JsonParserSIMD::parseRecords` returns a record
whose `p` and `q` carry the two quotes of the value, and the two results differ. -/
theorem C3_oracle_differs_on_E6 :
    JsonParser.parseRecords inputE6 = some [recordE6] ∧
    ((JsonParserSIMD.new 10).parseRecords inputE6).map Prod.fst = some [recordE6Quoted] ∧
    ((JsonParserSIMD.new 10).parseRecords inputE6).map Prod.fst ≠
      JsonParser.parseRecords inputE6 := by
  decide

/-- C5 fails on the code at the input of scenario E6: the single record returned by
`JsonParserSIMD::parseRecords` has as `p` the five bytes `"0.5"` and as `q` the three
bytes `"2"`, quotes included, not the three bytes `0.5` and the one byte `2`. -/
theorem C5_simd_strings_keep_quotes :
    (((JsonParserSIMD.new 10).parseRecords inputE6).map Prod.fst).map (List.map Record.p) =
      some [[quoteChar, Char.ofNat 48, Char.ofNat 46, Char.ofNat 53, quoteChar]] ∧
    (((JsonParserSIMD.new 10).parseRecords inputE6).map Prod.fst).map (List.map Record.q) =
      some [[quoteChar, Char.ofNat 50, quoteChar]] ∧
    (((JsonParserSIMD.new 10).parseRecords inputE6).map Prod.fst).map (List.map Record.p) ≠
      some ["0.5".toList] := by
  decide

/-! ### The reference parser on well-formed input

Every lemma follows the parser over the text that is left: `json.drop index` is a gap of
whitespace, a token, and the rest; the parser returns the value of the token and an index
at which the rest is left. Below `2 ^ 32` bytes no index addition wraps.
-/

theorem serialize_E6 : serialize [recordE6] = inputE6 := by decide

namespace JsonParser

theorem drop_cons {json : Str} {index : Nat} {c : Char} {rest : Str}
    (h : json.drop index = c :: rest) :
    index < json.length ∧ charAt json index = c ∧ json.drop (index + 1) = rest := by
  have hlt : index < json.length := by
    by_contra hge
    rw [List.drop_eq_nil_of_le (by omega)] at h
    cases h
  refine ⟨hlt, ?_, ?_⟩
  · have h0 : (json.drop index)[0]? = some c := by rw [h]; simp
    rw [List.getElem?_drop] at h0
    simp only [Nat.add_zero] at h0
    simp [charAt, List.getD, h0]
  · have : json.drop (index + 1) = (json.drop index).drop 1 := by
      rw [List.drop_drop, Nat.add_comm]
    rw [this, h]; rfl

theorem drop_length {json : Str} {index : Nat} {x : Str}
    (h : json.drop index = x) : x.length ≤ json.length := by
  rw [← h, List.length_drop]; omega

end JsonParser

namespace JsonParser

theorem skipWhitespaceLoop_at (json : Str) (hlen : json.length < UInt32Size) (c : Char)
    (rest : Str) (hc : isspace c = false) :
    ∀ (ws : Str) (fuel index : Nat), json.drop index = ws ++ c :: rest → AllSpace ws →
      ws.length < fuel →
      ∃ index1, skipWhitespaceLoop json fuel index = some index1 ∧
        json.drop index1 = c :: rest := by
  intro ws
  induction ws with
  | nil =>
    intro fuel index hd _ hf
    obtain ⟨hlt, hch, _⟩ := drop_cons hd
    obtain ⟨fuel, rfl⟩ : ∃ k, fuel = k + 1 := ⟨fuel - 1, by simp at hf; omega⟩
    exact ⟨index, by simp [skipWhitespaceLoop_zero, skipWhitespaceLoop_succ, hlt, hch, hc], hd⟩
  | cons w ws ih =>
    intro fuel index hd hws hf
    obtain ⟨hlt, hch, hnext⟩ := drop_cons hd
    obtain ⟨fuel, rfl⟩ : ∃ k, fuel = k + 1 := ⟨fuel - 1, by simp at hf; omega⟩
    have hw : isspace w = true := hws w (List.mem_cons_self _ _)
    have hmod : (index + 1) % UInt32Size = index + 1 := Nat.mod_eq_of_lt (by omega)
    obtain ⟨index1, h1, h2⟩ := ih fuel (index + 1) hnext
      (fun d hd => hws d (List.mem_cons_of_mem _ hd)) (by simp at hf; omega)
    exact ⟨index1, by simp [skipWhitespaceLoop_zero, skipWhitespaceLoop_succ, hlt, hch, hw, hmod, h1], h2⟩

theorem skipWhitespace_at {json : Str} (hlen : json.length < UInt32Size) {c : Char}
    {rest ws : Str} {index : Nat} (hd : json.drop index = ws ++ c :: rest)
    (hws : AllSpace ws) (hc : isspace c = false) :
    ∃ index1, skipWhitespace json index = some index1 ∧ json.drop index1 = c :: rest := by
  have := drop_length hd
  simp only [List.length_append, List.length_cons] at this
  exact skipWhitespaceLoop_at json hlen c rest hc ws UInt32Size index hd hws (by omega)

theorem allSpace_nil : AllSpace [] := by
  intro c hc; cases hc

theorem expectChar_at {json : Str} (hlen : json.length < UInt32Size) {c : Char}
    {rest ws : Str} {index : Nat} (hd : json.drop index = ws ++ c :: rest)
    (hws : AllSpace ws) (hc : isspace c = false) :
    ∃ index1, expectChar json index c = some (true, index1) ∧ json.drop index1 = rest := by
  obtain ⟨index1, h1, h2⟩ := skipWhitespace_at hlen hd hws hc
  obtain ⟨hlt, hch, hnext⟩ := drop_cons h2
  have hmod : (index1 + 1) % UInt32Size = index1 + 1 := Nat.mod_eq_of_lt (by omega)
  refine ⟨index1 + 1, ?_, hnext⟩
  simp [expectChar_eq, h1, hch, hmod, Nat.not_le.2 hlt]

theorem parseStringLoop_at (json : Str) (hlen : json.length < UInt32Size) (rest : Str) :
    ∀ (content : Str) (fuel index : Nat) (result : Str),
      json.drop index = content ++ quoteChar :: rest → quoteChar ∉ content →
      content.length < fuel →
      ∃ index1, parseStringLoop json fuel index result = some (result ++ content, index1) ∧
        json.drop index1 = quoteChar :: rest := by
  intro content
  induction content with
  | nil =>
    intro fuel index result hd _ hf
    obtain ⟨hlt, hch, _⟩ := drop_cons hd
    obtain ⟨fuel, rfl⟩ : ∃ k, fuel = k + 1 := ⟨fuel - 1, by simp at hf; omega⟩
    exact ⟨index, by simp [parseStringLoop_zero, parseStringLoop_succ, hlt, hch], hd⟩
  | cons w ws ih =>
    intro fuel index result hd hq hf
    obtain ⟨hlt, hch, hnext⟩ := drop_cons hd
    obtain ⟨fuel, rfl⟩ : ∃ k, fuel = k + 1 := ⟨fuel - 1, by simp at hf; omega⟩
    have hw : w ≠ quoteChar := fun h => hq (h ▸ List.mem_cons_self _ _)
    have hmod : (index + 1) % UInt32Size = index + 1 := Nat.mod_eq_of_lt (by omega)
    obtain ⟨index1, h1, h2⟩ := ih fuel (index + 1) (result ++ [w]) hnext
      (fun h => hq (List.mem_cons_of_mem _ h)) (by simp at hf; omega)
    exact ⟨index1, by simp [parseStringLoop_zero, parseStringLoop_succ, hlt, hch, hw, hmod, h1], h2⟩

theorem isspace_quoteChar : isspace quoteChar = false := by decide

theorem parseString_at {json : Str} (hlen : json.length < UInt32Size)
    {content rest ws : Str} {index : Nat}
    (hd : json.drop index = ws ++ quoteChar :: (content ++ quoteChar :: rest))
    (hws : AllSpace ws) (hq : quoteChar ∉ content) :
    ∃ index1, parseString json index = some (content, index1) ∧ json.drop index1 = rest := by
  obtain ⟨index1, h1, h2⟩ := skipWhitespace_at hlen hd hws isspace_quoteChar
  obtain ⟨hlt, hch, hnext⟩ := drop_cons h2
  have hmod : (index1 + 1) % UInt32Size = index1 + 1 := Nat.mod_eq_of_lt (by omega)
  have hl := drop_length hnext
  simp only [List.length_append, List.length_cons] at hl
  obtain ⟨index2, h3, h4⟩ := parseStringLoop_at json hlen rest content UInt32Size (index1 + 1) []
    hnext hq (by omega)
  obtain ⟨hlt2, hch2, hnext2⟩ := drop_cons h4
  have hmod2 : (index2 + 1) % UInt32Size = index2 + 1 := Nat.mod_eq_of_lt (by omega)
  refine ⟨index2 + 1, ?_, hnext2⟩
  simp [parseString_eq, h1, hch, hmod, Nat.not_le.2 hlt, h3, hch2, hmod2, Nat.not_le.2 hlt2]

end JsonParser

namespace JsonParser

theorem isspace_of_isdigit {c : Char} (h : isdigit c = true) : isspace c = false := by
  simp only [isdigit, Bool.and_eq_true, decide_eq_true_eq] at h
  simp only [isspace, Bool.or_eq_false_iff, beq_eq_false_iff_ne, ne_eq, Bool.and_eq_false_imp,
    decide_eq_true_eq, decide_eq_false_iff_not]
  omega

theorem digits_foldl_ge (ds : Str) :
    ∀ v : Nat, v ≤ ds.foldl (fun value c => value * 10 + (c.toNat - 48)) v := by
  induction ds with
  | nil => intro v; exact Nat.le_refl _
  | cons d ds ih =>
    intro v
    simp only [List.foldl_cons]
    exact Nat.le_trans (by omega) (ih _)

theorem pushDigit_digit (v : Nat) (c : Char) (hc : isdigit c = true)
    (hmax : ((v * 10 + (c.toNat - 48) : Nat) : Int) ≤ Int64Max) :
    pushDigit (v : Int) c = some ((v * 10 + (c.toNat - 48) : Nat) : Int) := by
  simp only [isdigit, Bool.and_eq_true, decide_eq_true_eq] at hc
  have hcast : ((v * 10 + (c.toNat - 48) : Nat) : Int) = (v : Int) * 10 + ((c.toNat : Int) - 48) := by
    rw [Nat.cast_add, Nat.cast_mul, Nat.cast_sub hc.1]; rfl
  rw [hcast] at hmax
  simp only [pushDigit, hmax, if_true, hcast]

theorem parseInt64Loop_at (json : Str) (hlen : json.length < UInt32Size) (tail : Str)
    (htail : ∃ c rest, tail = c :: rest ∧ isdigit c = false) :
    ∀ (ds : Str) (fuel index v : Nat), json.drop index = ds ++ tail →
      (∀ d ∈ ds, isdigit d = true) →
      ((ds.foldl (fun value c => value * 10 + (c.toNat - 48)) v : Nat) : Int) ≤ Int64Max →
      ds.length < fuel →
      ∃ index1, parseInt64Loop json fuel index (v : Int) =
          some (((ds.foldl (fun value c => value * 10 + (c.toNat - 48)) v : Nat) : Int), index1) ∧
        json.drop index1 = tail := by
  intro ds
  induction ds with
  | nil =>
    intro fuel index v hd _ _ hf
    obtain ⟨c, rest, rfl, hc⟩ := htail
    obtain ⟨hlt, hch, _⟩ := drop_cons hd
    obtain ⟨fuel, rfl⟩ : ∃ k, fuel = k + 1 := ⟨fuel - 1, by simp at hf; omega⟩
    exact ⟨index, by simp [parseInt64Loop_zero, parseInt64Loop_succ, hlt, hch, hc], hd⟩
  | cons d ds ih =>
    intro fuel index v hd hds hmax hf
    obtain ⟨hlt, hch, hnext⟩ := drop_cons hd
    obtain ⟨fuel, rfl⟩ : ∃ k, fuel = k + 1 := ⟨fuel - 1, by simp at hf; omega⟩
    have hdig : isdigit d = true := hds d (List.mem_cons_self _ _)
    have hmod : (index + 1) % UInt32Size = index + 1 := Nat.mod_eq_of_lt (by omega)
    simp only [List.foldl_cons] at hmax ⊢
    have hstep : ((v * 10 + (d.toNat - 48) : Nat) : Int) ≤ Int64Max :=
      le_trans (Int.ofNat_le.2 (digits_foldl_ge ds _)) hmax
    obtain ⟨index1, h1, h2⟩ := ih fuel (index + 1) (v * 10 + (d.toNat - 48)) hnext
      (fun e he => hds e (List.mem_cons_of_mem _ he)) hmax (by simp at hf; omega)
    refine ⟨index1, ?_, h2⟩
    simp only [parseInt64Loop_zero, parseInt64Loop_succ, hlt, hch, hdig, decide_True, Bool.and_self, if_true,
      pushDigit_digit v d hdig hstep, hmod, h1]

theorem parseInt64Loop_end (json : Str) (hlen : json.length < UInt32Size) :
    ∀ (ds : Str) (fuel index v : Nat), json.drop index = ds → index ≤ json.length →
      (∀ d ∈ ds, isdigit d = true) →
      ((ds.foldl (fun value c => value * 10 + (c.toNat - 48)) v : Nat) : Int) ≤ Int64Max →
      ds.length < fuel →
      parseInt64Loop json fuel index (v : Int) =
        some (((ds.foldl (fun value c => value * 10 + (c.toNat - 48)) v : Nat) : Int),
          json.length) := by
  intro ds
  induction ds with
  | nil =>
    intro fuel index v hd hi _ _ hf
    obtain ⟨fuel, rfl⟩ : ∃ k, fuel = k + 1 := ⟨fuel - 1, by simp at hf; omega⟩
    have hl := congrArg List.length hd
    simp only [List.length_drop, List.length_nil] at hl
    have hidx : index = json.length := by omega
    simp [parseInt64Loop_zero, parseInt64Loop_succ, hidx]
  | cons d ds ih =>
    intro fuel index v hd hi hds hmax hf
    obtain ⟨hlt, hch, hnext⟩ := drop_cons hd
    obtain ⟨fuel, rfl⟩ : ∃ k, fuel = k + 1 := ⟨fuel - 1, by simp at hf; omega⟩
    have hdig : isdigit d = true := hds d (List.mem_cons_self _ _)
    have hmod : (index + 1) % UInt32Size = index + 1 := Nat.mod_eq_of_lt (by omega)
    simp only [List.foldl_cons] at hmax ⊢
    have hstep : ((v * 10 + (d.toNat - 48) : Nat) : Int) ≤ Int64Max :=
      le_trans (Int.ofNat_le.2 (digits_foldl_ge ds _)) hmax
    have h1 := ih fuel (index + 1) (v * 10 + (d.toNat - 48)) hnext (by omega)
      (fun e he => hds e (List.mem_cons_of_mem _ he)) hmax (by simp at hf; omega)
    simp only [parseInt64Loop_zero, parseInt64Loop_succ, hlt, hch, hdig, decide_True, Bool.and_self, if_true,
      pushDigit_digit v d hdig hstep, hmod, h1]

theorem parseInt64_at {json : Str} (hlen : json.length < UInt32Size) {x : IntText}
    {tail ws : Str} {index : Nat} (hd : json.drop index = ws ++ (x.text ++ tail))
    (hws : AllSpace ws) (hx : x.WellFormed)
    (htail : ∃ c rest, tail = c :: rest ∧ isdigit c = false) :
    ∃ index1, parseInt64 json index = some (x.value, index1) ∧ json.drop index1 = tail := by
  obtain ⟨neg, digits⟩ := x
  obtain ⟨hne, hds, hmax⟩ := hx
  simp only at hne hds hmax
  obtain ⟨d, ds, rfl⟩ := List.exists_cons_of_ne_nil hne
  have hdig : isdigit d = true := hds d (List.mem_cons_self _ _)
  cases neg with
  | false =>
    simp only [IntText.text, Bool.false_eq_true, if_false, List.cons_append] at hd
    obtain ⟨index1, h1, h2⟩ := skipWhitespace_at hlen hd hws (isspace_of_isdigit hdig)
    obtain ⟨hlt, hch, _⟩ := drop_cons h2
    have hl := drop_length h2
    simp only [List.length_append, List.length_cons] at hl
    obtain ⟨index3, h3, h4⟩ := parseInt64Loop_at json hlen tail htail (d :: ds) UInt32Size
      index1 0 h2 hds hmax (by simp only [List.length_cons]; omega)
    have hminus : (d == Char.ofNat 45) = false := by
      rw [beq_eq_false_iff_ne]; rintro rfl; revert hdig; decide
    refine ⟨index3, ?_, h4⟩
    simp only [Nat.cast_zero] at h3
    simp [parseInt64_eq, h1, hch, Nat.not_le.2 hlt, hminus, hdig, h3, IntText.value, digitsValue]
  | true =>
    simp only [IntText.text, if_true, List.cons_append] at hd
    obtain ⟨index1, h1, h2⟩ := skipWhitespace_at hlen hd hws (by decide)
    obtain ⟨hlt, hch, hnext⟩ := drop_cons h2
    have hmod : (index1 + 1) % UInt32Size = index1 + 1 := Nat.mod_eq_of_lt (by omega)
    obtain ⟨hlt2, hch2, _⟩ := drop_cons hnext
    have hl := drop_length hnext
    simp only [List.length_append, List.length_cons] at hl
    obtain ⟨index3, h3, h4⟩ := parseInt64Loop_at json hlen tail htail (d :: ds) UInt32Size
      (index1 + 1) 0 hnext hds hmax (by simp only [List.length_cons]; omega)
    refine ⟨index3, ?_, h4⟩
    simp only [Nat.cast_zero] at h3
    simp [parseInt64_eq, h1, hch, Nat.not_le.2 hlt, hmod, hch2, Nat.not_le.2 hlt2, hdig, h3,
      IntText.value, digitsValue]

theorem tail_no_digit {ws : Str} {c : Char} {rest : Str} (hws : AllSpace ws)
    (hc : isdigit c = false) :
    ∃ d rest1, ws ++ c :: rest = d :: rest1 ∧ isdigit d = false := by
  cases ws with
  | nil => exact ⟨c, rest, rfl, hc⟩
  | cons w ws =>
    refine ⟨w, ws ++ c :: rest, rfl, ?_⟩
    have hw : isspace w = true := hws w (List.mem_cons_self _ _)
    cases h : isdigit w with
    | false => rfl
    | true => rw [isspace_of_isdigit h] at hw; cases hw

theorem parseBool_at {json : Str} (hlen : json.length < UInt32Size) {m : Bool}
    {rest ws : Str} {index : Nat} (hd : json.drop index = ws ++ (boolText m ++ rest))
    (hws : AllSpace ws) :
    ∃ index1, parseBool json index = some (m, index1) ∧ json.drop index1 = rest := by
  cases m with
  | true =>
    have hd1 : json.drop index = ws ++ Char.ofNat 116 :: ("rue".toList ++ rest) := hd
    obtain ⟨index1, h1, h2⟩ := skipWhitespace_at hlen hd1 hws (by decide)
    obtain ⟨hlt, hch, _⟩ := drop_cons h2
    have hl := drop_length h2
    have hmod : (index1 + 4) % UInt32Size = index1 + 4 := by
      apply Nat.mod_eq_of_lt
      have := List.length_drop index1 json
      rw [h2] at this
      simp only [List.length_append, List.length_cons] at this
      have h3 : "rue".toList.length = 3 := rfl
      omega
    refine ⟨index1 + 4, ?_, ?_⟩
    · simp [parseBool, h1, compareOne, Nat.not_lt.2 (Nat.le_of_lt hlt), hlt, hch, hmod]
    · have : json.drop (index1 + 4) = (json.drop index1).drop 4 := by
        rw [List.drop_drop, Nat.add_comm]
      rw [this, h2]; rfl
  | false =>
    have hd1 : json.drop index = ws ++ Char.ofNat 102 :: ("alse".toList ++ rest) := hd
    obtain ⟨index1, h1, h2⟩ := skipWhitespace_at hlen hd1 hws (by decide)
    obtain ⟨hlt, hch, _⟩ := drop_cons h2
    have hmod : (index1 + 5) % UInt32Size = index1 + 5 := by
      apply Nat.mod_eq_of_lt
      have := List.length_drop index1 json
      rw [h2] at this
      simp only [List.length_append, List.length_cons] at this
      have h3 : "alse".toList.length = 4 := rfl
      omega
    refine ⟨index1 + 5, ?_, ?_⟩
    · simp [parseBool, h1, compareOne, Nat.not_lt.2 (Nat.le_of_lt hlt), hlt, hch, hmod]
    · have : json.drop (index1 + 5) = (json.drop index1).drop 5 := by
        rw [List.drop_drop, Nat.add_comm]
      rw [this, h2]; rfl

theorem fieldEnd_comma {json : Str} (hlen : json.length < UInt32Size) {rest ws : Str}
    {index : Nat} (record : Record) (hd : json.drop index = ws ++ Char.ofNat 44 :: rest)
    (hws : AllSpace ws) :
    ∃ index1, fieldEnd json index record = some (true, index1, record) ∧
      json.drop index1 = rest := by
  obtain ⟨index1, h1, h2⟩ := skipWhitespace_at hlen hd hws (by decide)
  obtain ⟨hlt, hch, hnext⟩ := drop_cons h2
  have hmod : (index1 + 1) % UInt32Size = index1 + 1 := Nat.mod_eq_of_lt (by omega)
  exact ⟨index1 + 1, by simp [fieldEnd_eq, h1, hlt, hch, hmod], hnext⟩

theorem fieldEnd_brace {json : Str} (hlen : json.length < UInt32Size) {rest ws : Str}
    {index : Nat} (record : Record) (hd : json.drop index = ws ++ Char.ofNat 125 :: rest)
    (hws : AllSpace ws) :
    ∃ index1, fieldEnd json index record = some (false, index1, record) ∧
      json.drop index1 = Char.ofNat 125 :: rest := by
  obtain ⟨index1, h1, h2⟩ := skipWhitespace_at hlen hd hws (by decide)
  obtain ⟨hlt, hch, hnext⟩ := drop_cons h2
  refine ⟨index1, ?_, h2⟩
  have : (Char.ofNat 125 == Char.ofNat 44) = false := by decide
  simp [fieldEnd_eq, h1, hlt, hch, this]

end JsonParser

namespace JsonParser

theorem field_key {json : Str} (hlen : json.length < UInt32Size) {w0 w1 w2 w3 : Str}
    {k : Char} {value : Str} {sep : Char} {rest : Str} {index : Nat}
    (hd : json.drop index = renderField w0 w1 w2 w3 k value sep rest)
    (h0 : AllSpace w0) (h1 : AllSpace w1) (hk : k ≠ quoteChar) :
    ∃ i1 i2 i3, skipWhitespace json index = some i1 ∧ parseString json i1 = some ([k], i2) ∧
      expectChar json i2 (Char.ofNat 58) = some (true, i3) ∧
      json.drop i3 = w2 ++ (value ++ (w3 ++ sep :: rest)) := by
  unfold renderField at hd
  obtain ⟨i1, e1, d1⟩ := skipWhitespace_at hlen hd h0 isspace_quoteChar
  obtain ⟨i2, e2, d2⟩ := @parseString_at json hlen [k] _ [] i1 d1 allSpace_nil
    (by simpa using Ne.symm hk)
  obtain ⟨i3, e3, d3⟩ := expectChar_at hlen d2 h1 (by decide)
  exact ⟨i1, i2, i3, e1, e2, e3, d3⟩

theorem field_a {json : Str} (hlen : json.length < UInt32Size) {w0 w1 w2 w3 : Str}
    {x : IntText} {rest : Str} {index : Nat} (record : Record)
    (hd : json.drop index = renderField w0 w1 w2 w3 'a' x.text (Char.ofNat 44) rest)
    (h0 : AllSpace w0) (h1 : AllSpace w1) (h2 : AllSpace w2) (h3 : AllSpace w3)
    (hx : x.WellFormed) :
    ∃ index1, parserFieldInOrder json index record ['a'] =
        some (true, index1, { record with a := x.value }) ∧ json.drop index1 = rest := by
  obtain ⟨i1, i2, i3, e1, e2, e3, d3⟩ := field_key hlen hd h0 h1 (by decide)
  obtain ⟨i4, e4, d4⟩ := parseInt64_at hlen d3 h2 hx (tail_no_digit h3 (by decide))
  obtain ⟨i5, e5, d5⟩ := fieldEnd_comma hlen { record with a := x.value } d4 h3
  exact ⟨i5, by simp [parserFieldInOrder, e1, e2, e3, e4, e5], d5⟩

theorem field_f {json : Str} (hlen : json.length < UInt32Size) {w0 w1 w2 w3 : Str}
    {x : IntText} {rest : Str} {index : Nat} (record : Record)
    (hd : json.drop index = renderField w0 w1 w2 w3 'f' x.text (Char.ofNat 44) rest)
    (h0 : AllSpace w0) (h1 : AllSpace w1) (h2 : AllSpace w2) (h3 : AllSpace w3)
    (hx : x.WellFormed) :
    ∃ index1, parserFieldInOrder json index record ['f'] =
        some (true, index1, { record with f := x.value }) ∧ json.drop index1 = rest := by
  obtain ⟨i1, i2, i3, e1, e2, e3, d3⟩ := field_key hlen hd h0 h1 (by decide)
  obtain ⟨i4, e4, d4⟩ := parseInt64_at hlen d3 h2 hx (tail_no_digit h3 (by decide))
  obtain ⟨i5, e5, d5⟩ := fieldEnd_comma hlen { record with f := x.value } d4 h3
  exact ⟨i5, by simp [parserFieldInOrder, e1, e2, e3, e4, e5], d5⟩

theorem field_l {json : Str} (hlen : json.length < UInt32Size) {w0 w1 w2 w3 : Str}
    {x : IntText} {rest : Str} {index : Nat} (record : Record)
    (hd : json.drop index = renderField w0 w1 w2 w3 'l' x.text (Char.ofNat 44) rest)
    (h0 : AllSpace w0) (h1 : AllSpace w1) (h2 : AllSpace w2) (h3 : AllSpace w3)
    (hx : x.WellFormed) :
    ∃ index1, parserFieldInOrder json index record ['l'] =
        some (true, index1, { record with l := x.value }) ∧ json.drop index1 = rest := by
  obtain ⟨i1, i2, i3, e1, e2, e3, d3⟩ := field_key hlen hd h0 h1 (by decide)
  obtain ⟨i4, e4, d4⟩ := parseInt64_at hlen d3 h2 hx (tail_no_digit h3 (by decide))
  obtain ⟨i5, e5, d5⟩ := fieldEnd_comma hlen { record with l := x.value } d4 h3
  exact ⟨i5, by simp [parserFieldInOrder, e1, e2, e3, e4, e5], d5⟩

theorem field_T {json : Str} (hlen : json.length < UInt32Size) {w0 w1 w2 w3 : Str}
    {x : IntText} {rest : Str} {index : Nat} (record : Record)
    (hd : json.drop index = renderField w0 w1 w2 w3 'T' x.text (Char.ofNat 44) rest)
    (h0 : AllSpace w0) (h1 : AllSpace w1) (h2 : AllSpace w2) (h3 : AllSpace w3)
    (hx : x.WellFormed) :
    ∃ index1, parserFieldInOrder json index record ['T'] =
        some (true, index1, { record with T := x.value }) ∧ json.drop index1 = rest := by
  obtain ⟨i1, i2, i3, e1, e2, e3, d3⟩ := field_key hlen hd h0 h1 (by decide)
  obtain ⟨i4, e4, d4⟩ := parseInt64_at hlen d3 h2 hx (tail_no_digit h3 (by decide))
  obtain ⟨i5, e5, d5⟩ := fieldEnd_comma hlen { record with T := x.value } d4 h3
  exact ⟨i5, by simp [parserFieldInOrder, e1, e2, e3, e4, e5], d5⟩

theorem field_p {json : Str} (hlen : json.length < UInt32Size) {w0 w1 w2 w3 : Str}
    {s : Str} {rest : Str} {index : Nat} (record : Record)
    (hd : json.drop index = renderField w0 w1 w2 w3 'p' (stringText s) (Char.ofNat 44) rest)
    (h0 : AllSpace w0) (h1 : AllSpace w1) (h2 : AllSpace w2) (h3 : AllSpace w3)
    (hs : quoteChar ∉ s) :
    ∃ index1, parserFieldInOrder json index record ['p'] =
        some (true, index1, { record with p := s }) ∧ json.drop index1 = rest := by
  obtain ⟨i1, i2, i3, e1, e2, e3, d3⟩ := field_key hlen hd h0 h1 (by decide)
  simp only [stringText, List.cons_append, List.append_assoc, List.singleton_append] at d3
  obtain ⟨i4, e4, d4⟩ := parseString_at hlen d3 h2 hs
  obtain ⟨i5, e5, d5⟩ := fieldEnd_comma hlen { record with p := s } d4 h3
  exact ⟨i5, by simp [parserFieldInOrder, e1, e2, e3, e4, e5], d5⟩

theorem field_q {json : Str} (hlen : json.length < UInt32Size) {w0 w1 w2 w3 : Str}
    {s : Str} {rest : Str} {index : Nat} (record : Record)
    (hd : json.drop index = renderField w0 w1 w2 w3 'q' (stringText s) (Char.ofNat 44) rest)
    (h0 : AllSpace w0) (h1 : AllSpace w1) (h2 : AllSpace w2) (h3 : AllSpace w3)
    (hs : quoteChar ∉ s) :
    ∃ index1, parserFieldInOrder json index record ['q'] =
        some (true, index1, { record with q := s }) ∧ json.drop index1 = rest := by
  obtain ⟨i1, i2, i3, e1, e2, e3, d3⟩ := field_key hlen hd h0 h1 (by decide)
  simp only [stringText, List.cons_append, List.append_assoc, List.singleton_append] at d3
  obtain ⟨i4, e4, d4⟩ := parseString_at hlen d3 h2 hs
  obtain ⟨i5, e5, d5⟩ := fieldEnd_comma hlen { record with q := s } d4 h3
  exact ⟨i5, by simp [parserFieldInOrder, e1, e2, e3, e4, e5], d5⟩

theorem field_m {json : Str} (hlen : json.length < UInt32Size) {w0 w1 w2 w3 : Str}
    {m : Bool} {rest : Str} {index : Nat} (record : Record)
    (hd : json.drop index = renderField w0 w1 w2 w3 'm' (boolText m) (Char.ofNat 125) rest)
    (h0 : AllSpace w0) (h1 : AllSpace w1) (h2 : AllSpace w2) (h3 : AllSpace w3) :
    ∃ index1, parserFieldInOrder json index record ['m'] =
        some (false, index1, { record with m := m }) ∧
      json.drop index1 = Char.ofNat 125 :: rest := by
  obtain ⟨i1, i2, i3, e1, e2, e3, d3⟩ := field_key hlen hd h0 h1 (by decide)
  obtain ⟨i4, e4, d4⟩ := parseBool_at hlen d3 h2
  obtain ⟨i5, e5, d5⟩ := fieldEnd_brace hlen { record with m := m } d4 h3
  exact ⟨i5, by simp [parserFieldInOrder, e1, e2, e3, e4, e5], d5⟩

theorem parseRecord_at {json : Str} (hlen : json.length < UInt32Size) {g : Nat → Str}
    {o : ObjectText} {rest : Str} {index : Nat}
    (hd : json.drop index = renderObject g o rest) (hg : ∀ k, AllSpace (g k))
    (ho : o.WellFormed) :
    ∃ index1, parseRecord json index = some (o.record, index1) ∧ json.drop index1 = rest := by
  obtain ⟨ha, hp, hq, hf, hl, hT⟩ := ho
  unfold renderObject at hd
  obtain ⟨i0, e0, d0⟩ := skipWhitespace_at hlen hd (hg 0) (by decide)
  obtain ⟨i1, e1, d1⟩ := @expectChar_at json hlen _ _ [] i0 d0 allSpace_nil (by decide)
  obtain ⟨i2, e2, d2⟩ := field_a hlen Record.zero d1 (hg 1) (hg 2) (hg 3) (hg 4) ha
  generalize hr1 : ({ Record.zero with a := o.a.value } : Record) = r1 at e2
  obtain ⟨i3, e3, d3⟩ := field_p hlen r1 d2 (hg 5) (hg 6) (hg 7) (hg 8) hp
  generalize hr2 : ({ r1 with p := o.p } : Record) = r2 at e3
  obtain ⟨i4, e4, d4⟩ := field_q hlen r2 d3 (hg 9) (hg 10) (hg 11) (hg 12) hq
  generalize hr3 : ({ r2 with q := o.q } : Record) = r3 at e4
  obtain ⟨i5, e5, d5⟩ := field_f hlen r3 d4 (hg 13) (hg 14) (hg 15) (hg 16) hf
  generalize hr4 : ({ r3 with f := o.f.value } : Record) = r4 at e5
  obtain ⟨i6, e6, d6⟩ := field_l hlen r4 d5 (hg 17) (hg 18) (hg 19) (hg 20) hl
  generalize hr5 : ({ r4 with l := o.l.value } : Record) = r5 at e6
  obtain ⟨i7, e7, d7⟩ := field_T hlen r5 d6 (hg 21) (hg 22) (hg 23) (hg 24) hT
  generalize hr6 : ({ r5 with T := o.T.value } : Record) = r6 at e7
  obtain ⟨i8, e8, d8⟩ := field_m hlen r6 d7 (hg 25) (hg 26) (hg 27) (hg 28)
  obtain ⟨hlt, hch, hnext⟩ := drop_cons d8
  have hmod : (i8 + 1) % UInt32Size = i8 + 1 := Nat.mod_eq_of_lt (by omega)
  refine ⟨i8 + 1, ?_, hnext⟩
  simp only [parseRecord_eq, e0, e1, parseFields, e2, e3, e4, e5, e6, e7, e8, hlt, hch, hmod,
    decide_True, Bool.and_self, beq_self_eq_true, if_true]
  subst hr6 hr5 hr4 hr3 hr2 hr1
  rfl

end JsonParser

namespace JsonParser

theorem parseRecordsLoop_at (json : Str) (hlen : json.length < UInt32Size) (rest : Str) :
    ∀ (os : List ObjectText) (g g1 : Nat → Str) (w : Str) (o : ObjectText)
      (fuel index : Nat) (records : List Record),
      json.drop index = renderObject g o (w ++ renderMore g1 os rest) →
      (∀ k, AllSpace (g k)) → (∀ k, AllSpace (g1 k)) → AllSpace w →
      o.WellFormed → (∀ o1 ∈ os, o1.WellFormed) → os.length < fuel →
      parseRecordsLoop json fuel index records =
        some (records ++ (o :: os).map ObjectText.record) := by
  intro os
  induction os with
  | nil =>
    intro g g1 w o fuel index records hd hg _ hw ho _ hf
    obtain ⟨fuel, rfl⟩ : ∃ k, fuel = k + 1 := ⟨fuel - 1, by simp at hf; omega⟩
    obtain ⟨i1, e1, d1⟩ := parseRecord_at hlen hd hg ho
    simp only [renderMore] at d1
    obtain ⟨i2, e2, d2⟩ := skipWhitespace_at hlen d1 hw (by decide)
    obtain ⟨hlt, hch, _⟩ := drop_cons d2
    have : (Char.ofNat 93 == Char.ofNat 44) = false := by decide
    simp [parseRecordsLoop_zero, parseRecordsLoop_succ, e1, e2, hlt, hch, this]
  | cons o1 os ih =>
    intro g g1 w o fuel index records hd hg hg1 hw ho hos hf
    obtain ⟨fuel, rfl⟩ : ∃ k, fuel = k + 1 := ⟨fuel - 1, by simp at hf; omega⟩
    obtain ⟨i1, e1, d1⟩ := parseRecord_at hlen hd hg ho
    simp only [renderMore] at d1
    obtain ⟨i2, e2, d2⟩ := skipWhitespace_at hlen d1 hw (by decide)
    obtain ⟨hlt, hch, hnext⟩ := drop_cons d2
    have hmod : (i2 + 1) % UInt32Size = i2 + 1 := Nat.mod_eq_of_lt (by omega)
    have hrec := ih g1 (fun k => g1 (k + 30)) (g1 29) o1 fuel (i2 + 1)
      (records ++ [o.record]) hnext hg1 (fun k => hg1 _) (hg1 29)
      (hos o1 (List.mem_cons_self _ _)) (fun o2 h2 => hos o2 (List.mem_cons_of_mem _ h2))
      (by simp at hf; omega)
    simp [parseRecordsLoop_zero, parseRecordsLoop_succ, e1, e2, hlt, hch, hmod, hrec]

theorem length_le_renderMore (rest : Str) :
    ∀ (os : List ObjectText) (g : Nat → Str), os.length ≤ (renderMore g os rest).length := by
  intro os
  induction os with
  | nil => intro g; simp [renderMore]
  | cons o os ih =>
    intro g
    have := ih (fun k => g (k + 30))
    simp only [renderMore, renderObject, renderField, List.length_cons, List.length_append]
    omega

theorem parseRecords_at {json : Str} (hlen : json.length < UInt32Size) (g : Nat → Str)
    (os : List ObjectText) (rest : Str) (hjson : json = renderArray g os rest)
    (hg : ∀ k, AllSpace (g k)) (hos : ∀ o ∈ os, o.WellFormed) :
    parseRecords json = some (os.map ObjectText.record) := by
  have hd : json.drop 0 = renderArray g os rest := by rw [List.drop_zero, hjson]
  unfold renderArray at hd
  obtain ⟨i1, e1, d1⟩ := skipWhitespace_at hlen hd (hg 0) (by decide)
  obtain ⟨i2, e2, d2⟩ := @expectChar_at json hlen _ _ [] i1 d1 allSpace_nil (by decide)
  cases os with
  | nil =>
    simp only at d2
    obtain ⟨i3, e3, d3⟩ := skipWhitespace_at hlen d2 (hg 1) (by decide)
    obtain ⟨hlt, hch, _⟩ := drop_cons d3
    simp [parseRecords_eq, e1, e2, e3, hlt, hch]
  | cons o os =>
    simp only at d2
    have d2a := d2
    unfold renderObject at d2a
    obtain ⟨i3, e3, d3⟩ := skipWhitespace_at hlen d2a (hg 1) (by decide)
    obtain ⟨hlt, hch, _⟩ := drop_cons d3
    have d3a : json.drop i3 = renderObject (Function.update (fun k => g (k + 1)) 0 []) o
        (g 30 ++ renderMore (fun k => g (k + 31)) os rest) := by
      rw [d3]; simp [renderObject, Function.update]
    have hg2 : ∀ k, AllSpace (Function.update (fun k => g (k + 1)) 0 [] k) := by
      intro k
      by_cases hk : k = 0
      · subst hk; simpa using allSpace_nil
      · simpa [Function.update, hk] using hg (k + 1)
    have hl := drop_length d3
    have hlo : os.length < UInt32Size := by
      have := length_le_renderMore rest os (fun k => g (k + 31))
      simp only [renderField, List.length_cons, List.length_append] at hl
      omega
    have hrec := parseRecordsLoop_at json hlen rest os _ _ _ o UInt32Size i3 [] d3a hg2
      (fun k => hg _) (hg 30) (hos o (List.mem_cons_self _ _))
      (fun o2 h2 => hos o2 (List.mem_cons_of_mem _ h2)) hlo
    have : (Char.ofNat 123 == Char.ofNat 93) = false := by decide
    simp [parseRecords_eq, e1, e2, e3, hlt, hch, this, hrec]

end JsonParser

theorem digitChar_toNat (k : Nat) (hk : k < 10) : (Nat.digitChar k).toNat = 48 + k := by
  interval_cases k <;> rfl

theorem digitsValue_append_singleton (ds : Str) (c : Char) :
    digitsValue (ds ++ [c]) = digitsValue ds * 10 + (c.toNat - 48) := by
  simp [digitsValue, List.foldl_append]

theorem toDigitsCore_spec :
    ∀ (fuel n : Nat) (acc : Str), n < fuel →
      ∃ ds, Nat.toDigitsCore 10 fuel n acc = ds ++ acc ∧ ds ≠ [] ∧
        (∀ c ∈ ds, isdigit c = true) ∧ digitsValue ds = n := by
  intro fuel
  induction fuel with
  | zero => intro n acc h; omega
  | succ fuel ih =>
    intro n acc h
    have hd : (Nat.digitChar (n % 10)).toNat = 48 + n % 10 :=
      digitChar_toNat _ (Nat.mod_lt _ (by decide))
    have hdig : isdigit (Nat.digitChar (n % 10)) = true := by
      have := Nat.mod_lt n (show 10 > 0 by decide)
      simp only [isdigit, hd, Bool.and_eq_true, decide_eq_true_eq]
      omega
    by_cases h0 : n / 10 = 0
    · refine ⟨[Nat.digitChar (n % 10)], by simp [Nat.toDigitsCore, h0], by simp, ?_, ?_⟩
      · intro c hc
        rw [List.mem_singleton] at hc
        rw [hc]; exact hdig
      · simp only [digitsValue, List.foldl_cons, List.foldl_nil, hd]
        omega
    · obtain ⟨ds, h1, _, h3, h4⟩ := ih (n / 10) (Nat.digitChar (n % 10) :: acc) (by omega)
      refine ⟨ds ++ [Nat.digitChar (n % 10)], by simp [Nat.toDigitsCore, h0, h1], by simp, ?_, ?_⟩
      · intro c hc
        rcases List.mem_append.1 hc with hc | hc
        · exact h3 c hc
        · rw [List.mem_singleton] at hc
          rw [hc]; exact hdig
      · rw [digitsValue_append_singleton, h4, hd]
        omega

/-- An integer of magnitude at most `2 ^ 63 - 1`. -/
theorem ofInt_wellFormed (n : Int) (h : -Int64Max ≤ n ∧ n ≤ Int64Max) :
    (IntText.ofInt n).WellFormed ∧ (IntText.ofInt n).value = n := by
  obtain ⟨ds, h1, h2, h3, h4⟩ := toDigitsCore_spec (n.natAbs + 1) n.natAbs [] (by omega)
  rw [List.append_nil] at h1
  have hd : (IntText.ofInt n).digits = ds := h1
  refine ⟨⟨by rw [hd]; exact h2, by rw [hd]; exact h3, ?_⟩, ?_⟩
  · rw [hd, h4]
    have := h.1
    have := h.2
    omega
  · have hv : digitsValue (Nat.toDigits 10 n.natAbs) = n.natAbs := by
      show digitsValue (Nat.toDigitsCore 10 (n.natAbs + 1) n.natAbs []) = _
      rw [h1, h4]
    simp only [IntText.value, IntText.ofInt, hv]
    by_cases hn : n < 0
    · simp only [hn, decide_True, if_true]; omega
    · simp only [hn, decide_False, Bool.false_eq_true, if_false]; omega

theorem ofRecord_wellFormed (r : Record)
    (h : quoteChar ∉ r.p ∧ quoteChar ∉ r.q ∧ (-Int64Max ≤ r.a ∧ r.a ≤ Int64Max) ∧
      (-Int64Max ≤ r.f ∧ r.f ≤ Int64Max) ∧ (-Int64Max ≤ r.l ∧ r.l ≤ Int64Max) ∧
      (-Int64Max ≤ r.T ∧ r.T ≤ Int64Max)) :
    (ObjectText.ofRecord r).WellFormed ∧ (ObjectText.ofRecord r).record = r := by
  obtain ⟨hp, hq, ha, hf, hl, hT⟩ := h
  refine ⟨⟨(ofInt_wellFormed _ ha).1, hp, hq, (ofInt_wellFormed _ hf).1,
    (ofInt_wellFormed _ hl).1, (ofInt_wellFormed _ hT).1⟩, ?_⟩
  simp only [ObjectText.record, ObjectText.ofRecord, (ofInt_wellFormed _ ha).2,
    (ofInt_wellFormed _ hf).2, (ofInt_wellFormed _ hl).2, (ofInt_wellFormed _ hT).2]

theorem length_renderObject_le (g : Nat → Str) (o : ObjectText) (rest rest1 : Str)
    (h : rest.length ≤ rest1.length) :
    (renderObject noGap o rest).length ≤ (renderObject g o rest1).length := by
  simp only [renderObject, renderField, noGap, List.length_cons, List.length_append,
    List.length_nil]
  omega

theorem length_renderMore_le (rest : Str) :
    ∀ (os : List ObjectText) (g : Nat → Str),
      (renderMore noGap os []).length ≤ (renderMore g os rest).length := by
  intro os
  induction os with
  | nil => intro g; simp [renderMore]
  | cons o os ih =>
    intro g
    have h1 := ih (fun k => g (k + 30))
    have h2 := length_renderObject_le g o (noGap 29 ++ renderMore noGap os [])
      (g 29 ++ renderMore (fun k => g (k + 30)) os rest)
      (by simp only [noGap, List.length_append, List.length_nil]; omega)
    simp only [renderMore, List.length_cons]
    exact Nat.succ_le_succ h2

theorem length_compactText_le (g : Nat → Str) (os : List ObjectText) (rest : Str) :
    (compactText os).length ≤ (renderArray g os rest).length := by
  cases os with
  | nil => simp [compactText, renderArray, noGap]; omega
  | cons o os =>
    have h1 := length_renderMore_le rest os (fun k => g (k + 31))
    have h2 := length_renderObject_le (fun k => g (k + 1)) o
      (noGap 30 ++ renderMore noGap os [])
      (g 30 ++ renderMore (fun k => g (k + 31)) os rest)
      (by simp only [noGap, List.length_append, List.length_nil]; omega)
    simp only [compactText, renderArray, List.length_cons, List.length_append]
    have h3 : (renderObject (fun k => noGap (k + 1)) o
        (noGap 30 ++ renderMore (fun k => noGap (k + 31)) os [])).length =
        (renderObject noGap o (noGap 30 ++ renderMore noGap os [])).length := rfl
    rw [h3]
    simp only [noGap, List.length_nil] at h2 ⊢
    omega

theorem allSpace_noGap : ∀ k, AllSpace (noGap k) := by
  intro k c hc; cases hc

namespace JsonParser

theorem parseStringLoop_length (json : Str) :
    ∀ (fuel index : Nat) (result res : Str) (idx : Nat),
      parseStringLoop json fuel index result = some (res, idx) →
      res.length + 1 ≤ result.length + fuel := by
  intro fuel
  induction fuel with
  | zero => intro index result res idx h; simp [parseStringLoop_zero, parseStringLoop_succ] at h
  | succ fuel ih =>
    intro index result res idx h
    simp only [parseStringLoop_zero, parseStringLoop_succ] at h
    split at h
    · have := ih _ _ _ _ h
      simp only [List.length_append, List.length_singleton] at this
      omega
    · simp only [Option.some.injEq, Prod.mk.injEq] at h
      rw [← h.1]; omega

theorem parseString_length {json : Str} {index idx : Nat} {res : Str}
    (h : parseString json index = some (res, idx)) : res.length < UInt32Size := by
  simp only [parseString_eq] at h
  split at h
  · cases h
  · split at h
    · simp only [Option.some.injEq, Prod.mk.injEq] at h
      rw [← h.1]; decide
    · split at h
      · cases h
      · rename_i result index2 heq
        have := parseStringLoop_length _ _ _ _ _ _ heq
        simp only [List.length_nil, Nat.zero_add] at this
        split at h <;>
        · simp only [Option.some.injEq, Prod.mk.injEq] at h
          rw [← h.1]; omega

theorem fieldEnd_record {json : Str} {index idx : Nat} {record r : Record} {b : Bool}
    (h : fieldEnd json index record = some (b, idx, r)) : r = record := by
  simp only [fieldEnd_eq] at h
  split at h
  · cases h
  · split at h <;>
    · simp only [Option.some.injEq, Prod.mk.injEq] at h
      exact h.2.2.symm

theorem parserFieldInOrder_p_length {json : Str} {index idx : Nat} {record r : Record}
    {name : Str} {b : Bool} (hp : record.p.length < UInt32Size)
    (h : parserFieldInOrder json index record name = some (b, idx, r)) :
    r.p.length < UInt32Size := by
  simp only [parserFieldInOrder] at h
  split at h
  · cases h
  split at h
  · cases h
  split at h
  · cases h
  · simp only [Option.some.injEq, Prod.mk.injEq] at h
    rw [← h.2.2]; exact hp
  split at h
  · split at h
    · cases h
    · rw [fieldEnd_record h]; exact hp
  split at h
  · split at h
    · cases h
    · rename_i v index4 heq
      rw [fieldEnd_record h]; exact parseString_length heq
  split at h
  · split at h
    · cases h
    · rw [fieldEnd_record h]; exact hp
  split at h
  · split at h
    · cases h
    · rw [fieldEnd_record h]; exact hp
  split at h
  · split at h
    · cases h
    · rw [fieldEnd_record h]; exact hp
  split at h
  · split at h
    · cases h
    · rw [fieldEnd_record h]; exact hp
  split at h
  · split at h
    · cases h
    · rw [fieldEnd_record h]; exact hp
  · simp only [Option.some.injEq, Prod.mk.injEq] at h
    rw [← h.2.2]; exact hp

theorem parseFields_p_length (json : Str) :
    ∀ (names : List Str) (index : Nat) (record : Record) (idx : Nat) (r : Record),
      record.p.length < UInt32Size → parseFields json names index record = some (idx, r) →
      r.p.length < UInt32Size := by
  intro names
  induction names with
  | nil =>
    intro index record idx r hp h
    simp only [parseFields, Option.some.injEq, Prod.mk.injEq] at h
    rw [← h.2]; exact hp
  | cons name names ih =>
    intro index record idx r hp h
    simp only [parseFields] at h
    split at h
    · cases h
    · rename_i b index1 record1 heq
      exact ih _ _ _ _ (parserFieldInOrder_p_length hp heq) h

theorem parseRecord_p_length {json : Str} {index idx : Nat} {r : Record}
    (h : parseRecord json index = some (r, idx)) : r.p.length < UInt32Size := by
  have hz : Record.zero.p.length < UInt32Size := by decide
  simp only [parseRecord_eq] at h
  split at h
  · cases h
  split at h
  · cases h
  · simp only [Option.some.injEq, Prod.mk.injEq] at h
    rw [← h.1]; exact hz
  split at h
  · cases h
  · rename_i index3 record heq
    have := parseFields_p_length json _ _ _ _ _ hz heq
    split at h <;>
    · simp only [Option.some.injEq, Prod.mk.injEq] at h
      rw [← h.1]; exact this

theorem parseRecordsLoop_p_length (json : Str) :
    ∀ (fuel index : Nat) (records rs : List Record),
      (∀ r ∈ records, r.p.length < UInt32Size) →
      parseRecordsLoop json fuel index records = some rs →
      ∀ r ∈ rs, r.p.length < UInt32Size := by
  intro fuel
  induction fuel with
  | zero => intro index records rs _ h; simp [parseRecordsLoop_zero, parseRecordsLoop_succ] at h
  | succ fuel ih =>
    intro index records rs hrec h
    simp only [parseRecordsLoop_zero, parseRecordsLoop_succ] at h
    split at h
    · cases h
    rename_i record index1 heq
    have hrec1 : ∀ r ∈ records ++ [record], r.p.length < UInt32Size := by
      intro r hr
      rcases List.mem_append.1 hr with hr | hr
      · exact hrec r hr
      · rw [List.mem_singleton] at hr
        rw [hr]; exact parseRecord_p_length heq
    split at h
    · cases h
    split at h
    · exact ih _ _ _ hrec1 h
    · simp only [Option.some.injEq] at h
      rw [← h]; exact hrec1

/-- Every record that `JsonParser::parseRecords` returns holds a `p` of fewer than
`2 ^ 32` bytes. -/
theorem parseRecords_p_length {json : Str} {rs : List Record}
    (h : parseRecords json = some rs) : ∀ r ∈ rs, r.p.length < UInt32Size := by
  simp only [parseRecords_eq] at h
  split at h
  · cases h
  split at h
  · cases h
  · simp only [Option.some.injEq] at h
    rw [← h]; intro r hr; cases hr
  split at h
  · cases h
  split at h
  · simp only [Option.some.injEq] at h
    rw [← h]; intro r hr; cases hr
  · exact parseRecordsLoop_p_length json _ _ _ _ (fun r hr => by cases hr) h

theorem charAt_replicate_append (n : Nat) (c : Char) (rest : Str) (i : Nat) (h : i < n) :
    charAt (List.replicate n c ++ rest) i = c := by
  simp [charAt, List.getD, List.getElem?_append_left, h]

theorem skipWhitespaceLoop_wrap (json : Str)
    (hsp : ∀ i, i < UInt32Size → i < json.length ∧ isspace (charAt json i) = true) :
    ∀ fuel index, index < UInt32Size → skipWhitespaceLoop json fuel index = none := by
  intro fuel
  induction fuel with
  | zero => intro index _; rfl
  | succ fuel ih =>
    intro index hi
    obtain ⟨h1, h2⟩ := hsp index hi
    simp only [skipWhitespaceLoop_zero, skipWhitespaceLoop_succ, h1, h2, decide_True, Bool.and_self, if_true]
    exact ih _ (Nat.mod_lt _ (by decide))

theorem parseRecords_wrap (n : Nat) (rest : Str) (hn : UInt32Size ≤ n) :
    parseRecords (List.replicate n (Char.ofNat 32) ++ rest) = none := by
  have hw := skipWhitespaceLoop_wrap (List.replicate n (Char.ofNat 32) ++ rest)
    (by
      intro i hi
      refine ⟨?_, ?_⟩
      · simp only [List.length_append, List.length_replicate]
        omega
      · rw [charAt_replicate_append _ _ _ _ (by omega)]; decide)
    UInt32Size 0 (by decide)
  simp only [parseRecords_eq, skipWhitespace, hw]

end JsonParser

/-! ### Round trip and whitespace tolerance of the reference parser -/

/-- C19 (amended): for every list `rs` of records whose `p` and `q` hold no `"` byte and
whose integer fields lie in `[-(2^63-1), 2^63-1]`, and whose compact serialisation is
shorter than `2 ^ 32` bytes, `JsonParser::parseRecords` applied to that serialisation
returns exactly `rs`. -/
theorem C19_reference_round_trip (rs : List Record)
    (hrs : ∀ r ∈ rs, quoteChar ∉ r.p ∧ quoteChar ∉ r.q ∧ (-Int64Max ≤ r.a ∧ r.a ≤ Int64Max) ∧
      (-Int64Max ≤ r.f ∧ r.f ≤ Int64Max) ∧ (-Int64Max ≤ r.l ∧ r.l ≤ Int64Max) ∧
      (-Int64Max ≤ r.T ∧ r.T ≤ Int64Max))
    (hlen : (serialize rs).length < 2 ^ 32) :
    JsonParser.parseRecords (serialize rs) = some rs := by
  have h := JsonParser.parseRecords_at hlen noGap (rs.map ObjectText.ofRecord) [] rfl
    allSpace_noGap (by
      intro o ho
      obtain ⟨r, hr, rfl⟩ := List.mem_map.1 ho
      exact (ofRecord_wellFormed r (hrs r hr)).1)
  rw [h, List.map_map]
  congr 1
  conv_rhs => rw [← List.map_id rs]
  exact List.map_congr_left (fun r hr => (ofRecord_wellFormed r (hrs r hr)).2)

/-- C19 at scenario E6: the compact serialisation of the record of E6 is the input of E6,
and the reference parser returns that record for it. -/
theorem C19_reference_round_trip_witness :
    serialize [recordE6] = inputE6 ∧
    JsonParser.parseRecords (serialize [recordE6]) = some [recordE6] :=
  ⟨by decide, C19_reference_round_trip [recordE6] (by decide) (by decide)⟩

/-- C19 (as stated) fails for a record whose `p` holds `2 ^ 32` bytes `x`: the record meets
the conditions of the claim, and `JsonParser::parseRecords` does not return it for its
serialisation, because no record it returns has a `p` that long. -/
theorem C19_round_trip_counterexample :
    quoteChar ∉ List.replicate (2 ^ 32) (Char.ofNat 120) ∧
    JsonParser.parseRecords (serialize
      [{ a := 0, p := List.replicate (2 ^ 32) (Char.ofNat 120), q := [], f := 0, l := 0,
         T := 0, m := false }]) ≠
      some [{ a := 0, p := List.replicate (2 ^ 32) (Char.ofNat 120), q := [], f := 0, l := 0,
              T := 0, m := false }] := by
  refine ⟨?_, ?_⟩
  · intro h
    have := List.eq_of_mem_replicate h
    revert this; decide
  · intro h
    have := JsonParser.parseRecords_p_length h _ (List.mem_singleton_self _)
    simp only [List.length_replicate] at this
    exact absurd this (by decide)

/-- C20 (amended): for every well-formed input, written with any run of whitespace bytes in
front of each token and any bytes after the closing bracket, that is shorter than `2 ^ 32`
bytes, `JsonParser::parseRecords` returns the records that are written, the same as on the
whitespace-free input. -/
theorem C20_whitespace_tolerance (g : Nat → Str) (os : List ObjectText) (rest : Str)
    (hos : ∀ o ∈ os, o.WellFormed) (hg : ∀ k, AllSpace (g k))
    (hlen : (renderArray g os rest).length < 2 ^ 32) :
    JsonParser.parseRecords (renderArray g os rest) = some (os.map ObjectText.record) ∧
    JsonParser.parseRecords (renderArray g os rest) =
      JsonParser.parseRecords (compactText os) := by
  have h1 := JsonParser.parseRecords_at hlen g os rest rfl hg hos
  have h2 := JsonParser.parseRecords_at
    (Nat.lt_of_le_of_lt (length_compactText_le g os rest) hlen) noGap os [] rfl
    allSpace_noGap hos
  exact ⟨h1, h1.trans h2.symm⟩

/-- C20 at the record of scenario E6 written with a space in front of every token and a
newline at the end. -/
theorem C20_whitespace_tolerance_witness :
    JsonParser.parseRecords (renderArray (fun _ => [Char.ofNat 32])
        [ObjectText.ofRecord recordE6] [Char.ofNat 10]) = some [recordE6] ∧
    JsonParser.parseRecords (renderArray (fun _ => [Char.ofNat 32])
        [ObjectText.ofRecord recordE6] [Char.ofNat 10]) =
      JsonParser.parseRecords (compactText [ObjectText.ofRecord recordE6]) :=
  C20_whitespace_tolerance (fun _ => [Char.ofNat 32]) [ObjectText.ofRecord recordE6]
    [Char.ofNat 10]
    (by
      intro o ho
      rw [List.mem_singleton] at ho
      rw [ho]
      exact (ofRecord_wellFormed recordE6 (by decide)).1)
    (by
      intro k c hc
      rw [List.mem_singleton] at hc
      rw [hc]; decide)
    (by decide)

/-- C20 (as stated) fails when `2 ^ 32` spaces are written in front of the empty array
`[]`: the index of `skipWhitespace` wraps before it reaches the bracket, so
`JsonParser::parseRecords` never returns, while it returns no record on `[]` itself. -/
theorem C20_whitespace_counterexample :
    AllSpace (List.replicate (2 ^ 32) (Char.ofNat 32)) ∧
    JsonParser.parseRecords (List.replicate (2 ^ 32) (Char.ofNat 32) ++ compactText []) = none ∧
    JsonParser.parseRecords (compactText []) = some [] := by
  refine ⟨?_, JsonParser.parseRecords_wrap _ _ (by decide), by decide⟩
  intro c hc
  rw [List.eq_of_mem_replicate hc]; decide

/-! ### The walk over the quote index on well-formed whitespace-free input -/

theorem charAt_cons_succ (c : Char) (s : Str) (j : Nat) : charAt (c :: s) (j + 1) = charAt s j := by
  simp [charAt, List.getD]

theorem quoteOffsets_nil : quoteOffsets [] = [] := rfl

theorem quoteOffsets_cons (c : Char) (s : Str) :
    quoteOffsets (c :: s) =
      (if c = quoteChar then [0] else []) ++ (quoteOffsets s).map (· + 1) := by
  simp only [quoteOffsets, List.length_cons, List.range_succ_eq_map, List.filter_cons]
  have h0 : charAt (c :: s) 0 = c := rfl
  have hm : List.filter (fun j => decide (charAt (c :: s) j = quoteChar))
      (List.map Nat.succ (List.range s.length)) =
      List.map (· + 1) (List.filter (fun j => decide (charAt s j = quoteChar))
        (List.range s.length)) := by
    rw [List.filter_map]
    rfl
  rw [hm, h0]
  by_cases hc : c = quoteChar <;> simp [hc]

theorem quoteOffsets_length_le (s : Str) : (quoteOffsets s).length ≤ s.length := by
  unfold quoteOffsets
  exact (List.length_filter_le _ _).trans (by rw [List.length_range])

theorem cursor_zero (json : Str) : Cursor json (quoteOffsets json) 0 0 := by
  refine ⟨Nat.zero_le _, ?_⟩
  simp

theorem at_quote {json : Str} {Q : List Nat} {i P : Nat} {rest : Str}
    (h : At json Q i P (quoteChar :: rest)) :
    Q[i]? = some P ∧ At json Q (i + 1) (P + 1) rest := by
  obtain ⟨⟨hle, hc⟩, hd⟩ := h
  obtain ⟨_, _, hnext⟩ := JsonParser.drop_cons hd
  rw [hd, quoteOffsets_cons] at hc
  simp only [if_true, List.singleton_append, List.map_cons, Nat.zero_add, List.map_map] at hc
  have hget : Q[i]? = some P := by
    have : (Q.drop i)[0]? = some P := by rw [hc]; simp
    rw [List.getElem?_drop] at this
    simpa using this
  have hlt : i < Q.length := by
    by_contra hge
    rw [List.getElem?_eq_none (by omega)] at hget
    cases hget
  refine ⟨hget, ⟨hlt, ?_⟩, hnext⟩
  have : Q.drop (i + 1) = (Q.drop i).drop 1 := by rw [List.drop_drop, Nat.add_comm]
  rw [this, hc, hnext]
  simp only [List.drop_one, List.tail_cons]
  apply List.map_congr_left
  intro a _
  simp only [Function.comp]
  omega

theorem at_other {json : Str} {Q : List Nat} {i P : Nat} {c : Char} {rest : Str}
    (h : At json Q i P (c :: rest)) (hne : c ≠ quoteChar) : At json Q i (P + 1) rest := by
  obtain ⟨⟨hle, hc⟩, hd⟩ := h
  obtain ⟨_, _, hnext⟩ := JsonParser.drop_cons hd
  rw [hd, quoteOffsets_cons] at hc
  simp only [hne, if_false, List.nil_append, List.map_map] at hc
  refine ⟨⟨hle, ?_⟩, hnext⟩
  rw [hc, hnext]
  apply List.map_congr_left
  intro a _
  simp only [Function.comp]
  omega

theorem at_skip {json : Str} {Q : List Nat} {i : Nat} {rest : Str} :
    ∀ (x : Str) (P : Nat), At json Q i P (x ++ rest) → quoteChar ∉ x →
      At json Q i (P + x.length) rest := by
  intro x
  induction x with
  | nil => intro P h _; simpa using h
  | cons c x ih =>
    intro P h hq
    have h1 := at_other h (fun hc => hq (hc ▸ List.mem_cons_self _ _))
    have h2 := ih (P + 1) h1 (fun hx => hq (List.mem_cons_of_mem _ hx))
    have : P + (c :: x).length = P + 1 + x.length := by simp only [List.length_cons]; omega
    rw [this]; exact h2

theorem at_end {json : Str} {Q : List Nat} {i P : Nat} {rest : Str}
    (h : At json Q i P rest) (hq : quoteChar ∉ rest) : Q.length = i := by
  have h1 := @at_skip json Q i [] rest P (by rw [List.append_nil]; exact h) hq
  obtain ⟨⟨hle, hc⟩, hd⟩ := h1
  rw [hd, quoteOffsets_nil] at hc
  have := congrArg List.length hc
  simp only [List.length_drop, List.map_nil, List.length_nil] at this
  omega

namespace JsonParserSIMD

theorem valueSlice_eq {json : Str} {Q : List Nat} {i d P : Nat} {v tail : Str}
    (hQ : Q.length < UInt32Size) (h1 : Q[i]? = some P)
    (h2 : Q[i + d]? = some (P + 4 + v.length + 1)) (hd : json.drop (P + 4) = v ++ tail)
    (hlen : json.length < UInt32Size) (hne : tail ≠ []) :
    valueSlice json Q i d = some v := by
  have hU : UInt32Size = 4294967296 := by decide
  have hid : i + d < Q.length := by
    by_contra hge
    rw [List.getElem?_eq_none (by omega)] at h2
    cases h2
  have hl := congrArg List.length hd
  simp only [List.length_drop, List.length_append] at hl
  have ht : 0 < tail.length := List.length_pos.2 hne
  rw [hU] at hQ hlen
  have e0 : (i + d) % UInt32Size = i + d := by rw [hU]; omega
  have e1 : (P + 4) % UInt32Size = P + 4 := by rw [hU]; omega
  have e2 : (P + 4 + v.length + 1 + UInt32Size - 1) % UInt32Size = P + 4 + v.length := by
    rw [hU]; omega
  have e3 : (P + 4 + v.length + UInt32Size - (P + 4)) % UInt32Size = v.length := by
    rw [hU]; omega
  have e4 : ¬ (P + 4 > json.length) := by omega
  simp only [valueSlice, h1, e0, h2, e1, e2, e3, substr, e4, if_false, hd, List.take_left']

theorem slice_int {json : Str} {Q : List Nat} (hlen : json.length < UInt32Size)
    (hQ : Q.length < UInt32Size) {i P : Nat} {k sep : Char} {v rest2 : Str}
    (h : At json Q i P (quoteChar :: k :: quoteChar :: Char.ofNat 58 ::
      (v ++ sep :: quoteChar :: rest2)))
    (hk : k ≠ quoteChar) (hv : quoteChar ∉ v) (hsep : sep ≠ quoteChar) :
    Q[i]? = some P ∧ valueSlice json Q i 2 = some v ∧
      At json Q (i + 2) (P + 4 + v.length + 1) (quoteChar :: rest2) := by
  obtain ⟨q0, a1⟩ := at_quote h
  have a2 := at_other a1 hk
  obtain ⟨_, a3⟩ := at_quote a2
  have a4 := at_other a3 (show Char.ofNat 58 ≠ quoteChar by decide)
  have a5 := at_skip v _ a4 hv
  have a6 := at_other a5 hsep
  obtain ⟨q2, _⟩ := at_quote a6
  exact ⟨q0, valueSlice_eq hQ q0 q2 a4.2 hlen (by simp), a6⟩

theorem slice_str {json : Str} {Q : List Nat} (hlen : json.length < UInt32Size)
    (hQ : Q.length < UInt32Size) {i P : Nat} {k sep : Char} {s rest2 : Str}
    (h : At json Q i P (quoteChar :: k :: quoteChar :: Char.ofNat 58 :: quoteChar ::
      (s ++ quoteChar :: sep :: quoteChar :: rest2)))
    (hk : k ≠ quoteChar) (hs : quoteChar ∉ s) (hsep : sep ≠ quoteChar) :
    Q[i]? = some P ∧ valueSlice json Q i 4 = some (stringText s) ∧
      At json Q (i + 4) (P + 4 + (stringText s).length + 1) (quoteChar :: rest2) := by
  obtain ⟨q0, a1⟩ := at_quote h
  have a2 := at_other a1 hk
  obtain ⟨_, a3⟩ := at_quote a2
  have a4 := at_other a3 (show Char.ofNat 58 ≠ quoteChar by decide)
  obtain ⟨_, a5⟩ := at_quote a4
  have a6 := at_skip s _ a5 hs
  obtain ⟨_, a7⟩ := at_quote a6
  have a8 := at_other a7 hsep
  have e : P + 1 + 1 + 1 + 1 + 1 + s.length + 1 + 1 = P + 4 + (stringText s).length + 1 := by
    simp only [stringText, List.length_cons, List.length_append, List.length_nil]
    omega
  rw [e] at a8
  obtain ⟨q4, _⟩ := at_quote a8
  have hd : json.drop (P + 4) = stringText s ++ sep :: quoteChar :: rest2 := by
    rw [show P + 4 = P + 1 + 1 + 1 + 1 from rfl, a4.2]
    simp [stringText]
  exact ⟨q0, valueSlice_eq hQ q0 q4 hd hlen (by simp), a8⟩

theorem quote_not_mem_boolText (m : Bool) : quoteChar ∉ boolText m := by
  cases m <;> decide

theorem slice_m {json : Str} {Q : List Nat} (hlen : json.length < UInt32Size)
    {i P : Nat} {k : Char} {m : Bool} {rest2 : Str}
    (h : At json Q i P (quoteChar :: k :: quoteChar :: Char.ofNat 58 ::
      (boolText m ++ Char.ofNat 125 :: rest2)))
    (hk : k ≠ quoteChar) :
    Q[i]? = some P ∧
      (substr json ((P + 4) % UInt32Size) 1).map parseBoolFromString = some m ∧
      At json Q (i + 2) (P + 4 + (boolText m).length + 1) rest2 := by
  obtain ⟨q0, a1⟩ := at_quote h
  have a2 := at_other a1 hk
  obtain ⟨_, a3⟩ := at_quote a2
  have a4 := at_other a3 (show Char.ofNat 58 ≠ quoteChar by decide)
  have a5 := at_skip (boolText m) _ a4 (quote_not_mem_boolText m)
  have a6 := at_other a5 (show Char.ofNat 125 ≠ quoteChar by decide)
  refine ⟨q0, ?_, a6⟩
  have hd : json.drop (P + 4) = boolText m ++ Char.ofNat 125 :: rest2 := a4.2
  have hl := congrArg List.length hd
  simp only [List.length_drop, List.length_append, List.length_cons] at hl
  have hU : UInt32Size = 4294967296 := by decide
  have e1 : (P + 4) % UInt32Size = P + 4 := by rw [hU] at hlen ⊢; omega
  have e4 : ¬ (P + 4 > json.length) := by omega
  simp only [substr, e1, e4, if_false, hd, Option.map_some']
  cases m <;> rfl

theorem parseDigitsLoop_eq (s : Str) :
    ∀ (fuel index : Nat) (v : Int),
      parseDigitsLoop s fuel index v = (JsonParser.parseInt64Loop s fuel index v).map Prod.fst := by
  intro fuel
  induction fuel with
  | zero => intro index v; rfl
  | succ fuel ih =>
    intro index v
    simp only [parseDigitsLoop, JsonParser.parseInt64Loop_succ]
    split
    · cases pushDigit v (charAt s index) with
      | none => rfl
      | some next => exact ih _ _
    · rfl

theorem parseInt64FromString_text (x : IntText) (hx : x.WellFormed)
    (hlen : x.text.length < UInt32Size) :
    parseInt64FromString x.text = some x.value := by
  obtain ⟨neg, digits⟩ := x
  obtain ⟨hne, hds, hmax⟩ := hx
  simp only at hne hds hmax
  obtain ⟨d, ds, rfl⟩ := List.exists_cons_of_ne_nil hne
  have hdig : isdigit d = true := hds d (List.mem_cons_self _ _)
  cases neg with
  | false =>
    simp only [IntText.text, Bool.false_eq_true, if_false] at hlen ⊢
    have hminus : (d == Char.ofNat 45) = false := by
      rw [beq_eq_false_iff_ne]; rintro rfl; revert hdig; decide
    have hp := JsonParser.parseInt64Loop_end (d :: ds) hlen (d :: ds) UInt32Size 0 0 rfl
      (Nat.zero_le _) hds hmax hlen
    simp only [Nat.cast_zero] at hp
    have h0 : charAt (d :: ds) 0 = d := rfl
    simp [parseInt64FromString, h0, hminus, parseDigitsLoop_eq, hp, IntText.value, digitsValue]
  | true =>
    simp only [IntText.text, if_true] at hlen ⊢
    have hp := JsonParser.parseInt64Loop_end (Char.ofNat 45 :: d :: ds) hlen (d :: ds)
      UInt32Size 1 0 rfl (by simp) hds hmax (by simp only [List.length_cons] at hlen ⊢; omega)
    simp only [Nat.cast_zero] at hp
    have h0 : charAt (Char.ofNat 45 :: d :: ds) 0 = Char.ofNat 45 := rfl
    simp [parseInt64FromString, h0, parseDigitsLoop_eq, hp, IntText.value, digitsValue]

theorem text_length_lt {json : Str} (hlen : json.length < UInt32Size) {P : Nat}
    {a b c d : Char} {v rest : Str} (h : json.drop P = a :: b :: c :: d :: (v ++ rest)) :
    v.length < UInt32Size := by
  have := JsonParser.drop_length h
  simp only [List.length_cons, List.length_append] at this
  omega

theorem quote_not_mem_text (x : IntText) (hx : x.WellFormed) : quoteChar ∉ x.text := by
  have hd : quoteChar ∉ x.digits := by
    intro h
    have := hx.2.1 _ h
    revert this; decide
  unfold IntText.text
  split
  · intro h
    rcases List.mem_cons.1 h with h | h
    · revert h; decide
    · exact hd h
  · exact hd

end JsonParserSIMD

namespace JsonParserSIMD

theorem lt_of_getElem? {Q : List Nat} {i P : Nat} (h : Q[i]? = some P) : i < Q.length := by
  by_contra hge
  rw [List.getElem?_eq_none (by omega)] at h
  cases h

theorem mod_of_cursor {json : Str} {Q : List Nat} {i P : Nat} {rest : Str}
    (hQ : Q.length < UInt32Size) (h : At json Q i P rest) : i % UInt32Size = i :=
  Nat.mod_eq_of_lt (Nat.lt_of_le_of_lt h.1.1 hQ)

theorem walk_a {json : Str} {Q : List Nat} (hlen : json.length < UInt32Size)
    (hQ : Q.length < UInt32Size) {w : WalkState} {P : Nat} {x : IntText} {rest2 : Str}
    (h : At json Q w.i P (quoteChar :: 'a' :: quoteChar :: Char.ofNat 58 ::
      (x.text ++ Char.ofNat 44 :: quoteChar :: rest2)))
    (hi : w.i % 18 = 0) (he : w.expectedKeyIndex % 7 = 0) (hx : x.WellFormed) :
    ∃ w1 P1, walkStep json Q w = some w1 ∧ w.i < Q.length ∧
      At json Q w1.i P1 (quoteChar :: rest2) ∧ w1.i = w.i + 2 ∧ w1.expectedKeyIndex = 1 ∧
      w1.record = { Record.zero with a := x.value } ∧ w1.recordStarted = true ∧
      w1.records = emitted w := by
  obtain ⟨q0, hvs, a6⟩ := slice_int hlen hQ h (by decide) (quote_not_mem_text x hx) (by decide)
  have hmod := mod_of_cursor hQ a6
  refine ⟨WalkState.mk (w.i + 2) 1 { Record.zero with a := x.value } (true) (emitted w),
    _, ?_, lt_of_getElem? q0, a6, rfl, rfl, rfl, rfl, rfl⟩
  simp [walkStep, jsonQuotes, hi, he, q0, hvs, parseInt64FromString_text x hx (text_length_lt hlen h.2), hmod, emitted]

theorem walk_p {json : Str} {Q : List Nat} (hlen : json.length < UInt32Size)
    (hQ : Q.length < UInt32Size) {w : WalkState} {P : Nat} {s : Str} {rest2 : Str}
    (h : At json Q w.i P (quoteChar :: 'p' :: quoteChar :: Char.ofNat 58 :: quoteChar ::
      (s ++ quoteChar :: Char.ofNat 44 :: quoteChar :: rest2)))
    (hi : w.i % 18 = 2) (he : w.expectedKeyIndex % 7 = 1) (hs : quoteChar ∉ s) :
    ∃ w1 P1, walkStep json Q w = some w1 ∧ w.i < Q.length ∧
      At json Q w1.i P1 (quoteChar :: rest2) ∧ w1.i = w.i + 4 ∧ w1.expectedKeyIndex = 2 ∧
      w1.record = { w.record with p := stringText s } ∧ w1.recordStarted = w.recordStarted ∧
      w1.records = w.records := by
  obtain ⟨q0, hvs, a6⟩ := slice_str hlen hQ h (by decide) hs (by decide)
  have hmod := mod_of_cursor hQ a6
  refine ⟨WalkState.mk (w.i + 4) 2 { w.record with p := stringText s } (w.recordStarted) (w.records),
    _, ?_, lt_of_getElem? q0, a6, rfl, rfl, rfl, rfl, rfl⟩
  simp [walkStep, jsonQuotes, hi, he, q0, hvs, hmod]

theorem walk_q {json : Str} {Q : List Nat} (hlen : json.length < UInt32Size)
    (hQ : Q.length < UInt32Size) {w : WalkState} {P : Nat} {s : Str} {rest2 : Str}
    (h : At json Q w.i P (quoteChar :: 'q' :: quoteChar :: Char.ofNat 58 :: quoteChar ::
      (s ++ quoteChar :: Char.ofNat 44 :: quoteChar :: rest2)))
    (hi : w.i % 18 = 6) (he : w.expectedKeyIndex % 7 = 2) (hs : quoteChar ∉ s) :
    ∃ w1 P1, walkStep json Q w = some w1 ∧ w.i < Q.length ∧
      At json Q w1.i P1 (quoteChar :: rest2) ∧ w1.i = w.i + 4 ∧ w1.expectedKeyIndex = 3 ∧
      w1.record = { w.record with q := stringText s } ∧ w1.recordStarted = w.recordStarted ∧
      w1.records = w.records := by
  obtain ⟨q0, hvs, a6⟩ := slice_str hlen hQ h (by decide) hs (by decide)
  have hmod := mod_of_cursor hQ a6
  refine ⟨WalkState.mk (w.i + 4) 3 { w.record with q := stringText s } (w.recordStarted) (w.records),
    _, ?_, lt_of_getElem? q0, a6, rfl, rfl, rfl, rfl, rfl⟩
  simp [walkStep, jsonQuotes, hi, he, q0, hvs, hmod]

theorem walk_f {json : Str} {Q : List Nat} (hlen : json.length < UInt32Size)
    (hQ : Q.length < UInt32Size) {w : WalkState} {P : Nat} {x : IntText} {rest2 : Str}
    (h : At json Q w.i P (quoteChar :: 'f' :: quoteChar :: Char.ofNat 58 ::
      (x.text ++ Char.ofNat 44 :: quoteChar :: rest2)))
    (hi : w.i % 18 = 10) (he : w.expectedKeyIndex % 7 = 3) (hx : x.WellFormed) :
    ∃ w1 P1, walkStep json Q w = some w1 ∧ w.i < Q.length ∧
      At json Q w1.i P1 (quoteChar :: rest2) ∧ w1.i = w.i + 2 ∧ w1.expectedKeyIndex = 4 ∧
      w1.record = { w.record with f := x.value } ∧ w1.recordStarted = w.recordStarted ∧
      w1.records = w.records := by
  obtain ⟨q0, hvs, a6⟩ := slice_int hlen hQ h (by decide) (quote_not_mem_text x hx) (by decide)
  have hmod := mod_of_cursor hQ a6
  refine ⟨WalkState.mk (w.i + 2) 4 { w.record with f := x.value } (w.recordStarted) (w.records),
    _, ?_, lt_of_getElem? q0, a6, rfl, rfl, rfl, rfl, rfl⟩
  simp [walkStep, jsonQuotes, hi, he, q0, hvs, parseInt64FromString_text x hx (text_length_lt hlen h.2), hmod]

theorem walk_l {json : Str} {Q : List Nat} (hlen : json.length < UInt32Size)
    (hQ : Q.length < UInt32Size) {w : WalkState} {P : Nat} {x : IntText} {rest2 : Str}
    (h : At json Q w.i P (quoteChar :: 'l' :: quoteChar :: Char.ofNat 58 ::
      (x.text ++ Char.ofNat 44 :: quoteChar :: rest2)))
    (hi : w.i % 18 = 12) (he : w.expectedKeyIndex % 7 = 4) (hx : x.WellFormed) :
    ∃ w1 P1, walkStep json Q w = some w1 ∧ w.i < Q.length ∧
      At json Q w1.i P1 (quoteChar :: rest2) ∧ w1.i = w.i + 2 ∧ w1.expectedKeyIndex = 5 ∧
      w1.record = { w.record with l := x.value } ∧ w1.recordStarted = w.recordStarted ∧
      w1.records = w.records := by
  obtain ⟨q0, hvs, a6⟩ := slice_int hlen hQ h (by decide) (quote_not_mem_text x hx) (by decide)
  have hmod := mod_of_cursor hQ a6
  refine ⟨WalkState.mk (w.i + 2) 5 { w.record with l := x.value } (w.recordStarted) (w.records),
    _, ?_, lt_of_getElem? q0, a6, rfl, rfl, rfl, rfl, rfl⟩
  simp [walkStep, jsonQuotes, hi, he, q0, hvs, parseInt64FromString_text x hx (text_length_lt hlen h.2), hmod]

theorem walk_T {json : Str} {Q : List Nat} (hlen : json.length < UInt32Size)
    (hQ : Q.length < UInt32Size) {w : WalkState} {P : Nat} {x : IntText} {rest2 : Str}
    (h : At json Q w.i P (quoteChar :: 'T' :: quoteChar :: Char.ofNat 58 ::
      (x.text ++ Char.ofNat 44 :: quoteChar :: rest2)))
    (hi : w.i % 18 = 14) (he : w.expectedKeyIndex % 7 = 5) (hx : x.WellFormed) :
    ∃ w1 P1, walkStep json Q w = some w1 ∧ w.i < Q.length ∧
      At json Q w1.i P1 (quoteChar :: rest2) ∧ w1.i = w.i + 2 ∧ w1.expectedKeyIndex = 6 ∧
      w1.record = { w.record with T := x.value } ∧ w1.recordStarted = w.recordStarted ∧
      w1.records = w.records := by
  obtain ⟨q0, hvs, a6⟩ := slice_int hlen hQ h (by decide) (quote_not_mem_text x hx) (by decide)
  have hmod := mod_of_cursor hQ a6
  refine ⟨WalkState.mk (w.i + 2) 6 { w.record with T := x.value } (w.recordStarted) (w.records),
    _, ?_, lt_of_getElem? q0, a6, rfl, rfl, rfl, rfl, rfl⟩
  simp [walkStep, jsonQuotes, hi, he, q0, hvs, parseInt64FromString_text x hx (text_length_lt hlen h.2), hmod]

theorem walk_m {json : Str} {Q : List Nat} (hlen : json.length < UInt32Size)
    (hQ : Q.length < UInt32Size) {w : WalkState} {P : Nat} {m : Bool} {rest2 : Str}
    (h : At json Q w.i P (quoteChar :: 'm' :: quoteChar :: Char.ofNat 58 ::
      (boolText m ++ Char.ofNat 125 :: rest2)))
    (hi : w.i % 18 = 16) (he : w.expectedKeyIndex % 7 = 6) :
    ∃ w1 P1, walkStep json Q w = some w1 ∧ w.i < Q.length ∧
      At json Q w1.i P1 rest2 ∧ w1.i = w.i + 2 ∧ w1.expectedKeyIndex = 7 ∧
      w1.record = { w.record with m := m } ∧ w1.recordStarted = w.recordStarted ∧
      w1.records = w.records := by
  obtain ⟨q0, hsub, a6⟩ := slice_m hlen h (by decide)
  have hmod := mod_of_cursor hQ a6
  refine ⟨WalkState.mk (w.i + 2) 7 { w.record with m := m } (w.recordStarted) (w.records),
    _, ?_, lt_of_getElem? q0, a6, rfl, rfl, rfl, rfl, rfl⟩
  cases hs : substr json ((P + 4) % UInt32Size) 1 with
  | none => rw [hs] at hsub; cases hsub
  | some m_value =>
    rw [hs] at hsub
    simp only [Option.map_some', Option.some.injEq] at hsub
    simp [walkStep, jsonQuotes, hi, he, q0, hs, hsub, hmod]

end JsonParserSIMD

namespace JsonParserSIMD

/-- A read of the vector that has found an element finds it in the buffer. -/
theorem getElem?_append_stale {Q : List Nat} {i v : Nat} (stale : List Nat)
    (h : Q[i]? = some v) : (Q ++ stale)[i]? = some v := by
  have hlt : i < Q.length := by
    by_contra hge
    rw [List.getElem?_eq_none (by omega)] at h
    cases h
  rw [List.getElem?_append_left hlt]
  exact h

theorem valueSlice_append {json : Str} {Q : List Nat} {i d : Nat} {x : Str}
    (stale : List Nat) (h : valueSlice json Q i d = some x) :
    valueSlice json (Q ++ stale) i d = some x := by
  unfold valueSlice at h ⊢
  cases h1 : Q[i]? with
  | none => rw [h1] at h; cases h
  | some a =>
    cases h2 : Q[(i + d) % UInt32Size]? with
    | none => rw [h1, h2] at h; cases h
    | some b =>
      rw [h1, h2] at h
      rw [getElem?_append_stale stale h1, getElem?_append_stale stale h2]
      exact h

/-- An iteration whose reads stay below the size of the vector does not see the cells
after the elements. -/
theorem walkStep_append {json : Str} {Q : List Nat} {w w1 : WalkState} (stale : List Nat)
    (h : walkStep json Q w = some w1) : walkStep json (Q ++ stale) w = some w1 := by
  simp only [walkStep, jsonQuotes] at h ⊢
  generalize (if (decide (w.i % 18 ≥ 2) && decide (w.i % 18 ≤ 6)) = true then 4 else 2) = d
    at h ⊢
  cases h1 : Q[w.i]? with
  | none => simp only [h1] at h; cases h
  | some a =>
    simp only [h1, getElem?_append_stale stale h1] at h ⊢
    cases hv : valueSlice json Q w.i d with
    | none =>
      simp only [hv] at h
      split_ifs at h ⊢ <;> first | contradiction | exact h
    | some x =>
      simp only [hv, valueSlice_append stale hv] at h ⊢
      exact h

theorem walkLoop_step {json : Str} {Q : List Nat} {w w1 : WalkState} (stale : List Nat)
    (fuel : Nat) (hlt : w.i < Q.length) (hs : walkStep json Q w = some w1) :
    walkLoop json Q stale (fuel + 1) w = walkLoop json Q stale fuel w1 := by
  simp only [walkLoop, hlt, if_true, walkStep_append stale hs]

theorem walk_object {json : Str} {Q : List Nat} (hlen : json.length < UInt32Size)
    (hQ : Q.length < UInt32Size) {g : Nat → Str} {o : ObjectText} {rest : Str}
    {w : WalkState} {P : Nat} (stale : List Nat) (hg : ∀ k, g k = [])
    (h : At json Q w.i P (renderObject g o rest))
    (hi : w.i % 18 = 0) (he : w.expectedKeyIndex % 7 = 0) (ho : o.WellFormed) (fuel : Nat) :
    ∃ w7 P7, walkLoop json Q stale (fuel + 7) w = walkLoop json Q stale fuel w7 ∧
      At json Q w7.i P7 rest ∧ w7.i = w.i + 18 ∧ w7.expectedKeyIndex = 7 ∧
      emitted w7 = emitted w ++ [o.quotedRecord] := by
  obtain ⟨ha, hp, hq, hf, hl, hT⟩ := ho
  simp only [renderObject, renderField, hg, stringText, List.nil_append, List.cons_append,
    List.append_assoc, List.singleton_append] at h
  have h0 := at_other h (show Char.ofNat 123 ≠ quoteChar by decide)
  obtain ⟨w1, P1, s1, l1, a1, i1, e1, r1, b1, rs1⟩ := walk_a hlen hQ h0 hi he ha
  obtain ⟨w2, P2, s2, l2, a2, i2, e2, r2, b2, rs2⟩ := walk_p hlen hQ a1 (by omega)
    (by rw [e1]) hp
  obtain ⟨w3, P3, s3, l3, a3, i3, e3, r3, b3, rs3⟩ := walk_q hlen hQ a2 (by omega)
    (by rw [e2]) hq
  obtain ⟨w4, P4, s4, l4, a4, i4, e4, r4, b4, rs4⟩ := walk_f hlen hQ a3 (by omega)
    (by rw [e3]) hf
  obtain ⟨w5, P5, s5, l5, a5, i5, e5, r5, b5, rs5⟩ := walk_l hlen hQ a4 (by omega)
    (by rw [e4]) hl
  obtain ⟨w6, P6, s6, l6, a6, i6, e6, r6, b6, rs6⟩ := walk_T hlen hQ a5 (by omega)
    (by rw [e5]) hT
  obtain ⟨w7, P7, s7, l7, a7, i7, e7, r7, b7, rs7⟩ := walk_m hlen hQ a6 (by omega)
    (by rw [e6])
  refine ⟨w7, P7, ?_, a7, by omega, e7, ?_⟩
  · rw [show fuel + 7 = fuel + 6 + 1 from rfl, walkLoop_step stale _ l1 s1,
      show fuel + 6 = fuel + 5 + 1 from rfl, walkLoop_step stale _ l2 s2,
      show fuel + 5 = fuel + 4 + 1 from rfl, walkLoop_step stale _ l3 s3,
      show fuel + 4 = fuel + 3 + 1 from rfl, walkLoop_step stale _ l4 s4,
      show fuel + 3 = fuel + 2 + 1 from rfl, walkLoop_step stale _ l5 s5,
      show fuel + 2 = fuel + 1 + 1 from rfl, walkLoop_step stale _ l6 s6,
      walkLoop_step stale _ l7 s7]
  · simp only [emitted, b7, b6, b5, b4, b3, b2, b1, if_true, rs7, rs6, rs5, rs4, rs3, rs2, rs1,
      r7, r6, r5, r4, r3, r2, r1]
    rfl

theorem walkLoop_objects (json : Str) (Q stale : List Nat) (hlen : json.length < UInt32Size)
    (hQ : Q.length < UInt32Size) (rest : Str) (hrest : quoteChar ∉ rest) :
    ∀ (os : List ObjectText) (g g1 : Nat → Str) (o : ObjectText) (w : WalkState)
      (P fuel : Nat), (∀ k, g k = []) → (∀ k, g1 k = []) →
      At json Q w.i P (renderObject g o (renderMore g1 os rest)) →
      w.i % 18 = 0 → w.expectedKeyIndex % 7 = 0 →
      o.WellFormed → (∀ o1 ∈ os, o1.WellFormed) → 7 * (os.length + 1) < fuel →
      ∃ w1, walkLoop json Q stale fuel w = some w1 ∧
        emitted w1 = emitted w ++ (o :: os).map ObjectText.quotedRecord ∧
        Q.length = w.i + 18 * (os.length + 1) := by
  intro os
  induction os with
  | nil =>
    intro g g1 o w P fuel hg _ h hi he ho _ hf
    obtain ⟨fuel, rfl⟩ : ∃ k, fuel = k + 1 + 7 := ⟨fuel - 8, by simp at hf; omega⟩
    obtain ⟨w7, P7, hw, a7, i7, e7, em7⟩ := walk_object hlen hQ stale hg h hi he ho (fuel + 1)
    simp only [renderMore] at a7
    have hend := at_end a7 (by
      intro hm
      rcases List.mem_cons.1 hm with hm | hm
      · revert hm; decide
      · exact hrest hm)
    refine ⟨w7, ?_, by simpa using em7, by simp only [List.length_nil]; omega⟩
    rw [hw]
    simp only [walkLoop, hend, Nat.lt_irrefl, if_false]
  | cons o1 os ih =>
    intro g g1 o w P fuel hg hg1 h hi he ho hos hf
    obtain ⟨fuel, rfl⟩ : ∃ k, fuel = k + 7 := ⟨fuel - 7, by simp at hf; omega⟩
    obtain ⟨w7, P7, hw, a7, i7, e7, em7⟩ := walk_object hlen hQ stale hg h hi he ho fuel
    simp only [renderMore, hg1, List.nil_append] at a7
    have a8 := at_other a7 (show Char.ofNat 44 ≠ quoteChar by decide)
    obtain ⟨w1, hw1, em1, hlen1⟩ := ih g1 (fun _ => []) o1 w7 (P7 + 1) fuel hg1
      (fun _ => rfl) a8 (by omega) (by rw [e7]) (hos o1 (List.mem_cons_self _ _))
      (fun o2 h2 => hos o2 (List.mem_cons_of_mem _ h2))
      (by simp only [List.length_cons] at hf; omega)
    refine ⟨w1, by rw [hw, hw1], ?_, by simp only [List.length_cons]; omega⟩
    rw [em1, em7]
    simp

/-- On the whitespace-free input that holds the well-formed objects `os`, shorter than
`2 ^ 32 - 32` bytes, `JsonParserSIMD::parseRecords` returns one record for each object, in
order, `p` and `q` with their quotes, and leaves a quote index of `18` entries for each
object. -/
theorem parseRecords_compact (self : JsonParserSIMD) (os : List ObjectText)
    (hos : ∀ o ∈ os, o.WellFormed) (hlen : (compactText os).length + 32 < UInt32Size) :
    self.parseRecords (compactText os) =
      some (os.map ObjectText.quotedRecord,
        { indexesOfQuotesOnJsonString := quoteOffsets (compactText os),
          stale := (self.indexesOfQuotesOnJsonString ++ self.stale).drop
            (quoteOffsets (compactText os)).length,
          capacity := max self.capacity (quoteOffsets (compactText os)).length }) ∧
    (quoteOffsets (compactText os)).length = 18 * os.length := by
  have hfq := find_quotes_avx2_spec [] (compactText os) hlen
  rw [List.nil_append] at hfq
  have hlen1 : (compactText os).length < UInt32Size := by omega
  have hQ : (quoteOffsets (compactText os)).length < UInt32Size :=
    Nat.lt_of_le_of_lt (quoteOffsets_length_le _) hlen1
  have hat : At (compactText os) (quoteOffsets (compactText os)) 0 0 (compactText os) :=
    ⟨cursor_zero _, List.drop_zero _⟩
  cases os with
  | nil =>
    refine ⟨?_, by decide⟩
    have hq : quoteOffsets (compactText []) = [] := by decide
    simp only [parseRecords, clear, hfq, hq]
    rfl
  | cons o os =>
    have hat1 : At (compactText (o :: os)) (quoteOffsets (compactText (o :: os))) 0 1
        (renderObject noGap o (renderMore noGap os [])) :=
      at_other hat (show Char.ofNat 91 ≠ quoteChar by decide)
    obtain ⟨w1, hw1, em1, hlen2⟩ := walkLoop_objects (compactText (o :: os))
      (quoteOffsets (compactText (o :: os)))
      ((self.indexesOfQuotesOnJsonString ++ self.stale).drop
        (quoteOffsets (compactText (o :: os))).length)
      hlen1 hQ [] (by simp) os noGap noGap o
      { i := 0, expectedKeyIndex := 0, record := Record.zero, recordStarted := false,
        records := [] } 1 (7 * UInt32Size) (fun _ => rfl) (fun _ => rfl) hat1 rfl rfl
      (hos o (List.mem_cons_self _ _)) (fun o2 h2 => hos o2 (List.mem_cons_of_mem _ h2))
      (by
        have h1 := JsonParser.length_le_renderMore [] os (fun k => noGap (k + 31))
        have h2 : (renderMore (fun k => noGap (k + 31)) os []).length <
            (compactText (o :: os)).length := by
          simp only [compactText, renderArray, renderObject, renderField, List.length_cons,
            List.length_append]
          omega
        omega)
    refine ⟨?_, by simpa using hlen2⟩
    have hem : emitted w1 = (o :: os).map ObjectText.quotedRecord := by rw [em1]; rfl
    unfold emitted at hem
    simp only [parseRecords, clear, hfq, hw1, hem]

end JsonParserSIMD

/-! ### The record count of the SIMD decoder -/

namespace JsonParserSIMD

theorem parseRecords_block_wrap (self : JsonParserSIMD) (s : Str)
    (hn : s.length + 32 = UInt32Size) : self.parseRecords s = none := by
  simp only [parseRecords, clear, find_quotes_avx2_wrap [] s hn]

end JsonParserSIMD

theorem compactText_single_length (n : Nat) (c : Char) :
    (compactText [ObjectText.ofRecord
      { a := 0, p := List.replicate n c, q := [], f := 0, l := 0, T := 0, m := true }]).length =
      n + 50 := by
  have h0 : (IntText.ofInt 0).text = [Char.ofNat 48] := by decide
  simp only [compactText, renderArray, renderObject, renderField, renderMore, noGap,
    ObjectText.ofRecord, stringText, h0, boolText, if_true, List.length_cons,
    List.length_append, List.length_replicate, List.length_nil, String.toList]
  omega

/-- C18 (amended): for every whitespace-free input that holds `r >= 0` well-formed objects
of the fixed schema (integers of magnitude at most `2 ^ 63 - 1`, strings without `"`) and
is shorter than `2 ^ 32 - 32` bytes, `JsonParserSIMD::parseRecords` returns exactly `r`
records, one for each object in order, and the quote index has length `18 * r`. -/
theorem C18_simd_record_count (self : JsonParserSIMD) (os : List ObjectText)
    (hos : ∀ o ∈ os, o.WellFormed) (hlen : (compactText os).length < 2 ^ 32 - 32) :
    ∃ records parser, self.parseRecords (compactText os) = some (records, parser) ∧
      parser.indexesOfQuotesOnJsonString.length = 18 * os.length ∧
      records.length = os.length ∧ records = os.map ObjectText.quotedRecord := by
  have hU : UInt32Size = 2 ^ 32 := rfl
  obtain ⟨h1, h2⟩ := JsonParserSIMD.parseRecords_compact self os hos (by rw [hU]; omega)
  exact ⟨_, _, h1, h2, by simp, rfl⟩

/-- C18 at the input that holds the record of scenario E6 and the all-zero record. -/
theorem C18_simd_record_count_witness :
    ∃ records parser,
      (JsonParserSIMD.new 10).parseRecords
        (compactText [ObjectText.ofRecord recordE6, ObjectText.ofRecord Record.zero]) =
        some (records, parser) ∧
      parser.indexesOfQuotesOnJsonString.length = 18 * 2 ∧ records.length = 2 ∧
      records = [ObjectText.ofRecord recordE6, ObjectText.ofRecord Record.zero].map
        ObjectText.quotedRecord :=
  C18_simd_record_count (JsonParserSIMD.new 10)
    [ObjectText.ofRecord recordE6, ObjectText.ofRecord Record.zero]
    (by
      intro o ho
      rcases List.mem_cons.1 ho with ho | ho
      · rw [ho]; exact (ofRecord_wellFormed recordE6 (by decide)).1
      · rw [List.mem_singleton] at ho
        rw [ho]; exact (ofRecord_wellFormed Record.zero (by decide)).1)
    (by decide)

/-- C18 (as stated) fails at a well-formed whitespace-free input of exactly `2 ^ 32 - 32`
bytes that holds one object, whose `p` is `2 ^ 32 - 82` bytes `x`: the block loop of
`find_quotes_avx2` wraps its index and reads past the input, so
`JsonParserSIMD::parseRecords` does not return one record. -/
theorem C18_record_count_counterexample :
    (ObjectText.ofRecord
      { a := 0, p := List.replicate (2 ^ 32 - 82) (Char.ofNat 120), q := [], f := 0, l := 0,
        T := 0, m := true }).WellFormed ∧
    (compactText [ObjectText.ofRecord
      { a := 0, p := List.replicate (2 ^ 32 - 82) (Char.ofNat 120), q := [], f := 0, l := 0,
        T := 0, m := true }]).length = 2 ^ 32 - 32 ∧
    (JsonParserSIMD.new 10).parseRecords (compactText [ObjectText.ofRecord
      { a := 0, p := List.replicate (2 ^ 32 - 82) (Char.ofNat 120), q := [], f := 0, l := 0,
        T := 0, m := true }]) = none := by
  refine ⟨?_, ?_, ?_⟩
  · refine (ofRecord_wellFormed _ ⟨?_, by simp, by decide, by decide, by decide, by decide⟩).1
    intro h
    have := List.eq_of_mem_replicate h
    revert this; decide
  · rw [compactText_single_length]
    rfl
  · apply JsonParserSIMD.parseRecords_block_wrap
    rw [compactText_single_length]
    rfl

/-- On the whitespace-free input whose `a` is written `-9223372036854775808`, the digit
loop of `parseInt64FromString` exceeds the largest `int64_t` before the sign is applied,
which is undefined: the magnitudes of a well-formed input stay at most `2 ^ 63 - 1`. -/
theorem simd_overflow_at_int64_min :
    (JsonParserSIMD.new 10).parseRecords (compactText [ObjectText.ofRecord
      { Record.zero with a := -9223372036854775808 }]) = none := by
  decide

/-! ### The two integer parsers on a decimal text -/

namespace JsonParser

theorem parseInt64_text (x : IntText) (hx : x.WellFormed) (hlen : x.text.length < UInt32Size) :
    parseInt64 x.text 0 = some (x.value, x.text.length) := by
  obtain ⟨neg, digits⟩ := x
  obtain ⟨hne, hds, hmax⟩ := hx
  simp only at hne hds hmax
  obtain ⟨d, ds, rfl⟩ := List.exists_cons_of_ne_nil hne
  have hdig : isdigit d = true := hds d (List.mem_cons_self _ _)
  cases neg with
  | false =>
    simp only [IntText.text, Bool.false_eq_true, if_false] at hlen ⊢
    obtain ⟨index1, h1, h2⟩ := @skipWhitespace_at (d :: ds) hlen d ds [] 0 rfl allSpace_nil
      (isspace_of_isdigit hdig)
    have hidx : index1 = 0 := by
      have := congrArg List.length h2
      simp only [List.length_drop, List.length_cons] at this
      omega
    subst hidx
    have hminus : (d == Char.ofNat 45) = false := by
      rw [beq_eq_false_iff_ne]; rintro rfl; revert hdig; decide
    have hp := parseInt64Loop_end (d :: ds) hlen (d :: ds) UInt32Size 0 0 rfl
      (Nat.zero_le _) hds hmax hlen
    simp only [Nat.cast_zero] at hp
    have h0 : charAt (d :: ds) 0 = d := rfl
    simp [parseInt64_eq, h1, h0, hminus, hdig, hp, IntText.value, digitsValue]
  | true =>
    simp only [IntText.text, if_true] at hlen ⊢
    obtain ⟨index1, h1, h2⟩ := @skipWhitespace_at (Char.ofNat 45 :: d :: ds) hlen
      (Char.ofNat 45) (d :: ds) [] 0 rfl allSpace_nil (by decide)
    have hidx : index1 = 0 := by
      have := congrArg List.length h2
      simp only [List.length_drop, List.length_cons] at this
      omega
    subst hidx
    have hU : UInt32Size = 4294967296 := by decide
    have hp := parseInt64Loop_end (Char.ofNat 45 :: d :: ds) hlen (d :: ds)
      UInt32Size 1 0 rfl (by simp) hds hmax (by simp only [List.length_cons] at hlen ⊢; omega)
    simp only [Nat.cast_zero] at hp
    have h0 : charAt (Char.ofNat 45 :: d :: ds) 0 = Char.ofNat 45 := rfl
    have h1c : charAt (Char.ofNat 45 :: d :: ds) 1 = d := rfl
    have hmod : (0 + 1) % UInt32Size = 1 := by rw [hU]
    simp [parseInt64_eq, h1, h0, h1c, hmod, hdig, hp, IntText.value, digitsValue]

theorem charAt_replicate (n : Nat) (c : Char) (i : Nat) (h : i < n) :
    charAt (List.replicate n c) i = c := by
  simp [charAt, List.getD, h]

theorem parseInt64Loop_zeros (n : Nat) (hn : UInt32Size ≤ n) :
    ∀ fuel index, index < UInt32Size →
      parseInt64Loop (List.replicate n (Char.ofNat 48)) fuel index 0 = none := by
  intro fuel
  induction fuel with
  | zero => intro index _; rfl
  | succ fuel ih =>
    intro index hi
    have hlt : index < (List.replicate n (Char.ofNat 48)).length := by
      rw [List.length_replicate]; omega
    have hch := charAt_replicate n (Char.ofNat 48) index (by omega)
    have hpush : pushDigit 0 (Char.ofNat 48) = some 0 := by decide
    have hdig : isdigit (Char.ofNat 48) = true := by decide
    simp only [parseInt64Loop_zero, parseInt64Loop_succ, hlt, hch, hdig, decide_True, Bool.and_self, if_true, hpush]
    exact ih _ (Nat.mod_lt _ (by decide))

theorem skipWhitespace_stay (s : Str) (index : Nat) (h : isspace (charAt s index) = false) :
    skipWhitespace s index = some index := by
  have hU : UInt32Size = 4294967295 + 1 := by decide
  simp [skipWhitespace, hU, skipWhitespaceLoop_zero, skipWhitespaceLoop_succ, h]

theorem parseInt64_zeros (n : Nat) (hn : UInt32Size ≤ n) :
    parseInt64 (List.replicate n (Char.ofNat 48)) 0 = none := by
  have hU : UInt32Size = 4294967296 := by decide
  have hch := charAt_replicate n (Char.ofNat 48) 0 (by omega)
  have h1 := skipWhitespace_stay (List.replicate n (Char.ofNat 48)) 0 (by rw [hch]; decide)
  have hlt : ¬ (0 ≥ (List.replicate n (Char.ofNat 48)).length) := by
    rw [List.length_replicate]; omega
  have hminus : (Char.ofNat 48 == Char.ofNat 45) = false := by decide
  have hdig : isdigit (Char.ofNat 48) = true := by decide
  have hloop := parseInt64Loop_zeros n hn UInt32Size 0 (by decide)
  have hn0 : n ≠ 0 := by omega
  simp [parseInt64_eq, h1, hch, hminus, hdig, hloop, hn0]

end JsonParser

theorem digitsValue_zeros (n : Nat) : digitsValue (List.replicate n (Char.ofNat 48)) = 0 := by
  unfold digitsValue
  induction n with
  | zero => rfl
  | succ n ih => rw [List.replicate_succ, List.foldl_cons]; exact ih

theorem parseInt64FromString_zeros (n : Nat) (hn : UInt32Size ≤ n) :
    JsonParserSIMD.parseInt64FromString (List.replicate n (Char.ofNat 48)) = none := by
  have hU : UInt32Size = 4294967296 := by decide
  have hch := JsonParser.charAt_replicate n (Char.ofNat 48) 0 (by omega)
  have hminus : (Char.ofNat 48 == Char.ofNat 45) = false := by decide
  have hloop := JsonParser.parseInt64Loop_zeros n hn UInt32Size 0 (by decide)
  have hne : (List.replicate n (Char.ofNat 48)).isEmpty = false := by
    cases n with
    | zero => omega
    | succ n => rfl
  simp [JsonParserSIMD.parseInt64FromString, hne, hch, hminus,
    JsonParserSIMD.parseDigitsLoop_eq, hloop]

/-- C21 (amended): for every integer `n` with `-(2^63-1) <= n <= 2^63-1` and every decimal
text of `n` (optional leading `-`, then one or more digits, leading zeros allowed) that is
shorter than `2 ^ 32` bytes, `parseInt64FromString` returns `n` without overflow, and
`JsonParser::parseInt64` started at index 0 of the text returns `n` and leaves the index
at the end of the text. -/
theorem C21_decimal_text (n : Int) (x : IntText) (hn : -Int64Max ≤ n ∧ n ≤ Int64Max)
    (hne : x.digits ≠ []) (hds : ∀ c ∈ x.digits, isdigit c = true) (hval : x.value = n)
    (hlen : x.text.length < 2 ^ 32) :
    JsonParserSIMD.parseInt64FromString x.text = some n ∧
    JsonParser.parseInt64 x.text 0 = some (n, x.text.length) := by
  have hx : x.WellFormed := by
    refine ⟨hne, hds, ?_⟩
    have h1 := hn.1
    have h2 := hn.2
    rw [← hval] at h1 h2
    unfold IntText.value at h1 h2
    cases hneg : x.negative <;> simp only [hneg, if_true, if_false, Bool.false_eq_true] at h1 h2 <;>
      omega
  rw [← hval]
  exact ⟨JsonParserSIMD.parseInt64FromString_text x hx hlen, JsonParser.parseInt64_text x hx hlen⟩

/-- C21 at the text `-0042` of `-42`. -/
theorem C21_decimal_text_witness :
    JsonParserSIMD.parseInt64FromString "-0042".toList = some (-42) ∧
    JsonParser.parseInt64 "-0042".toList 0 = some (-42, 5) :=
  C21_decimal_text (-42) { negative := true, digits := "0042".toList } (by decide) (by decide)
    (by decide) (by decide) (by decide)

/-- C21 (as stated) fails at the text of `0` that is `2 ^ 32` digits `0`: every value of
the `uint32_t` index holds a digit, so neither digit loop is ever left. -/
theorem C21_decimal_text_counterexample :
    (∀ c ∈ List.replicate (2 ^ 32) (Char.ofNat 48), isdigit c = true) ∧
    digitsValue (List.replicate (2 ^ 32) (Char.ofNat 48)) = 0 ∧
    JsonParser.parseInt64 (List.replicate (2 ^ 32) (Char.ofNat 48)) 0 = none ∧
    JsonParserSIMD.parseInt64FromString (List.replicate (2 ^ 32) (Char.ofNat 48)) = none := by
  refine ⟨?_, digitsValue_zeros _, JsonParser.parseInt64_zeros _ (by decide),
    parseInt64FromString_zeros _ (by decide)⟩
  intro c hc
  rw [List.eq_of_mem_replicate hc]; decide

/-! ### The reference parser on input that stops being an array -/

namespace JsonParser

theorem skipWhitespaceLoop_end (json : Str) (hlen : json.length < UInt32Size) :
    ∀ (ws : Str) (fuel index : Nat), json.drop index = ws → AllSpace ws → ws.length < fuel →
      ∃ index1, skipWhitespaceLoop json fuel index = some index1 ∧ json.drop index1 = [] := by
  intro ws
  induction ws with
  | nil =>
    intro fuel index hd _ hf
    obtain ⟨fuel, rfl⟩ : ∃ k, fuel = k + 1 := ⟨fuel - 1, by simp at hf; omega⟩
    have hl := congrArg List.length hd
    simp only [List.length_drop, List.length_nil] at hl
    have hge : ¬ index < json.length := by omega
    exact ⟨index, by simp [skipWhitespaceLoop_zero, skipWhitespaceLoop_succ, hge], hd⟩
  | cons w ws ih =>
    intro fuel index hd hws hf
    obtain ⟨hlt, hch, hnext⟩ := drop_cons hd
    obtain ⟨fuel, rfl⟩ : ∃ k, fuel = k + 1 := ⟨fuel - 1, by simp at hf; omega⟩
    have hw : isspace w = true := hws w (List.mem_cons_self _ _)
    have hmod : (index + 1) % UInt32Size = index + 1 := Nat.mod_eq_of_lt (by omega)
    obtain ⟨index1, h1, h2⟩ := ih fuel (index + 1) hnext
      (fun d hd => hws d (List.mem_cons_of_mem _ hd)) (by simp at hf; omega)
    exact ⟨index1, by simp [skipWhitespaceLoop_zero, skipWhitespaceLoop_succ, hlt, hch, hw, hmod, h1], h2⟩

/-- `skipWhitespace` over a gap that is followed by the end of the input or by a byte that
is not whitespace. -/
theorem skipWhitespace_to {json : Str} (hlen : json.length < UInt32Size) {ws tail : Str}
    {index : Nat} (hd : json.drop index = ws ++ tail) (hws : AllSpace ws)
    (htail : ∀ c ∈ tail.head?, isspace c = false) :
    ∃ index1, skipWhitespace json index = some index1 ∧ json.drop index1 = tail := by
  cases tail with
  | nil =>
    rw [List.append_nil] at hd
    have := drop_length hd
    exact skipWhitespaceLoop_end json hlen ws UInt32Size index hd hws (by omega)
  | cons c rest => exact skipWhitespace_at hlen hd hws (htail c rfl)

theorem drop_head {json : Str} {index : Nat} {tail : Str} (hd : json.drop index = tail)
    (c : Char) (hc : ∀ d ∈ tail.head?, d ≠ c) :
    (decide (index < json.length) && charAt json index == c) = false := by
  cases tail with
  | nil =>
    have hl := congrArg List.length hd
    simp only [List.length_drop, List.length_nil] at hl
    have hge : ¬ index < json.length := by omega
    simp [hge]
  | cons d rest =>
    obtain ⟨hlt, hch, -⟩ := drop_cons hd
    have := hc d rfl
    simp [hlt, hch, this]

theorem expectChar_miss {json : Str} (hlen : json.length < UInt32Size) {ws tail : Str}
    {index : Nat} (c : Char) (hd : json.drop index = ws ++ tail) (hws : AllSpace ws)
    (htail : ∀ d ∈ tail.head?, isspace d = false ∧ d ≠ c) :
    ∃ index1, expectChar json index c = some (false, index1) ∧ json.drop index1 = tail := by
  obtain ⟨index1, h1, h2⟩ := skipWhitespace_to hlen hd hws (fun d hd => (htail d hd).1)
  refine ⟨index1, ?_, h2⟩
  have hh := drop_head h2 c (fun d hd => (htail d hd).2)
  have hcond : (decide (index1 ≥ json.length) || charAt json index1 != c) = true := by
    by_cases hlt : index1 < json.length
    · simp only [hlt, decide_True, Bool.true_and] at hh
      simp [bne, hh]
    · simp [Nat.not_lt.1 hlt]
  simp only [expectChar_eq, h1, hcond, if_true]

theorem parseRecordsLoop_to (json : Str) (hlen : json.length < UInt32Size) (tail : Str)
    (htail : ∀ c ∈ tail.head?, isspace c = false ∧ c ≠ Char.ofNat 44) :
    ∀ (os : List ObjectText) (g g1 : Nat → Str) (w : Str) (o : ObjectText)
      (fuel index : Nat) (records : List Record),
      json.drop index = renderObject g o (w ++ renderMoreTo g1 os tail) →
      (∀ k, AllSpace (g k)) → (∀ k, AllSpace (g1 k)) → AllSpace w →
      o.WellFormed → (∀ o1 ∈ os, o1.WellFormed) → os.length < fuel →
      parseRecordsLoop json fuel index records =
        some (records ++ (o :: os).map ObjectText.record) := by
  intro os
  induction os with
  | nil =>
    intro g g1 w o fuel index records hd hg _ hw ho _ hf
    obtain ⟨fuel, rfl⟩ : ∃ k, fuel = k + 1 := ⟨fuel - 1, by simp at hf; omega⟩
    obtain ⟨i1, e1, d1⟩ := parseRecord_at hlen hd hg ho
    simp only [renderMoreTo] at d1
    obtain ⟨i2, e2, d2⟩ := skipWhitespace_to hlen d1 hw (fun c hc => (htail c hc).1)
    have hh := drop_head d2 (Char.ofNat 44) (fun c hc => (htail c hc).2)
    simp [parseRecordsLoop_zero, parseRecordsLoop_succ, e1, e2, hh]
  | cons o1 os ih =>
    intro g g1 w o fuel index records hd hg hg1 hw ho hos hf
    obtain ⟨fuel, rfl⟩ : ∃ k, fuel = k + 1 := ⟨fuel - 1, by simp at hf; omega⟩
    obtain ⟨i1, e1, d1⟩ := parseRecord_at hlen hd hg ho
    simp only [renderMoreTo] at d1
    obtain ⟨i2, e2, d2⟩ := skipWhitespace_at hlen d1 hw (by decide)
    obtain ⟨hlt, hch, hnext⟩ := drop_cons d2
    have hmod : (i2 + 1) % UInt32Size = i2 + 1 := Nat.mod_eq_of_lt (by omega)
    have hrec := ih g1 (fun k => g1 (k + 30)) (g1 29) o1 fuel (i2 + 1)
      (records ++ [o.record]) hnext hg1 (fun k => hg1 _) (hg1 29)
      (hos o1 (List.mem_cons_self _ _)) (fun o2 h2 => hos o2 (List.mem_cons_of_mem _ h2))
      (by simp at hf; omega)
    simp [parseRecordsLoop_zero, parseRecordsLoop_succ, e1, e2, hlt, hch, hmod, hrec]

theorem length_le_renderMoreTo (tail : Str) :
    ∀ (os : List ObjectText) (g : Nat → Str), os.length ≤ (renderMoreTo g os tail).length := by
  intro os
  induction os with
  | nil => intro g; simp [renderMoreTo]
  | cons o os ih =>
    intro g
    have := ih (fun k => g (k + 30))
    simp only [renderMoreTo, renderObject, renderField, List.length_cons, List.length_append]
    omega

end JsonParser

namespace JsonParser

theorem parseRecord_miss {json : Str} (hlen : json.length < UInt32Size) {tail : Str}
    {index : Nat} (hd : json.drop index = tail)
    (htail : ∀ c ∈ tail.head?, isspace c = false ∧ c ≠ Char.ofNat 123) :
    ∃ index1, parseRecord json index = some (Record.zero, index1) ∧
      json.drop index1 = tail := by
  obtain ⟨i1, e1, d1⟩ := @skipWhitespace_to json hlen [] tail index hd allSpace_nil
    (fun c hc => (htail c hc).1)
  obtain ⟨i2, e2, d2⟩ := @expectChar_miss json hlen [] tail i1 (Char.ofNat 123) d1
    allSpace_nil htail
  exact ⟨i2, by simp [parseRecord_eq, e1, e2], d2⟩

/-- The reference parser on an array that is cut short after `os`: the records of `os`,
or one value-initialised record when there is no object at all. -/
theorem parseRecords_prefix {json : Str} (hlen : json.length < UInt32Size) (g : Nat → Str)
    (os : List ObjectText) (tail : Str) (hjson : json = renderPrefix g os tail)
    (hg : ∀ k, AllSpace (g k)) (hos : ∀ o ∈ os, o.WellFormed)
    (htail : ∀ c ∈ tail.head?, isspace c = false ∧ c ≠ Char.ofNat 44)
    (hstart : os = [] → ∀ c ∈ tail.head?, c ≠ Char.ofNat 123 ∧ c ≠ Char.ofNat 93) :
    parseRecords json =
      some (if os = [] then [Record.zero] else os.map ObjectText.record) := by
  have hU : UInt32Size = 4294967295 + 1 := by decide
  have hd : json.drop 0 = renderPrefix g os tail := by rw [List.drop_zero, hjson]
  unfold renderPrefix at hd
  obtain ⟨i1, e1, d1⟩ := skipWhitespace_at hlen hd (hg 0) (by decide)
  obtain ⟨i2, e2, d2⟩ := @expectChar_at json hlen _ _ [] i1 d1 allSpace_nil (by decide)
  cases os with
  | nil =>
    simp only at d2
    have hs := hstart rfl
    obtain ⟨i3, e3, d3⟩ := skipWhitespace_to hlen d2 (hg 1) (fun c hc => (htail c hc).1)
    have h93 := drop_head d3 (Char.ofNat 93) (fun c hc => (hs c hc).2)
    obtain ⟨i4, e4, d4⟩ := parseRecord_miss hlen d3 (fun c hc => ⟨(htail c hc).1, (hs c hc).1⟩)
    obtain ⟨i5, e5, d5⟩ := @skipWhitespace_to json hlen [] tail i4 d4 allSpace_nil
      (fun c hc => (htail c hc).1)
    have h44 := drop_head d5 (Char.ofNat 44) (fun c hc => (htail c hc).2)
    simp only [parseRecords_eq, e1, e2, e3, h93]
    rw [hU]
    simp [parseRecordsLoop_zero, parseRecordsLoop_succ, e4, e5, h44]
  | cons o os =>
    simp only at d2
    have d2a := d2
    unfold renderObject at d2a
    obtain ⟨i3, e3, d3⟩ := skipWhitespace_at hlen d2a (hg 1) (by decide)
    obtain ⟨hlt, hch, _⟩ := drop_cons d3
    have d3a : json.drop i3 = renderObject (Function.update (fun k => g (k + 1)) 0 []) o
        (g 30 ++ renderMoreTo (fun k => g (k + 31)) os tail) := by
      rw [d3]; simp [renderObject, Function.update]
    have hg2 : ∀ k, AllSpace (Function.update (fun k => g (k + 1)) 0 [] k) := by
      intro k
      by_cases hk : k = 0
      · subst hk; simpa using allSpace_nil
      · simpa [Function.update, hk] using hg (k + 1)
    have hl := drop_length d3
    have hlo : os.length < UInt32Size := by
      have := length_le_renderMoreTo tail os (fun k => g (k + 31))
      simp only [renderField, List.length_cons, List.length_append] at hl
      omega
    have hrec := parseRecordsLoop_to json hlen tail htail os _ _ _ o UInt32Size i3 [] d3a hg2
      (fun k => hg _) (hg 30) (hos o (List.mem_cons_self _ _))
      (fun o2 h2 => hos o2 (List.mem_cons_of_mem _ h2)) hlo
    have : (Char.ofNat 123 == Char.ofNat 93) = false := by decide
    simp [parseRecords_eq, e1, e2, e3, hlt, hch, this, hrec]

end JsonParser

/-- The half of C23 that holds: on an input shorter than `2 ^ 32` bytes that is `[`
followed by `r >= 1` complete well-formed objects joined by `,` and then stops being an
array (the input ends, or goes on with a byte that is neither whitespace nor `,`),
`JsonParser::parseRecords` returns exactly the `r` records of these objects. With no
object at all, and bytes after `[` that start neither an object nor `]`, it returns one
value-initialised record. -/
theorem parseRecords_complete_objects (g : Nat → Str) (os : List ObjectText) (tail : Str)
    (hos : ∀ o ∈ os, o.WellFormed) (hg : ∀ k, AllSpace (g k))
    (htail : ∀ c ∈ tail.head?, isspace c = false ∧ c ≠ Char.ofNat 44)
    (hstart : os = [] → ∀ c ∈ tail.head?, c ≠ Char.ofNat 123 ∧ c ≠ Char.ofNat 93)
    (hlen : (renderPrefix g os tail).length < 2 ^ 32) :
    JsonParser.parseRecords (renderPrefix g os tail) =
      some (if os = [] then [Record.zero] else os.map ObjectText.record) :=
  JsonParser.parseRecords_prefix hlen g os tail rfl hg hos htail hstart

/-- The input of scenario E6 cut after its object: the closing bracket is missing and the
one complete record is returned. -/
theorem parseRecords_complete_objects_E6 :
    JsonParser.parseRecords (renderPrefix noGap [ObjectText.ofRecord recordE6] []) =
      some (if [ObjectText.ofRecord recordE6] = [] then [Record.zero]
        else [ObjectText.ofRecord recordE6].map ObjectText.record) :=
  parseRecords_complete_objects noGap [ObjectText.ofRecord recordE6] []
    (by
      intro o ho
      rw [List.mem_singleton] at ho
      rw [ho]; exact (ofRecord_wellFormed recordE6 (by decide)).1)
    allSpace_noGap (by intro c hc; cases hc) (by intro h; cases h) (by decide)

/-- C23 fails on the code: `parseRecord` returns a record whether or not it has read an
object, and the array loop pushes it before it looks at what follows. On `[x` the bytes
after `[` do not start an object, and the result is not empty: it holds one
value-initialised record. On `[{"a":7,"p":"x"` the object stops after its second field,
and the result holds the record with these two fields and five value-initialised ones.
On `[{"a":7},{"a":8}]` neither object has its seven fields, and two records are
returned. -/
theorem C23_pushes_unassembled_records :
    JsonParser.parseRecords inputNoObject = some [Record.zero] ∧
    JsonParser.parseRecords inputNoObject ≠ some [] ∧
    JsonParser.parseRecords inputCutObject =
      some [{ a := 7, p := ['x'], q := [], f := 0, l := 0, T := 0, m := false }] ∧
    JsonParser.parseRecords inputShortObjects =
      some [{ a := 7, p := [], q := [], f := 0, l := 0, T := 0, m := false },
            { a := 8, p := [], q := [], f := 0, l := 0, T := 0, m := false }] := by
  decide

/-! ### The size of the quote index and the cursor of the schema walk -/

namespace JsonParserSIMD

theorem maskLoop_length (i : Nat) :
    ∀ (fuel mask : Nat) (indexes r : List Nat), maskLoop i fuel mask indexes = some r →
      r.length ≤ indexes.length + fuel := by
  intro fuel
  induction fuel with
  | zero =>
    intro mask indexes r h
    simp only [maskLoop] at h
    split at h
    · simp only [Option.some.injEq] at h; rw [← h]; omega
    · cases h
  | succ fuel ih =>
    intro mask indexes r h
    simp only [maskLoop] at h
    split at h
    · have := ih _ _ _ h
      simp only [List.length_append, List.length_singleton] at this
      omega
    · simp only [Option.some.injEq] at h; rw [← h]; omega

theorem blockLoop_high (s : Str) (n : Nat) (hn : n < UInt32Size) (hhigh : UInt32Size ≤ n + 32) :
    ∀ (fuel i : Nat) (indexes : List Nat), i % 32 = 0 → i < UInt32Size →
      blockLoop s n fuel i indexes = none := by
  have hU : UInt32Size = 4294967296 := by decide
  intro fuel
  induction fuel with
  | zero => intro i indexes _ _; rfl
  | succ f ih =>
    intro i indexes hdiv hi
    have hguard : (i + 32) % UInt32Size ≤ n := by rw [hU] at hi hn hhigh ⊢; omega
    rw [blockLoop, if_pos hguard]
    cases mm256_loadu_si256 s i with
    | none => rfl
    | some chunk =>
      simp only []
      cases maskLoop i 32 (mm256_movemask_epi8 (mm256_cmpeq_epi8 chunk
          (mm256_set1_epi8 quoteChar))) indexes with
      | none => rfl
      | some indexes1 =>
        simp only []
        exact ih _ indexes1 (by rw [hU]; omega) (Nat.mod_lt _ (by decide))

theorem blockLoop_length (s : Str) (n : Nat) (hn : n + 32 < UInt32Size) :
    ∀ (fuel i : Nat) (indexes : List Nat) (i1 : Nat) (r : List Nat), i ≤ n →
      blockLoop s n fuel i indexes = some (i1, r) →
      r.length + i ≤ indexes.length + i1 ∧ i1 ≤ n := by
  intro fuel
  induction fuel with
  | zero => intro i indexes i1 r _ h; simp [blockLoop] at h
  | succ f ih =>
    intro i indexes i1 r hi h
    have hmod : (i + 32) % UInt32Size = i + 32 := Nat.mod_eq_of_lt (by omega)
    rw [blockLoop, hmod] at h
    split at h
    · rename_i hguard
      cases hl : mm256_loadu_si256 s i with
      | none => rw [hl] at h; cases h
      | some chunk =>
        rw [hl] at h
        simp only [] at h
        cases hm : maskLoop i 32 (mm256_movemask_epi8 (mm256_cmpeq_epi8 chunk
            (mm256_set1_epi8 quoteChar))) indexes with
        | none => rw [hm] at h; cases h
        | some indexes1 =>
          rw [hm] at h
          simp only [] at h
          have h1 := maskLoop_length i _ _ _ _ hm
          have h2 := ih _ _ _ _ hguard h
          omega
    · simp only [Option.some.injEq, Prod.mk.injEq] at h
      rw [← h.1, ← h.2]; omega

theorem tailLoop_length (s : Str) (n : Nat) (hn : n < UInt32Size) :
    ∀ (fuel i : Nat) (indexes r : List Nat), tailLoop s n fuel i indexes = some r →
      i ≤ n → r.length + i ≤ indexes.length + n := by
  intro fuel
  induction fuel with
  | zero => intro i indexes r h; simp [tailLoop] at h
  | succ f ih =>
    intro i indexes r h hi
    rw [tailLoop] at h
    split at h
    · rename_i hlt
      have hmod : (i + 1) % UInt32Size = i + 1 := Nat.mod_eq_of_lt (by omega)
      split at h
      · rw [hmod] at h
        have := ih _ _ _ h (by omega)
        split at this
        · simp only [List.length_append, List.length_singleton] at this; omega
        · omega
      · cases h
    · simp only [Option.some.injEq] at h; rw [← h]; omega

/-- Whenever `find_quotes_avx2` returns, the index vector has grown by fewer than
`2 ^ 32 - 32` entries. -/
theorem find_quotes_avx2_length (indexes : List Nat) (s : Str) (r : List Nat)
    (h : find_quotes_avx2 indexes s = some r) :
    r.length + 32 < indexes.length + UInt32Size := by
  have hn : s.length % UInt32Size < UInt32Size := Nat.mod_lt _ (by decide)
  unfold find_quotes_avx2 at h
  simp only [] at h
  by_cases hhigh : UInt32Size ≤ s.length % UInt32Size + 32
  · rw [blockLoop_high s _ hn hhigh UInt32Size 0 indexes (by decide) (by decide)] at h
    cases h
  · cases hb : blockLoop s (s.length % UInt32Size) UInt32Size 0 indexes with
    | none => rw [hb] at h; cases h
    | some p =>
      obtain ⟨i1, r1⟩ := p
      rw [hb] at h
      simp only [] at h
      have h1 := blockLoop_length s _ (by omega) _ _ _ _ _ (Nat.zero_le _) hb
      have h2 := tailLoop_length s _ hn _ _ _ _ h h1.2
      omega

theorem walkStep_next {json : Str} {indexes : List Nat} {w w1 : WalkState}
    (h : walkStep json indexes w = some w1) :
    w1.i = (w.i + (if decide (w.i % 18 ≥ 2) && decide (w.i % 18 ≤ 6) then 4 else 2)) %
      UInt32Size ∧
    w1.expectedKeyIndex = w.expectedKeyIndex % 7 + 1 := by
  simp only [walkStep, jsonQuotes] at h
  generalize (if (decide (w.i % 18 ≥ 2) && decide (w.i % 18 ≤ 6)) = true then 4 else 2) = d
    at h ⊢
  repeat' split at h
  all_goals first
    | contradiction
    | (simp only [Option.some.injEq] at h; subst h; exact ⟨rfl, rfl⟩)

end JsonParserSIMD

theorem cursor_table : ∀ k, k < 7 → ∀ r, r < 18 → r = keyQuoteOffset k →
    (r + (if decide (r ≥ 2) && decide (r ≤ 6) then 4 else 2)) % 18 =
      keyQuoteOffset ((k + 1) % 7) := by
  decide

theorem cursor_step (i k : Nat) (hk : k < 7) (hi : i % 18 = keyQuoteOffset k)
    (hlt : i + 4 < 4294967296) :
    ((i + (if decide (i % 18 ≥ 2) && decide (i % 18 ≤ 6) then 4 else 2)) % 4294967296) % 18 =
      keyQuoteOffset ((k + 1) % 7) := by
  rw [← cursor_table k hk (i % 18) (Nat.mod_lt _ (by decide)) hi]
  have hd : (if (decide (i % 18 ≥ 2) && decide (i % 18 ≤ 6)) = true then 4 else 2) ≤ 4 := by
    split <;> decide
  generalize (if (decide (i % 18 ≥ 2) && decide (i % 18 ≤ 6)) = true then 4 else 2) = d at hd ⊢
  rw [Nat.mod_eq_of_lt (show i + d < 4294967296 by omega)]
  omega

theorem cursor_rule (i k : Nat) (hk : k < 7) (hi : i % 18 = keyQuoteOffset k) :
    (decide (i % 18 ≥ 2) && decide (i % 18 ≤ 6)) = true ↔ (k = 1 ∨ k = 2) := by
  rw [hi]
  interval_cases k <;> decide

/-- The cursor of the walk at every test of the loop guard, for an index vector of fewer
than `2 ^ 32 - 32` entries. -/
theorem walkReach_cursor {json : Str} {indexes : List Nat} {w : JsonParserSIMD.WalkState}
    (hlen : indexes.length + 32 < 4294967296) (hw : JsonParserSIMD.WalkReach json indexes w) :
    w.i % 18 = keyQuoteOffset (w.expectedKeyIndex % 7) := by
  have hU : UInt32Size = 4294967296 := by decide
  induction hw with
  | init => rfl
  | @step w w1 _ hlt hstep ih =>
    obtain ⟨hi, hk⟩ := JsonParserSIMD.walkStep_next hstep
    rw [hi, hk, hU]
    exact cursor_step w.i (w.expectedKeyIndex % 7) (Nat.mod_lt _ (by decide)) ih (by omega)

/-- C27: at every test of the guard of the `for` loop of `JsonParserSIMD::parseRecords`,
for every input, with `k = expectedKeyIndex mod 7`, `i mod 18` is element `k` of
`[0, 2, 6, 10, 12, 14, 16]`; hence the offset rule of the code (`d = 4` exactly when
`2 <= i mod 18 <= 6`) selects the same `d` as the rule `d = 4` exactly when `k` is 1 or 2. -/
theorem C27_walk_cursor (json : Str) (indexes : List Nat) (w : JsonParserSIMD.WalkState)
    (hq : JsonParserSIMD.find_quotes_avx2 [] json = some indexes)
    (hw : JsonParserSIMD.WalkReach json indexes w) :
    w.i % 18 = keyQuoteOffset (w.expectedKeyIndex % 7) ∧
    ((decide (w.i % 18 ≥ 2) && decide (w.i % 18 ≤ 6)) = true ↔
      (w.expectedKeyIndex % 7 = 1 ∨ w.expectedKeyIndex % 7 = 2)) := by
  have hU : UInt32Size = 4294967296 := by decide
  have hlen := JsonParserSIMD.find_quotes_avx2_length [] json indexes hq
  simp only [List.length_nil, Nat.zero_add, hU] at hlen
  have hfirst := walkReach_cursor hlen hw
  exact ⟨hfirst, cursor_rule w.i _ (Nat.mod_lt _ (by decide)) hfirst⟩

/-- C27 at the input of scenario E6, in the state after the first iteration. -/
theorem C27_walk_cursor_witness :
    (2 : Nat) % 18 = keyQuoteOffset (1 % 7) ∧
    ((decide ((2 : Nat) % 18 ≥ 2) && decide ((2 : Nat) % 18 ≤ 6)) = true ↔
      (1 % 7 = 1 ∨ 1 % 7 = 2)) :=
  C27_walk_cursor inputE6 (quoteOffsets inputE6)
    (JsonParserSIMD.WalkState.mk 2 1 { Record.zero with a := 1 } true [])
    (by decide)
    (JsonParserSIMD.WalkReach.step JsonParserSIMD.WalkReach.init (by decide) (by decide))


/-! ### The schema walk on input outside its schema -/

/-- C24 fails on the code at the input `[{"a":1}]`, which holds two `"` bytes: the first
iteration of the walk reads `indexesOfQuotesOnJsonString[0 + 2]`, past the two entries of
the vector, and no result is defined. -/
theorem C24_walk_reads_past_index :
    (quoteOffsets inputTwoQuotes).length = 2 ∧ ¬ (18 ∣ (quoteOffsets inputTwoQuotes).length) ∧
    JsonParserSIMD.find_quotes_avx2 [] inputTwoQuotes = some [2, 4] ∧
    JsonParserSIMD.valueSlice inputTwoQuotes [2, 4] 0 2 = none ∧
    (JsonParserSIMD.new 10).parseRecords inputTwoQuotes = none := by
  decide

theorem reads_table : ∀ k, k < 6 → ∀ r, r < 18 → r = keyQuoteOffset k →
    r + (if decide (r ≥ 2) && decide (r ≤ 6) then 4 else 2) < 18 := by
  decide

/-- With a quote index of `18 * r` entries, the reads `indexesOfQuotesOnJsonString[i]` and
`indexesOfQuotesOnJsonString[i + d]` of every iteration of the walk are within the
vector; the iteration for the key `m` does not read at `i + d`. -/
theorem walk_reads_in_bounds (json : Str) (indexes : List Nat) (w : JsonParserSIMD.WalkState)
    (r : Nat) (hq : JsonParserSIMD.find_quotes_avx2 [] json = some indexes)
    (hw : JsonParserSIMD.WalkReach json indexes w) (hr : indexes.length = 18 * r)
    (hlt : w.i < indexes.length) (hk : w.expectedKeyIndex % 7 ≠ 6) :
    w.i + (if decide (w.i % 18 ≥ 2) && decide (w.i % 18 ≤ 6) then 4 else 2) <
      indexes.length := by
  have hU : UInt32Size = 4294967296 := by decide
  have hlen := JsonParserSIMD.find_quotes_avx2_length [] json indexes hq
  simp only [List.length_nil, Nat.zero_add, hU] at hlen
  have hc := walkReach_cursor hlen hw
  have hk7 : w.expectedKeyIndex % 7 < 7 := Nat.mod_lt _ (by decide)
  have := reads_table (w.expectedKeyIndex % 7) (by omega) (w.i % 18) (Nat.mod_lt _ (by decide)) hc
  generalize (if (decide (w.i % 18 ≥ 2) && decide (w.i % 18 ≤ 6)) = true then 4 else 2) = d
    at this ⊢
  omega

/-- C29 fails on the code at the input of scenario E6 cut right after the key `"m"`: the
quote index has 18 entries and six iterations run, but the seventh calls
`json.substr(pos, 1)` with `pos` past the end of the input, which throws
`std::out_of_range`; the loop is not left after seven iterations and nothing is
returned. -/
theorem C29_walk_throws_at_last_key :
    (quoteOffsets inputCutAfterKey).length = 18 * 1 ∧
    JsonParserSIMD.find_quotes_avx2 [] inputCutAfterKey = some (quoteOffsets inputCutAfterKey) ∧
    inputCutAfterKey.length = 61 ∧ (quoteOffsets inputCutAfterKey)[16]? = some 58 ∧
    substr inputCutAfterKey (58 + 4) 1 = none ∧
    (JsonParserSIMD.new 10).parseRecords inputCutAfterKey = none := by
  decide

/-! ### The numeric and boolean fields of the SIMD decoder -/

/-- C28 (amended): for every well-formed whitespace-free input with integer values in
`[-(2^63-1), 2^63-1]` that is shorter than `2 ^ 32 - 32` bytes, `JsonParserSIMD::parseRecords`
returns one record for each object, whose `a`, `f`, `l` and `T` are the integers written
in the text and whose `m` is `true` exactly when the literal is `true`; on these fields the
result agrees with that of `JsonParser::parseRecords`. -/
theorem C28_simd_numeric_fields (self : JsonParserSIMD) (os : List ObjectText)
    (hos : ∀ o ∈ os, o.WellFormed) (hlen : (compactText os).length < 2 ^ 32 - 32) :
    ∃ records parser refs,
      self.parseRecords (compactText os) = some (records, parser) ∧
      JsonParser.parseRecords (compactText os) = some refs ∧
      records.map Record.a = os.map (fun o => o.a.value) ∧
      records.map Record.f = os.map (fun o => o.f.value) ∧
      records.map Record.l = os.map (fun o => o.l.value) ∧
      records.map Record.T = os.map (fun o => o.T.value) ∧
      records.map Record.m = os.map (fun o => o.m) ∧
      records.map Record.a = refs.map Record.a ∧ records.map Record.f = refs.map Record.f ∧
      records.map Record.l = refs.map Record.l ∧ records.map Record.T = refs.map Record.T ∧
      records.map Record.m = refs.map Record.m := by
  have hU : UInt32Size = 2 ^ 32 := rfl
  obtain ⟨h1, -⟩ := JsonParserSIMD.parseRecords_compact self os hos (by rw [hU]; omega)
  have h2 := @JsonParser.parseRecords_at (compactText os) (by rw [hU]; omega) noGap os [] rfl
    allSpace_noGap hos
  refine ⟨_, _, _, h1, h2, ?_, ?_, ?_, ?_, ?_, ?_, ?_, ?_, ?_, ?_⟩ <;>
    simp only [List.map_map] <;> rfl

/-- C28 at the input of scenario E6. -/
theorem C28_simd_numeric_fields_witness :
    ∃ records parser refs,
      (JsonParserSIMD.new 10).parseRecords (compactText [ObjectText.ofRecord recordE6]) =
        some (records, parser) ∧
      JsonParser.parseRecords (compactText [ObjectText.ofRecord recordE6]) = some refs ∧
      records.map Record.a = [ObjectText.ofRecord recordE6].map (fun o => o.a.value) ∧
      records.map Record.f = [ObjectText.ofRecord recordE6].map (fun o => o.f.value) ∧
      records.map Record.l = [ObjectText.ofRecord recordE6].map (fun o => o.l.value) ∧
      records.map Record.T = [ObjectText.ofRecord recordE6].map (fun o => o.T.value) ∧
      records.map Record.m = [ObjectText.ofRecord recordE6].map (fun o => o.m) ∧
      records.map Record.a = refs.map Record.a ∧ records.map Record.f = refs.map Record.f ∧
      records.map Record.l = refs.map Record.l ∧ records.map Record.T = refs.map Record.T ∧
      records.map Record.m = refs.map Record.m :=
  C28_simd_numeric_fields (JsonParserSIMD.new 10) [ObjectText.ofRecord recordE6]
    (by
      intro o ho
      rw [List.mem_singleton] at ho
      rw [ho]; exact (ofRecord_wellFormed recordE6 (by decide)).1)
    (by decide)

/-- C28 (as stated) fails at a well-formed whitespace-free input of exactly `2 ^ 32 - 32`
bytes that holds one object: `JsonParser::parseRecords` returns its record, with `m` true,
and `JsonParserSIMD::parseRecords` returns no record at all, because the block loop of
`find_quotes_avx2` wraps its index. -/
theorem C28_numeric_fields_counterexample :
    JsonParser.parseRecords (compactText [ObjectText.ofRecord
      { a := 0, p := List.replicate (2 ^ 32 - 82) (Char.ofNat 120), q := [], f := 0, l := 0,
        T := 0, m := true }]) =
      some [{ a := 0, p := List.replicate (2 ^ 32 - 82) (Char.ofNat 120), q := [], f := 0,
              l := 0, T := 0, m := true }] ∧
    (JsonParserSIMD.new 10).parseRecords (compactText [ObjectText.ofRecord
      { a := 0, p := List.replicate (2 ^ 32 - 82) (Char.ofNat 120), q := [], f := 0, l := 0,
        T := 0, m := true }]) = none := by
  have hwf := ofRecord_wellFormed
    { a := 0, p := List.replicate (2 ^ 32 - 82) (Char.ofNat 120), q := [], f := 0, l := 0,
      T := 0, m := true }
    ⟨by
      intro h
      have := List.eq_of_mem_replicate h
      revert this; decide, by simp, by decide, by decide, by decide, by decide⟩
  refine ⟨?_, ?_⟩
  · have h := @JsonParser.parseRecords_at _ (by
      rw [show renderArray noGap _ [] = compactText _ from rfl, compactText_single_length]
      decide) noGap [ObjectText.ofRecord
        { a := 0, p := List.replicate (2 ^ 32 - 82) (Char.ofNat 120), q := [], f := 0, l := 0,
          T := 0, m := true }] [] rfl allSpace_noGap (by
        intro o ho
        rw [List.mem_singleton] at ho
        rw [ho]; exact hwf.1)
    rw [show compactText _ = renderArray noGap _ [] from rfl, h, List.map_cons, List.map_nil,
      hwf.2]
  · apply JsonParserSIMD.parseRecords_block_wrap
    rw [compactText_single_length]
    rfl

/-! ### The reference parser on arbitrary input

An index grows by one only below the length, so below `2 ^ 32` bytes these additions do
not wrap. It grows by four or five only in `parseBool`, entered at most at the length: up
to `2 ^ 32 - 4` bytes the only wrap is that of `index += 5` at an `f` that is the last
byte of an input of exactly `2 ^ 32 - 4` bytes, which takes the index to 0. -/

namespace JsonParser

theorem skipWhitespaceLoop_total (json : Str) (hB : json.length < UInt32Size) :
    ∀ (fuel index : Nat), json.length - index < fuel →
      ∃ index1, skipWhitespaceLoop json fuel index = some index1 ∧ index ≤ index1 ∧
        (index1 = index ∨ index1 ≤ json.length) := by
  intro fuel
  induction fuel with
  | zero => intro index h; omega
  | succ fuel ih =>
    intro index hf
    by_cases hc : (decide (index < json.length) && isspace (charAt json index)) = true
    · have hlt : index < json.length := by
        simp only [Bool.and_eq_true, decide_eq_true_eq] at hc; exact hc.1
      have hmod : (index + 1) % UInt32Size = index + 1 := Nat.mod_eq_of_lt (by omega)
      obtain ⟨i1, h1, h2, h3⟩ := ih (index + 1) (by omega)
      refine ⟨i1, by simp only [skipWhitespaceLoop_zero, skipWhitespaceLoop_succ, hc, if_true, hmod, h1], by omega, ?_⟩
      right; omega
    · exact ⟨index, by simp only [skipWhitespaceLoop_zero, skipWhitespaceLoop_succ, hc, if_false]; rfl, Nat.le_refl _,
        Or.inl rfl⟩

theorem skipWhitespace_total {json : Str} (hB : json.length < UInt32Size) (index : Nat) :
    ∃ index1, skipWhitespace json index = some index1 ∧ index ≤ index1 ∧
      (index1 = index ∨ index1 ≤ json.length) :=
  skipWhitespaceLoop_total json hB UInt32Size index (by omega)

theorem skipWhitespaceLoop_stop (json : Str) :
    ∀ (fuel index index1 : Nat), skipWhitespaceLoop json fuel index = some index1 →
      (decide (index1 < json.length) && isspace (charAt json index1)) = false := by
  intro fuel
  induction fuel with
  | zero => intro index index1 h; cases h
  | succ fuel ih =>
    intro index index1 h
    by_cases hc : (decide (index < json.length) && isspace (charAt json index)) = true
    · simp only [skipWhitespaceLoop_zero, skipWhitespaceLoop_succ, hc, if_true] at h
      exact ih _ _ h
    · simp only [skipWhitespaceLoop_zero, skipWhitespaceLoop_succ, hc, if_false] at h
      cases h
      simpa using hc

theorem skipWhitespace_fix {json : Str} {index index1 : Nat}
    (h : skipWhitespace json index = some index1) : skipWhitespace json index1 = some index1 := by
  have hs := skipWhitespaceLoop_stop json UInt32Size index index1 h
  have hU : UInt32Size = 4294967295 + 1 := by decide
  rw [skipWhitespace, hU, skipWhitespaceLoop_succ, hs]
  rfl

theorem expectChar_total {json : Str} (hB : json.length < UInt32Size) (index : Nat)
    (c : Char) :
    ∃ b index1, expectChar json index c = some (b, index1) ∧ index ≤ index1 ∧
      (index1 = index ∨ index1 ≤ json.length) ∧ (b = true → index1 ≤ json.length) := by
  obtain ⟨i1, h1, h2, h3⟩ := skipWhitespace_total hB index
  by_cases hc : (decide (i1 ≥ json.length) || charAt json i1 != c) = true
  · refine ⟨false, i1, by simp only [expectChar_eq, h1, hc, if_true], h2, h3, fun h => by cases h⟩
  · have hlt : i1 < json.length := by
      simp only [Bool.or_eq_true, decide_eq_true_eq, not_or, not_le] at hc; exact hc.1
    have hmod : (i1 + 1) % UInt32Size = i1 + 1 := Nat.mod_eq_of_lt (by omega)
    refine ⟨true, i1 + 1, by simp only [expectChar_eq, h1, hc, if_false, hmod]; rfl, by omega,
      Or.inr (by omega), fun _ => by omega⟩

theorem parseStringLoop_total (json : Str) (hB : json.length < UInt32Size) :
    ∀ (fuel index : Nat) (result : Str), json.length - index < fuel →
      ∃ res index1, parseStringLoop json fuel index result = some (res, index1) ∧
        index ≤ index1 ∧ (index1 = index ∨ index1 ≤ json.length) := by
  intro fuel
  induction fuel with
  | zero => intro index _ h; omega
  | succ fuel ih =>
    intro index result hf
    by_cases hc : (decide (index < json.length) && charAt json index != quoteChar) = true
    · have hlt : index < json.length := by
        simp only [Bool.and_eq_true, decide_eq_true_eq] at hc; exact hc.1
      have hmod : (index + 1) % UInt32Size = index + 1 := Nat.mod_eq_of_lt (by omega)
      obtain ⟨res, i1, h1, h2, h3⟩ := ih (index + 1) (result ++ [charAt json index]) (by omega)
      exact ⟨res, i1, by simp only [parseStringLoop_zero, parseStringLoop_succ, hc, if_true, hmod, h1], by omega,
        Or.inr (by omega)⟩
    · exact ⟨result, index, by simp only [parseStringLoop_zero, parseStringLoop_succ, hc, if_false]; rfl, Nat.le_refl _,
        Or.inl rfl⟩

theorem parseString_total {json : Str} (hB : json.length < UInt32Size) (index : Nat) :
    ∃ res index1, parseString json index = some (res, index1) ∧ index ≤ index1 ∧
      (index1 = index ∨ index1 ≤ json.length) := by
  obtain ⟨i1, h1, h2, h3⟩ := skipWhitespace_total hB index
  by_cases hc : (decide (i1 ≥ json.length) || charAt json i1 != quoteChar) = true
  · exact ⟨[], i1, by simp only [parseString_eq, h1, hc, if_true], h2, h3⟩
  · have hlt : i1 < json.length := by
      simp only [Bool.or_eq_true, decide_eq_true_eq, not_or, not_le] at hc; exact hc.1
    have hmod : (i1 + 1) % UInt32Size = i1 + 1 := Nat.mod_eq_of_lt (by omega)
    obtain ⟨res, i2, e2, h4, h5⟩ := parseStringLoop_total json hB UInt32Size (i1 + 1) []
      (by omega)
    by_cases hc2 : (decide (i2 ≥ json.length) || charAt json i2 != quoteChar) = true
    · exact ⟨res, i2, by simp only [parseString_eq, h1, hc, if_false, hmod, e2, hc2, if_true]; rfl,
        by omega, Or.inr (by omega)⟩
    · have hlt2 : i2 < json.length := by
        simp only [Bool.or_eq_true, decide_eq_true_eq, not_or, not_le] at hc2; exact hc2.1
      have hmod2 : (i2 + 1) % UInt32Size = i2 + 1 := Nat.mod_eq_of_lt (by omega)
      exact ⟨res, i2 + 1, by
        simp only [parseString_eq, h1, hc, if_false, hmod, e2, hc2, hmod2]; rfl,
        by omega, Or.inr (by omega)⟩

end JsonParser

namespace JsonParser

theorem take_succ_drop (json : Str) (start index : Nat) (hs : start ≤ index)
    (hlt : index < json.length) :
    (json.drop start).take (index + 1 - start) =
      (json.drop start).take (index - start) ++ [charAt json index] := by
  have h1 : index + 1 - start = (index - start) + 1 := by omega
  rw [h1, List.take_succ]
  congr 1
  have h2 : (json.drop start)[index - start]? = json[index]? := by
    rw [List.getElem?_drop]; congr 1; omega
  rw [h2, List.getElem?_eq_getElem hlt]
  simp [charAt, List.getD, List.getElem?_eq_getElem hlt]

theorem parseInt64Loop_total (json : Str) (hB : json.length < UInt32Size) (start : Nat)
    (hfit : ∀ len, (∀ c ∈ (json.drop start).take len, isdigit c = true) →
      (digitsValue ((json.drop start).take len) : Int) ≤ Int64Max) :
    ∀ (fuel index : Nat), start ≤ index →
      (∀ c ∈ (json.drop start).take (index - start), isdigit c = true) →
      json.length - index < fuel →
      ∃ v index1, parseInt64Loop json fuel index
          ((digitsValue ((json.drop start).take (index - start)) : Nat) : Int) =
          some (v, index1) ∧
        index ≤ index1 ∧ (index1 = index ∨ index1 ≤ json.length) := by
  intro fuel
  induction fuel with
  | zero => intro index _ _ h; omega
  | succ fuel ih =>
    intro index hs hrun hf
    by_cases hc : (decide (index < json.length) && isdigit (charAt json index)) = true
    · have hlt : index < json.length := by
        simp only [Bool.and_eq_true, decide_eq_true_eq] at hc; exact hc.1
      have hdig : isdigit (charAt json index) = true := by
        simp only [Bool.and_eq_true] at hc; exact hc.2
      have hmod : (index + 1) % UInt32Size = index + 1 := Nat.mod_eq_of_lt (by omega)
      have htake := take_succ_drop json start index hs hlt
      have hrun1 : ∀ c ∈ (json.drop start).take (index + 1 - start), isdigit c = true := by
        intro c hcm
        rw [htake] at hcm
        rcases List.mem_append.1 hcm with h | h
        · exact hrun c h
        · rw [List.mem_singleton] at h
          rw [h]; exact hdig
      have hval := hfit (index + 1 - start) hrun1
      rw [htake, digitsValue_append_singleton] at hval
      have hpush := pushDigit_digit _ _ hdig hval
      obtain ⟨v, i1, h1, h2, h3⟩ := ih (index + 1) (by omega) hrun1 (by omega)
      rw [htake, digitsValue_append_singleton] at h1
      exact ⟨v, i1, by simp only [parseInt64Loop_zero, parseInt64Loop_succ, hc, if_true, hpush, hmod, h1], by omega,
        Or.inr (by omega)⟩
    · exact ⟨_, index, by simp only [parseInt64Loop_zero, parseInt64Loop_succ, hc, if_false]; rfl, Nat.le_refl _,
        Or.inl rfl⟩

theorem parseInt64_total {json : Str} (hB : json.length < UInt32Size) (index : Nat)
    (hfit : ∀ i1, skipWhitespace json index = some i1 → i1 < json.length → ∀ len,
      (∀ c ∈ (json.drop (if charAt json i1 == Char.ofNat 45 then (i1 + 1) % UInt32Size
        else i1)).take len, isdigit c = true) →
      (digitsValue ((json.drop (if charAt json i1 == Char.ofNat 45 then
        (i1 + 1) % UInt32Size else i1)).take len) : Int) ≤ Int64Max) :
    ∃ v index1, parseInt64 json index = some (v, index1) ∧ index ≤ index1 ∧
      (index1 = index ∨ index1 ≤ json.length) := by
  obtain ⟨i1, h1, h2, h3⟩ := skipWhitespace_total hB index
  by_cases hge : i1 ≥ json.length
  · exact ⟨0, i1, by simp only [parseInt64_eq, h1, hge, decide_True, if_true], h2, h3⟩
  · have hlt : i1 < json.length := by omega
    have hmod : (i1 + 1) % UInt32Size = i1 + 1 := Nat.mod_eq_of_lt (by omega)
    have hfit2 := hfit i1 h1 hlt
    rw [hmod] at hfit2
    generalize hi2 : (if (charAt json i1 == Char.ofNat 45) = true then i1 + 1 else i1) = i2
      at hfit2
    have hi2b : i1 ≤ i2 ∧ i2 ≤ json.length := by
      rw [← hi2]; split <;> omega
    by_cases hc : (decide (i2 ≥ json.length) || !isdigit (charAt json i2)) = true
    · refine ⟨0, i2, ?_, by omega, Or.inr hi2b.2⟩
      simp only [parseInt64_eq, h1, hge, decide_False, Bool.false_eq_true, if_false, hmod, hi2, hc,
        if_true]
    · have hrun : ∀ c ∈ (json.drop i2).take (i2 - i2), isdigit c = true := by
        intro c hcm; simp at hcm
      obtain ⟨v, i3, e3, h4, h5⟩ := parseInt64Loop_total json hB i2 hfit2 UInt32Size i2
        (Nat.le_refl _) hrun (by omega)
      have hzero : ((digitsValue ((json.drop i2).take (i2 - i2)) : Nat) : Int) = 0 := by
        simp [digitsValue]
      rw [hzero] at e3
      refine ⟨if (charAt json i1 == Char.ofNat 45) = true then -v else v, i3, ?_, by omega,
        Or.inr (by omega)⟩
      simp only [parseInt64_eq, h1, hge, decide_False, Bool.false_eq_true, if_false, hmod, hi2, hc,
        e3]

theorem parseBool_total {json : Str} (hB : json.length + 4 ≤ UInt32Size) (index : Nat)
    (hi : index ≤ json.length) :
    ∃ b index1, parseBool json index = some (b, index1) ∧
      ((index ≤ index1 ∧ index1 ≤ json.length + 4) ∨ index1 = 0) := by
  have hU : 4 < UInt32Size := by decide
  obtain ⟨i1, h1, h2, h3⟩ := skipWhitespace_total (show json.length < UInt32Size by omega) index
  have hle : i1 ≤ json.length := by omega
  have hgt : ¬ i1 > json.length := by omega
  by_cases ht : (decide (i1 < json.length) && charAt json i1 == Char.ofNat 116) = true
  · have hlt : i1 < json.length := by
      simp only [Bool.and_eq_true, decide_eq_true_eq] at ht; exact ht.1
    have hm4 : (i1 + 4) % UInt32Size = i1 + 4 := Nat.mod_eq_of_lt (by omega)
    exact ⟨true, i1 + 4, by simp only [parseBool, h1, compareOne, hgt, if_false, ht, hm4],
      Or.inl ⟨by omega, by omega⟩⟩
  · have ht' : (decide (i1 < json.length) && charAt json i1 == Char.ofNat 116) = false := by
      simpa using ht
    by_cases hf : (decide (i1 < json.length) && charAt json i1 == Char.ofNat 102) = true
    · have hlt : i1 < json.length := by
        simp only [Bool.and_eq_true, decide_eq_true_eq] at hf; exact hf.1
      by_cases hw : i1 + 5 < UInt32Size
      · have hm5 : (i1 + 5) % UInt32Size = i1 + 5 := Nat.mod_eq_of_lt hw
        exact ⟨false, i1 + 5, by
          simp only [parseBool, h1, compareOne, hgt, if_false, ht', hf, hm5],
          Or.inl ⟨by omega, by omega⟩⟩
      · have hm5 : (i1 + 5) % UInt32Size = 0 := by
          have : i1 + 5 = UInt32Size := by omega
          rw [this, Nat.mod_self]
        exact ⟨false, 0, by
          simp only [parseBool, h1, compareOne, hgt, if_false, ht', hf, hm5], Or.inr rfl⟩
    · have hf' : (decide (i1 < json.length) && charAt json i1 == Char.ofNat 102) = false := by
        simpa using hf
      exact ⟨false, i1, by simp only [parseBool, h1, compareOne, hgt, if_false, ht', hf'],
        Or.inl ⟨h2, by omega⟩⟩

theorem fieldEnd_total {json : Str} (hB : json.length < UInt32Size) (index : Nat)
    (record : Record) :
    ∃ b index1, fieldEnd json index record = some (b, index1, record) ∧ index ≤ index1 ∧
      (index1 = index ∨ index1 ≤ json.length) := by
  obtain ⟨i1, h1, h2, h3⟩ := skipWhitespace_total hB index
  by_cases hc : (decide (i1 < json.length) && charAt json i1 == Char.ofNat 44) = true
  · have hlt : i1 < json.length := by
      simp only [Bool.and_eq_true, decide_eq_true_eq] at hc; exact hc.1
    have hmod : (i1 + 1) % UInt32Size = i1 + 1 := Nat.mod_eq_of_lt (by omega)
    exact ⟨true, i1 + 1, by simp only [fieldEnd_eq, h1, hc, if_true, hmod], by omega,
      Or.inr (by omega)⟩
  · exact ⟨false, i1, by simp only [fieldEnd_eq, h1, hc, if_false]; rfl, h2, h3⟩

end JsonParser

namespace JsonParser

theorem fieldEnd_bracket {json : Str} {index z : Nat} (record : Record)
    (hs : skipWhitespace json index = some z) (hzc : charAt json z = Char.ofNat 91) :
    fieldEnd json index record = some (false, z, record) := by
  have h44 : (Char.ofNat 91 == Char.ofNat 44) = false := by decide
  simp only [fieldEnd_eq, hs, hzc, h44, Bool.and_false, Bool.false_eq_true, if_false]

theorem parserFieldInOrder_bracket {json : Str} {z : Nat} (record : Record) (name : Str)
    (hs : skipWhitespace json z = some z) (hzc : charAt json z = Char.ofNat 91) :
    parserFieldInOrder json z record name = some (false, z, record) := by
  have h34 : (Char.ofNat 91 != quoteChar) = true := by decide
  have h58 : (Char.ofNat 91 != Char.ofNat 58) = true := by decide
  have e2 : parseString json z = some ([], z) := by
    simp only [parseString_eq, hs, hzc, h34, Bool.or_true, if_true]
  have e3 : expectChar json z (Char.ofNat 58) = some (false, z) := by
    simp only [expectChar_eq, hs, hzc, h58, Bool.or_true, if_true]
  simp only [parserFieldInOrder, hs, e2, e3]

theorem parseFields_bracket {json : Str} {z : Nat}
    (hs : skipWhitespace json z = some z) (hzc : charAt json z = Char.ofNat 91) :
    ∀ (names : List Str) (record : Record), parseFields json names z record = some (z, record) := by
  intro names
  induction names with
  | nil => intro record; rfl
  | cons name names ih =>
    intro record
    simp only [parseFields, parserFieldInOrder_bracket record name hs hzc, ih]

theorem intStart_fit {json : Str} (hfit : IntRunsFit json) {index index1 index2 index3 : Nat}
    {record : Record} {fieldName name : Str} {names : List Str}
    (hfc : FieldCall json index record (name :: names))
    (e1 : skipWhitespace json index = some index1)
    (e2 : parseString json index1 = some (fieldName, index2))
    (e3 : expectChar json index2 (Char.ofNat 58) = some (true, index3))
    (hname : fieldName = name) (hmem : name ∈ [['a'], ['f'], ['l'], ['T']]) :
    ∀ i1, skipWhitespace json index3 = some i1 → i1 < json.length → ∀ len,
      (∀ c ∈ (json.drop (if charAt json i1 == Char.ofNat 45 then (i1 + 1) % UInt32Size
        else i1)).take len, isdigit c = true) →
      (digitsValue ((json.drop (if charAt json i1 == Char.ofNat 45 then
        (i1 + 1) % UInt32Size else i1)).take len) : Int) ≤ Int64Max :=
  fun _ hs hlt len hrun => hfit _ len (IntStart.mk hfc e1 (hname ▸ e2) e3 hmem hs hlt) hrun

theorem parserFieldInOrder_total {json : Str} (hB : json.length + 4 ≤ UInt32Size)
    (hfit : IntRunsFit json) {z : Nat} (hz0 : skipWhitespace json 0 = some z)
    (hzc : charAt json z = Char.ofNat 91) (index : Nat) (record : Record) (name : Str)
    (names : List Str) (hfc : FieldCall json index record (name :: names)) :
    ∃ b index1 record1, parserFieldInOrder json index record name = some (b, index1, record1) ∧
      ((index ≤ index1 ∧ (index1 = index ∨ index1 ≤ json.length + 4)) ∨ index1 = z) := by
  have hU : 4 < UInt32Size := by decide
  have hlen : json.length < UInt32Size := by omega
  obtain ⟨i1, e1, h1, g1⟩ := skipWhitespace_total hlen index
  obtain ⟨fieldName, i2, e2, h2, g2⟩ := parseString_total hlen i1
  obtain ⟨b3, i3, e3, h3, g3, t3⟩ := expectChar_total hlen i2 (Char.ofNat 58)
  cases b3 with
  | false =>
    exact ⟨false, i3, record, by simp only [parserFieldInOrder, e1, e2, e3],
      Or.inl ⟨by omega, by omega⟩⟩
  | true =>
    have hle : i3 ≤ json.length := t3 rfl
    simp only [parserFieldInOrder, e1, e2, e3]
    split_ifs
    all_goals first
      | (have hc : (fieldName == ['a'] && name == ['a']) = true := by assumption
         simp only [Bool.and_eq_true, beq_iff_eq] at hc
         obtain ⟨v, i4, e4, h4, g4⟩ := parseInt64_total hlen i3
           (intStart_fit hfit hfc e1 e2 e3 (hc.1.trans hc.2.symm) (by rw [hc.2]; decide))
         obtain ⟨b, i5, e5, h5, g5⟩ := fieldEnd_total hlen i4 { record with a := v }
         exact ⟨b, i5, _, by rw [e4]; exact e5, Or.inl ⟨by omega, by omega⟩⟩)
      | (have hc : (fieldName == ['f'] && name == ['f']) = true := by assumption
         simp only [Bool.and_eq_true, beq_iff_eq] at hc
         obtain ⟨v, i4, e4, h4, g4⟩ := parseInt64_total hlen i3
           (intStart_fit hfit hfc e1 e2 e3 (hc.1.trans hc.2.symm) (by rw [hc.2]; decide))
         obtain ⟨b, i5, e5, h5, g5⟩ := fieldEnd_total hlen i4 { record with f := v }
         exact ⟨b, i5, _, by rw [e4]; exact e5, Or.inl ⟨by omega, by omega⟩⟩)
      | (have hc : (fieldName == ['l'] && name == ['l']) = true := by assumption
         simp only [Bool.and_eq_true, beq_iff_eq] at hc
         obtain ⟨v, i4, e4, h4, g4⟩ := parseInt64_total hlen i3
           (intStart_fit hfit hfc e1 e2 e3 (hc.1.trans hc.2.symm) (by rw [hc.2]; decide))
         obtain ⟨b, i5, e5, h5, g5⟩ := fieldEnd_total hlen i4 { record with l := v }
         exact ⟨b, i5, _, by rw [e4]; exact e5, Or.inl ⟨by omega, by omega⟩⟩)
      | (have hc : (fieldName == ['T'] && name == ['T']) = true := by assumption
         simp only [Bool.and_eq_true, beq_iff_eq] at hc
         obtain ⟨v, i4, e4, h4, g4⟩ := parseInt64_total hlen i3
           (intStart_fit hfit hfc e1 e2 e3 (hc.1.trans hc.2.symm) (by rw [hc.2]; decide))
         obtain ⟨b, i5, e5, h5, g5⟩ := fieldEnd_total hlen i4 { record with T := v }
         exact ⟨b, i5, _, by rw [e4]; exact e5, Or.inl ⟨by omega, by omega⟩⟩)
      | (obtain ⟨v, i4, e4, h4, g4⟩ := parseString_total hlen i3
         obtain ⟨b, i5, e5, h5, g5⟩ := fieldEnd_total hlen i4 { record with p := v }
         exact ⟨b, i5, _, by rw [e4]; exact e5, Or.inl ⟨by omega, by omega⟩⟩)
      | (obtain ⟨v, i4, e4, h4, g4⟩ := parseString_total hlen i3
         obtain ⟨b, i5, e5, h5, g5⟩ := fieldEnd_total hlen i4 { record with q := v }
         exact ⟨b, i5, _, by rw [e4]; exact e5, Or.inl ⟨by omega, by omega⟩⟩)
      | (obtain ⟨v, i4, e4, h4⟩ := parseBool_total hB i3 hle
         rcases h4 with ⟨h4, g4⟩ | h4
         · obtain ⟨b, i5, e5, h5, g5⟩ := fieldEnd_total hlen i4 { record with m := v }
           exact ⟨b, i5, _, by rw [e4]; exact e5, Or.inl ⟨by omega, by omega⟩⟩
         · rw [h4] at e4
           exact ⟨false, z, _, by rw [e4]; exact fieldEnd_bracket _ hz0 hzc, Or.inr rfl⟩)
      | exact ⟨false, i3, record, rfl, Or.inl ⟨by omega, by omega⟩⟩

theorem parseFields_total {json : Str} (hB : json.length + 4 ≤ UInt32Size)
    (hfit : IntRunsFit json) {z : Nat} (hz0 : skipWhitespace json 0 = some z)
    (hzc : charAt json z = Char.ofNat 91) :
    ∀ (names : List Str) (index : Nat) (record : Record), FieldCall json index record names →
      ∃ index1 record1, parseFields json names index record = some (index1, record1) ∧
        ((index ≤ index1 ∧ (index1 = index ∨ index1 ≤ json.length + 4)) ∨ index1 = z) := by
  intro names
  induction names with
  | nil => intro index record _; exact ⟨index, record, rfl, Or.inl ⟨Nat.le_refl _, Or.inl rfl⟩⟩
  | cons name names ih =>
    intro index record hfc
    obtain ⟨b, i1, r1, e1, h1⟩ := parserFieldInOrder_total hB hfit hz0 hzc index record name
      names hfc
    rcases h1 with ⟨h1, g1⟩ | h1
    · obtain ⟨i2, r2, e2, h2⟩ := ih i1 r1 (FieldCall.next hfc e1)
      refine ⟨i2, r2, by simp only [parseFields, e1, e2], ?_⟩
      rcases h2 with ⟨h2, g2⟩ | h2
      · exact Or.inl ⟨by omega, by omega⟩
      · exact Or.inr h2
    · rw [h1] at e1
      exact ⟨z, r1, by
        simp only [parseFields, e1, parseFields_bracket (skipWhitespace_fix hz0) hzc], Or.inr rfl⟩

theorem parseRecord_total {json : Str} (hB : json.length + 4 ≤ UInt32Size)
    (hfit : IntRunsFit json) {z : Nat} (hz0 : skipWhitespace json 0 = some z)
    (hzc : charAt json z = Char.ofNat 91) (index : Nat) (hrc : RecordCall json index) :
    ∃ record index1, parseRecord json index = some (record, index1) ∧
      ((index ≤ index1 ∧ (index1 = index ∨ index1 ≤ json.length + 4)) ∨ index1 = z) := by
  have hU : 4 < UInt32Size := by decide
  have hlen : json.length < UInt32Size := by omega
  obtain ⟨i1, e1, h1, g1⟩ := skipWhitespace_total hlen index
  obtain ⟨b2, i2, e2, h2, g2, t2⟩ := expectChar_total hlen i1 (Char.ofNat 123)
  cases b2 with
  | false =>
    exact ⟨Record.zero, i2, by simp only [parseRecord_eq, e1, e2], Or.inl ⟨by omega, by omega⟩⟩
  | true =>
    obtain ⟨i3, r3, e3, h3⟩ := parseFields_total hB hfit hz0 hzc
      [['a'], ['p'], ['q'], ['f'], ['l'], ['T'], ['m']] i2 Record.zero
      (FieldCall.first hrc e1 e2)
    by_cases hc : (decide (i3 < json.length) && charAt json i3 == Char.ofNat 125) = true
    · have hlt : i3 < json.length := by
        simp only [Bool.and_eq_true, decide_eq_true_eq] at hc; exact hc.1
      have hch : charAt json i3 = Char.ofNat 125 := by
        simp only [Bool.and_eq_true, beq_iff_eq] at hc; exact hc.2
      have hmod : (i3 + 1) % UInt32Size = i3 + 1 := Nat.mod_eq_of_lt (by omega)
      refine ⟨r3, i3 + 1, by simp only [parseRecord_eq, e1, e2, e3, hc, if_true, hmod], ?_⟩
      rcases h3 with ⟨h3, g3⟩ | h3
      · exact Or.inl ⟨by omega, by omega⟩
      · rw [h3, hzc] at hch
        exact absurd hch (by decide)
    · refine ⟨r3, i3, by simp only [parseRecord_eq, e1, e2, e3, hc, if_false]; rfl, ?_⟩
      rcases h3 with ⟨h3, g3⟩ | h3
      · exact Or.inl ⟨by omega, by omega⟩
      · exact Or.inr h3

theorem commaCount_drop_le (json : Str) {i j : Nat} (h : i ≤ j) :
    commaCount (json.drop j) ≤ commaCount (json.drop i) := by
  have : json.drop j = (json.drop i).drop (j - i) := by
    rw [List.drop_drop]; congr 1; omega
  rw [this]
  exact List.Sublist.count_le (List.drop_sublist _ _) _

theorem commaCount_drop_succ (json : Str) {i : Nat} (hlt : i < json.length)
    (hc : charAt json i = Char.ofNat 44) :
    commaCount (json.drop i) = commaCount (json.drop (i + 1)) + 1 := by
  have hd : json.drop i = json[i] :: json.drop (i + 1) := List.drop_eq_getElem_cons hlt
  have hch : json[i] = Char.ofNat 44 := by
    rw [← JsonParserSIMD.charAt_eq json i hlt]; exact hc
  rw [hd, hch]
  simp [commaCount]

theorem parseRecordsLoop_total (json : Str) (hB : json.length + 4 ≤ UInt32Size)
    (hfit : IntRunsFit json) {z : Nat} (hz0 : skipWhitespace json 0 = some z)
    (hzc : charAt json z = Char.ofNat 91) :
    ∀ (fuel index : Nat) (records : List Record), RecordCall json index →
      json.length - index < fuel →
      ∃ rs, parseRecordsLoop json fuel index records = some rs ∧
        rs.length ≤ records.length + 1 + commaCount (json.drop index) := by
  have hU : 4 < UInt32Size := by decide
  have hlen : json.length < UInt32Size := by omega
  intro fuel
  induction fuel with
  | zero => intro index _ _ h; omega
  | succ fuel ih =>
    intro index records hrc hf
    obtain ⟨r, i1, e1, h1⟩ := parseRecord_total hB hfit hz0 hzc index hrc
    obtain ⟨i2, e2, h2, g2⟩ := skipWhitespace_total hlen i1
    by_cases hc : (decide (i2 < json.length) && charAt json i2 == Char.ofNat 44) = true
    · have hlt : i2 < json.length := by
        simp only [Bool.and_eq_true, decide_eq_true_eq] at hc; exact hc.1
      have hch : charAt json i2 = Char.ofNat 44 := by
        simp only [Bool.and_eq_true, beq_iff_eq] at hc; exact hc.2
      rcases h1 with ⟨h1, g1⟩ | h1
      · have hmod : (i2 + 1) % UInt32Size = i2 + 1 := Nat.mod_eq_of_lt (by omega)
        obtain ⟨rs, e3, h3⟩ := ih (i2 + 1) (records ++ [r])
          (hmod ▸ RecordCall.next hrc e1 e2 hlt hch) (by omega)
        refine ⟨rs, by simp only [parseRecordsLoop_zero, parseRecordsLoop_succ, e1, e2, hc, if_true, hmod, e3], ?_⟩
        have c1 := commaCount_drop_succ json hlt hch
        have c2 := commaCount_drop_le json (show index ≤ i2 by omega)
        simp only [List.length_append, List.length_singleton] at h3
        omega
      · rw [h1, skipWhitespace_fix hz0] at e2
        cases e2
        rw [hzc] at hch
        exact absurd hch (by decide)
    · refine ⟨records ++ [r], by simp only [parseRecordsLoop_zero, parseRecordsLoop_succ, e1, e2, hc, if_false]; rfl, ?_⟩
      simp only [List.length_append, List.length_singleton]
      omega

/-- On an input of at most `2 ^ 32 - 4` bytes on which no call of `parseInt64` reads a digit
run above the largest `int64_t`, `JsonParser::parseRecords` returns, with at most one
record more than the input has `,` bytes. -/
theorem parseRecords_total {json : Str} (hB : json.length + 4 ≤ UInt32Size)
    (hfit : IntRunsFit json) :
    ∃ rs, parseRecords json = some rs ∧ rs.length ≤ 1 + commaCount json := by
  have hU : 4 < UInt32Size := by decide
  have hlen : json.length < UInt32Size := by omega
  obtain ⟨z, e1, h1, g1⟩ := skipWhitespace_total hlen 0
  have hs := skipWhitespace_fix e1
  by_cases hc0 : (decide (z ≥ json.length) || charAt json z != Char.ofNat 91) = true
  · exact ⟨[], by simp only [parseRecords_eq, e1, expectChar_eq, hs, hc0, if_true], by simp⟩
  · have hlt : z < json.length := by
      simp only [Bool.or_eq_true, decide_eq_true_eq, not_or, not_le] at hc0; exact hc0.1
    have hzc : charAt json z = Char.ofNat 91 := by
      simp only [Bool.or_eq_true, not_or, bne_iff_ne, ne_eq, not_not] at hc0; exact hc0.2
    have hmod : (z + 1) % UInt32Size = z + 1 := Nat.mod_eq_of_lt (by omega)
    have e2 : expectChar json z (Char.ofNat 91) = some (true, z + 1) := by
      simp only [expectChar_eq, hs, hc0, Bool.false_eq_true, if_false, hmod]
    obtain ⟨i3, e3, h3, g3⟩ := skipWhitespace_total hlen (z + 1)
    by_cases hc : (decide (i3 < json.length) && charAt json i3 == Char.ofNat 93) = true
    · exact ⟨[], by simp only [parseRecords_eq, e1, e2, e3, hc, if_true], by simp⟩
    · obtain ⟨rs, e4, h4⟩ := parseRecordsLoop_total json hB hfit e1 hzc UInt32Size i3 []
        (RecordCall.first e1 e2 e3 (by
          intro hh
          apply hc
          simp only [Bool.and_eq_true, decide_eq_true_eq, beq_iff_eq]
          exact hh))
        (by omega)
      refine ⟨rs, by simp only [parseRecords_eq, e1, e2, e3, hc, if_false, e4]; rfl, ?_⟩
      have := commaCount_drop_le json (Nat.zero_le i3)
      simp only [List.drop_zero, List.length_nil] at this h4
      omega

end JsonParser

/-! ### An input of `2 ^ 32 - 3` bytes on which the array loop is not left

In `inputWrapAt k` with `k + 50 = 2 ^ 32` the `f` of the seventh value is the last byte, at
index `2 ^ 32 - 4`; `index += 5` of `parseBool` takes the `uint32_t` index to 1, where a `,`
stands. The `,` at index 1 ends the field, the `,` at index 2 continues the array loop at
index 3, the `{`, and the same object is parsed again. -/

namespace JsonParser

theorem inputWrapAt_length (k : Nat) : (inputWrapAt k).length = k + 47 := by
  simp [inputWrapAt, inputWrapHead]

theorem inputWrapAt_drop (k : Nat) :
    (inputWrapAt k).drop 3 = [] ++ Char.ofNat 123 ::
      renderField [] [] [] [] 'a' (IntText.mk false ['0']).text (Char.ofNat 44)
      (renderField [] [] [] [] 'p' (stringText []) (Char.ofNat 44)
      (renderField [] [] [] [] 'q' (stringText []) (Char.ofNat 44)
      (renderField [] [] [] [] 'f' (IntText.mk false ['0']).text (Char.ofNat 44)
      (renderField [] [] [] [] 'l' (IntText.mk false ['0']).text (Char.ofNat 44)
      (renderField [] [] [] [] 'T' (IntText.mk false ['0']).text (Char.ofNat 44)
      (renderField [] [] (List.replicate k (Char.ofNat 32)) [] 'm' [] (Char.ofNat 102)
        [])))))) :=
  rfl

theorem inputWrapAt_start (k : Nat) :
    charAt (inputWrapAt k) 0 = Char.ofNat 91 ∧ charAt (inputWrapAt k) 1 = Char.ofNat 44 ∧
      charAt (inputWrapAt k) 2 = Char.ofNat 44 :=
  ⟨rfl, rfl, rfl⟩

theorem parseRecord_wrapAt (k : Nat) (hk : k + 50 = UInt32Size) :
    parseRecord (inputWrapAt k) 3 = some (Record.zero, 2) := by
  have hL := inputWrapAt_length k
  have hlen : (inputWrapAt k).length < UInt32Size := by omega
  obtain ⟨c0, c1, c2⟩ := inputWrapAt_start k
  have hx : (IntText.mk false ['0']).WellFormed := by
    refine ⟨by decide, by decide, by decide⟩
  have hv : (IntText.mk false ['0']).value = 0 := by decide
  have hq : quoteChar ∉ ([] : Str) := by simp
  obtain ⟨i0, e0, d0⟩ := skipWhitespace_at hlen (inputWrapAt_drop k) allSpace_nil (by decide)
  obtain ⟨i1, e1, d1⟩ := @expectChar_at _ hlen _ _ [] i0 d0 allSpace_nil (by decide)
  obtain ⟨i2, e2, d2⟩ := field_a hlen Record.zero d1 allSpace_nil allSpace_nil allSpace_nil
    allSpace_nil hx
  have z2 : parserFieldInOrder (inputWrapAt k) i1 Record.zero ['a'] =
      some (true, i2, Record.zero) := by rw [e2, hv]; rfl
  obtain ⟨i3, e3, d3⟩ := field_p hlen Record.zero d2 allSpace_nil allSpace_nil allSpace_nil
    allSpace_nil hq
  have z3 : parserFieldInOrder (inputWrapAt k) i2 Record.zero ['p'] =
      some (true, i3, Record.zero) := by rw [e3]; rfl
  obtain ⟨i4, e4, d4⟩ := field_q hlen Record.zero d3 allSpace_nil allSpace_nil allSpace_nil
    allSpace_nil hq
  have z4 : parserFieldInOrder (inputWrapAt k) i3 Record.zero ['q'] =
      some (true, i4, Record.zero) := by rw [e4]; rfl
  obtain ⟨i5, e5, d5⟩ := field_f hlen Record.zero d4 allSpace_nil allSpace_nil allSpace_nil
    allSpace_nil hx
  have z5 : parserFieldInOrder (inputWrapAt k) i4 Record.zero ['f'] =
      some (true, i5, Record.zero) := by rw [e5, hv]; rfl
  obtain ⟨i6, e6, d6⟩ := field_l hlen Record.zero d5 allSpace_nil allSpace_nil allSpace_nil
    allSpace_nil hx
  have z6 : parserFieldInOrder (inputWrapAt k) i5 Record.zero ['l'] =
      some (true, i6, Record.zero) := by rw [e6, hv]; rfl
  obtain ⟨i7, e7, d7⟩ := field_T hlen Record.zero d6 allSpace_nil allSpace_nil allSpace_nil
    allSpace_nil hx
  have z7 : parserFieldInOrder (inputWrapAt k) i6 Record.zero ['T'] =
      some (true, i7, Record.zero) := by rw [e7, hv]; rfl
  have hsp : AllSpace (List.replicate k (Char.ofNat 32)) := by
    intro c hc
    rw [List.eq_of_mem_replicate hc]; decide
  obtain ⟨j1, j2, j3, f1, f2, f3, g3⟩ := field_key hlen d7 allSpace_nil allSpace_nil
    (show 'm' ≠ quoteChar by decide)
  have g3a : (inputWrapAt k).drop j3 =
      List.replicate k (Char.ofNat 32) ++ Char.ofNat 102 :: [] := g3
  obtain ⟨j4, f4, g4⟩ := skipWhitespace_at hlen g3a hsp (by decide)
  obtain ⟨hlt4, hch4, _⟩ := drop_cons g4
  have hj4 : j4 + 1 = (inputWrapAt k).length := by
    have := List.length_drop j4 (inputWrapAt k)
    rw [g4] at this
    simp only [List.length_singleton] at this
    omega
  have hm5 : (j4 + 5) % UInt32Size = 1 := by
    have : j4 + 5 = UInt32Size + 1 := by omega
    rw [this, Nat.add_mod_left]
    decide
  have hne : (Char.ofNat 102 == Char.ofNat 116) = false := by decide
  have f5 : parseBool (inputWrapAt k) j3 = some (false, 1) := by
    simp only [parseBool, f4, compareOne, Nat.not_lt.2 (Nat.le_of_lt hlt4), hlt4, hch4, hne,
      if_false, decide_True, Bool.true_and, Bool.and_false, beq_self_eq_true, hm5]
  have hs1 : skipWhitespace (inputWrapAt k) 1 = some 1 :=
    skipWhitespace_stay _ _ (by rw [c1]; decide)
  have h1lt : 1 < (inputWrapAt k).length := by omega
  have h2lt : 2 < (inputWrapAt k).length := by omega
  have hm2 : (1 + 1) % UInt32Size = 2 := by decide
  have f6 : ∀ record : Record, fieldEnd (inputWrapAt k) 1 record = some (true, 2, record) := by
    intro record
    simp only [fieldEnd_eq, hs1, h1lt, c1, decide_True, Bool.true_and, beq_self_eq_true, if_true,
      hm2]
  have e8 : parserFieldInOrder (inputWrapAt k) i7 Record.zero ['m'] =
      some (true, 2, Record.zero) := by
    simp only [parserFieldInOrder, f1, f2, f3, f5, f6]
    rfl
  have hne2 : (Char.ofNat 44 == Char.ofNat 125) = false := by decide
  simp only [parseRecord_eq, e0, e1, parseFields, z2, z3, z4, z5, z6, z7, e8, c2, hne2,
    Bool.and_false, Bool.false_eq_true, if_false]

theorem parseRecordsLoop_wrapAt (k : Nat) (hk : k + 50 = UInt32Size) :
    ∀ (fuel : Nat) (records : List Record),
      parseRecordsLoop (inputWrapAt k) fuel 3 records = none := by
  have hL := inputWrapAt_length k
  obtain ⟨c0, c1, c2⟩ := inputWrapAt_start k
  have hs2 : skipWhitespace (inputWrapAt k) 2 = some 2 :=
    skipWhitespace_stay _ _ (by rw [c2]; decide)
  have h2lt : 2 < (inputWrapAt k).length := by omega
  have hm3 : (2 + 1) % UInt32Size = 3 := by decide
  intro fuel
  induction fuel with
  | zero => intro records; rfl
  | succ fuel ih =>
    intro records
    simp only [parseRecordsLoop_zero, parseRecordsLoop_succ, parseRecord_wrapAt k hk, hs2, h2lt, c2, decide_True,
      Bool.true_and, beq_self_eq_true, if_true, hm3, ih]

theorem parseRecords_wrapAt (k : Nat) (hk : k + 50 = UInt32Size) :
    parseRecords (inputWrapAt k) = none := by
  have hL := inputWrapAt_length k
  obtain ⟨c0, c1, c2⟩ := inputWrapAt_start k
  have hs0 : skipWhitespace (inputWrapAt k) 0 = some 0 :=
    skipWhitespace_stay _ _ (by rw [c0]; decide)
  have hs1 : skipWhitespace (inputWrapAt k) 1 = some 1 :=
    skipWhitespace_stay _ _ (by rw [c1]; decide)
  have hs2 : skipWhitespace (inputWrapAt k) 2 = some 2 :=
    skipWhitespace_stay _ _ (by rw [c2]; decide)
  have h0lt : 0 < (inputWrapAt k).length := by omega
  have h1lt : 1 < (inputWrapAt k).length := by omega
  have h2lt : 2 < (inputWrapAt k).length := by omega
  have h0ge : ¬ 0 ≥ (inputWrapAt k).length := by omega
  have h1ge : ¬ 1 ≥ (inputWrapAt k).length := by omega
  have h2ge : ¬ 2 ≥ (inputWrapAt k).length := by omega
  have hm1 : (0 + 1) % UInt32Size = 1 := by decide
  have hm2 : (1 + 1) % UInt32Size = 2 := by decide
  have hm3 : (2 + 1) % UInt32Size = 3 := by decide
  have n1 : (Char.ofNat 44 != Char.ofNat 123) = true := by decide
  have n2 : (Char.ofNat 44 == Char.ofNat 93) = false := by decide
  have x0 : expectChar (inputWrapAt k) 0 (Char.ofNat 91) = some (true, 1) := by
    simp only [expectChar_eq, hs0, h0ge, c0, decide_False, bne_self_eq_false, Bool.or_self,
      Bool.false_eq_true, if_false, hm1]
  have p1 : parseRecord (inputWrapAt k) 1 = some (Record.zero, 1) := by
    simp only [parseRecord_eq, hs1, expectChar_eq, c1, n1, Bool.or_true, if_true]
  have p2 : parseRecord (inputWrapAt k) 2 = some (Record.zero, 2) := by
    simp only [parseRecord_eq, hs2, expectChar_eq, c2, n1, Bool.or_true, if_true]
  have hloop : ∀ fuel, parseRecordsLoop (inputWrapAt k) (fuel + 2) 1 [] = none := by
    intro fuel
    simp only [parseRecordsLoop_zero, parseRecordsLoop_succ, p1, hs1, h1lt, c1, decide_True, Bool.true_and,
      beq_self_eq_true, if_true, hm2, p2, hs2, h2lt, c2, hm3, parseRecordsLoop_wrapAt k hk]
  have hU : UInt32Size = 4294967294 + 2 := by decide
  simp only [parseRecords_eq, hs0, x0, hs1, c1, n2, Bool.and_false, Bool.false_eq_true, if_false]
  rw [hU]
  exact hloop _

end JsonParser

/-! ### The calls of `parseInt64` that a returning parse has made

`IntRunsFit` asks for no more than the absence of overflow: on an input on which
`parseRecords` returns, every call of `parseInt64` it has made has returned, so every
digit run read by such a call fits. -/

namespace JsonParser

theorem pushDigit_some {v : Nat} {c : Char} {next : Int} (hc : isdigit c = true)
    (h : pushDigit (v : Int) c = some next) :
    next = ((v * 10 + (c.toNat - 48) : Nat) : Int) ∧ next ≤ Int64Max := by
  simp only [isdigit, Bool.and_eq_true, decide_eq_true_eq] at hc
  have hcast : ((v * 10 + (c.toNat - 48) : Nat) : Int) =
      (v : Int) * 10 + ((c.toNat : Int) - 48) := by
    rw [Nat.cast_add, Nat.cast_mul, Nat.cast_sub hc.1]; rfl
  simp only [pushDigit] at h
  split at h
  · rename_i hmax
    simp only [Option.some.injEq] at h
    rw [← h]
    exact ⟨hcast.symm, hmax⟩
  · cases h

theorem run_nil_of_not_digit (json : Str) (index : Nat)
    (hc : ¬ (decide (index < json.length) && isdigit (charAt json index)) = true) :
    ∀ len, (∀ c ∈ (json.drop index).take len, isdigit c = true) →
      (json.drop index).take len = [] := by
  intro len hrun
  cases len with
  | zero => rfl
  | succ len =>
    by_cases hlt : index < json.length
    · exfalso
      apply hc
      have hd : json.drop index = json[index] :: json.drop (index + 1) :=
        List.drop_eq_getElem_cons hlt
      have hm : json[index] ∈ (json.drop index).take (len + 1) := by
        rw [hd, List.take_succ_cons]
        exact List.mem_cons_self _ _
      have := hrun _ hm
      rw [← JsonParserSIMD.charAt_eq json index hlt] at this
      simp [hlt, this]
    · rw [List.drop_eq_nil_of_le (by omega)]
      rfl

theorem parseInt64Loop_fit (json : Str) (hB : json.length < UInt32Size) :
    ∀ (fuel index v : Nat) (r : Int × Nat), parseInt64Loop json fuel index (v : Int) = some r →
      (v : Int) ≤ Int64Max →
      ∀ len, (∀ c ∈ (json.drop index).take len, isdigit c = true) →
        ((((json.drop index).take len).foldl
          (fun value c => value * 10 + (c.toNat - 48)) v : Nat) : Int) ≤ Int64Max := by
  intro fuel
  induction fuel with
  | zero => intro index v r h; cases h
  | succ fuel ih =>
    intro index v r h hv len hrun
    by_cases hc : (decide (index < json.length) && isdigit (charAt json index)) = true
    · have hlt : index < json.length := by
        simp only [Bool.and_eq_true, decide_eq_true_eq] at hc; exact hc.1
      have hdig : isdigit (charAt json index) = true := by
        simp only [Bool.and_eq_true] at hc; exact hc.2
      have hmod : (index + 1) % UInt32Size = index + 1 := Nat.mod_eq_of_lt (by omega)
      simp only [parseInt64Loop_succ, hc, if_true, hmod] at h
      cases hp : pushDigit (v : Int) (charAt json index) with
      | none => rw [hp] at h; cases h
      | some next =>
        rw [hp] at h
        obtain ⟨hn, hmax⟩ := pushDigit_some hdig hp
        rw [hn] at h hmax
        cases len with
        | zero => exact hv
        | succ len =>
          have hd : json.drop index = json[index] :: json.drop (index + 1) :=
            List.drop_eq_getElem_cons hlt
          rw [hd, List.take_succ_cons, List.foldl_cons,
            ← JsonParserSIMD.charAt_eq json index hlt]
          apply ih (index + 1) _ r h hmax len
          intro c hcm
          apply hrun
          rw [hd, List.take_succ_cons]
          exact List.mem_cons_of_mem _ hcm
    · rw [run_nil_of_not_digit json index hc len hrun]
      exact hv

theorem parseInt64_fit {json : Str} (hB : json.length < UInt32Size) {index i1 : Nat}
    {r : Int × Nat} (h : parseInt64 json index = some r)
    (hs : skipWhitespace json index = some i1) (hlt : i1 < json.length) :
    ∀ len,
      (∀ c ∈ (json.drop (if charAt json i1 == Char.ofNat 45 then (i1 + 1) % UInt32Size
        else i1)).take len, isdigit c = true) →
      (digitsValue ((json.drop (if charAt json i1 == Char.ofNat 45 then
        (i1 + 1) % UInt32Size else i1)).take len) : Int) ≤ Int64Max := by
  simp only [parseInt64_eq, hs, Nat.not_le.2 hlt, if_false] at h
  generalize (if (charAt json i1 == Char.ofNat 45) = true then (i1 + 1) % UInt32Size
    else i1) = start at h ⊢
  intro len hrun
  by_cases hc : (decide (start ≥ json.length) || !isdigit (charAt json start)) = true
  · have hnd : ¬ (decide (start < json.length) && isdigit (charAt json start)) = true := by
      intro hh
      simp only [Bool.and_eq_true, decide_eq_true_eq] at hh
      simp only [Bool.or_eq_true, decide_eq_true_eq, Bool.not_eq_true'] at hc
      rcases hc with hc | hc
      · omega
      · rw [hh.2] at hc; cases hc
    rw [run_nil_of_not_digit json start hnd len hrun]
    decide
  · simp only [hc, Bool.false_eq_true, if_false] at h
    cases hl : parseInt64Loop json UInt32Size start 0 with
    | none => rw [hl] at h; cases h
    | some r1 =>
      exact parseInt64Loop_fit json hB UInt32Size start 0 r1 hl (by decide) len hrun

theorem recordCall_returns {json : Str} {rs : List Record} (h : parseRecords json = some rs) :
    ∀ index, RecordCall json index →
      ∃ fuel records rs1, parseRecordsLoop json fuel index records = some rs1 := by
  intro index hrc
  induction hrc with
  | first e1 e2 e3 hn =>
    rename_i index1 index2 index3
    have hc : (decide (index3 < json.length) && charAt json index3 == Char.ofNat 93) = false := by
      cases hb : (decide (index3 < json.length) && charAt json index3 == Char.ofNat 93) with
      | false => rfl
      | true =>
        simp only [Bool.and_eq_true, decide_eq_true_eq, beq_iff_eq] at hb
        exact absurd hb hn
    simp only [parseRecords_eq, e1, e2, e3, hc, Bool.false_eq_true, if_false] at h
    exact ⟨_, _, _, h⟩
  | next _ e1 e2 hlt hch ih =>
    obtain ⟨fuel, records, rs1, hl⟩ := ih
    cases fuel with
    | zero => cases hl
    | succ fuel =>
      simp only [parseRecordsLoop_succ, e1, e2, hlt, hch, decide_True, Bool.true_and,
        beq_self_eq_true, if_true] at hl
      exact ⟨_, _, _, hl⟩

theorem fieldCall_returns {json : Str} {rs : List Record} (h : parseRecords json = some rs) :
    ∀ index record names, FieldCall json index record names →
      ∃ r, parseFields json names index record = some r := by
  intro index record names hfc
  induction hfc with
  | first hrc e1 e2 =>
    obtain ⟨fuel, records, rs1, hl⟩ := recordCall_returns h _ hrc
    cases fuel with
    | zero => cases hl
    | succ fuel =>
      rename_i index0 index1 index2
      simp only [parseRecordsLoop_succ, parseRecord_eq, e1, e2] at hl
      cases hf : parseFields json [['a'], ['p'], ['q'], ['f'], ['l'], ['T'], ['m']] index2
          Record.zero with
      | none => rw [hf] at hl; cases hl
      | some r => exact ⟨r, rfl⟩
  | next _ e ih =>
    obtain ⟨r, hr⟩ := ih
    simp only [parseFields, e] at hr
    exact ⟨r, hr⟩

theorem intCall_returns {json : Str} {rs : List Record} (h : parseRecords json = some rs)
    {index index1 index2 index3 : Nat} {record : Record} {name : Str} {names : List Str}
    (hfc : FieldCall json index record (name :: names))
    (e1 : skipWhitespace json index = some index1)
    (e2 : parseString json index1 = some (name, index2))
    (e3 : expectChar json index2 (Char.ofNat 58) = some (true, index3))
    (hmem : name ∈ [['a'], ['f'], ['l'], ['T']]) :
    ∃ r, parseInt64 json index3 = some r := by
  obtain ⟨r, hr⟩ := fieldCall_returns h _ _ _ hfc
  simp only [parseFields] at hr
  cases hp : parserFieldInOrder json index record name with
  | none => rw [hp] at hr; cases hr
  | some x =>
    cases hi : parseInt64 json index3 with
    | some r1 => exact ⟨r1, rfl⟩
    | none =>
      exfalso
      simp only [List.mem_cons, List.mem_singleton, List.not_mem_nil, or_false] at hmem
      rcases hmem with hn | hn | hn | hn <;> subst hn <;>
        simp +decide [parserFieldInOrder, e1, e2, e3, hi] at hp

/-- An input on which `parseRecords` returns satisfies `IntRunsFit`. -/
theorem intRunsFit_of_returns {json : Str} (hB : json.length < UInt32Size)
    {rs : List Record} (h : parseRecords json = some rs) : IntRunsFit json := by
  intro start len hst hrun
  cases hst with
  | mk hfc e1 e2 e3 hmem e4 hlt =>
    obtain ⟨r, hr⟩ := intCall_returns h hfc e1 e2 e3 hmem
    exact parseInt64_fit hB hr e4 hlt len hrun

end JsonParser

theorem intRunsFit_of_digitRunsFit {json : Str} (h : DigitRunsFit json) : IntRunsFit json :=
  fun start len _ hrun => h start len hrun


/-! ### Inputs whose digit runs fit -/

theorem digits_foldl_lt (ds : Str) (h : ∀ c ∈ ds, isdigit c = true) :
    ∀ v : Nat, ds.foldl (fun value c => value * 10 + (c.toNat - 48)) v <
      (v + 1) * 10 ^ ds.length := by
  induction ds with
  | nil => intro v; simp
  | cons d ds ih =>
    intro v
    have hd : d.toNat - 48 ≤ 9 := by
      have := h d (List.mem_cons_self _ _)
      simp only [isdigit, Bool.and_eq_true, decide_eq_true_eq] at this
      omega
    simp only [List.foldl_cons, List.length_cons]
    refine Nat.lt_of_lt_of_le (ih (fun c hc => h c (List.mem_cons_of_mem _ hc)) _) ?_
    rw [Nat.pow_succ, Nat.mul_comm (10 ^ ds.length) 10, ← Nat.mul_assoc]
    exact Nat.mul_le_mul_right _ (by omega)

/-- An input of at most 18 bytes has no digit run above the largest `int64_t`. -/
theorem digitRunsFit_of_short (json : Str) (h : json.length ≤ 18) : DigitRunsFit json := by
  intro start len hrun
  have h1 := digits_foldl_lt _ hrun 0
  have h2 : ((json.drop start).take len).length ≤ 18 := by
    simp only [List.length_take, List.length_drop]; omega
  have h3 : 10 ^ ((json.drop start).take len).length ≤ 10 ^ 18 :=
    Nat.pow_le_pow_right (by decide) h2
  have h4 : digitsValue ((json.drop start).take len) < 10 ^ 18 := by
    unfold digitsValue; omega
  have h5 : ((10 ^ 18 : Nat) : Int) ≤ Int64Max := by decide
  have h6 : ((digitsValue ((json.drop start).take len) : Nat) : Int) < ((10 ^ 18 : Nat) : Int) :=
    Int.ofNat_lt.2 h4
  omega

theorem digitsValue_all_zero (ds : Str) (h : ∀ c ∈ ds, c = Char.ofNat 48) :
    digitsValue ds = 0 := by
  rw [List.eq_replicate_of_mem h]
  exact digitsValue_zeros _

/-- An input whose only digit byte is `0` has no digit run above the largest `int64_t`. -/
theorem digitRunsFit_of_zero (json : Str)
    (h : ∀ c ∈ json, isdigit c = true → c = Char.ofNat 48) : DigitRunsFit json := by
  intro start len hrun
  have : digitsValue ((json.drop start).take len) = 0 := by
    apply digitsValue_all_zero
    intro c hc
    exact h c (List.mem_of_mem_drop (List.mem_of_mem_take hc)) (hrun c hc)
  rw [this]
  decide

theorem digitRunsFit_inputWrapAt (k : Nat) : DigitRunsFit (inputWrapAt k) := by
  apply digitRunsFit_of_zero
  have hp : ∀ c ∈ inputWrapHead, isdigit c = true → c = Char.ofNat 48 := by decide
  intro c hc hd
  simp only [inputWrapAt, List.mem_append, List.mem_replicate, List.mem_singleton] at hc
  rcases hc with hc | ⟨_, hc⟩ | hc
  · exact hp c hc hd
  · rw [hc] at hd; exact absurd hd (by decide)
  · rw [hc] at hd; exact absurd hd (by decide)

/-- On `inputOverflow` the call of `parseInt64` for the key `a` reads the digits of
`2 ^ 63`. -/
theorem not_intRunsFit_inputOverflow : ¬ IntRunsFit inputOverflow := by
  intro h
  obtain ⟨rs, hrs, -⟩ := JsonParser.parseRecords_total (show inputOverflow.length + 4 ≤
    UInt32Size by decide) h
  have hn : JsonParser.parseRecords inputOverflow = none := by decide
  rw [hn] at hrs
  cases hrs

/-- The digits inside a string value are not read by `parseInt64`: `inputQuotedDigits` has
a digit run above the largest `int64_t`, and satisfies `IntRunsFit`. -/
theorem intRunsFit_inputQuotedDigits :
    ¬ DigitRunsFit inputQuotedDigits ∧ IntRunsFit inputQuotedDigits ∧
    JsonParser.parseRecords inputQuotedDigits =
      some [{ a := 1, p := "99999999999999999999".toList, q := [], f := 0, l := 0, T := 0,
              m := false }] := by
  have hr : JsonParser.parseRecords inputQuotedDigits =
      some [{ a := 1, p := "99999999999999999999".toList, q := [], f := 0, l := 0, T := 0,
              m := false }] := by decide
  refine ⟨?_, JsonParser.intRunsFit_of_returns (by decide) hr, hr⟩
  intro h
  exact absurd (h 13 20 (by decide)) (by decide)

/-- C30 (amended): on every input of at most `2 ^ 32 - 4` bytes on which no call of
`parseInt64` made by the parse reads a digit run above `2 ^ 63 - 1`,
`JsonParser::parseRecords` returns, and it returns at most one record more than the input
has `,` bytes: every iteration of the array loop that continues stands on a `,` further to
the right. That it returns says that no loop runs on without end, that no `s[index]` was
read with an index above the size (`byteAt` has no result there), that `compare` was not
called past the end, and that no `int64_t` addition has overflowed. -/
theorem C30_reference_parser_returns (json : Str) (hlen : json.length ≤ 2 ^ 32 - 4)
    (hfit : IntRunsFit json) :
    ∃ rs, JsonParser.parseRecords json = some rs ∧ rs.length ≤ 1 + commaCount json :=
  JsonParser.parseRecords_total
    (show json.length + 4 ≤ UInt32Size by
      have : UInt32Size = 4294967296 := by decide
      omega)
    hfit

/-- C30 at the input `[{"a":1}]`: it has no `,` byte and one record is returned. -/
theorem C30_reference_parser_returns_witness :
    inputTwoQuotes.length ≤ 2 ^ 32 - 4 ∧ IntRunsFit inputTwoQuotes ∧
    ∃ rs, JsonParser.parseRecords inputTwoQuotes = some rs ∧
      rs.length ≤ 1 + commaCount inputTwoQuotes :=
  ⟨by decide, intRunsFit_of_digitRunsFit (digitRunsFit_of_short _ (by decide)),
    C30_reference_parser_returns inputTwoQuotes (by decide)
      (intRunsFit_of_digitRunsFit (digitRunsFit_of_short _ (by decide)))⟩

/-- C30 (as stated) fails on two inputs. On `inputWrap`, of `2 ^ 32 - 3` bytes and with `0`
as its only digit, `index += 5` at the last byte takes the `uint32_t` index of `parseBool`
to 1; the `,` bytes at the indices 1 and 2 send the array loop back to the `{` at index 3,
so the loop pushes records without end and `JsonParser::parseRecords` does not return. On
`inputOverflow`, of 25 bytes, the call of `parseInt64` for the key `a` reads the digits of
`2 ^ 63`, and its last `value * 10 + digit` leaves the range of `int64_t`: the behaviour
is undefined and no result is defined. -/
theorem C30_termination_counterexample :
    (inputWrap.length = 2 ^ 32 - 3 ∧ IntRunsFit inputWrap ∧
      JsonParser.parseRecords inputWrap = none) ∧
    (inputOverflow.length = 25 ∧ ¬ IntRunsFit inputOverflow ∧
      JsonParser.parseRecords inputOverflow = none) :=
  ⟨⟨JsonParser.inputWrapAt_length _, intRunsFit_of_digitRunsFit (digitRunsFit_inputWrapAt _),
      JsonParser.parseRecords_wrapAt _ (by decide)⟩,
    by decide, not_intRunsFit_inputOverflow, by decide⟩

/-! ### Reuse of one SIMD parser object

`parseRecords` clears the index vector before the scan, but `clear()` only sets the size to
0: the buffer keeps what the earlier call has written. The guard of the walk looks at the
size, and the reads `indexesOfQuotesOnJsonString[i + correctOffsetForJsonKeys]` inside an
iteration do not: when they go past the size they meet the cells of the earlier call. -/

namespace JsonParserSIMD

theorem new_cells (expectedRecordCount : Nat) :
    (new expectedRecordCount).indexesOfQuotesOnJsonString = [] ∧
      (new expectedRecordCount).stale = [] := by
  unfold new reserve
  split <;> exact ⟨rfl, rfl⟩

theorem walkLoop_append {json : Str} {indexes : List Nat} (stale : List Nat) :
    ∀ (fuel : Nat) (w w1 : WalkState), walkLoop json indexes [] fuel w = some w1 →
      walkLoop json indexes stale fuel w = some w1 := by
  intro fuel
  induction fuel with
  | zero => intro w w1 h; cases h
  | succ fuel ih =>
    intro w w1 h
    by_cases hlt : w.i < indexes.length
    · simp only [walkLoop, hlt, if_true, List.append_nil] at h
      cases hs : walkStep json indexes w with
      | none => rw [hs] at h; cases h
      | some w2 =>
        rw [hs] at h
        rw [walkLoop_step stale fuel hlt hs]
        exact ih _ _ h
    · simp only [walkLoop, hlt, if_false] at h ⊢
      exact h

/-- The half of C31 that holds: when `parseRecords(x)` returns on a new parser, it returns
the same records on every parser object, whatever its buffer holds, and the constructor
argument plays no part. -/
theorem parseRecords_reuse (self : JsonParserSIMD) (expectedRecordCount : Nat) (x : Str)
    (records : List Record) (parser : JsonParserSIMD)
    (h : (new expectedRecordCount).parseRecords x = some (records, parser)) :
    (self.parseRecords x).map Prod.fst = some records := by
  obtain ⟨n1, n2⟩ := new_cells expectedRecordCount
  simp only [parseRecords, clear, n1, n2, List.append_nil, List.drop_nil] at h ⊢
  cases hq : find_quotes_avx2 [] x with
  | none => rw [hq] at h; cases h
  | some indexes =>
    rw [hq] at h
    simp only at h ⊢
    cases hw : walkLoop x indexes [] (7 * UInt32Size)
      { i := 0, expectedKeyIndex := 0, record := Record.zero, recordStarted := false,
        records := [] } with
    | none => rw [hw] at h; cases h
    | some w =>
      rw [hw] at h
      rw [walkLoop_append _ _ _ _ hw]
      simp only [Option.some.injEq, Prod.mk.injEq] at h
      simp only [Option.map_some', h.1]

/-- Two new parsers give the same result, whatever their constructor arguments are. -/
theorem parseRecords_new (expectedRecordCount expectedRecordCount1 : Nat) (x : Str) :
    ((new expectedRecordCount).parseRecords x).map Prod.fst =
      ((new expectedRecordCount1).parseRecords x).map Prod.fst := by
  obtain ⟨n1, n2⟩ := new_cells expectedRecordCount
  obtain ⟨m1, m2⟩ := new_cells expectedRecordCount1
  simp only [parseRecords, clear, n1, n2, m1, m2]
  cases find_quotes_avx2 [] x with
  | none => rfl
  | some indexes =>
    dsimp only
    cases walkLoop x indexes (List.drop indexes.length ([] ++ [])) (7 * UInt32Size)
      { i := 0, expectedKeyIndex := 0, record := Record.zero, recordStarted := false,
        records := [] } with
    | none => rfl
    | some w => rfl

end JsonParserSIMD

/-- C31 fails on the code: a parser that has parsed the input of scenario E6 keeps its 18
quote indices in the buffer. On `[{"a":12}]`, which has two `"` bytes, the scan overwrites
the first two cells with 2 and 4, and the first iteration of the walk reads
`indexesOfQuotesOnJsonString[0 + 2]`, past the size 2: it finds the 8 that the earlier call
has left there, takes `substr(6, 1)` as the value, and the call returns one record with
`a = 1`. On a new parser the same read meets a cell that was never written, and there is
no result. The reference parser reads `a = 12`. -/
theorem C31_reuse_reads_stale_index :
    (JsonParserSIMD.new 5).parseRecordsAll [inputE6] =
      some { indexesOfQuotesOnJsonString :=
               [2, 4, 8, 10, 12, 16, 18, 20, 22, 24, 26, 28, 33, 35, 40, 42, 58, 60],
             stale := [], capacity := 90 } ∧
    ((JsonParserSIMD.mk [2, 4, 8, 10, 12, 16, 18, 20, 22, 24, 26, 28, 33, 35, 40, 42, 58, 60]
        [] 90).parseRecords inputTwelve).map Prod.fst =
      some [{ a := 1, p := [], q := [], f := 0, l := 0, T := 0, m := false }] ∧
    (JsonParserSIMD.new 5).parseRecords inputTwelve = none ∧
    JsonParser.parseRecords inputTwelve =
      some [{ a := 12, p := [], q := [], f := 0, l := 0, T := 0, m := false }] := by
  decide
